import Mathlib

/-!
# miniCompilerCPP: a shallow embedding of the five-stage pipeline

The development follows the header variant of the sources (`lexer.h`, `parser.h`,
`semantic.h`, `codegen.h`, `repl.cpp`), which is the one `repl.cpp` includes.

Modelling conventions.

* `std::string` is `String`; scanning works on the list of its characters.
* `int` counters (line, column, temporary counter) are `Nat`.
* `double` is modelled by `ℚ` with exact arithmetic.  `std::stod` is modelled on decimal
  texts (optional blanks, optional sign, digits with an optional point, optional decimal
  exponent) and converts the longest such prefix; hexadecimal, `inf` and `nan` texts are
  outside this model.  `std::to_string(double)` is the `%f` rendering with six fractional
  digits (ties of the exact value go to even).
* `std::stod` throws `std::out_of_range` when the conversion reports `ERANGE`
  (`rangeError`).  The parser meets this error on the numerals of a source text, and
  `factor` models it.  The interpreter converts operand texts only: a name that is no key
  of the store, which has no decimal prefix, or the rendering of a value, which for a value
  of type `double` is read back without a range error; `resolve` therefore has no such
  path.
* Where the arithmetic of `double` matters, the interpreter is given a second time over
  the values of `double` (`Double`: the finite numbers, the negative zero, the infinities
  and NaN): `IEEE.resolve`, `IEEE.executeInstruction`, `IEEE.executeLoop`, `IEEE.run`.
  There `std::stod` is `stodDouble`, which rounds the number a text writes to the nearest
  `double`, throws both exceptions and accepts the hexadecimal texts, `inf` and `nan`; and
  the operations `+ - * /` of the machine are a parameter (`Arithmetic`) about which
  nothing is assumed.
* A C++ exception is a value of `Fault`; a function that throws returns `Except Fault _`,
  or a record holding the state reached together with the fault when the state mutated
  before the throw is observable afterwards.
* `std::map` is a finite map seen through its lookup function.
* Loops and the recursion `factor → expression` take a fuel argument; `Fault.outOfFuel`
  marks the runs the fuel does not cover.
-/

namespace MiniCompiler

/-! ## Faults -/

/-- The exceptions that reach the `catch` of `REPL::evaluateLine`. -/
inductive Fault where
  /-- `lexer.h:106` "Error lexico: caracter 'c' en linea N". -/
  | lexError (ch : Char) (line : Nat)
  /-- `lexer.cpp:185`, the variant of the tokenizer that `repl.cpp` does not include:
  "Error léxico: carácter no reconocido 'c' en línea L:C". -/
  | lexErrorAt (ch : Char) (line : Nat) (column : Nat)
  /-- `parser.h:102` (with the message of `expect`) and `parser.h:123`, `parser.h:165`
  (without one): "Error sintaxis[: message] linea N". -/
  | syntaxError (expected : Option String) (line : Nat)
  /-- `semantic.h:49` "variable 'name' no definida". -/
  | undefinedVariable (name : String)
  /-- `semantic.h:58` "operacion requiere numeros". -/
  | invalidOperandType
  /-- `semantic.h:62` "nodo desconocido". -/
  | unknownNode
  /-- `codegen.h:91` "Division por cero". -/
  | divisionByZero
  /-- `std::invalid_argument` raised by `std::stod` when no conversion can be performed. -/
  | invalidArgument
  /-- `std::out_of_range` raised by `std::stod` when the converted value is out of the range
  of `double`. -/
  | outOfRange
  /-- Not an exception of the program: the fuel of the model ran out. -/
  | outOfFuel
  deriving DecidableEq, Repr

/-! ## Characters (`<cctype>`, "C" locale) -/

/-- `std::isspace`: space, `\t`, `\n`, `\v`, `\f`, `\r`. -/
def isspace (c : Char) : Bool :=
  c.toNat = 32 || (9 ≤ c.toNat && c.toNat ≤ 13)

/-- `std::isdigit`. -/
def isdigit (c : Char) : Bool :=
  48 ≤ c.toNat && c.toNat ≤ 57

/-- `std::isalpha`. -/
def isalpha (c : Char) : Bool :=
  (65 ≤ c.toNat && c.toNat ≤ 90) || (97 ≤ c.toNat && c.toNat ≤ 122)

/-- `std::isalnum`. -/
def isalnum (c : Char) : Bool :=
  isalpha c || isdigit c

/-! ## Numbers: `double`, `std::stod`, `std::to_string` -/

/-- Value of a decimal digit character. -/
def digitVal (c : Char) : Nat := c.toNat - 48

/-- Value of a run of decimal digits, most significant first. -/
def digitsVal (cs : List Char) : Nat :=
  cs.foldl (fun acc c => 10 * acc + digitVal c) 0

/-- The optional sign in front of a number: `(negative, rest)`. -/
def stodSign : List Char → Bool × List Char
  | '-' :: cs => (true, cs)
  | '+' :: cs => (false, cs)
  | cs => (false, cs)

/-- The optional fraction: the digits after a point, and what follows them. -/
def stodFraction : List Char → List Char × List Char
  | '.' :: cs => (cs.takeWhile isdigit, cs.dropWhile isdigit)
  | cs => ([], cs)

/-- The optional decimal exponent `e[+-]digits`; `0` when there is none. -/
def stodExponent : List Char → Int
  | c :: cs =>
    if c = 'e' ∨ c = 'E' then
      let (neg, ds) := stodSign cs
      let es := ds.takeWhile isdigit
      if es = [] then 0
      else if neg then -(digitsVal es : Int) else (digitsVal es : Int)
    else 0
  | [] => 0

/-- The conversion inside `std::stod(text)`: the value written by the longest decimal prefix
of `text`; `none` stands for `std::invalid_argument` (no conversion could be performed).
The other exception of `std::stod` is `rangeError` below. -/
def stod (text : String) : Option ℚ :=
  let (neg, cs) := stodSign (text.toList.dropWhile isspace)
  let ip := cs.takeWhile isdigit
  let (fp, rest) := stodFraction (cs.dropWhile isdigit)
  if ip = [] ∧ fp = [] then none
  else
    let mant : ℚ := (digitsVal (ip ++ fp) : ℚ) / (10 : ℚ) ^ fp.length
    let v : ℚ := mant * (10 : ℚ) ^ stodExponent rest
    some (if neg then -v else v)

/-- The condition under which `std::stod` throws `std::out_of_range` after converting a
text that writes `v`: the conversion reports `ERANGE`.  It does so when `v` rounds beyond
the largest finite `double` 2^1024 - 2^971, that is from the midpoint 2^1024 - 2^970 on
(overflow), and when `v` is not zero and lies below the least normal `double` 2^-1022
(underflow: whether it is reported is left to the implementation by the C standard; the
model reports it throughout that interval, as the common libraries do unless the text
writes a subnormal `double` exactly).  The powers of two are written as shifts, `1 <<< n`
being 2^n. -/
def rangeError (v : ℚ) : Prop :=
  ((1 <<< 1024 - 1 <<< 970 : ℕ) : ℚ) ≤ |v| ∨ (v ≠ 0 ∧ |v| < 1 / ((1 <<< 1022 : ℕ) : ℚ))

instance (v : ℚ) : Decidable (rangeError v) := by unfold rangeError; infer_instance

/-- Rounding to the nearest integer, ties to even, of a non-negative rational. -/
def roundHalfEven (x : ℚ) : Nat :=
  let q := (Rat.floor x).toNat
  let r := x - (q : ℚ)
  if r < 1 / 2 then q
  else if 1 / 2 < r then q + 1
  else if q % 2 = 0 then q else q + 1

/-- Left padding with `'0'` up to width `n`. -/
def padZeros (n : Nat) (cs : List Char) : List Char :=
  List.replicate (n - cs.length) '0' ++ cs

/-- `std::to_string(double)`: the `%f` rendering, six digits after the point. -/
def to_string (v : ℚ) : String :=
  let n := roundHalfEven (|v| * 1000000)
  String.mk ((if v < 0 then ['-'] else []) ++ (Nat.repr (n / 1000000)).toList
    ++ '.' :: padZeros 6 (Nat.repr (n % 1000000)).toList)

/-! ## Tokenizer (`lexer.h`) -/

/-- `enum class TokenType`. -/
inductive TokenType where
  | NUMBER | IDENTIFIER
  | PLUS | MINUS | MULTIPLY | DIVIDE | ASSIGN
  | LPAREN | RPAREN | SEMICOLON
  | PRINT
  | END_OF_FILE | UNKNOWN
  deriving DecidableEq, Repr

/-- `struct Token`. -/
structure Token where
  type : TokenType
  lexeme : String
  line : Nat
  column : Nat
  deriving DecidableEq, Repr

/-- The mutable part of `class Lexer`: `rest` is `source` from `position` on. -/
structure Lexer where
  rest : List Char
  line : Nat
  column : Nat
  deriving DecidableEq, Repr

/-- `Lexer::advance` on the scanning state `(rest, line, column)`. -/
def Lexer.advance (lx : Lexer) : Lexer :=
  match lx.rest with
  | [] => lx
  | c :: cs => if c = '\n' then ⟨cs, lx.line + 1, 1⟩ else ⟨cs, lx.line, lx.column + 1⟩

/-- The loop `while (p(current())) { text += current(); advance(); }` shared by
`Lexer::skipWhitespace`, `Lexer::number` and `Lexer::identifier`: returns the characters
consumed and the state reached. -/
def scanWhile (p : Char → Bool) : List Char → Nat → Nat → List Char × Lexer
  | [], line, column => ([], ⟨[], line, column⟩)
  | c :: cs, line, column =>
    if p c then
      let lx := Lexer.advance ⟨c :: cs, line, column⟩
      let r := scanWhile p cs lx.line lx.column
      (c :: r.1, r.2)
    else ([], ⟨c :: cs, line, column⟩)

/-- `Lexer::skipWhitespace`. -/
def Lexer.skipWhitespace (lx : Lexer) : Lexer :=
  (scanWhile isspace lx.rest lx.line lx.column).2

/-- `Lexer::number`: the token and the state after it. -/
def Lexer.number (lx : Lexer) : Token × Lexer :=
  let startCol := lx.column
  let r := scanWhile (fun c => isdigit c || c = '.') lx.rest lx.line lx.column
  (⟨TokenType.NUMBER, String.mk r.1, r.2.line, startCol⟩, r.2)

/-- `Lexer::identifier`: the token and the state after it. -/
def Lexer.identifier (lx : Lexer) : Token × Lexer :=
  let startCol := lx.column
  let r := scanWhile (fun c => isalnum c || c = '_') lx.rest lx.line lx.column
  let id := String.mk r.1
  if id = "print" then (⟨TokenType.PRINT, id, r.2.line, startCol⟩, r.2)
  else (⟨TokenType.IDENTIFIER, id, r.2.line, startCol⟩, r.2)

/-- The token type of a single-character operator or delimiter, if `ch` is one. -/
def punctuation (ch : Char) : Option TokenType :=
  if ch = '+' then some TokenType.PLUS
  else if ch = '-' then some TokenType.MINUS
  else if ch = '*' then some TokenType.MULTIPLY
  else if ch = '/' then some TokenType.DIVIDE
  else if ch = '=' then some TokenType.ASSIGN
  else if ch = '(' then some TokenType.LPAREN
  else if ch = ')' then some TokenType.RPAREN
  else if ch = ';' then some TokenType.SEMICOLON
  else none

/-- The `while (position < source.length())` loop of `Lexer::tokenize`, with the vector
`tokens` built so far; one unit of fuel per iteration. -/
def tokenizeLoop : Nat → Lexer → List Token → Except Fault (List Token)
  | 0, _, _ => .error Fault.outOfFuel
  | fuel + 1, lx, tokens =>
    if lx.rest = [] then .ok (tokens ++ [⟨TokenType.END_OF_FILE, "", lx.line, lx.column⟩])
    else
      let lx := lx.skipWhitespace
      match lx.rest with
      | [] => .ok (tokens ++ [⟨TokenType.END_OF_FILE, "", lx.line, lx.column⟩])
      | ch :: _ =>
        let col := lx.column
        if isdigit ch then
          tokenizeLoop fuel lx.number.2 (tokens ++ [lx.number.1])
        else if isalpha ch || ch = '_' then
          tokenizeLoop fuel lx.identifier.2 (tokens ++ [lx.identifier.1])
        else
          match punctuation ch with
          | some ty => tokenizeLoop fuel lx.advance (tokens ++ [⟨ty, String.mk [ch], lx.line, col⟩])
          | none => .error (Fault.lexError ch lx.line)

/-- `Lexer(source).tokenize()`.  Every iteration of the loop consumes a character, so
`source.length + 1` iterations are never exceeded (`tokenize_total` below). -/
def tokenize (source : String) : Except Fault (List Token) :=
  tokenizeLoop (source.length + 1) ⟨source.toList, 1, 1⟩ []

/-! ## Syntax trees and parser (`parser.h`) -/

/-- The `ASTNode` class hierarchy.  As in the source, the children of a node are arbitrary
nodes and the operator of a `BinaryOp` is a string. -/
inductive ASTNode where
  | Number (value : ℚ)
  | Identifier (name : String)
  | BinaryOp (op : String) (left right : ASTNode)
  | Assignment (varName : String) (expression : ASTNode)
  | Print (expression : ASTNode)
  deriving DecidableEq, Repr

/-- The parser state is the list `tokens[position..]`; it is never empty when `tokens` is
not, because `advance` stops at the last token. -/
abbrev PResult := Except Fault (ASTNode × List Token)

/-- `Parser::current`.  (On an empty vector the source reads `tokens.back()`, which is
undefined; `parse` below does not get there.) -/
def current : List Token → Token
  | [] => ⟨TokenType.END_OF_FILE, "", 1, 1⟩
  | t :: _ => t

/-- `Parser::peek` with the default offset 1: the next token, or `tokens.back()`. -/
def peek : List Token → Token
  | _ :: u :: _ => u
  | ts => current ts

/-- `Parser::advance`: no move at the last token. -/
def advance : List Token → List Token
  | _ :: u :: ts => u :: ts
  | ts => ts

/-- `Parser::expect`. -/
def expect (type : TokenType) (message : String) (ts : List Token) : Except Fault (List Token) :=
  if (current ts).type ≠ type then .error (Fault.syntaxError (some message) (current ts).line)
  else .ok (advance ts)

/-- `Parser::factor`; `expression` is the function called for a parenthesised operand. -/
def factor (expression : List Token → PResult) (ts : List Token) : PResult :=
  let tok := current ts
  if tok.type = TokenType.NUMBER then
    match stod tok.lexeme with
    | none => .error Fault.invalidArgument
    | some v =>
      if rangeError v then .error Fault.outOfRange
      else .ok (ASTNode.Number v, advance ts)
  else if tok.type = TokenType.IDENTIFIER then
    .ok (ASTNode.Identifier tok.lexeme, advance ts)
  else if tok.type = TokenType.LPAREN then
    match expression (advance ts) with
    | .error e => .error e
    | .ok (expr, ts1) =>
      match expect TokenType.RPAREN "esperaba ')'" ts1 with
      | .error e => .error e
      | .ok ts2 => .ok (expr, ts2)
  else .error (Fault.syntaxError none tok.line)

/-- The `while` loop of `Parser::term`, from the operand `left` built so far. -/
def termLoop (expression : List Token → PResult) : Nat → ASTNode → List Token → PResult
  | 0, _, _ => .error Fault.outOfFuel
  | fuel + 1, left, ts =>
    if (current ts).type = TokenType.MULTIPLY ∨ (current ts).type = TokenType.DIVIDE then
      let op := current ts
      match factor expression (advance ts) with
      | .error e => .error e
      | .ok (right, ts1) => termLoop expression fuel (ASTNode.BinaryOp op.lexeme left right) ts1
    else .ok (left, ts)

/-- `Parser::term`. -/
def term (expression : List Token → PResult) (ts : List Token) : PResult :=
  match factor expression ts with
  | .error e => .error e
  | .ok (left, ts1) => termLoop expression ts1.length left ts1

/-- The `while` loop of `Parser::expression`, from the operand `left` built so far. -/
def expressionLoop (expression : List Token → PResult) : Nat → ASTNode → List Token → PResult
  | 0, _, _ => .error Fault.outOfFuel
  | fuel + 1, left, ts =>
    if (current ts).type = TokenType.PLUS ∨ (current ts).type = TokenType.MINUS then
      let op := current ts
      match term expression (advance ts) with
      | .error e => .error e
      | .ok (right, ts1) =>
        expressionLoop expression fuel (ASTNode.BinaryOp op.lexeme left right) ts1
    else .ok (left, ts)

/-- `Parser::expression`; the fuel bounds the nesting depth of parentheses. -/
def expression : Nat → List Token → PResult
  | 0, _ => .error Fault.outOfFuel
  | fuel + 1, ts =>
    match term (expression fuel) ts with
    | .error e => .error e
    | .ok (left, ts1) => expressionLoop (expression fuel) ts1.length left ts1

/-- `Parser::statement`. -/
def statement (fuel : Nat) (ts : List Token) : PResult :=
  if (current ts).type = TokenType.PRINT then
    match expect TokenType.LPAREN "esperaba '(' despues de print" (advance ts) with
    | .error e => .error e
    | .ok ts1 =>
      match expression fuel ts1 with
      | .error e => .error e
      | .ok (expr, ts2) =>
        match expect TokenType.RPAREN "esperaba ')'" ts2 with
        | .error e => .error e
        | .ok ts3 =>
          match expect TokenType.SEMICOLON "esperaba ';'" ts3 with
          | .error e => .error e
          | .ok ts4 => .ok (ASTNode.Print expr, ts4)
  else if (current ts).type = TokenType.IDENTIFIER ∧ (peek ts).type = TokenType.ASSIGN then
    let varName := (current ts).lexeme
    match expression fuel (advance (advance ts)) with
    | .error e => .error e
    | .ok (expr, ts1) =>
      match expect TokenType.SEMICOLON "esperaba ';'" ts1 with
      | .error e => .error e
      | .ok ts2 => .ok (ASTNode.Assignment varName expr, ts2)
  else .error (Fault.syntaxError none (current ts).line)

/-- The `while (current().type != END_OF_FILE)` loop of `Parser::parse`, with the vector
`statements` built so far. -/
def parseLoop (depth : Nat) : Nat → List Token → List ASTNode → Except Fault (List ASTNode)
  | 0, _, _ => .error Fault.outOfFuel
  | fuel + 1, ts, statements =>
    if (current ts).type ≠ TokenType.END_OF_FILE then
      match statement depth ts with
      | .error e => .error e
      | .ok (stmt, ts1) => parseLoop depth fuel ts1 (statements ++ [stmt])
    else .ok statements

/-- `Parser(tokens).parse()`.  The fuel is the number of tokens plus one, for the nesting
depth and for the iterations of every loop; it is never exhausted on a token vector whose
last token is not `(` (`parse_total` below), as is every vector the tokenizer returns.  On a
vector ending in `(` the source can recurse without end. -/
def parse (tokens : List Token) : Except Fault (List ASTNode) :=
  parseLoop (tokens.length + 1) (tokens.length + 1) tokens []

/-! ## Semantic checker (`semantic.h`) -/

/-- `class SymbolTable`: the map `symbols`, seen through its lookup. -/
structure SymbolTable where
  symbols : String → Option String

/-- `SymbolTable::define`. -/
def SymbolTable.define (t : SymbolTable) (name type : String) : SymbolTable :=
  ⟨fun k => if k = name then some type else t.symbols k⟩

/-- `SymbolTable::isDefined`. -/
def SymbolTable.isDefined (t : SymbolTable) (name : String) : Bool :=
  (t.symbols name).isSome

/-- `SymbolTable::getType`. -/
def SymbolTable.getType (t : SymbolTable) (name : String) : Except Fault String :=
  match t.symbols name with
  | none => .error (Fault.undefinedVariable name)
  | some type => .ok type

/-- The table of a freshly constructed `SemanticAnalyzer`. -/
def SymbolTable.empty : SymbolTable := ⟨fun _ => none⟩

/-- `SemanticAnalyzer::analyzeExpression`. -/
def analyzeExpression (symbolTable : SymbolTable) : ASTNode → Except Fault String
  | ASTNode.Number _ => .ok "number"
  | ASTNode.Identifier name =>
    if !symbolTable.isDefined name then .error (Fault.undefinedVariable name)
    else symbolTable.getType name
  | ASTNode.BinaryOp _ left right =>
    match analyzeExpression symbolTable left with
    | .error e => .error e
    | .ok leftType =>
      match analyzeExpression symbolTable right with
      | .error e => .error e
      | .ok rightType =>
        if leftType ≠ "number" ∨ rightType ≠ "number" then .error Fault.invalidOperandType
        else .ok "number"
  | _ => .error Fault.unknownNode

/-- `SemanticAnalyzer::analyzeStatement`: the table afterwards, or the fault (thrown before
the table is touched). -/
def analyzeStatement (symbolTable : SymbolTable) : ASTNode → Except Fault SymbolTable
  | ASTNode.Assignment varName expr =>
    match analyzeExpression symbolTable expr with
    | .error e => .error e
    | .ok exprType => .ok (symbolTable.define varName exprType)
  | ASTNode.Print expr =>
    match analyzeExpression symbolTable expr with
    | .error e => .error e
    | .ok _ => .ok symbolTable
  | _ => .ok symbolTable

/-- `SemanticAnalyzer::analyze`: the table the analyzer is left with, and the fault if one
was thrown. -/
def analyze (symbolTable : SymbolTable) : List ASTNode → SymbolTable × Option Fault
  | [] => (symbolTable, none)
  | stmt :: rest =>
    match analyzeStatement symbolTable stmt with
    | .error e => (symbolTable, some e)
    | .ok t => analyze t rest

/-! ## Code generator and interpreter (`codegen.h`) -/

/-- `struct Instruction`. -/
structure Instruction where
  op : String
  arg1 : String
  arg2 : String
  result : String
  deriving DecidableEq, Repr

/-- `Instruction::toString`. -/
def Instruction.toString (i : Instruction) : String :=
  if i.op = "=" then i.result ++ " = " ++ i.arg1
  else if i.op = "print" then "print " ++ i.arg1
  else i.result ++ " = " ++ i.arg1 ++ " " ++ i.op ++ " " ++ i.arg2

/-- The map `memory` of `class CodeGenerator`, seen through its lookup. -/
abbrev Memory := String → Option ℚ

/-- `class CodeGenerator`. -/
structure CodeGenerator where
  instructions : List Instruction
  tempCounter : Nat
  memory : Memory

/-- `CodeGenerator()`. -/
def CodeGenerator.new : CodeGenerator := ⟨[], 0, fun _ => none⟩

/-- `CodeGenerator::newTemp`. -/
def CodeGenerator.newTemp (g : CodeGenerator) : String × CodeGenerator :=
  ("t" ++ Nat.repr g.tempCounter, { g with tempCounter := g.tempCounter + 1 })

/-- `CodeGenerator::generateExpression`. -/
def generateExpression : ASTNode → CodeGenerator → String × CodeGenerator
  | ASTNode.Number value, g => (to_string value, g)
  | ASTNode.Identifier name, g => (name, g)
  | ASTNode.BinaryOp op left right, g =>
    let l := generateExpression left g
    let r := generateExpression right l.2
    let t := r.2.newTemp
    (t.1, { t.2 with instructions := t.2.instructions ++ [⟨op, l.1, r.1, t.1⟩] })
  | _, g => ("", g)

/-- `CodeGenerator::generateStatement`. -/
def generateStatement : ASTNode → CodeGenerator → CodeGenerator
  | ASTNode.Assignment varName expr, g =>
    let e := generateExpression expr g
    { e.2 with instructions := e.2.instructions ++ [⟨"=", e.1, "", varName⟩] }
  | ASTNode.Print expr, g =>
    let e := generateExpression expr g
    { e.2 with instructions := e.2.instructions ++ [⟨"print", e.1, "", ""⟩] }
  | _, g => g

/-- The listing built at the end of `CodeGenerator::generate`, the instructions from index
`i` on. -/
def listing : Nat → List Instruction → String
  | _, [] => ""
  | i, inst :: rest => Nat.repr (i + 1) ++ ": " ++ inst.toString ++ "\n" ++ listing (i + 1) rest

/-- `CodeGenerator::generate`: the listing returned and the generator afterwards. -/
def CodeGenerator.generate (g : CodeGenerator) (statements : List ASTNode) :
    String × CodeGenerator :=
  let g1 := statements.foldl (fun acc stmt => generateStatement stmt acc)
    { g with instructions := [], tempCounter := 0 }
  (listing 0 g1.instructions, g1)

/-- Operand resolution in `CodeGenerator::execute`:
`(memory.find(arg) != memory.end()) ? memory[arg] : std::stod(arg)`. -/
def resolve (memory : Memory) (arg : String) : Except Fault ℚ :=
  match memory arg with
  | some v => .ok v
  | none =>
    match stod arg with
    | some v => .ok v
    | none => .error Fault.invalidArgument

/-- `memory[name] = value`. -/
def Memory.store (memory : Memory) (name : String) (value : ℚ) : Memory :=
  fun k => if k = name then some value else memory k

/-- What a run of the interpreter leaves behind: the evaluation store, the values written
to the standard output, and the fault that stopped the run, if any. -/
structure ExecResult where
  memory : Memory
  output : List ℚ
  fault : Option Fault

/-- The body of the `for` loop of `CodeGenerator::execute` for one instruction: the store
and the output afterwards, or the fault thrown. -/
def executeInstruction (memory : Memory) (output : List ℚ) (inst : Instruction) :
    Except Fault (Memory × List ℚ) :=
  if inst.op = "=" then
    match resolve memory inst.arg1 with
    | .error e => .error e
    | .ok value => .ok (memory.store inst.result value, output)
  else if inst.op = "print" then
    match resolve memory inst.arg1 with
    | .error e => .error e
    | .ok value => .ok (memory, output ++ [value])
  else
    match resolve memory inst.arg1 with
    | .error e => .error e
    | .ok left =>
      match resolve memory inst.arg2 with
      | .error e => .error e
      | .ok right =>
        if inst.op = "+" then .ok (memory.store inst.result (left + right), output)
        else if inst.op = "-" then .ok (memory.store inst.result (left - right), output)
        else if inst.op = "*" then .ok (memory.store inst.result (left * right), output)
        else if inst.op = "/" then
          if right = 0 then .error Fault.divisionByZero
          else .ok (memory.store inst.result (left / right), output)
        else .ok (memory.store inst.result 0, output)

/-- The `for` loop of `CodeGenerator::execute`, from a given store and output. -/
def executeLoop : List Instruction → Memory → List ℚ → ExecResult
  | [], memory, output => ⟨memory, output, none⟩
  | inst :: rest, memory, output =>
    match executeInstruction memory output inst with
    | .error e => ⟨memory, output, some e⟩
    | .ok (m, o) => executeLoop rest m o

/-- The run of `CodeGenerator::execute` on an instruction list: `memory.clear()`, then
the loop. -/
def run (program : List Instruction) : ExecResult :=
  executeLoop program (fun _ => none) []

/-- `CodeGenerator::execute`: the generator afterwards, the values printed and the fault
thrown, if any. -/
def CodeGenerator.execute (g : CodeGenerator) : CodeGenerator × List ℚ × Option Fault :=
  let r := run g.instructions
  ({ g with memory := r.memory }, r.output, r.fault)

/-! ## Read loop (`repl.cpp`) -/

/-- `class REPL`: `semantic` is the symbol table of the `SemanticAnalyzer` member. -/
structure REPL where
  semantic : SymbolTable
  codegen : CodeGenerator
  allStatements : List ASTNode

/-- A freshly constructed `REPL`. -/
def REPL.new : REPL := ⟨SymbolTable.empty, CodeGenerator.new, []⟩

/-- What is written to `std::cerr` for one line. -/
inductive Diagnostic where
  /-- "Error: falta ';' al final" (`repl.cpp:92`). -/
  | missingTerminator
  /-- `e.what()` of a caught exception (`repl.cpp:110`). -/
  | exception (fault : Fault)
  deriving DecidableEq, Repr

/-- The session commands of `REPL::processCommand`. -/
inductive Command where
  | help | vars | clear | exit | ignored
  deriving DecidableEq, Repr

/-- What one call of `REPL::evaluateLine` shows: the values printed by the interpreter,
the diagnostic, the command carried out, and whether the process exits. -/
structure LineOutput where
  printed : List ℚ
  diagnostic : Option Diagnostic
  command : Option Command
  exited : Bool
  deriving DecidableEq, Repr

/-- Membership in `" \t\n\r"`. -/
def isTrimChar (c : Char) : Bool :=
  c = ' ' || c = '\t' || c = '\n' || c = '\r'

/-- The trimming done by `processCommand` and `evaluateLine` (`find_first_not_of`,
`find_last_not_of`). -/
def trim (cs : List Char) : List Char :=
  ((cs.dropWhile isTrimChar).reverse.dropWhile isTrimChar).reverse

/-- The command a line names, as decided by `REPL::processCommand`. -/
def commandOf (input : String) : Command :=
  let cmd := String.mk (trim input.toList)
  if cmd = ":help" ∨ cmd = ":h" then Command.help
  else if cmd = ":vars" ∨ cmd = ":v" then Command.vars
  else if cmd = ":clear" ∨ cmd = ":c" then Command.clear
  else if cmd = ":exit" ∨ cmd = ":quit" ∨ cmd = ":q" then Command.exit
  else Command.ignored

/-- `REPL::clearVariables`. -/
def REPL.clearVariables (_ : REPL) : REPL :=
  ⟨SymbolTable.empty, CodeGenerator.new, []⟩

/-- `REPL::processCommand`: the session afterwards and the value returned. -/
def REPL.processCommand (r : REPL) (input : String) : REPL × Bool :=
  match commandOf input with
  | Command.clear => (r.clearVariables, true)
  | Command.exit => (r, false)
  | _ => (r, true)

/-- `REPL::evaluateLine`. -/
def REPL.evaluateLine (r : REPL) (line : String) : REPL × LineOutput :=
  if line.toList.head? = some ':' then
    let c := r.processCommand line
    (c.1, ⟨[], none, some (commandOf line), !c.2⟩)
  else
    let trimmed := trim line.toList
    if trimmed = [] then (r, ⟨[], none, none, false⟩)
    else if trimmed.getLast? ≠ some ';' then
      (r, ⟨[], some Diagnostic.missingTerminator, none, false⟩)
    else
      match tokenize line with
      | .error e => (r, ⟨[], some (Diagnostic.exception e), none, false⟩)
      | .ok tokens =>
        match parse tokens with
        | .error e => (r, ⟨[], some (Diagnostic.exception e), none, false⟩)
        | .ok statements =>
          match analyze r.semantic statements with
          | (table, some e) =>
            ({ r with semantic := table }, ⟨[], some (Diagnostic.exception e), none, false⟩)
          | (table, none) =>
            let all := r.allStatements ++ statements
            let x := (r.codegen.generate all).2.execute
            (⟨table, x.1, all⟩, ⟨x.2.1, x.2.2.map Diagnostic.exception, none, false⟩)

/-- The session after a sequence of lines, with the output of each line (the loop of
`REPL::run`, without the exit of the process). -/
def REPL.evaluateLines (r : REPL) : List String → REPL × List LineOutput
  | [] => (r, [])
  | line :: rest =>
    let x := r.evaluateLine line
    let y := REPL.evaluateLines x.1 rest
    (y.1, x.2 :: y.2)

/-! ## The grammar of the specification, as a reference for the parser -/

/-- The nonterminals of the grammar. -/
inductive Nonterminal where
  | factor | term | expression | statement
  deriving DecidableEq, Repr

/-- `*` or `/`. -/
def Token.isMulOp (t : Token) : Prop :=
  t.type = TokenType.MULTIPLY ∨ t.type = TokenType.DIVIDE

/-- `+` or `-`. -/
def Token.isAddOp (t : Token) : Prop :=
  t.type = TokenType.PLUS ∨ t.type = TokenType.MINUS

instance (t : Token) : Decidable t.isMulOp := by unfold Token.isMulOp; infer_instance

instance (t : Token) : Decidable t.isAddOp := by unfold Token.isAddOp; infer_instance

/-- The grammar as written in the specification: `Derives nt ts` says that the token
sequence `ts` is derivable from `nt`.  A terminal is any token of the named type, whatever
its lexeme and position; the repetitions `x (op x)*` are unfolded from the left.

    statement  := 'print' '(' expression ')' ';' | IDENTIFIER '=' expression ';'
    expression := term (('+' | '-') term)*
    term       := factor (('*' | '/') factor)*
    factor     := NUMBER | IDENTIFIER | '(' expression ')'
-/
inductive Derives : Nonterminal → List Token → Prop where
  | number (tok : Token) : tok.type = TokenType.NUMBER → Derives .factor [tok]
  | identifier (tok : Token) : tok.type = TokenType.IDENTIFIER → Derives .factor [tok]
  | paren (lp rp : Token) (ts : List Token) :
      lp.type = TokenType.LPAREN → rp.type = TokenType.RPAREN →
      Derives .expression ts → Derives .factor (lp :: ts ++ [rp])
  | termFactor (ts : List Token) : Derives .factor ts → Derives .term ts
  | termOp (ts : List Token) (op : Token) (fs : List Token) :
      Derives .term ts → op.isMulOp → Derives .factor fs → Derives .term (ts ++ op :: fs)
  | exprTerm (ts : List Token) : Derives .term ts → Derives .expression ts
  | exprOp (ts : List Token) (op : Token) (fs : List Token) :
      Derives .expression ts → op.isAddOp → Derives .term fs →
      Derives .expression (ts ++ op :: fs)
  | printStmt (kw lp rp semi : Token) (ts : List Token) :
      kw.type = TokenType.PRINT → lp.type = TokenType.LPAREN → rp.type = TokenType.RPAREN →
      semi.type = TokenType.SEMICOLON → Derives .expression ts →
      Derives .statement (kw :: lp :: ts ++ [rp, semi])
  | assignStmt (id eq semi : Token) (ts : List Token) :
      id.type = TokenType.IDENTIFIER → eq.type = TokenType.ASSIGN →
      semi.type = TokenType.SEMICOLON → Derives .expression ts →
      Derives .statement (id :: eq :: ts ++ [semi])

/-- The grammar together with the tree each production builds: a number token gives the
`Number` of its converted lexeme (a value within the range of `double`), an identifier
token the `Identifier` of its lexeme, and an operator applied to what stands on its left
gives a `BinaryOp` labelled by the operator's lexeme (so trees lean to the left). -/
inductive Produces : Nonterminal → List Token → ASTNode → Prop where
  | number (tok : Token) (v : ℚ) : tok.type = TokenType.NUMBER → stod tok.lexeme = some v →
      ¬ rangeError v → Produces .factor [tok] (ASTNode.Number v)
  | identifier (tok : Token) : tok.type = TokenType.IDENTIFIER →
      Produces .factor [tok] (ASTNode.Identifier tok.lexeme)
  | paren (lp rp : Token) (ts : List Token) (e : ASTNode) :
      lp.type = TokenType.LPAREN → rp.type = TokenType.RPAREN →
      Produces .expression ts e → Produces .factor (lp :: ts ++ [rp]) e
  | termFactor (ts : List Token) (e : ASTNode) : Produces .factor ts e → Produces .term ts e
  | termOp (ts : List Token) (op : Token) (fs : List Token) (l r : ASTNode) :
      Produces .term ts l → op.isMulOp → Produces .factor fs r →
      Produces .term (ts ++ op :: fs) (ASTNode.BinaryOp op.lexeme l r)
  | exprTerm (ts : List Token) (e : ASTNode) : Produces .term ts e → Produces .expression ts e
  | exprOp (ts : List Token) (op : Token) (fs : List Token) (l r : ASTNode) :
      Produces .expression ts l → op.isAddOp → Produces .term fs r →
      Produces .expression (ts ++ op :: fs) (ASTNode.BinaryOp op.lexeme l r)
  | printStmt (kw lp rp semi : Token) (ts : List Token) (e : ASTNode) :
      kw.type = TokenType.PRINT → lp.type = TokenType.LPAREN → rp.type = TokenType.RPAREN →
      semi.type = TokenType.SEMICOLON → Produces .expression ts e →
      Produces .statement (kw :: lp :: ts ++ [rp, semi]) (ASTNode.Print e)
  | assignStmt (id eq semi : Token) (ts : List Token) (e : ASTNode) :
      id.type = TokenType.IDENTIFIER → eq.type = TokenType.ASSIGN →
      semi.type = TokenType.SEMICOLON → Produces .expression ts e →
      Produces .statement (id :: eq :: ts ++ [semi]) (ASTNode.Assignment id.lexeme e)

/-- What the parser functions do on a token sequence `ts` produced from `nt`, followed by
any non-empty remainder `rest`: the statement proved by induction on `Produces`. -/
def ParsesAs (nt : Nonterminal) (ts : List Token) (tree : ASTNode) : Prop :=
  match nt with
  | .factor => ∀ n, ts.length ≤ n → ∀ rest, rest ≠ [] →
      factor (expression n) (ts ++ rest) = .ok (tree, rest)
  | .term => ∀ n, ts.length ≤ n → ∀ rest, rest ≠ [] →
      ∃ k, rest.length ≤ k ∧
        term (expression n) (ts ++ rest) = termLoop (expression n) k tree rest
  | .expression => ∀ n, ts.length ≤ n → ∀ rest, rest ≠ [] → ¬ (current rest).isMulOp →
      ∃ k, rest.length ≤ k ∧
        expression (n + 1) (ts ++ rest) = expressionLoop (expression n) k tree rest
  | .statement => ∀ n, ts.length ≤ n → ∀ rest, rest ≠ [] →
      statement n (ts ++ rest) = .ok (tree, rest)

/-- An operator chain `op1 f1 op2 f2 ... opn fn`: each entry holds the operator token, the
tokens of the operand that follows it, and the tree of that operand. -/
abbrev Chain := List (Token × List Token × ASTNode)

/-- The tokens of a chain, in order. -/
def chainTokens : Chain → List Token
  | [] => []
  | x :: c => x.1 :: x.2.1 ++ chainTokens c

/-- The left fold of a chain from the tree `t0` of the first operand:
`BinaryOp(opn, ... BinaryOp(op2, BinaryOp(op1, t0, t1), t2) ..., tn)`. -/
def leftFold (t0 : ASTNode) (c : Chain) : ASTNode :=
  c.foldl (fun acc x => ASTNode.BinaryOp x.1.lexeme acc x.2.2) t0

/-! ## The data model of the specification, as predicates on the source's types -/

/-- An expression tree of the specification: built from `Number`, `Identifier` and
`BinaryOp` only. -/
def ASTNode.isExpression : ASTNode → Prop
  | ASTNode.Number _ => True
  | ASTNode.Identifier _ => True
  | ASTNode.BinaryOp _ left right => left.isExpression ∧ right.isExpression
  | _ => False

/-- The names of the `Identifier` nodes occurring in a tree, left to right. -/
def ASTNode.identifiers : ASTNode → List String
  | ASTNode.Number _ => []
  | ASTNode.Identifier name => [name]
  | ASTNode.BinaryOp _ left right => left.identifiers ++ right.identifiers
  | ASTNode.Assignment _ expr => expr.identifiers
  | ASTNode.Print expr => expr.identifiers

/-- A symbol table of the specification: every defined name has the type "number". -/
def SymbolTable.oneTyped (t : SymbolTable) : Prop :=
  ∀ name type, t.symbols name = some type → type = "number"

/-- The operators of a tree are among `+ - * /`, as in the specification's `BinaryOp`. -/
def ASTNode.opsValid : ASTNode → Prop
  | ASTNode.Number _ => True
  | ASTNode.Identifier _ => True
  | ASTNode.BinaryOp op left right =>
    (op = "+" ∨ op = "-" ∨ op = "*" ∨ op = "/") ∧ left.opsValid ∧ right.opsValid
  | ASTNode.Assignment _ expr => expr.opsValid
  | ASTNode.Print expr => expr.opsValid

/-! ## Operands of a program and the names it has stored -/

/-- The operand text is the rendering of a number literal. -/
def isRendered (a : String) : Prop := ∃ v : ℚ, a = to_string v

/-- An operand that is ready to be resolved in the store `m`: a key of the store, or a
rendered number literal. -/
def Ready (m : Memory) (a : String) : Prop := (∃ x, m a = some x) ∨ isRendered a

/-- An operand that is one of the names `keys`, or a rendered number literal. -/
def OperandOK (keys : List String) (a : String) : Prop := a ∈ keys ∨ isRendered a

/-- The names stored once an instruction has run after `keys` were stored: every
instruction but `print` stores its `result`. -/
def keysAfterInst (keys : List String) (i : Instruction) : List String :=
  if i.op = "print" then keys else i.result :: keys

/-- The names stored once a program has run after `keys` were stored. -/
def keysAfter (keys : List String) (p : List Instruction) : List String :=
  p.foldl keysAfterInst keys

/-- Every operand of the program is a rendered literal or a name stored before it is
used, `keys` being the names stored at the start. -/
def Closed : List String → List Instruction → Prop
  | _, [] => True
  | keys, i :: rest =>
    OperandOK keys i.arg1 ∧ (i.op ≠ "=" → i.op ≠ "print" → OperandOK keys i.arg2) ∧
    Closed (keysAfterInst keys i) rest

/-! ## Token lists on which the parser terminates -/

/-- The token list is not empty and its last token is not `(`. -/
def endsWell (ts : List Token) : Prop :=
  ∃ init last, ts = init ++ [last] ∧ last.type ≠ TokenType.LPAREN

/-- A parsing function that, on lists of at most `n` tokens ending well, does not run out
of fuel and returns a remainder that ends well and is no longer than its input. -/
def Tame (F : List Token → PResult) (n : Nat) : Prop :=
  ∀ ts, endsWell ts → ts.length ≤ n →
    F ts ≠ .error Fault.outOfFuel ∧
    ∀ t rest, F ts = .ok (t, rest) → endsWell rest ∧ rest.length ≤ ts.length

/-! ## The tokenizer of `lexer.cpp` -/

/-- The loop of `Lexer::tokenize` in `lexer.cpp`: the same loop as in `lexer.h`, except
that the exception thrown at an unrecognised character also carries the column. -/
def tokenizeLoopVariant : Nat → Lexer → List Token → Except Fault (List Token)
  | 0, _, _ => .error Fault.outOfFuel
  | fuel + 1, lx, tokens =>
    if lx.rest = [] then .ok (tokens ++ [⟨TokenType.END_OF_FILE, "", lx.line, lx.column⟩])
    else
      let lx := lx.skipWhitespace
      match lx.rest with
      | [] => .ok (tokens ++ [⟨TokenType.END_OF_FILE, "", lx.line, lx.column⟩])
      | ch :: _ =>
        let col := lx.column
        if isdigit ch then
          tokenizeLoopVariant fuel lx.number.2 (tokens ++ [lx.number.1])
        else if isalpha ch || ch = '_' then
          tokenizeLoopVariant fuel lx.identifier.2 (tokens ++ [lx.identifier.1])
        else
          match punctuation ch with
          | some ty =>
            tokenizeLoopVariant fuel lx.advance (tokens ++ [⟨ty, String.mk [ch], lx.line, col⟩])
          | none => .error (Fault.lexErrorAt ch lx.line col)

/-- `Lexer(source).tokenize()` of `lexer.cpp`. -/
def tokenizeVariant (source : String) : Except Fault (List Token) :=
  tokenizeLoopVariant (source.length + 1) ⟨source.toList, 1, 1⟩ []

/-- What the exception of `lexer.h` keeps of the one of `lexer.cpp`. -/
def Fault.dropColumn : Fault → Fault
  | Fault.lexErrorAt ch line _ => Fault.lexError ch line
  | f => f

/-! ## Positions in a source text and the course of the scan -/

/-- The 1-based line of the position that follows the characters `pre`: one more than the
number of newline characters of `pre`. -/
def lineOf (pre : List Char) : Nat := 1 + pre.count '\n'

/-- The 1-based column of the position that follows the characters `pre`: one more than
the number of characters of `pre` after its last newline. -/
def columnOf (pre : List Char) : Nat := 1 + (pre.reverse.takeWhile (fun c => c != '\n')).length

/-- A character of a numeral after its first digit. -/
def isNumeralChar (c : Char) : Bool := isdigit c || c = '.'

/-- A character of a word after its first character. -/
def isWordChar (c : Char) : Bool := isalnum c || c = '_'

/-- A character at which a token can start. -/
def startsToken (c : Char) : Bool :=
  isdigit c || isalpha c || c = '_' || (punctuation c).isSome

/-- The rules of the tokenizer as the specification words them: `ScanReaches source pre
rest` says that the scan of `source` gets, between two tokens, to the point where `pre` has
been consumed and `rest` remains.  Whitespace is skipped; at a digit a maximal run of
digits and `.` is consumed; at a letter or `_` a maximal run of letters, digits and `_`;
an operator or delimiter is consumed alone. -/
inductive ScanReaches (source : List Char) : List Char → List Char → Prop where
  | start : ScanReaches source [] source
  | space (pre : List Char) (c : Char) (rest : List Char) :
      ScanReaches source pre (c :: rest) → isspace c = true →
      ScanReaches source (pre ++ [c]) rest
  | numeral (pre : List Char) (c : Char) (rest : List Char) :
      ScanReaches source pre (c :: rest) → isdigit c = true →
      ScanReaches source (pre ++ (c :: rest).takeWhile isNumeralChar)
        ((c :: rest).dropWhile isNumeralChar)
  | word (pre : List Char) (c : Char) (rest : List Char) :
      ScanReaches source pre (c :: rest) → (isalpha c || c = '_') = true →
      ScanReaches source (pre ++ (c :: rest).takeWhile isWordChar)
        ((c :: rest).dropWhile isWordChar)
  | punct (pre : List Char) (c : Char) (rest : List Char) (ty : TokenType) :
      ScanReaches source pre (c :: rest) → punctuation c = some ty →
      ScanReaches source (pre ++ [c]) rest

/-! ## The malformed statements the parser stops at -/

/-- The places at which the parser gives up a statement: the leading token of the
statement, the token after `print`, a factor position, the token after a parenthesised
expression, the token after the expression that ends a statement. -/
inductive SyntaxCase where
  | leadingToken
  | printParen
  | factorToken
  | closingParen
  | semicolon
  deriving DecidableEq, Repr

/-- The expectation message the source throws with at each place: the second argument of
the `expect` call that fails, and none where `factor` and `statement` throw at their last
line (the text is then `Error sintaxis linea N` alone). -/
def SyntaxCase.message : SyntaxCase → Option String
  | .leadingToken => none
  | .printParen => some "esperaba '(' despues de print"
  | .factorToken => none
  | .closingParen => some "esperaba ')'"
  | .semicolon => some "esperaba ';'"

/-- The malformed beginnings of a phrase: `Rejects nt ts c tok` holds when `ts` begins as a
phrase of `nt` does and goes wrong, in the way `c`, at its token `tok`:
the completed parts of the phrase are produced by the grammar, and `ts` stops with `tok`
(for an identifier that leads a statement without a `=` behind it, with the token behind
it). -/
inductive Rejects : Nonterminal → List Token → SyntaxCase → Token → Prop where
  | factorToken (tok : Token) : tok.type ≠ TokenType.NUMBER → tok.type ≠ TokenType.IDENTIFIER →
      tok.type ≠ TokenType.LPAREN → Rejects .factor [tok] .factorToken tok
  | parenInner (lp : Token) (ts : List Token) (c : SyntaxCase) (tok : Token) :
      lp.type = TokenType.LPAREN → Rejects .expression ts c tok → Rejects .factor (lp :: ts) c tok
  | parenClose (lp tok : Token) (ts : List Token) (e : ASTNode) :
      lp.type = TokenType.LPAREN → Produces .expression ts e → tok.type ≠ TokenType.RPAREN →
      ¬ tok.isAddOp → ¬ tok.isMulOp → Rejects .factor (lp :: ts ++ [tok]) .closingParen tok
  | termFirst (ts : List Token) (c : SyntaxCase) (tok : Token) :
      Rejects .factor ts c tok → Rejects .term ts c tok
  | termOp (ts : List Token) (op : Token) (fs : List Token) (l : ASTNode) (c : SyntaxCase)
      (tok : Token) : Produces .term ts l → op.isMulOp → Rejects .factor fs c tok →
      Rejects .term (ts ++ op :: fs) c tok
  | exprFirst (ts : List Token) (c : SyntaxCase) (tok : Token) :
      Rejects .term ts c tok → Rejects .expression ts c tok
  | exprOp (ts : List Token) (op : Token) (fs : List Token) (l : ASTNode) (c : SyntaxCase)
      (tok : Token) : Produces .expression ts l → op.isAddOp → Rejects .term fs c tok →
      Rejects .expression (ts ++ op :: fs) c tok
  | leadingOther (tok : Token) : tok.type ≠ TokenType.PRINT → tok.type ≠ TokenType.IDENTIFIER →
      Rejects .statement [tok] .leadingToken tok
  | leadingIdentifier (tok next : Token) : tok.type = TokenType.IDENTIFIER →
      next.type ≠ TokenType.ASSIGN → Rejects .statement [tok, next] .leadingToken tok
  | printParen (kw tok : Token) : kw.type = TokenType.PRINT → tok.type ≠ TokenType.LPAREN →
      Rejects .statement [kw, tok] .printParen tok
  | printInner (kw lp : Token) (ts : List Token) (c : SyntaxCase) (tok : Token) :
      kw.type = TokenType.PRINT → lp.type = TokenType.LPAREN → Rejects .expression ts c tok →
      Rejects .statement (kw :: lp :: ts) c tok
  | printClose (kw lp tok : Token) (ts : List Token) (e : ASTNode) :
      kw.type = TokenType.PRINT → lp.type = TokenType.LPAREN → Produces .expression ts e →
      tok.type ≠ TokenType.RPAREN → ¬ tok.isAddOp → ¬ tok.isMulOp →
      Rejects .statement (kw :: lp :: ts ++ [tok]) .closingParen tok
  | printSemicolon (kw lp rp tok : Token) (ts : List Token) (e : ASTNode) :
      kw.type = TokenType.PRINT → lp.type = TokenType.LPAREN → Produces .expression ts e →
      rp.type = TokenType.RPAREN → tok.type ≠ TokenType.SEMICOLON →
      Rejects .statement (kw :: lp :: ts ++ [rp, tok]) .semicolon tok
  | assignInner (id eq : Token) (ts : List Token) (c : SyntaxCase) (tok : Token) :
      id.type = TokenType.IDENTIFIER → eq.type = TokenType.ASSIGN → Rejects .expression ts c tok →
      Rejects .statement (id :: eq :: ts) c tok
  | assignSemicolon (id eq tok : Token) (ts : List Token) (e : ASTNode) :
      id.type = TokenType.IDENTIFIER → eq.type = TokenType.ASSIGN → Produces .expression ts e →
      tok.type ≠ TokenType.SEMICOLON → ¬ tok.isAddOp → ¬ tok.isMulOp →
      Rejects .statement (id :: eq :: ts ++ [tok]) .semicolon tok

/-- What the parser functions do on a sequence `ts` rejected at `tok` in the way `c`,
followed by any tokens `rest`: the statement proved by induction on `Rejects`. -/
def FailsAs (nt : Nonterminal) (ts : List Token) (c : SyntaxCase) (tok : Token) : Prop :=
  match nt with
  | .factor => ∀ n, ts.length ≤ n → ∀ rest,
      factor (expression n) (ts ++ rest) = .error (Fault.syntaxError c.message tok.line)
  | .term => ∀ n, ts.length ≤ n → ∀ rest,
      term (expression n) (ts ++ rest) = .error (Fault.syntaxError c.message tok.line)
  | .expression => ∀ n, ts.length ≤ n → ∀ rest,
      expression (n + 1) (ts ++ rest) = .error (Fault.syntaxError c.message tok.line)
  | .statement => ∀ n, ts.length ≤ n → ∀ rest,
      statement n (ts ++ rest) = .error (Fault.syntaxError c.message tok.line)

/-! ## What the parser returns on a token list that ends with the end-of-input token -/

/-- The token list is not empty and its last token is an end-of-input token. -/
def endsInEof (ts : List Token) : Prop :=
  ∃ init e, ts = init ++ [e] ∧ e.type = TokenType.END_OF_FILE

/-- The lexeme of every NUMBER token of the list is a text that `std::stod` converts: it
has a numeric prefix, and the value is within the range of `double`. -/
def numbersConvert (ts : List Token) : Prop :=
  ∀ tok ∈ ts, tok.type = TokenType.NUMBER → ∃ v, stod tok.lexeme = some v ∧ ¬ rangeError v

/-- The token in front of which a parsing function for `nt` returns: `term` returns in
front of a token that is not `*` or `/`, `expression` in front of one that is none of
`+ - * /`. -/
def stopsAt (nt : Nonterminal) (rest : List Token) : Prop :=
  match nt with
  | .term => ¬ (current rest).isMulOp
  | .expression => ¬ (current rest).isAddOp ∧ ¬ (current rest).isMulOp
  | _ => True

/-- The result `r` of a parsing function for `nt` on `ts` is either a tree produced, in
the grammar, by the tokens consumed, with a remainder that still ends with the
end-of-input token, or the syntax error of a rejected beginning of `ts`. -/
def Outcome (nt : Nonterminal) (r : PResult) (ts : List Token) : Prop :=
  (∃ t p rest, r = .ok (t, rest) ∧ ts = p ++ rest ∧ Produces nt p t ∧ endsInEof rest ∧
    stopsAt nt rest) ∨
  (∃ p c tok, p <+: ts ∧ Rejects nt p c tok ∧
    r = .error (Fault.syntaxError c.message tok.line))

/-- A parsing function whose results, on lists of at most `n` tokens, are outcomes for
`nt`. -/
def Faithful (F : List Token → PResult) (nt : Nonterminal) (n : Nat) : Prop :=
  ∀ ts, endsInEof ts → numbersConvert ts → ts.length ≤ n → Outcome nt (F ts) ts

/-- The result of a loop of the parser that has built `left` from the tokens `q`: a tree
produced by `q` and the tokens consumed, or the syntax error of a rejected beginning. -/
def LoopOutcome (nt : Nonterminal) (q : List Token) (r : PResult) (ts : List Token) : Prop :=
  (∃ t p rest, r = .ok (t, rest) ∧ ts = p ++ rest ∧ Produces nt (q ++ p) t ∧ endsInEof rest ∧
    stopsAt nt rest) ∨
  (∃ p c tok, p <+: ts ∧ Rejects nt (q ++ p) c tok ∧
    r = .error (Fault.syntaxError c.message tok.line))

/-! ## The lowering of the specification, with the origin of every operand -/

/-- The name `CodeGenerator::newTemp` returns when the counter is `i`. -/
def tempName (i : Nat) : String := "t" ++ Nat.repr i

/-- The number of `BinaryOp` nodes of a tree. -/
def ASTNode.binOps : ASTNode → Nat
  | ASTNode.Number _ => 0
  | ASTNode.Identifier _ => 0
  | ASTNode.BinaryOp _ left right => left.binOps + right.binOps + 1
  | ASTNode.Assignment _ expr => expr.binOps
  | ASTNode.Print expr => expr.binOps

/-- A statement of the specification: an `Assignment` or a `Print` of an expression tree. -/
def ASTNode.isStatement : ASTNode → Prop
  | ASTNode.Assignment _ expr => expr.isExpression
  | ASTNode.Print expr => expr.isExpression
  | _ => False

/-- The total number of `BinaryOp` nodes of a statement list. -/
def totalBinOps (statements : List ASTNode) : Nat :=
  (statements.map ASTNode.binOps).sum

/-- An arithmetic instruction: its operator is one of `+ - * /`. -/
def Instruction.isArithmetic (i : Instruction) : Bool :=
  i.op = "+" || i.op = "-" || i.op = "*" || i.op = "/"

/-- Where an operand or a destination of an instruction comes from: the literal of a
`Number`, the name of an `Identifier` or of an assigned variable, the temporary with a
given index, or nothing (the empty text of an unused field). -/
inductive Operand where
  | literal (value : ℚ)
  | named (text : String)
  | temp (index : Nat)
  | unused
  deriving DecidableEq

/-- The text of an operand in an instruction. -/
def Operand.render : Operand → String
  | .literal value => to_string value
  | .named text => text
  | .temp index => tempName index
  | .unused => ""

/-- The operand with its temporary index shifted up by `k`. -/
def Operand.shift (k : Nat) : Operand → Operand
  | .temp index => .temp (index + k)
  | o => o

/-- An instruction with the origin of its three fields. -/
structure Lowered where
  op : String
  arg1 : Operand
  arg2 : Operand
  result : Operand
  deriving DecidableEq

/-- The instruction of the generator that a lowered instruction stands for. -/
def Lowered.render (l : Lowered) : Instruction :=
  ⟨l.op, l.arg1.render, l.arg2.render, l.result.render⟩

/-- The instruction with every temporary index shifted up by `k`. -/
def Lowered.shift (k : Nat) (l : Lowered) : Lowered :=
  ⟨l.op, l.arg1.shift k, l.arg2.shift k, l.result.shift k⟩

/-- Post-order lowering of an expression as the specification words it, when `k`
temporaries are in use: the operand that stands for the tree, and the instructions of the
left subtree, then those of the right subtree, then one instruction into a new temporary. -/
def lowerExpression : ASTNode → Nat → Operand × List Lowered
  | ASTNode.Number value, _ => (.literal value, [])
  | ASTNode.Identifier name, _ => (.named name, [])
  | ASTNode.BinaryOp op left right, k =>
    let l := lowerExpression left k
    let r := lowerExpression right (k + l.2.length)
    (.temp (k + l.2.length + r.2.length),
      l.2 ++ r.2 ++ [⟨op, l.1, r.1, .temp (k + l.2.length + r.2.length)⟩])
  | _, _ => (.unused, [])

/-- Lowering of a statement list as the specification words it, when `k` temporaries are
in use: each statement gives the instructions of its expression and then its own one. -/
def lowerStatements : List ASTNode → Nat → List Lowered
  | [], _ => []
  | ASTNode.Assignment varName expr :: rest, k =>
    let e := lowerExpression expr k
    e.2 ++ [⟨"=", e.1, .unused, .named varName⟩] ++ lowerStatements rest (k + e.2.length)
  | ASTNode.Print expr :: rest, k =>
    let e := lowerExpression expr k
    e.2 ++ [⟨"print", e.1, .unused, .unused⟩] ++ lowerStatements rest (k + e.2.length)
  | _ :: rest, k => lowerStatements rest k

/-- The listing as the specification words it: the lines `decimal(i): rendering`, each
closed by a newline, with `i` from `start + 1` on. -/
def numberedLines (start : Nat) (instructions : List Instruction) : List String :=
  (instructions.enumFrom start).map
    (fun p => Nat.repr (p.1 + 1) ++ ": " ++ p.2.toString ++ "\n")

/-- No operator and no name of the tree holds a newline character. -/
def ASTNode.plain : ASTNode → Prop
  | ASTNode.Number _ => True
  | ASTNode.Identifier name => '\n' ∉ name.toList
  | ASTNode.BinaryOp op left right => '\n' ∉ op.toList ∧ left.plain ∧ right.plain
  | ASTNode.Assignment varName expr => '\n' ∉ varName.toList ∧ expr.plain
  | ASTNode.Print expr => expr.plain

/-- The number of temporaries in use after the lowering of a statement list that starts
with `k` of them in use. -/
def countAfter : List ASTNode → Nat → Nat
  | [], k => k
  | ASTNode.Assignment _ expr :: rest, k => countAfter rest (k + (lowerExpression expr k).2.length)
  | ASTNode.Print expr :: rest, k => countAfter rest (k + (lowerExpression expr k).2.length)
  | _ :: rest, k => countAfter rest k

/-- An operand that is a temporary has its index in `lo ≤ index < hi`. -/
def Operand.definedBefore (lo hi : Nat) : Operand → Prop
  | .temp index => lo ≤ index ∧ index < hi
  | _ => True

/-- No field of the instruction holds a newline character. -/
def Instruction.plain (i : Instruction) : Prop :=
  '\n' ∉ i.op.toList ∧ '\n' ∉ i.arg1.toList ∧ '\n' ∉ i.arg2.toList ∧ '\n' ∉ i.result.toList

/-! ## Symbol tables a session can reach -/

/-- The symbol tables reachable from the empty table by calls of `analyze`, on any
statement lists, whether the call succeeds or throws. -/
inductive ReachableTable : SymbolTable → Prop where
  | empty : ReachableTable SymbolTable.empty
  | step (t : SymbolTable) (statements : List ASTNode) :
      ReachableTable t → ReachableTable (analyze t statements).1

/-! ## Direct evaluation of the trees, as a reference for the generator and the interpreter -/

/-- The number has at most six digits after the decimal point. -/
def sixDigits (v : ℚ) : Prop := (v * 1000000).den = 1

instance (v : ℚ) : Decidable (sixDigits v) := by unfold sixDigits; infer_instance

/-- The number `v` rounded to six digits after the decimal point, ties to even: the value
that the `%f` rendering of `v` writes. -/
def rounded6 (v : ℚ) : ℚ :=
  if v < 0 then -((roundHalfEven (|v| * 1000000) : ℚ) / 1000000)
  else (roundHalfEven (|v| * 1000000) : ℚ) / 1000000

/-- The text is an identifier of the tokenizer: a letter or `_`, then letters, digits
and `_`. -/
def isIdentifierText (s : String) : Bool :=
  match s.toList with
  | [] => false
  | c :: cs => (isalpha c || c = '_') && cs.all isWordChar

/-- The text is `t` followed by one or more decimal digits. -/
def isTemporaryText (s : String) : Bool :=
  match s.toList with
  | 't' :: d :: ds => (d :: ds).all isdigit
  | _ => false

/-- The variable names of a tree: the names of its `Identifier` nodes and the target of
an `Assignment`. -/
def ASTNode.names : ASTNode → List String
  | ASTNode.Number _ => []
  | ASTNode.Identifier name => [name]
  | ASTNode.BinaryOp _ left right => left.names ++ right.names
  | ASTNode.Assignment varName expr => varName :: expr.names
  | ASTNode.Print expr => expr.names

/-- The values of the `Number` nodes of a tree. -/
def ASTNode.literals : ASTNode → List ℚ
  | ASTNode.Number value => [value]
  | ASTNode.Identifier _ => []
  | ASTNode.BinaryOp _ left right => left.literals ++ right.literals
  | ASTNode.Assignment _ expr => expr.literals
  | ASTNode.Print expr => expr.literals

/-- Direct evaluation of an expression tree in the environment `env`, the left operand
before the right one; a division whose right operand is zero is the division-by-zero
fault. -/
def evalExpression (env : Memory) : ASTNode → Except Fault ℚ
  | ASTNode.Number value => .ok value
  | ASTNode.Identifier name =>
    match env name with
    | some v => .ok v
    | none => .error (Fault.undefinedVariable name)
  | ASTNode.BinaryOp op left right =>
    match evalExpression env left with
    | .error e => .error e
    | .ok a =>
      match evalExpression env right with
      | .error e => .error e
      | .ok b =>
        if op = "+" then .ok (a + b)
        else if op = "-" then .ok (a - b)
        else if op = "*" then .ok (a * b)
        else if op = "/" then (if b = 0 then .error Fault.divisionByZero else .ok (a / b))
        else .error Fault.unknownNode
  | _ => .error Fault.unknownNode

/-- Direct evaluation of a statement list from the environment `env` and the values
`output` printed so far: an `Assignment` binds its variable to the value of its
expression, a `Print` emits the value of its expression, and the first fault stops the
evaluation. -/
def evalStatements (env : Memory) (output : List ℚ) : List ASTNode → ExecResult
  | [] => ⟨env, output, none⟩
  | ASTNode.Assignment varName expr :: rest =>
    match evalExpression env expr with
    | .error e => ⟨env, output, some e⟩
    | .ok v => evalStatements (env.store varName v) output rest
  | ASTNode.Print expr :: rest =>
    match evalExpression env expr with
    | .error e => ⟨env, output, some e⟩
    | .ok v => evalStatements env (output ++ [v]) rest
  | _ :: rest => evalStatements env output rest

/-! ## Lines that go through the whole cycle -/

/-- The line passes the terminator check, tokenizing, parsing (into `statements`) and the
semantic check of the session `r`. -/
def REPL.accepts (r : REPL) (line : String) (statements : List ASTNode) : Prop :=
  line.toList.head? ≠ some ':' ∧ trim line.toList ≠ [] ∧
  (trim line.toList).getLast? = some ';' ∧
  (tokenize line).bind parse = .ok statements ∧
  (analyze r.semantic statements).2 = none

/-- Every line of the sequence, paired with its statements, is accepted by the session
that the lines before it have left. -/
def REPL.acceptsAll (r : REPL) : List (String × List ASTNode) → Prop
  | [] => True
  | p :: rest => r.accepts p.1 p.2 ∧ REPL.acceptsAll (r.evaluateLine p.1).1 rest

/-! ## Where the tokens stand in the source -/

/-- The tokens `tokens` stand in the text `rest` that follows `pre`, in order: each token
is preceded by whitespace only, its lexeme is the text at its place, without whitespace,
its line and column are those of the place, and the end-of-input token, with the empty
lexeme, stands behind the whitespace that ends the text. -/
inductive Placed : List Char → List Char → List Token → Prop where
  | done (pre ws : List Char) (eof : Token) :
      (∀ c ∈ ws, isspace c = true) → eof.type = TokenType.END_OF_FILE → eof.lexeme = "" →
      eof.line = lineOf (pre ++ ws) → eof.column = columnOf (pre ++ ws) →
      Placed pre ws [eof]
  | token (pre ws lex rest : List Char) (tok : Token) (tokens : List Token) :
      (∀ c ∈ ws, isspace c = true) → lex ≠ [] → (∀ c ∈ lex, isspace c = false) →
      tok.lexeme = String.mk lex → tok.type ≠ TokenType.END_OF_FILE →
      tok.line = lineOf (pre ++ ws) → tok.column = columnOf (pre ++ ws) →
      Placed (pre ++ ws ++ lex) rest tokens →
      Placed pre (ws ++ lex ++ rest) (tok :: tokens)

/-- The token `tok` stands at the offset `offset` of `source`: its lexeme is the text that
starts there, and its line and column are those of the character at that offset (one plus
the newlines before it; one plus the characters since the last newline or the start). -/
def standsAt (source : List Char) (tok : Token) (offset : Nat) : Prop :=
  offset ≤ source.length ∧ tok.lexeme.toList <+: source.drop offset ∧
  tok.line = lineOf (source.take offset) ∧ tok.column = columnOf (source.take offset)

/-! ## A numeral beyond the range of `double` -/

/-- The numeral written with 1 followed by 400 zeros. -/
def longNumeral : String := String.mk ('1' :: List.replicate 400 '0')

/-- The source text `x = 1000...0;` with that numeral. -/
def longNumeralStatement : String := "x = " ++ longNumeral ++ ";"

/-- The source text `print(1); print(1000...0;` with that numeral and no `)` after it. -/
def longNumeralUnclosed : String := "print(1); print(" ++ longNumeral ++ ";"

/-! ## The values of `double` and the conversion of `std::stod` to them -/

/-- A value of type `double`: a finite number, written as the rational it stands for, the
negative zero, an infinity, or a NaN. -/
inductive Double where
  | finite (value : ℚ)
  | negativeZero
  | infinity (negative : Bool)
  | nan
  deriving DecidableEq, Repr

/-- The comparison `d == 0` of `codegen.h:90`: it holds of both zeros and of nothing
else. -/
def Double.isZero : Double → Bool
  | Double.finite value => decide (value = 0)
  | Double.negativeZero => true
  | _ => false

/-- The operations `+`, `-`, `*`, `/` of `double` that `CodeGenerator::execute` applies to
the operands of an arithmetic instruction.  They are the operations of the machine and are
left open here: what is proved of the interpreter over them holds whatever they compute. -/
structure Arithmetic where
  add : Double → Double → Double
  sub : Double → Double → Double
  mul : Double → Double → Double
  div : Double → Double → Double

/-- The `double` nearest to `x`, ties to even, for `x` in the range of the normal numbers:
with 2^e ≤ |x| < 2^(e+1), the multiple of 2^(e-52) nearest to `x` (53 significant bits). -/
def nearestDouble (x : ℚ) : ℚ :=
  if x = 0 then 0
  else
    let q : ℚ := (2 : ℚ) ^ (Int.log 2 |x| - 52)
    let n : ℚ := roundHalfEven (|x| / q)
    if x < 0 then -(n * q) else n * q

/-- `std::isxdigit`. -/
def isxdigit (c : Char) : Bool :=
  isdigit c || (65 ≤ c.toNat && c.toNat ≤ 70) || (97 ≤ c.toNat && c.toNat ≤ 102)

/-- Value of a hexadecimal digit character. -/
def hexDigitVal (c : Char) : Nat :=
  if isdigit c then c.toNat - 48
  else if 97 ≤ c.toNat then c.toNat - 87
  else c.toNat - 55

/-- Value of a run of hexadecimal digits, most significant first. -/
def hexDigitsVal (cs : List Char) : Nat :=
  cs.foldl (fun acc c => 16 * acc + hexDigitVal c) 0

/-- The optional binary exponent `p[+-]digits` of a hexadecimal text; `0` when there is
none. -/
def stodBinaryExponent : List Char → Int
  | c :: cs =>
    if c = 'p' ∨ c = 'P' then
      let (neg, ds) := stodSign cs
      let es := ds.takeWhile isdigit
      if es = [] then 0
      else if neg then -(digitsVal es : Int) else (digitsVal es : Int)
    else 0
  | [] => 0

/-- The value of a hexadecimal text `0x h.h p e` (after the blanks and the sign), when the
text has that form: `0x` or `0X`, then hexadecimal digits with an optional point, at least
one digit, then an optional binary exponent. -/
def stodHex : List Char → Option ℚ
  | '0' :: x :: cs =>
    if x = 'x' ∨ x = 'X' then
      let ip := cs.takeWhile isxdigit
      let (fp, rest) :=
        match cs.dropWhile isxdigit with
        | '.' :: ds => (ds.takeWhile isxdigit, ds.dropWhile isxdigit)
        | ds => ([], ds)
      if ip = [] ∧ fp = [] then none
      else some ((hexDigitsVal (ip ++ fp) : ℚ) / (16 : ℚ) ^ fp.length *
        (2 : ℚ) ^ stodBinaryExponent rest)
    else none
  | _ => none

/-- The texts `inf`, `infinity` and `nan`, in any case, which the conversion accepts after
the blanks and the sign: the infinity of that sign, or a NaN. -/
def stodSpecial (negative : Bool) (cs : List Char) : Option Double :=
  if (cs.take 3).map Char.toLower = ['i', 'n', 'f'] then some (Double.infinity negative)
  else if (cs.take 3).map Char.toLower = ['n', 'a', 'n'] then some Double.nan
  else none

/-- The `double` that `std::stod` returns for a text that writes the number `v` with the
sign `negative`: the range error when the conversion reports `ERANGE`, the zero of the
sign of the text, or the `double` nearest to `v`. -/
def stodRounded (negative : Bool) (v : ℚ) : Except Fault Double :=
  if rangeError v then .error Fault.outOfRange
  else if v = 0 then .ok (if negative then Double.negativeZero else Double.finite 0)
  else .ok (Double.finite (nearestDouble v))

/-- `std::stod(text)` with the `double` it returns: after the blanks and the sign, a
hexadecimal text, or else the longest decimal prefix (`stod`), or else `inf`, `infinity` or
`nan`; `std::invalid_argument` when the text has none of these forms, `std::out_of_range`
when the number is out of the range of `double`. -/
def stodDouble (text : String) : Except Fault Double :=
  let (negative, cs) := stodSign (text.toList.dropWhile isspace)
  match stodHex cs with
  | some v => stodRounded negative (if negative then -v else v)
  | none =>
    match stod text with
    | some v => stodRounded negative v
    | none =>
      match stodSpecial negative cs with
      | some d => .ok d
      | none => .error Fault.invalidArgument

/-- The value is the `double` of a decimal numeral with at most six digits after the
point: the `double` nearest to `k / 10^6` for an integer `k`, that number being within the
range of `double`. -/
def sixDigitDouble (v : ℚ) : Prop :=
  ∃ k : ℤ, ¬ rangeError ((k : ℚ) / 1000000) ∧ v = nearestDouble ((k : ℚ) / 1000000)

/-! ## The interpreter over the values of `double` (`codegen.h`) -/

/-- `std::map<std::string, double> memory`, with the values of `double`. -/
abbrev IEEE.Memory := String → Option Double

/-- Operand resolution in `CodeGenerator::execute`:
`(memory.find(arg) != memory.end()) ? memory[arg] : std::stod(arg)`. -/
def IEEE.resolve (memory : IEEE.Memory) (arg : String) : Except Fault Double :=
  match memory arg with
  | some v => .ok v
  | none => stodDouble arg

/-- `memory[name] = value`. -/
def IEEE.store (memory : IEEE.Memory) (name : String) (value : Double) : IEEE.Memory :=
  fun k => if k = name then some value else memory k

/-- What a run of the interpreter leaves behind: the evaluation store, the values written
to the standard output, and the fault that stopped the run, if any. -/
structure IEEE.ExecResult where
  memory : IEEE.Memory
  output : List Double
  fault : Option Fault

/-- The body of the `for` loop of `CodeGenerator::execute` for one instruction, over the
arithmetic `A`: the store and the output afterwards, or the fault thrown. -/
def IEEE.executeInstruction (A : Arithmetic) (memory : IEEE.Memory) (output : List Double)
    (inst : Instruction) : Except Fault (IEEE.Memory × List Double) :=
  if inst.op = "=" then
    match IEEE.resolve memory inst.arg1 with
    | .error e => .error e
    | .ok value => .ok (IEEE.store memory inst.result value, output)
  else if inst.op = "print" then
    match IEEE.resolve memory inst.arg1 with
    | .error e => .error e
    | .ok value => .ok (memory, output ++ [value])
  else
    match IEEE.resolve memory inst.arg1 with
    | .error e => .error e
    | .ok left =>
      match IEEE.resolve memory inst.arg2 with
      | .error e => .error e
      | .ok right =>
        if inst.op = "+" then .ok (IEEE.store memory inst.result (A.add left right), output)
        else if inst.op = "-" then
          .ok (IEEE.store memory inst.result (A.sub left right), output)
        else if inst.op = "*" then
          .ok (IEEE.store memory inst.result (A.mul left right), output)
        else if inst.op = "/" then
          if right.isZero then .error Fault.divisionByZero
          else .ok (IEEE.store memory inst.result (A.div left right), output)
        else .ok (IEEE.store memory inst.result (Double.finite 0), output)

/-- The `for` loop of `CodeGenerator::execute`, from a given store and output. -/
def IEEE.executeLoop (A : Arithmetic) :
    List Instruction → IEEE.Memory → List Double → IEEE.ExecResult
  | [], memory, output => ⟨memory, output, none⟩
  | inst :: rest, memory, output =>
    match IEEE.executeInstruction A memory output inst with
    | .error e => ⟨memory, output, some e⟩
    | .ok (m, o) => IEEE.executeLoop A rest m o

/-- The run of `CodeGenerator::execute` on an instruction list: `memory.clear()`, then
the loop. -/
def IEEE.run (A : Arithmetic) (program : List Instruction) : IEEE.ExecResult :=
  IEEE.executeLoop A program (fun _ => none) []

/-- Direct evaluation of an expression tree in the environment `env` over the arithmetic
`A`, the left operand before the right one; a `Number` node evaluates to the `double` it
holds, and a division whose right operand compares equal to zero is the division-by-zero
fault. -/
def IEEE.evalExpression (A : Arithmetic) (env : IEEE.Memory) : ASTNode → Except Fault Double
  | ASTNode.Number value => .ok (Double.finite value)
  | ASTNode.Identifier name =>
    match env name with
    | some v => .ok v
    | none => .error (Fault.undefinedVariable name)
  | ASTNode.BinaryOp op left right =>
    match IEEE.evalExpression A env left with
    | .error e => .error e
    | .ok a =>
      match IEEE.evalExpression A env right with
      | .error e => .error e
      | .ok b =>
        if op = "+" then .ok (A.add a b)
        else if op = "-" then .ok (A.sub a b)
        else if op = "*" then .ok (A.mul a b)
        else if op = "/" then
          (if b.isZero then .error Fault.divisionByZero else .ok (A.div a b))
        else .error Fault.unknownNode
  | _ => .error Fault.unknownNode

/-- Direct evaluation of a statement list from the environment `env` and the values
`output` printed so far: an `Assignment` binds its variable to the value of its
expression, a `Print` emits the value of its expression, and the first fault stops the
evaluation. -/
def IEEE.evalStatements (A : Arithmetic) (env : IEEE.Memory) (output : List Double) :
    List ASTNode → IEEE.ExecResult
  | [] => ⟨env, output, none⟩
  | ASTNode.Assignment varName expr :: rest =>
    match IEEE.evalExpression A env expr with
    | .error e => ⟨env, output, some e⟩
    | .ok v => IEEE.evalStatements A (IEEE.store env varName v) output rest
  | ASTNode.Print expr :: rest =>
    match IEEE.evalExpression A env expr with
    | .error e => ⟨env, output, some e⟩
    | .ok v => IEEE.evalStatements A env (output ++ [v]) rest
  | _ :: rest => IEEE.evalStatements A env output rest

/-- The store `m` of the interpreter stands for the environment `env` of the direct
evaluation: they agree on every identifier that is not `t` followed by digits, and the
rendering of a number is never a key of `m`. -/
def IEEE.Agree (m env : IEEE.Memory) : Prop :=
  (∀ x, isIdentifierText x = true → isTemporaryText x = false → m x = env x) ∧
  (∀ v : ℚ, m (to_string v) = none)

/-- An instance of the arithmetic, for the examples: on finite operands the exact result
rounded to the nearest `double`, and a NaN on the other operands and on a zero divisor.
It is the operation of the machine when the exact result is within the range of the normal
numbers; the other results (zeros with their sign, subnormal and infinite results) are not
modelled by this instance, and nothing that is proved depends on it. -/
def Arithmetic.nearest : Arithmetic where
  add := fun a b => match a, b with
    | Double.finite x, Double.finite y => Double.finite (nearestDouble (x + y))
    | _, _ => Double.nan
  sub := fun a b => match a, b with
    | Double.finite x, Double.finite y => Double.finite (nearestDouble (x - y))
    | _, _ => Double.nan
  mul := fun a b => match a, b with
    | Double.finite x, Double.finite y => Double.finite (nearestDouble (x * y))
    | _, _ => Double.nan
  div := fun a b => match a, b with
    | Double.finite x, Double.finite y =>
      if y = 0 then Double.nan else Double.finite (nearestDouble (x / y))
    | _, _ => Double.nan

/-! # Theorems -/


/-! ## Tokenizer: shape of the result -/

theorem number_type (lx : Lexer) : lx.number.1.type = TokenType.NUMBER := rfl

theorem identifier_type (lx : Lexer) :
    lx.identifier.1.type = TokenType.PRINT ∨ lx.identifier.1.type = TokenType.IDENTIFIER := by
  by_cases h : String.mk (scanWhile (fun c => isalnum c || c = '_') lx.rest lx.line
      lx.column).1 = "print"
  · left; simp [Lexer.identifier, h]
  · right; simp [Lexer.identifier, h]

theorem punctuation_proper {ch : Char} {ty : TokenType} (h : punctuation ch = some ty) :
    ty ≠ TokenType.END_OF_FILE ∧ ty ≠ TokenType.UNKNOWN := by
  unfold punctuation at h
  repeat' split at h
  all_goals first
    | (cases h; exact ⟨by decide, by decide⟩)
    | (exact absurd h (by simp))

theorem tokenizeLoop_all (Q : Token → Prop)
    (hnum : ∀ (lx : Lexer) (ch : Char) (cs : List Char), lx.rest = ch :: cs →
      isdigit ch = true → Q lx.number.1)
    (hid : ∀ lx : Lexer, Q lx.identifier.1)
    (hpun : ∀ (ch : Char) (ty : TokenType) (line col : Nat), punctuation ch = some ty →
      Q ⟨ty, String.mk [ch], line, col⟩)
    (fuel : Nat) : ∀ (lx : Lexer) (acc toks : List Token),
    (∀ t ∈ acc, Q t) → tokenizeLoop fuel lx acc = .ok toks →
    ∃ init eof, toks = init ++ [eof] ∧ eof.type = TokenType.END_OF_FILE ∧ eof.lexeme = "" ∧
      ∀ t ∈ init, Q t := by
  induction fuel with
  | zero => intro lx acc toks _ h; simp [tokenizeLoop] at h
  | succ fuel ih =>
    intro lx acc toks hacc h
    have hsnoc : ∀ t, Q t → ∀ u ∈ acc ++ [t], Q u := by
      intro t ht u hu
      rcases List.mem_append.1 hu with hu | hu
      · exact hacc u hu
      · simp only [List.mem_singleton] at hu
        subst hu
        exact ht
    unfold tokenizeLoop at h
    split at h
    · cases h
      exact ⟨acc, _, rfl, rfl, rfl, hacc⟩
    · simp only at h
      split at h
      · cases h
        exact ⟨acc, _, rfl, rfl, rfl, hacc⟩
      · rename_i ch rest hrest
        split at h
        · rename_i hd
          exact ih _ _ _ (hsnoc _ (hnum _ ch rest hrest hd)) h
        · split at h
          · exact ih _ _ _ (hsnoc _ (hid _)) h
          · split at h
            · rename_i ty hty
              exact ih _ _ _ (hsnoc _ (hpun ch ty _ _ hty)) h
            · simp at h

theorem tokenizeLoop_shape (fuel : Nat) (lx : Lexer) (toks : List Token)
    (h : tokenizeLoop fuel lx [] = .ok toks) :
    ∃ init eof, toks = init ++ [eof] ∧ eof.type = TokenType.END_OF_FILE ∧ eof.lexeme = "" ∧
      ∀ t ∈ init, t.type ≠ TokenType.END_OF_FILE ∧ t.type ≠ TokenType.UNKNOWN := by
  refine tokenizeLoop_all _ ?_ ?_ ?_ fuel lx [] toks (by simp) h
  · intro lx ch cs _ _
    exact ⟨by rw [number_type]; decide, by rw [number_type]; decide⟩
  · intro lx
    rcases identifier_type lx with h1 | h1
    · exact ⟨by rw [h1]; decide, by rw [h1]; decide⟩
    · exact ⟨by rw [h1]; decide, by rw [h1]; decide⟩
  · intro ch ty line col hty
    exact punctuation_proper hty

theorem scanWhile_all (p : Char → Bool) : ∀ (cs : List Char) (line column : Nat),
    (∀ c ∈ cs, p c = true) → (scanWhile p cs line column).2.rest = [] := by
  intro cs
  induction cs with
  | nil => intro line column _; rfl
  | cons c cs ih =>
    intro line column h
    have hc : p c = true := h c (List.mem_cons_self _ _)
    simp only [scanWhile, hc, if_true]
    exact ih _ _ (fun d hd => h d (List.mem_cons_of_mem _ hd))

/-- C10: when `tokenize` succeeds, the result is `init ++ [eof]` where `eof` is an
end-of-input token with empty lexeme and no token of `init` is an end-of-input or an
`UNKNOWN` token; on a source made of whitespace only (the empty source included) the result
is the single end-of-input token, placed where the scan of the whitespace stops. -/
theorem tokenize_terminated_by_eof (source : String) :
    (∀ toks, tokenize source = .ok toks →
      ∃ init eof, toks = init ++ [eof] ∧ eof.type = TokenType.END_OF_FILE ∧ eof.lexeme = "" ∧
        ∀ t ∈ init, t.type ≠ TokenType.END_OF_FILE ∧ t.type ≠ TokenType.UNKNOWN) ∧
    ((∀ c ∈ source.toList, isspace c = true) →
      tokenize source = .ok [⟨TokenType.END_OF_FILE, "",
        (Lexer.skipWhitespace ⟨source.toList, 1, 1⟩).line,
        (Lexer.skipWhitespace ⟨source.toList, 1, 1⟩).column⟩]) := by
  constructor
  · intro toks h
    exact tokenizeLoop_shape _ _ toks h
  · intro h
    unfold tokenize tokenizeLoop
    split
    · rename_i h0
      have h0 : source.data = [] := h0
      simp [Lexer.skipWhitespace, h0, scanWhile]
    · have h1 : (Lexer.skipWhitespace ⟨source.toList, 1, 1⟩).rest = [] :=
        scanWhile_all _ _ _ _ h
      simp only
      split
      · simp
      · rename_i ch rest h2
        rw [h1] at h2
        cases h2

theorem tokenize_terminated_by_eof_witness :
    (∃ init eof, [(⟨TokenType.IDENTIFIER, "x", 1, 1⟩ : Token), ⟨TokenType.SEMICOLON, ";", 1, 2⟩,
        ⟨TokenType.END_OF_FILE, "", 1, 3⟩] = init ++ [eof] ∧
      eof.type = TokenType.END_OF_FILE ∧ eof.lexeme = "" ∧
      ∀ t ∈ init, t.type ≠ TokenType.END_OF_FILE ∧ t.type ≠ TokenType.UNKNOWN) ∧
    tokenize " \n " = .ok [⟨TokenType.END_OF_FILE, "", 2, 2⟩] :=
  ⟨(tokenize_terminated_by_eof "x;").1 _ (by rfl),
   (tokenize_terminated_by_eof " \n ").2 (by decide)⟩

/-! ## Parser: completeness with respect to the grammar -/

theorem advance_cons (t : Token) {ts : List Token} (h : ts ≠ []) : advance (t :: ts) = ts := by
  cases ts with
  | nil => exact absurd rfl h
  | cons u us => rfl

theorem advance_cons_cons (t u : Token) (ts : List Token) :
    advance (t :: u :: ts) = u :: ts := rfl

theorem current_cons (t : Token) (ts : List Token) : current (t :: ts) = t := rfl

theorem peek_cons_cons (t u : Token) (ts : List Token) : peek (t :: u :: ts) = u := rfl

theorem termLoop_stop (E : List Token → PResult) {k : Nat} (left : ASTNode) {ts : List Token}
    (hk : 0 < k) (h : ¬ (current ts).isMulOp) : termLoop E k left ts = .ok (left, ts) := by
  obtain ⟨k, rfl⟩ : ∃ j, k = j + 1 := ⟨k - 1, by omega⟩
  have h1 : ¬ ((current ts).type = TokenType.MULTIPLY ∨
      (current ts).type = TokenType.DIVIDE) := h
  rw [termLoop, if_neg h1]

theorem expressionLoop_stop (E : List Token → PResult) {k : Nat} (left : ASTNode)
    {ts : List Token} (hk : 0 < k) (h : ¬ (current ts).isAddOp) :
    expressionLoop E k left ts = .ok (left, ts) := by
  obtain ⟨k, rfl⟩ : ∃ j, k = j + 1 := ⟨k - 1, by omega⟩
  have h1 : ¬ ((current ts).type = TokenType.PLUS ∨
      (current ts).type = TokenType.MINUS) := h
  rw [expressionLoop, if_neg h1]

theorem termLoop_step (E : List Token → PResult) (k : Nat) (left right : ASTNode) (op : Token)
    {ts rest : List Token} (hop : op.isMulOp) (hts : ts ≠ [])
    (hf : factor E ts = .ok (right, rest)) :
    termLoop E (k + 1) left (op :: ts) =
      termLoop E k (ASTNode.BinaryOp op.lexeme left right) rest := by
  rw [termLoop]
  have hc : (current (op :: ts)).type = TokenType.MULTIPLY ∨
      (current (op :: ts)).type = TokenType.DIVIDE := hop
  rw [if_pos hc, advance_cons op hts, hf]
  rfl

theorem expressionLoop_step (E : List Token → PResult) (k : Nat) (left right : ASTNode)
    (op : Token) {ts rest : List Token} (hop : op.isAddOp) (hts : ts ≠ [])
    (hf : term E ts = .ok (right, rest)) :
    expressionLoop E (k + 1) left (op :: ts) =
      expressionLoop E k (ASTNode.BinaryOp op.lexeme left right) rest := by
  rw [expressionLoop]
  have hc : (current (op :: ts)).type = TokenType.PLUS ∨
      (current (op :: ts)).type = TokenType.MINUS := hop
  rw [if_pos hc, advance_cons op hts, hf]
  rfl

theorem length_pos_of_ne_nil {α : Type} {l : List α} (h : l ≠ []) : 0 < l.length :=
  List.length_pos.2 h

theorem addOp_not_mulOp {t : Token} (h : t.isAddOp) : ¬ t.isMulOp := by
  unfold Token.isAddOp at h
  unfold Token.isMulOp
  rcases h with h | h <;> simp [h]

theorem produces_parsesAs {nt : Nonterminal} {ts : List Token} {tree : ASTNode}
    (h : Produces nt ts tree) : ParsesAs nt ts tree := by
  induction h with
  | number tok v h1 h2 h3 =>
    intro n _ rest hrest
    simp [factor, current, h1, h2, h3, advance_cons tok hrest]
  | identifier tok h1 =>
    intro n _ rest hrest
    simp [factor, current, h1, advance_cons tok hrest]
  | paren lp rp ts e h1 h2 _ ih =>
    intro n hn rest hrest
    simp only [List.length_cons, List.length_append, List.length_singleton] at hn
    obtain ⟨m, rfl⟩ : ∃ j, n = j + 1 := ⟨n - 1, by omega⟩
    obtain ⟨k, hk, hE⟩ := ih m (by omega) (rp :: rest) (by simp)
      (by simp [current, Token.isMulOp, h2])
    have hstop : expressionLoop (expression m) k e (rp :: rest) = .ok (e, rp :: rest) :=
      expressionLoop_stop _ _ (by simp at hk; omega) (by simp [current, Token.isAddOp, h2])
    have happ : lp :: ts ++ [rp] ++ rest = lp :: (ts ++ rp :: rest) := by simp
    have hne : ts ++ rp :: rest ≠ [] := by simp
    rw [happ]
    simp [factor, current, h1, advance_cons lp hne, hE, hstop, expect, h2,
      advance_cons rp hrest]
  | termFactor ts e _ ih =>
    intro n hn rest hrest
    refine ⟨rest.length, le_refl _, ?_⟩
    simp [term, ih n hn rest hrest]
  | termOp ts op fs l r _ hop _ ihl ihr =>
    intro n hn rest hrest
    simp only [List.length_cons, List.length_append] at hn
    obtain ⟨k1, hk1, hE⟩ := ihl n (by omega) (op :: (fs ++ rest)) (by simp)
    simp only [List.length_cons, List.length_append] at hk1
    obtain ⟨k, rfl⟩ : ∃ j, k1 = j + 1 := ⟨k1 - 1, by omega⟩
    refine ⟨k, by omega, ?_⟩
    have happ : ts ++ op :: fs ++ rest = ts ++ op :: (fs ++ rest) := by simp
    rw [happ, hE]
    exact termLoop_step _ k l r op hop (by simp [hrest]) (ihr n (by omega) rest hrest)
  | exprTerm ts e _ ih =>
    intro n hn rest hrest hmul
    obtain ⟨k, hk, hE⟩ := ih n hn rest hrest
    refine ⟨rest.length, le_refl _, ?_⟩
    have hpos := length_pos_of_ne_nil hrest
    rw [expression, hE, termLoop_stop _ _ (by omega) hmul]
  | exprOp ts op fs l r _ hop _ ihl ihr =>
    intro n hn rest hrest hmul
    simp only [List.length_cons, List.length_append] at hn
    obtain ⟨k1, hk1, hE⟩ := ihl n (by omega) (op :: (fs ++ rest)) (by simp)
      (addOp_not_mulOp hop)
    simp only [List.length_cons, List.length_append] at hk1
    obtain ⟨k, rfl⟩ : ∃ j, k1 = j + 1 := ⟨k1 - 1, by omega⟩
    refine ⟨k, by omega, ?_⟩
    have happ : ts ++ op :: fs ++ rest = ts ++ op :: (fs ++ rest) := by simp
    obtain ⟨k2, hk2, hT⟩ := ihr n (by omega) rest hrest
    have hpos := length_pos_of_ne_nil hrest
    rw [happ, hE]
    exact expressionLoop_step _ k l r op hop (by simp [hrest])
      (by rw [hT, termLoop_stop _ _ (by omega) hmul])
  | printStmt kw lp rp semi ts e h1 h2 h3 h4 _ ih =>
    intro n hn rest hrest
    simp only [List.length_cons, List.length_append, List.length_singleton,
      List.length_nil] at hn
    obtain ⟨m, rfl⟩ : ∃ j, n = j + 1 := ⟨n - 1, by omega⟩
    obtain ⟨k, hk, hE⟩ := ih m (by omega) (rp :: semi :: rest) (by simp)
      (by simp [current, Token.isMulOp, h3])
    have hstop : expressionLoop (expression m) k e (rp :: semi :: rest) =
        .ok (e, rp :: semi :: rest) :=
      expressionLoop_stop _ _ (by simp at hk; omega) (by simp [current, Token.isAddOp, h3])
    have happ : kw :: lp :: ts ++ [rp, semi] ++ rest = kw :: lp :: (ts ++ rp :: semi :: rest) := by
      simp
    have hne : ts ++ rp :: semi :: rest ≠ [] := by simp
    rw [happ]
    simp [statement, current_cons, h1, h2, advance_cons_cons, expect, advance_cons lp hne, hE,
      hstop, h3, h4, advance_cons semi hrest]
  | assignStmt id eq semi ts e h1 h2 h3 _ ih =>
    intro n hn rest hrest
    simp only [List.length_cons, List.length_append, List.length_singleton] at hn
    obtain ⟨m, rfl⟩ : ∃ j, n = j + 1 := ⟨n - 1, by omega⟩
    obtain ⟨k, hk, hE⟩ := ih m (by omega) (semi :: rest) (by simp)
      (by simp [current, Token.isMulOp, h3])
    have hstop : expressionLoop (expression m) k e (semi :: rest) = .ok (e, semi :: rest) :=
      expressionLoop_stop _ _ (by simp at hk; omega) (by simp [current, Token.isAddOp, h3])
    have happ : id :: eq :: ts ++ [semi] ++ rest = id :: eq :: (ts ++ semi :: rest) := by simp
    have hne : ts ++ semi :: rest ≠ [] := by simp
    rw [happ]
    simp [statement, current_cons, peek_cons_cons, h1, h2, advance_cons_cons,
      advance_cons eq hne, hE, hstop, expect, h3, advance_cons semi hrest]

theorem expression_of_produces {ts : List Token} {tree : ASTNode}
    (h : Produces .expression ts tree) {n : Nat} (hn : ts.length ≤ n) {rest : List Token}
    (hrest : rest ≠ []) (hmul : ¬ (current rest).isMulOp) (hadd : ¬ (current rest).isAddOp) :
    expression (n + 1) (ts ++ rest) = .ok (tree, rest) := by
  obtain ⟨k, hk, hE⟩ := produces_parsesAs h n hn rest hrest hmul
  have hpos := length_pos_of_ne_nil hrest
  rw [hE, expressionLoop_stop _ _ (by omega) hadd]

theorem statement_of_produces {ts : List Token} {tree : ASTNode}
    (h : Produces .statement ts tree) {n : Nat} (hn : ts.length ≤ n) {rest : List Token}
    (hrest : rest ≠ []) : statement n (ts ++ rest) = .ok (tree, rest) :=
  produces_parsesAs h n hn rest hrest

theorem statement_head {ts : List Token} {tree : ASTNode} (h : Produces .statement ts tree)
    (rest : List Token) : (current (ts ++ rest)).type ≠ TokenType.END_OF_FILE := by
  cases h with
  | printStmt kw lp rp semi ts e h1 _ _ _ _ => simp [current_cons, h1]
  | assignStmt id eq semi ts e h1 _ _ _ => simp [current_cons, h1]

theorem parse_of_produces {ts : List Token} {tree : ASTNode} (h : Produces .statement ts tree)
    (eof : Token) (heof : eof.type = TokenType.END_OF_FILE) :
    parse (ts ++ [eof]) = .ok [tree] := by
  have hs : statement ((ts ++ [eof]).length + 1) (ts ++ [eof]) = .ok (tree, [eof]) :=
    statement_of_produces h (by simp; omega) (by simp)
  have hl : (ts ++ [eof]).length + 1 = (ts.length + 1) + 1 := by simp
  unfold parse
  rw [hl] at hs ⊢
  rw [parseLoop, if_pos (statement_head h [eof]), hs]
  simp only [parseLoop]
  simp [current_cons, heof]

theorem derives_produces {nt : Nonterminal} {ts : List Token} (h : Derives nt ts)
    (hnum : numbersConvert ts) :
    ∃ tree, Produces nt ts tree := by
  induction h with
  | number tok h1 =>
    obtain ⟨v, hv, hrange⟩ := hnum tok (by simp) h1
    exact ⟨_, Produces.number tok v h1 hv hrange⟩
  | identifier tok h1 => exact ⟨_, Produces.identifier tok h1⟩
  | paren lp rp ts h1 h2 _ ih =>
    obtain ⟨e, he⟩ := ih (fun tok ht => hnum tok (by simp [ht]))
    exact ⟨_, Produces.paren lp rp ts e h1 h2 he⟩
  | termFactor ts _ ih =>
    obtain ⟨e, he⟩ := ih hnum
    exact ⟨_, Produces.termFactor ts e he⟩
  | termOp ts op fs _ hop _ ihl ihr =>
    obtain ⟨l, hl⟩ := ihl (fun tok ht => hnum tok (by simp [ht]))
    obtain ⟨r, hr⟩ := ihr (fun tok ht => hnum tok (by simp [ht]))
    exact ⟨_, Produces.termOp ts op fs l r hl hop hr⟩
  | exprTerm ts _ ih =>
    obtain ⟨e, he⟩ := ih hnum
    exact ⟨_, Produces.exprTerm ts e he⟩
  | exprOp ts op fs _ hop _ ihl ihr =>
    obtain ⟨l, hl⟩ := ihl (fun tok ht => hnum tok (by simp [ht]))
    obtain ⟨r, hr⟩ := ihr (fun tok ht => hnum tok (by simp [ht]))
    exact ⟨_, Produces.exprOp ts op fs l r hl hop hr⟩
  | printStmt kw lp rp semi ts h1 h2 h3 h4 _ ih =>
    obtain ⟨e, he⟩ := ih (fun tok ht => hnum tok (by simp [ht]))
    exact ⟨_, Produces.printStmt kw lp rp semi ts e h1 h2 h3 h4 he⟩
  | assignStmt id eq semi ts h1 h2 h3 _ ih =>
    obtain ⟨e, he⟩ := ih (fun tok ht => hnum tok (by simp [ht]))
    exact ⟨_, Produces.assignStmt id eq semi ts e h1 h2 h3 he⟩

theorem produces_term_chain (c : Chain) : ∀ (ts : List Token) (l : ASTNode),
    Produces .term ts l → (∀ x ∈ c, x.1.isMulOp ∧ Produces .factor x.2.1 x.2.2) →
    Produces .term (ts ++ chainTokens c) (leftFold l c) := by
  induction c with
  | nil => intro ts l h _; simpa [chainTokens, leftFold] using h
  | cons x c ih =>
    intro ts l h hc
    have hx := hc x (List.mem_cons_self _ _)
    have h1 := ih (ts ++ x.1 :: x.2.1) (ASTNode.BinaryOp x.1.lexeme l x.2.2)
      (Produces.termOp ts x.1 x.2.1 l x.2.2 h hx.1 hx.2)
      (fun y hy => hc y (List.mem_cons_of_mem _ hy))
    simpa [chainTokens, leftFold] using h1

theorem produces_expression_chain (c : Chain) : ∀ (ts : List Token) (l : ASTNode),
    Produces .expression ts l → (∀ x ∈ c, x.1.isAddOp ∧ Produces .factor x.2.1 x.2.2) →
    Produces .expression (ts ++ chainTokens c) (leftFold l c) := by
  induction c with
  | nil => intro ts l h _; simpa [chainTokens, leftFold] using h
  | cons x c ih =>
    intro ts l h hc
    have hx := hc x (List.mem_cons_self _ _)
    have h1 := ih (ts ++ x.1 :: x.2.1) (ASTNode.BinaryOp x.1.lexeme l x.2.2)
      (Produces.exprOp ts x.1 x.2.1 l x.2.2 h hx.1 (Produces.termFactor _ _ hx.2))
      (fun y hy => hc y (List.mem_cons_of_mem _ hy))
    simpa [chainTokens, leftFold] using h1

theorem produces_chain {f0 : List Token} {t0 : ASTNode} {c : Chain}
    (h0 : Produces .factor f0 t0) (hc : ∀ x ∈ c, Produces .factor x.2.1 x.2.2)
    (hops : (∀ x ∈ c, x.1.isAddOp) ∨ (∀ x ∈ c, x.1.isMulOp)) :
    Produces .expression (f0 ++ chainTokens c) (leftFold t0 c) := by
  rcases hops with hops | hops
  · exact produces_expression_chain c f0 t0 (Produces.exprTerm _ _ (Produces.termFactor _ _ h0))
      (fun x hx => ⟨hops x hx, hc x hx⟩)
  · exact Produces.exprTerm _ _ (produces_term_chain c f0 t0 (Produces.termFactor _ _ h0)
      (fun x hx => ⟨hops x hx, hc x hx⟩))

theorem parse_print_of_produces {ts : List Token} {e : ASTNode}
    (h : Produces .expression ts e) (kw lp rp semi eof : Token)
    (hkw : kw.type = TokenType.PRINT) (hlp : lp.type = TokenType.LPAREN)
    (hrp : rp.type = TokenType.RPAREN) (hsemi : semi.type = TokenType.SEMICOLON)
    (heof : eof.type = TokenType.END_OF_FILE) :
    parse (kw :: lp :: (ts ++ [rp, semi, eof])) = .ok [ASTNode.Print e] := by
  have h1 := parse_of_produces (Produces.printStmt kw lp rp semi ts e hkw hlp hrp hsemi h) eof heof
  simpa using h1

/-- C1: for operands `fa`, `fb`, `fc` that the grammar makes factors with trees `ta`, `tb`,
`tc` (number and identifier tokens among them), the tokens of `fa + fb * fc` parse to
`BinaryOp(+, ta, BinaryOp(*, tb, tc))` and the tokens of `(fa + fb) * fc` parse to
`BinaryOp(*, BinaryOp(+, ta, tb), tc)`, both as the expression of a print statement given to
`parse` and wherever `expression` is called on them in front of a token that is not an
operator; and a fresh session prints 14 for `print(2 + 3 * 4);` and 20 for
`print((2 + 3) * 4);`. -/
theorem operator_precedence (fa fb fc : List Token) (ta tb tc : ASTNode)
    (plus star lp rp kw semi eof : Token)
    (ha : Produces .factor fa ta) (hb : Produces .factor fb tb) (hc : Produces .factor fc tc)
    (hplus : plus.type = TokenType.PLUS ∧ plus.lexeme = "+")
    (hstar : star.type = TokenType.MULTIPLY ∧ star.lexeme = "*")
    (hlp : lp.type = TokenType.LPAREN) (hrp : rp.type = TokenType.RPAREN)
    (hkw : kw.type = TokenType.PRINT) (hsemi : semi.type = TokenType.SEMICOLON)
    (heof : eof.type = TokenType.END_OF_FILE) :
    parse (kw :: lp :: ((fa ++ plus :: (fb ++ star :: fc)) ++ [rp, semi, eof])) =
      .ok [ASTNode.Print (ASTNode.BinaryOp "+" ta (ASTNode.BinaryOp "*" tb tc))] ∧
    parse (kw :: lp :: ((lp :: (fa ++ plus :: fb) ++ [rp]) ++ star :: fc ++ [rp, semi, eof])) =
      .ok [ASTNode.Print (ASTNode.BinaryOp "*" (ASTNode.BinaryOp "+" ta tb) tc)] ∧
    (∀ n rest, (fa ++ plus :: (fb ++ star :: fc)).length ≤ n → rest ≠ [] →
      ¬ (current rest).isMulOp → ¬ (current rest).isAddOp →
      expression (n + 1) ((fa ++ plus :: (fb ++ star :: fc)) ++ rest) =
        .ok (ASTNode.BinaryOp "+" ta (ASTNode.BinaryOp "*" tb tc), rest)) ∧
    (∀ n rest, ((lp :: (fa ++ plus :: fb) ++ [rp]) ++ star :: fc).length ≤ n → rest ≠ [] →
      ¬ (current rest).isMulOp → ¬ (current rest).isAddOp →
      expression (n + 1) (((lp :: (fa ++ plus :: fb) ++ [rp]) ++ star :: fc) ++ rest) =
        .ok (ASTNode.BinaryOp "*" (ASTNode.BinaryOp "+" ta tb) tc, rest)) ∧
    (REPL.new.evaluateLine "print(2 + 3 * 4);").2 = ⟨[14], none, none, false⟩ ∧
    (REPL.new.evaluateLine "print((2 + 3) * 4);").2 = ⟨[20], none, none, false⟩ := by
  have hmul : star.isMulOp := Or.inl hstar.1
  have hadd : plus.isAddOp := Or.inl hplus.1
  have h1 : Produces .expression (fa ++ plus :: (fb ++ star :: fc))
      (ASTNode.BinaryOp "+" ta (ASTNode.BinaryOp "*" tb tc)) := by
    have := Produces.exprOp fa plus (fb ++ star :: fc) ta _
      (Produces.exprTerm _ _ (Produces.termFactor _ _ ha)) hadd
      (Produces.termOp fb star fc tb tc (Produces.termFactor _ _ hb) hmul hc)
    rw [hplus.2, hstar.2] at this
    exact this
  have h2 : Produces .expression ((lp :: (fa ++ plus :: fb) ++ [rp]) ++ star :: fc)
      (ASTNode.BinaryOp "*" (ASTNode.BinaryOp "+" ta tb) tc) := by
    have hp := Produces.paren lp rp (fa ++ plus :: fb) _ hlp hrp
      (Produces.exprOp fa plus fb ta tb (Produces.exprTerm _ _ (Produces.termFactor _ _ ha))
        hadd (Produces.termFactor _ _ hb))
    have := Produces.exprTerm _ _
      (Produces.termOp _ star fc _ tc (Produces.termFactor _ _ hp) hmul hc)
    rw [hplus.2, hstar.2] at this
    exact this
  refine ⟨parse_print_of_produces h1 kw lp rp semi eof hkw hlp hrp hsemi heof, ?_, ?_, ?_, ?_, ?_⟩
  · have := parse_print_of_produces h2 kw lp rp semi eof hkw hlp hrp hsemi heof
    simpa using this
  · intro n rest hn hrest hm hadd'
    exact expression_of_produces h1 hn hrest hm hadd'
  · intro n rest hn hrest hm hadd'
    exact expression_of_produces h2 hn hrest hm hadd'
  · decide!
  · decide!

theorem operator_precedence_witness :
    parse [⟨.PRINT, "print", 1, 1⟩, ⟨.LPAREN, "(", 1, 6⟩, ⟨.IDENTIFIER, "a", 1, 7⟩,
        ⟨.PLUS, "+", 1, 9⟩, ⟨.NUMBER, "3", 1, 11⟩, ⟨.MULTIPLY, "*", 1, 13⟩,
        ⟨.IDENTIFIER, "c", 1, 15⟩, ⟨.RPAREN, ")", 1, 16⟩, ⟨.SEMICOLON, ";", 1, 17⟩,
        ⟨.END_OF_FILE, "", 1, 18⟩] =
      .ok [ASTNode.Print (ASTNode.BinaryOp "+" (ASTNode.Identifier "a")
        (ASTNode.BinaryOp "*" (ASTNode.Number 3) (ASTNode.Identifier "c")))] :=
  (operator_precedence [⟨.IDENTIFIER, "a", 1, 7⟩] [⟨.NUMBER, "3", 1, 11⟩]
    [⟨.IDENTIFIER, "c", 1, 15⟩] _ _ _ ⟨.PLUS, "+", 1, 9⟩ ⟨.MULTIPLY, "*", 1, 13⟩
    ⟨.LPAREN, "(", 1, 6⟩ ⟨.RPAREN, ")", 1, 16⟩ ⟨.PRINT, "print", 1, 1⟩
    ⟨.SEMICOLON, ";", 1, 17⟩ ⟨.END_OF_FILE, "", 1, 18⟩
    (Produces.identifier _ rfl) (Produces.number _ 3 rfl (by decide!) (by decide!))
    (Produces.identifier _ rfl) ⟨rfl, rfl⟩ ⟨rfl, rfl⟩ rfl rfl rfl rfl rfl).1

/-- C2: for a first operand `f0` and a chain `op1 f1 ... opn fn` of factors joined by
operators of one precedence level (all `+`/`-`, or all `*`/`/`), the parser returns the left
fold `BinaryOp(opn, ... BinaryOp(op1, t0, t1) ..., tn)`, each node labelled by the lexeme of
its operator token, both for the expression of a print statement given to `parse` and
wherever `expression` is called on the chain in front of a token that is not an operator;
and a fresh session prints 3 for `print(8 - 3 - 2);`. -/
theorem left_associativity (f0 : List Token) (t0 : ASTNode) (c : Chain)
    (kw lp rp semi eof : Token)
    (h0 : Produces .factor f0 t0) (hc : ∀ x ∈ c, Produces .factor x.2.1 x.2.2)
    (hops : (∀ x ∈ c, x.1.isAddOp) ∨ (∀ x ∈ c, x.1.isMulOp))
    (hkw : kw.type = TokenType.PRINT) (hlp : lp.type = TokenType.LPAREN)
    (hrp : rp.type = TokenType.RPAREN) (hsemi : semi.type = TokenType.SEMICOLON)
    (heof : eof.type = TokenType.END_OF_FILE) :
    parse (kw :: lp :: ((f0 ++ chainTokens c) ++ [rp, semi, eof])) =
      .ok [ASTNode.Print (leftFold t0 c)] ∧
    (∀ n rest, (f0 ++ chainTokens c).length ≤ n → rest ≠ [] →
      ¬ (current rest).isMulOp → ¬ (current rest).isAddOp →
      expression (n + 1) ((f0 ++ chainTokens c) ++ rest) = .ok (leftFold t0 c, rest)) ∧
    (REPL.new.evaluateLine "print(8 - 3 - 2);").2 = ⟨[3], none, none, false⟩ := by
  have h := produces_chain h0 hc hops
  refine ⟨parse_print_of_produces h kw lp rp semi eof hkw hlp hrp hsemi heof, ?_, ?_⟩
  · intro n rest hn hrest hm hadd
    exact expression_of_produces h hn hrest hm hadd
  · decide!

theorem left_associativity_witness :
    parse [⟨.PRINT, "print", 1, 1⟩, ⟨.LPAREN, "(", 1, 6⟩, ⟨.NUMBER, "8", 1, 7⟩,
        ⟨.MINUS, "-", 1, 9⟩, ⟨.NUMBER, "3", 1, 11⟩, ⟨.MINUS, "-", 1, 13⟩,
        ⟨.NUMBER, "2", 1, 15⟩, ⟨.RPAREN, ")", 1, 16⟩, ⟨.SEMICOLON, ";", 1, 17⟩,
        ⟨.END_OF_FILE, "", 1, 18⟩] =
      .ok [ASTNode.Print (ASTNode.BinaryOp "-"
        (ASTNode.BinaryOp "-" (ASTNode.Number 8) (ASTNode.Number 3)) (ASTNode.Number 2))] :=
  (left_associativity [⟨.NUMBER, "8", 1, 7⟩] (ASTNode.Number 8)
    [(⟨.MINUS, "-", 1, 9⟩, [⟨.NUMBER, "3", 1, 11⟩], ASTNode.Number 3),
     (⟨.MINUS, "-", 1, 13⟩, [⟨.NUMBER, "2", 1, 15⟩], ASTNode.Number 2)]
    ⟨.PRINT, "print", 1, 1⟩ ⟨.LPAREN, "(", 1, 6⟩ ⟨.RPAREN, ")", 1, 16⟩
    ⟨.SEMICOLON, ";", 1, 17⟩ ⟨.END_OF_FILE, "", 1, 18⟩
    (Produces.number _ 8 rfl (by decide!) (by decide!))
    (by
      intro x hx
      simp only [List.mem_cons, List.mem_singleton, List.not_mem_nil, or_false] at hx
      rcases hx with rfl | rfl
      · exact Produces.number _ 3 rfl (by decide!) (by decide!)
      · exact Produces.number _ 2 rfl (by decide!) (by decide!))
    (Or.inl (by
      intro x hx
      simp only [List.mem_cons, List.mem_singleton, List.not_mem_nil, or_false] at hx
      rcases hx with rfl | rfl <;> exact Or.inr rfl))
    rfl rfl rfl rfl rfl).1

/-! ## Numerals of the tokenizer: the numeric prefix and the range -/

theorem isdigit_not_isspace {c : Char} (h : isdigit c = true) : isspace c = false := by
  simp only [isdigit, Bool.and_eq_true, decide_eq_true_eq] at h
  simp only [isspace, Bool.or_eq_false_iff, Bool.and_eq_false_iff, decide_eq_false_iff_not]
  omega

theorem stodSign_of_digit {c : Char} (cs : List Char) (h : isdigit c = true) :
    stodSign (c :: cs) = (false, c :: cs) := by
  have h1 : c ≠ '-' := by rintro rfl; revert h; decide
  have h2 : c ≠ '+' := by rintro rfl; revert h; decide
  unfold stodSign
  split
  · rename_i heq; cases heq; exact absurd rfl h1
  · rename_i heq; cases heq; exact absurd rfl h2
  · rfl

theorem stod_of_digit_head {c : Char} (cs : List Char) (h : isdigit c = true) :
    stod (String.mk (c :: cs)) ≠ none := by
  have hsp := isdigit_not_isspace h
  have h1 : (String.mk (c :: cs)).toList.dropWhile isspace = c :: cs := by
    simp [String.toList, List.dropWhile, hsp]
  unfold stod
  rw [h1, stodSign_of_digit cs h]
  simp [List.takeWhile, h]

theorem scanWhile_head (p : Char → Bool) {c : Char} (cs : List Char) (line column : Nat)
    (h : p c = true) : ∃ ds, (scanWhile p (c :: cs) line column).1 = c :: ds := by
  simp [scanWhile, h]

theorem number_lexeme_converts (lx : Lexer) (ch : Char) (cs : List Char)
    (hrest : lx.rest = ch :: cs) (hd : isdigit ch = true) :
    stod lx.number.1.lexeme ≠ none := by
  obtain ⟨ds, hds⟩ := scanWhile_head (fun c => isdigit c || c = '.') cs lx.line lx.column
    (show (isdigit ch || decide (ch = '.')) = true by simp [hd])
  have : lx.number.1.lexeme = String.mk (ch :: ds) := by
    simp [Lexer.number, hrest, hds]
  rw [this]
  exact stod_of_digit_head ds hd

theorem punctuation_ne_number {ch : Char} {ty : TokenType} (h : punctuation ch = some ty) :
    ty ≠ TokenType.NUMBER := by
  unfold punctuation at h
  repeat' split at h
  all_goals first
    | (cases h; decide)
    | (exact absurd h (by simp))

theorem tokenize_numbers_convert {source : String} {toks : List Token}
    (h : tokenize source = .ok toks) :
    ∀ tok ∈ toks, tok.type = TokenType.NUMBER → stod tok.lexeme ≠ none := by
  obtain ⟨init, eof, rfl, heof, _, hall⟩ :=
    tokenizeLoop_all (fun t => t.type = TokenType.NUMBER → stod t.lexeme ≠ none)
      (fun lx ch cs hrest hd _ => number_lexeme_converts lx ch cs hrest hd)
      (fun lx hty => by
        rcases identifier_type lx with h1 | h1 <;> rw [h1] at hty <;> cases hty)
      (fun ch ty line col hty hnum => absurd hnum (punctuation_ne_number hty))
      _ _ [] toks (by simp) h
  intro tok htok hnum
  rcases List.mem_append.1 htok with ht | ht
  · exact hall tok ht hnum
  · simp only [List.mem_singleton] at ht
    subst ht
    rw [heof] at hnum
    cases hnum

/-- The numerals of a source text are converted by the parser when they are within the range
of `double`: each of them has a numeric prefix. -/
theorem tokenize_numbers_in_range {source : String} {toks : List Token}
    (h : tokenize source = .ok toks)
    (hrange : ∀ tok ∈ toks, tok.type = TokenType.NUMBER →
      ∀ v, stod tok.lexeme = some v → ¬ rangeError v) : numbersConvert toks := by
  intro tok htok hnum
  obtain ⟨v, hv⟩ := Option.ne_none_iff_exists'.1 (tokenize_numbers_convert h tok htok hnum)
  exact ⟨v, hv, hrange tok htok hnum v hv⟩

/-- C3 (as amended): for every token sequence `ts` derivable from the `statement`
production and followed by an end-of-input token, if the lexeme of every NUMBER token of
`ts` is a text that `std::stod` converts to a value within the range of `double`, then
`statement` returns one tree having consumed exactly `ts` (the end-of-input token is what
remains) and `parse` returns exactly that one tree; and whenever `tokenize` turns a source
string into such a sequence, `parse` succeeds on the tokenizer's output as soon as the
numerals are within the range of `double`, because every numeral of the tokenizer begins
with a digit. -/
theorem grammar_completeness (ts : List Token) (eof : Token)
    (hd : Derives .statement ts) :
    (eof.type = TokenType.END_OF_FILE → numbersConvert ts →
      ∃ tree, Produces .statement ts tree ∧
        statement ((ts ++ [eof]).length + 1) (ts ++ [eof]) = .ok (tree, [eof]) ∧
        parse (ts ++ [eof]) = .ok [tree]) ∧
    (∀ source : String, tokenize source = .ok (ts ++ [eof]) →
      (∀ tok ∈ ts, tok.type = TokenType.NUMBER →
        ∀ v, stod tok.lexeme = some v → ¬ rangeError v) →
      ∃ tree, (tokenize source).bind parse = .ok [tree]) := by
  constructor
  · intro heof hnum
    obtain ⟨tree, ht⟩ := derives_produces hd hnum
    exact ⟨tree, ht, statement_of_produces ht (by simp; omega) (by simp),
      parse_of_produces ht eof heof⟩
  · intro source hs hrange
    have hconv := tokenize_numbers_convert hs
    have hnum : numbersConvert ts := by
      intro tok htok hty
      obtain ⟨v, hv⟩ := Option.ne_none_iff_exists'.1 (hconv tok (by simp [htok]) hty)
      exact ⟨v, hv, hrange tok htok hty v hv⟩
    obtain ⟨init, e, hsplit, he, _, _⟩ := tokenizeLoop_shape _ _ _ hs
    have heof : eof.type = TokenType.END_OF_FILE := by
      have := List.append_inj' hsplit (by simp)
      have h2 : [eof] = [e] := this.2
      cases h2
      exact he
    obtain ⟨tree, ht⟩ := derives_produces hd hnum
    refine ⟨tree, ?_⟩
    rw [hs]
    exact parse_of_produces ht eof heof

theorem derives_sample :
    Derives .statement [⟨.IDENTIFIER, "x", 1, 1⟩, ⟨.ASSIGN, "=", 1, 3⟩, ⟨.LPAREN, "(", 1, 5⟩,
      ⟨.NUMBER, "1", 1, 6⟩, ⟨.PLUS, "+", 1, 8⟩, ⟨.IDENTIFIER, "y", 1, 10⟩,
      ⟨.RPAREN, ")", 1, 11⟩, ⟨.MULTIPLY, "*", 1, 13⟩, ⟨.NUMBER, "2", 1, 15⟩,
      ⟨.SEMICOLON, ";", 1, 16⟩] :=
  Derives.assignStmt ⟨.IDENTIFIER, "x", 1, 1⟩ ⟨.ASSIGN, "=", 1, 3⟩ ⟨.SEMICOLON, ";", 1, 16⟩
    _ rfl rfl rfl
    (Derives.exprTerm _
      (Derives.termOp [⟨.LPAREN, "(", 1, 5⟩, ⟨.NUMBER, "1", 1, 6⟩, ⟨.PLUS, "+", 1, 8⟩,
          ⟨.IDENTIFIER, "y", 1, 10⟩, ⟨.RPAREN, ")", 1, 11⟩]
        ⟨.MULTIPLY, "*", 1, 13⟩ [⟨.NUMBER, "2", 1, 15⟩]
        (Derives.termFactor _
          (Derives.paren ⟨.LPAREN, "(", 1, 5⟩ ⟨.RPAREN, ")", 1, 11⟩
            [⟨.NUMBER, "1", 1, 6⟩, ⟨.PLUS, "+", 1, 8⟩, ⟨.IDENTIFIER, "y", 1, 10⟩] rfl rfl
            (Derives.exprOp [⟨.NUMBER, "1", 1, 6⟩] ⟨.PLUS, "+", 1, 8⟩
              [⟨.IDENTIFIER, "y", 1, 10⟩]
              (Derives.exprTerm _ (Derives.termFactor _ (Derives.number _ rfl)))
              (Or.inl rfl)
              (Derives.termFactor _ (Derives.identifier _ rfl)))))
        (Or.inl rfl) (Derives.number _ rfl)))

theorem numbersConvert_sample :
    numbersConvert [⟨.IDENTIFIER, "x", 1, 1⟩, ⟨.ASSIGN, "=", 1, 3⟩, ⟨.LPAREN, "(", 1, 5⟩,
      ⟨.NUMBER, "1", 1, 6⟩, ⟨.PLUS, "+", 1, 8⟩, ⟨.IDENTIFIER, "y", 1, 10⟩,
      ⟨.RPAREN, ")", 1, 11⟩, ⟨.MULTIPLY, "*", 1, 13⟩, ⟨.NUMBER, "2", 1, 15⟩,
      ⟨.SEMICOLON, ";", 1, 16⟩] := by
  intro tok htok hty
  simp only [List.mem_cons, List.mem_singleton, List.not_mem_nil, or_false] at htok
  rcases htok with rfl | rfl | rfl | rfl | rfl | rfl | rfl | rfl | rfl | rfl
  all_goals first
    | exact absurd hty (by decide)
    | exact ⟨1, by decide!, by decide!⟩
    | exact ⟨2, by decide!, by decide!⟩

theorem grammar_completeness_witness :
    (∃ tree, Produces .statement [⟨.IDENTIFIER, "x", 1, 1⟩, ⟨.ASSIGN, "=", 1, 3⟩,
        ⟨.LPAREN, "(", 1, 5⟩, ⟨.NUMBER, "1", 1, 6⟩, ⟨.PLUS, "+", 1, 8⟩,
        ⟨.IDENTIFIER, "y", 1, 10⟩, ⟨.RPAREN, ")", 1, 11⟩, ⟨.MULTIPLY, "*", 1, 13⟩,
        ⟨.NUMBER, "2", 1, 15⟩, ⟨.SEMICOLON, ";", 1, 16⟩] tree ∧
      statement 12 [⟨.IDENTIFIER, "x", 1, 1⟩, ⟨.ASSIGN, "=", 1, 3⟩,
        ⟨.LPAREN, "(", 1, 5⟩, ⟨.NUMBER, "1", 1, 6⟩, ⟨.PLUS, "+", 1, 8⟩,
        ⟨.IDENTIFIER, "y", 1, 10⟩, ⟨.RPAREN, ")", 1, 11⟩, ⟨.MULTIPLY, "*", 1, 13⟩,
        ⟨.NUMBER, "2", 1, 15⟩, ⟨.SEMICOLON, ";", 1, 16⟩, ⟨.END_OF_FILE, "", 1, 17⟩] =
        .ok (tree, [⟨.END_OF_FILE, "", 1, 17⟩]) ∧
      parse [⟨.IDENTIFIER, "x", 1, 1⟩, ⟨.ASSIGN, "=", 1, 3⟩,
        ⟨.LPAREN, "(", 1, 5⟩, ⟨.NUMBER, "1", 1, 6⟩, ⟨.PLUS, "+", 1, 8⟩,
        ⟨.IDENTIFIER, "y", 1, 10⟩, ⟨.RPAREN, ")", 1, 11⟩, ⟨.MULTIPLY, "*", 1, 13⟩,
        ⟨.NUMBER, "2", 1, 15⟩, ⟨.SEMICOLON, ";", 1, 16⟩, ⟨.END_OF_FILE, "", 1, 17⟩] =
        .ok [tree]) ∧
    ∃ tree, (tokenize "x = (1 + y) * 2;").bind parse = .ok [tree] :=
  ⟨(grammar_completeness _ ⟨.END_OF_FILE, "", 1, 17⟩ derives_sample).1 rfl
      numbersConvert_sample,
   (grammar_completeness _ ⟨.END_OF_FILE, "", 1, 17⟩ derives_sample).2
      "x = (1 + y) * 2;" (by rfl)
      (fun tok htok hty v hv => by
        obtain ⟨w, hw, hr⟩ := numbersConvert_sample tok htok hty
        rw [hw] at hv
        cases hv
        exact hr)⟩

set_option maxRecDepth 100000 in
theorem tokenize_longNumeral :
    tokenize longNumeralStatement = .ok [⟨.IDENTIFIER, "x", 1, 1⟩, ⟨.ASSIGN, "=", 1, 3⟩,
      ⟨.NUMBER, longNumeral, 1, 5⟩, ⟨.SEMICOLON, ";", 1, 406⟩,
      ⟨.END_OF_FILE, "", 1, 407⟩] := by
  with_unfolding_all rfl

set_option maxRecDepth 100000 in
theorem stod_longNumeral : ∃ v, stod longNumeral = some v ∧ rangeError v :=
  ⟨_, by with_unfolding_all rfl, by decide!⟩

set_option maxRecDepth 100000 in
theorem evaluateLine_longNumeralStatement :
    (REPL.new.evaluateLine longNumeralStatement).2 =
      ⟨[], some (Diagnostic.exception Fault.outOfRange), none, false⟩ := by
  with_unfolding_all rfl

set_option maxRecDepth 100000 in
theorem parse_longNumeral :
    parse [⟨.IDENTIFIER, "x", 1, 1⟩, ⟨.ASSIGN, "=", 1, 3⟩,
      ⟨.NUMBER, longNumeral, 1, 5⟩, ⟨.SEMICOLON, ";", 1, 406⟩,
      ⟨.END_OF_FILE, "", 1, 407⟩] = .error Fault.outOfRange := by
  with_unfolding_all rfl

/-- C3, as stated, fails: the source text `x = 1000...0;`, whose numeral is 1 followed by
400 zeros, is tokenized into the sequence `x = NUMBER ;` and the end-of-input token; the
sequence is derivable from `statement`; the numeral writes a value beyond the range of
`double`; `parse` fails on the tokenizer's output with the range error of `std::stod`; and
that error is the diagnostic of the cycle of this line. -/
theorem grammar_completeness_counterexample :
    tokenize longNumeralStatement = .ok ([⟨.IDENTIFIER, "x", 1, 1⟩, ⟨.ASSIGN, "=", 1, 3⟩,
      ⟨.NUMBER, longNumeral, 1, 5⟩, ⟨.SEMICOLON, ";", 1, 406⟩] ++
      [⟨.END_OF_FILE, "", 1, 407⟩]) ∧
    Derives .statement [⟨.IDENTIFIER, "x", 1, 1⟩, ⟨.ASSIGN, "=", 1, 3⟩,
      ⟨.NUMBER, longNumeral, 1, 5⟩, ⟨.SEMICOLON, ";", 1, 406⟩] ∧
    (∃ v, stod longNumeral = some v ∧ rangeError v) ∧
    parse ([⟨.IDENTIFIER, "x", 1, 1⟩, ⟨.ASSIGN, "=", 1, 3⟩,
      ⟨.NUMBER, longNumeral, 1, 5⟩, ⟨.SEMICOLON, ";", 1, 406⟩] ++
      [⟨.END_OF_FILE, "", 1, 407⟩]) = .error Fault.outOfRange ∧
    (tokenize longNumeralStatement).bind parse = .error Fault.outOfRange ∧
    (REPL.new.evaluateLine longNumeralStatement).2 =
      ⟨[], some (Diagnostic.exception Fault.outOfRange), none, false⟩ :=
  ⟨tokenize_longNumeral,
   Derives.assignStmt ⟨.IDENTIFIER, "x", 1, 1⟩ ⟨.ASSIGN, "=", 1, 3⟩ ⟨.SEMICOLON, ";", 1, 406⟩
      [⟨.NUMBER, longNumeral, 1, 5⟩] rfl rfl rfl
      (Derives.exprTerm _ (Derives.termFactor _ (Derives.number _ rfl))),
   stod_longNumeral, parse_longNumeral,
   by rw [tokenize_longNumeral]; exact parse_longNumeral,
   evaluateLine_longNumeralStatement⟩

/-! ## Semantic checker -/

theorem analyzeExpression_spec (t : SymbolTable) (ht : t.oneTyped) :
    ∀ e : ASTNode, e.isExpression →
      ((∀ x ∈ e.identifiers, t.isDefined x = true) ∧ analyzeExpression t e = .ok "number") ∨
      (∃ x ∈ e.identifiers, t.isDefined x = false ∧
        analyzeExpression t e = .error (Fault.undefinedVariable x)) := by
  intro e
  induction e with
  | Number v => intro _; left; simp [ASTNode.identifiers, analyzeExpression]
  | Identifier name =>
    intro _
    cases hs : t.symbols name with
    | none =>
      right
      exact ⟨name, by simp [ASTNode.identifiers],
        by simp [SymbolTable.isDefined, hs], by simp [analyzeExpression, SymbolTable.isDefined, hs]⟩
    | some ty =>
      left
      have hty := ht name ty hs
      subst hty
      exact ⟨by simp [ASTNode.identifiers, SymbolTable.isDefined, hs],
        by simp [analyzeExpression, SymbolTable.isDefined, SymbolTable.getType, hs]⟩
  | BinaryOp op l r ihl ihr =>
    intro he
    rcases ihl he.1 with ⟨hl, hlo⟩ | ⟨x, hx, hxd, hxe⟩
    · rcases ihr he.2 with ⟨hr, hro⟩ | ⟨x, hx, hxd, hxe⟩
      · left
        refine ⟨?_, by simp [analyzeExpression, hlo, hro]⟩
        intro x hx
        simp only [ASTNode.identifiers, List.mem_append] at hx
        rcases hx with hx | hx
        · exact hl x hx
        · exact hr x hx
      · right
        exact ⟨x, by simp [ASTNode.identifiers, hx], hxd, by simp [analyzeExpression, hlo, hxe]⟩
    · right
      exact ⟨x, by simp [ASTNode.identifiers, hx], hxd, by simp [analyzeExpression, hxe]⟩
  | Assignment v e _ => intro he; exact absurd he (by simp [ASTNode.isExpression])
  | Print e _ => intro he; exact absurd he (by simp [ASTNode.isExpression])

/-- C4: for a symbol table `t` of the specification (every entry typed "number"), a name
`v` and an expression tree `e`: the check of `Assignment(v, e)` succeeds exactly when every
identifier of `e` has an entry in `t`; when it succeeds the table afterwards is `t` with `v`
mapped to "number"; when it fails the fault is the undefined-variable error of an identifier
of `e` missing from `t`.  So `x = x + 1;` fails on a table without `x`, `y = x + 1;` fails
on the empty table, and a fresh session given `x = 5; y = x + 1; print(y);` (on one line,
or as three lines) reports nothing and prints 6. -/
theorem definition_before_use (t : SymbolTable) (v : String) (e : ASTNode)
    (ht : t.oneTyped) (he : e.isExpression) :
    ((∃ t1, analyzeStatement t (ASTNode.Assignment v e) = .ok t1) ↔
      ∀ x ∈ e.identifiers, t.isDefined x = true) ∧
    (∀ t1, analyzeStatement t (ASTNode.Assignment v e) = .ok t1 → t1 = t.define v "number") ∧
    (∀ f, analyzeStatement t (ASTNode.Assignment v e) = .error f →
      ∃ x ∈ e.identifiers, t.isDefined x = false ∧ f = Fault.undefinedVariable x) ∧
    (t.isDefined "x" = false →
      analyzeStatement t (ASTNode.Assignment "x"
        (ASTNode.BinaryOp "+" (ASTNode.Identifier "x") (ASTNode.Number 1))) =
        .error (Fault.undefinedVariable "x")) ∧
    (do let toks ← tokenize "y = x + 1;"
        let stmts ← parse toks
        pure (analyze SymbolTable.empty stmts).2) =
      .ok (some (Fault.undefinedVariable "x")) ∧
    (REPL.new.evaluateLine "x = 5; y = x + 1; print(y);").2 = ⟨[6], none, none, false⟩ ∧
    (REPL.new.evaluateLines ["x = 5;", "y = x + 1;", "print(y);"]).2 =
      [⟨[], none, none, false⟩, ⟨[], none, none, false⟩, ⟨[6], none, none, false⟩] := by
  refine ⟨?_, ?_, ?_, ?_, by with_unfolding_all rfl, by decide!, by decide!⟩
  · rcases analyzeExpression_spec t ht e he with ⟨hall, hok⟩ | ⟨x, hx, hxd, hxe⟩
    · simp only [analyzeStatement, hok]
      exact ⟨fun _ => hall, fun _ => ⟨_, rfl⟩⟩
    · simp only [analyzeStatement, hxe]
      constructor
      · rintro ⟨t1, h1⟩; cases h1
      · intro hall
        have := hall x hx
        rw [hxd] at this
        cases this
  · intro t1 h1
    rcases analyzeExpression_spec t ht e he with ⟨_, hok⟩ | ⟨x, _, _, hxe⟩
    · simp only [analyzeStatement, hok] at h1
      cases h1
      rfl
    · simp only [analyzeStatement, hxe] at h1
      cases h1
  · intro f h1
    rcases analyzeExpression_spec t ht e he with ⟨_, hok⟩ | ⟨x, hx, hxd, hxe⟩
    · simp only [analyzeStatement, hok] at h1
      cases h1
    · simp only [analyzeStatement, hxe] at h1
      cases h1
      exact ⟨x, hx, hxd, rfl⟩
  · intro hx
    simp [analyzeStatement, analyzeExpression, hx]

theorem definition_before_use_witness :
    ((∃ t1, analyzeStatement (SymbolTable.empty.define "x" "number")
        (ASTNode.Assignment "y" (ASTNode.BinaryOp "+" (ASTNode.Identifier "x")
          (ASTNode.Number 1))) = .ok t1) ↔
      ∀ x ∈ (ASTNode.BinaryOp "+" (ASTNode.Identifier "x") (ASTNode.Number 1)).identifiers,
        (SymbolTable.empty.define "x" "number").isDefined x = true) :=
  (definition_before_use (SymbolTable.empty.define "x" "number") "y"
    (ASTNode.BinaryOp "+" (ASTNode.Identifier "x") (ASTNode.Number 1))
    (by
      intro name type h
      simp only [SymbolTable.define, SymbolTable.empty] at h
      split at h
      · cases h; rfl
      · cases h)
    ⟨trivial, trivial⟩).1

/-! ## Rendered literals are always converted back -/

theorem digitChar_isdigit : ∀ d, d < 10 → isdigit (Nat.digitChar d) = true := by decide

theorem toDigitsCore_digits (fuel : Nat) : ∀ (n : Nat) (ds : List Char),
    (∀ c ∈ ds, isdigit c = true) → ∀ c ∈ Nat.toDigitsCore 10 fuel n ds, isdigit c = true := by
  induction fuel with
  | zero => intro n ds h; simpa [Nat.toDigitsCore] using h
  | succ fuel ih =>
    intro n ds h
    have hd : ∀ c ∈ Nat.digitChar (n % 10) :: ds, isdigit c = true := by
      intro c hc
      rcases List.mem_cons.1 hc with rfl | hc
      · exact digitChar_isdigit _ (Nat.mod_lt _ (by decide))
      · exact h c hc
    unfold Nat.toDigitsCore
    simp only
    split
    · exact hd
    · exact ih _ _ hd

theorem toDigitsCore_ne_nil (fuel : Nat) : ∀ (n : Nat) (ds : List Char),
    (fuel ≠ 0 ∨ ds ≠ []) → Nat.toDigitsCore 10 fuel n ds ≠ [] := by
  induction fuel with
  | zero =>
    intro n ds h
    rcases h with h | h
    · exact absurd rfl h
    · simpa [Nat.toDigitsCore] using h
  | succ fuel ih =>
    intro n ds _
    unfold Nat.toDigitsCore
    simp only
    split
    · simp
    · exact ih _ _ (Or.inr (by simp))

theorem repr_head_digit (n : Nat) : ∃ c cs, (Nat.repr n).toList = c :: cs ∧ isdigit c = true := by
  have h1 : (Nat.repr n).toList = Nat.toDigitsCore 10 (n + 1) n [] := rfl
  have h2 := toDigitsCore_ne_nil (n + 1) n [] (Or.inl (by omega))
  have h3 := toDigitsCore_digits (n + 1) n [] (by simp)
  rw [h1]
  cases h : Nat.toDigitsCore 10 (n + 1) n [] with
  | nil => exact absurd h h2
  | cons c cs => exact ⟨c, cs, rfl, h3 c (by rw [h]; simp)⟩

theorem stod_of_minus_digit {c : Char} (cs : List Char) (h : isdigit c = true) :
    stod (String.mk ('-' :: c :: cs)) ≠ none := by
  have h1 : (String.mk ('-' :: c :: cs)).toList.dropWhile isspace = '-' :: c :: cs := by
    have : isspace '-' = false := by decide
    simp [String.toList, List.dropWhile, this]
  unfold stod
  rw [h1]
  simp [stodSign, List.takeWhile, h]

theorem stod_to_string (v : ℚ) : stod (to_string v) ≠ none := by
  obtain ⟨c, cs, hc, hd⟩ := repr_head_digit (roundHalfEven (|v| * 1000000) / 1000000)
  unfold to_string
  simp only [hc]
  split
  · exact stod_of_minus_digit _ hd
  · exact stod_of_digit_head _ hd

/-! ## Interpreter -/

theorem executeLoop_append (p : List Instruction) : ∀ (q : List Instruction) (m : Memory)
    (o : List ℚ) (m1 : Memory) (o1 : List ℚ),
    executeLoop p m o = ⟨m1, o1, none⟩ → executeLoop (p ++ q) m o = executeLoop q m1 o1 := by
  induction p with
  | nil =>
    intro q m o m1 o1 h
    simp only [executeLoop, ExecResult.mk.injEq] at h
    obtain ⟨rfl, rfl, _⟩ := h
    rfl
  | cons i p ih =>
    intro q m o m1 o1 h
    simp only [executeLoop, List.cons_append] at h ⊢
    cases hi : executeInstruction m o i with
    | error e => rw [hi] at h; simp at h
    | ok r =>
      rw [hi] at h
      exact ih q _ _ m1 o1 h

/-- C5 (as amended): if `p` runs without fault and is followed by a `/` instruction whose
left operand resolves, in the store `p` leaves, to some value and whose right operand
resolves there to exactly zero, then the run of `p ++ [inst] ++ q` stops with the
division-by-zero fault, whatever `q` is: the store at the fault is the store after `p`
alone and the values printed are those printed by `p`.  In particular a fresh session
given `print(5 / 0);` reports the division by zero and prints no value. -/
theorem division_fault (p q : List Instruction) (inst : Instruction) (left : ℚ)
    (hp : (run p).fault = none) (hop : inst.op = "/")
    (hl : resolve (run p).memory inst.arg1 = .ok left)
    (hr : resolve (run p).memory inst.arg2 = .ok 0) :
    run (p ++ [inst] ++ q) = ⟨(run p).memory, (run p).output, some Fault.divisionByZero⟩ ∧
    (REPL.new.evaluateLine "print(5 / 0);").2 =
      ⟨[], some (Diagnostic.exception Fault.divisionByZero), none, false⟩ := by
  refine ⟨?_, by decide!⟩
  have h1 : executeLoop p (fun _ => none) [] = ⟨(run p).memory, (run p).output, none⟩ := by
    have : run p = ⟨(run p).memory, (run p).output, (run p).fault⟩ := rfl
    rw [hp] at this
    exact this
  have h2 : executeInstruction (run p).memory (run p).output inst =
      .error Fault.divisionByZero := by
    have e1 : ¬ "/" = "=" := by decide
    have e2 : ¬ "/" = "print" := by decide
    have e3 : ¬ "/" = "+" := by decide
    have e4 : ¬ "/" = "-" := by decide
    have e5 : ¬ "/" = "*" := by decide
    simp [executeInstruction, hop, hl, hr, e1, e2, e3, e4, e5]
  show executeLoop (p ++ [inst] ++ q) (fun _ => none) [] = _
  rw [List.append_assoc, executeLoop_append p _ _ _ _ _ h1]
  simp [executeLoop, h2]

theorem division_fault_witness :
    run ([⟨"=", "7.000000", "", "x"⟩, ⟨"print", "x", "", ""⟩] ++
        [⟨"/", "x", "0.000000", "t0"⟩] ++ [⟨"print", "t0", "", ""⟩]) =
      ⟨(run [⟨"=", "7.000000", "", "x"⟩, ⟨"print", "x", "", ""⟩]).memory,
       (run [⟨"=", "7.000000", "", "x"⟩, ⟨"print", "x", "", ""⟩]).output,
       some Fault.divisionByZero⟩ :=
  (division_fault [⟨"=", "7.000000", "", "x"⟩, ⟨"print", "x", "", ""⟩]
    [⟨"print", "t0", "", ""⟩] ⟨"/", "x", "0.000000", "t0"⟩ 7
    (by with_unfolding_all rfl) rfl (by with_unfolding_all rfl) (by with_unfolding_all rfl)).1

/-- C5, as stated, fails: with nothing in front (`p = []`), the `/` instruction
`t0 = y / 0.000000` has a right operand that resolves to exactly zero, yet the run stops
with the `std::invalid_argument` of the left operand, which is resolved first, and not with
the division-by-zero fault.  The session `y = 1; print(z);` then `print(y / 0);` reaches
this program: the first line fails the check after `y` was entered in the symbol table. -/
theorem division_fault_counterexample :
    (run []).fault = none ∧
    resolve (run []).memory "0.000000" = .ok 0 ∧
    (run ([] ++ [⟨"/", "y", "0.000000", "t0"⟩] ++ [⟨"print", "t0", "", ""⟩])).fault =
      some Fault.invalidArgument ∧
    (REPL.new.evaluateLines ["y = 1; print(z);", "print(y / 0);"]).1.codegen.instructions =
      [⟨"/", "y", "0.000000", "t0"⟩, ⟨"print", "t0", "", ""⟩] ∧
    (REPL.new.evaluateLines ["y = 1; print(z);", "print(y / 0);"]).2 =
      [⟨[], some (Diagnostic.exception (Fault.undefinedVariable "z")), none, false⟩,
       ⟨[], some (Diagnostic.exception Fault.invalidArgument), none, false⟩] :=
  ⟨rfl, by with_unfolding_all rfl, by with_unfolding_all rfl, by with_unfolding_all rfl,
    by decide!⟩

/-! ## The generated program uses only names it has stored -/

theorem operandOK_mono {K K1 : List String} (h : ∀ x ∈ K, x ∈ K1) {a : String}
    (ha : OperandOK K a) : OperandOK K1 a :=
  ha.elim (fun hm => Or.inl (h a hm)) Or.inr

theorem keysAfterInst_mono {K K1 : List String} (h : ∀ x ∈ K, x ∈ K1) (i : Instruction) :
    ∀ x ∈ keysAfterInst K i, x ∈ keysAfterInst K1 i := by
  intro x hx
  unfold keysAfterInst at hx ⊢
  split
  · rename_i hp; rw [if_pos hp] at hx; exact h x hx
  · rename_i hp
    rw [if_neg hp] at hx
    rcases List.mem_cons.1 hx with rfl | hx
    · exact List.mem_cons_self _ _
    · exact List.mem_cons_of_mem _ (h x hx)

theorem keysAfterInst_subset (K : List String) (i : Instruction) :
    ∀ x ∈ K, x ∈ keysAfterInst K i := by
  intro x hx
  unfold keysAfterInst
  split
  · exact hx
  · exact List.mem_cons_of_mem _ hx

theorem keysAfter_mono (p : List Instruction) : ∀ {K K1 : List String},
    (∀ x ∈ K, x ∈ K1) → ∀ x ∈ keysAfter K p, x ∈ keysAfter K1 p := by
  induction p with
  | nil => intro K K1 h; simpa [keysAfter] using h
  | cons i p ih =>
    intro K K1 h
    simp only [keysAfter, List.foldl_cons]
    exact ih (keysAfterInst_mono h i)

theorem keysAfter_subset (p : List Instruction) : ∀ (K : List String),
    ∀ x ∈ K, x ∈ keysAfter K p := by
  induction p with
  | nil => intro K x hx; simpa [keysAfter] using hx
  | cons i p ih =>
    intro K x hx
    simp only [keysAfter, List.foldl_cons]
    exact ih _ x (keysAfterInst_subset K i x hx)

theorem keysAfter_append (K : List String) (p q : List Instruction) :
    keysAfter K (p ++ q) = keysAfter (keysAfter K p) q := by
  simp [keysAfter, List.foldl_append]

theorem closed_mono (p : List Instruction) : ∀ {K K1 : List String},
    (∀ x ∈ K, x ∈ K1) → Closed K p → Closed K1 p := by
  induction p with
  | nil => intro K K1 _ _; trivial
  | cons i p ih =>
    intro K K1 h hc
    exact ⟨operandOK_mono h hc.1, fun h1 h2 => operandOK_mono h (hc.2.1 h1 h2),
      ih (keysAfterInst_mono h i) hc.2.2⟩

theorem closed_append (p : List Instruction) : ∀ {K : List String} {q : List Instruction},
    Closed K p → Closed (keysAfter K p) q → Closed K (p ++ q) := by
  induction p with
  | nil => intro K q _ hq; simpa [keysAfter] using hq
  | cons i p ih =>
    intro K q hp hq
    exact ⟨hp.1, hp.2.1, ih hp.2.2 (by simpa [keysAfter] using hq)⟩

theorem generateExpression_closed (e : ASTNode) : ∀ (g : CodeGenerator) (K : List String),
    e.isExpression → e.opsValid → (∀ x ∈ e.identifiers, x ∈ K) →
    ∃ code, (generateExpression e g).2.instructions = g.instructions ++ code ∧
      Closed K code ∧ OperandOK (keysAfter K code) (generateExpression e g).1 := by
  induction e with
  | Number v =>
    intro g K _ _ _
    exact ⟨[], by simp [generateExpression], trivial, Or.inr ⟨v, rfl⟩⟩
  | Identifier name =>
    intro g K _ _ hid
    exact ⟨[], by simp [generateExpression], trivial,
      Or.inl (by simpa [keysAfter] using hid name (by simp [ASTNode.identifiers]))⟩
  | BinaryOp op l r ihl ihr =>
    intro g K he hops hid
    obtain ⟨cl, hcl, hclosedl, hokl⟩ := ihl g K he.1 hops.2.1
      (fun x hx => hid x (by simp [ASTNode.identifiers, hx]))
    obtain ⟨cr, hcr, hclosedr, hokr⟩ := ihr (generateExpression l g).2 K he.2 hops.2.2
      (fun x hx => hid x (by simp [ASTNode.identifiers, hx]))
    have hnp : op ≠ "print" := by
      rcases hops.1 with h | h | h | h <;> (subst h; decide)
    have hK1 : ∀ x ∈ keysAfter K cr, x ∈ keysAfter (keysAfter K cl) cr :=
      keysAfter_mono cr (keysAfter_subset cl K)
    refine ⟨cl ++ cr ++ [⟨op, (generateExpression l g).1,
      (generateExpression r (generateExpression l g).2).1,
      ((generateExpression r (generateExpression l g).2).2.newTemp).1⟩], ?_, ?_, ?_⟩
    · simp [generateExpression, CodeGenerator.newTemp, hcr, hcl]
    · refine closed_append _ (closed_append _ hclosedl
        (closed_mono cr (keysAfter_subset cl K) hclosedr)) ?_
      rw [keysAfter_append]
      exact ⟨operandOK_mono (keysAfter_subset cr _) hokl,
        fun _ _ => operandOK_mono hK1 hokr, trivial⟩
    · left
      simp [generateExpression, keysAfter_append, keysAfter, keysAfterInst, hnp]
  | Assignment v e _ => intro g K he; exact absurd he (by simp [ASTNode.isExpression])
  | Print e _ => intro g K he; exact absurd he (by simp [ASTNode.isExpression])

theorem analyzeExpression_accepts (t : SymbolTable) : ∀ (e : ASTNode) (ty : String),
    analyzeExpression t e = .ok ty →
    e.isExpression ∧ ∀ x ∈ e.identifiers, t.isDefined x = true := by
  intro e
  induction e with
  | Number v => intro ty _; simp [ASTNode.isExpression, ASTNode.identifiers]
  | Identifier name =>
    intro ty h
    refine ⟨trivial, ?_⟩
    intro x hx
    simp only [ASTNode.identifiers, List.mem_singleton] at hx
    subst hx
    by_contra hd
    simp [analyzeExpression, hd] at h
  | BinaryOp op l r ihl ihr =>
    intro ty h
    simp only [analyzeExpression] at h
    cases hl : analyzeExpression t l with
    | error e => rw [hl] at h; cases h
    | ok tl =>
      cases hr : analyzeExpression t r with
      | error e => rw [hl, hr] at h; cases h
      | ok tr =>
        obtain ⟨h1, h2⟩ := ihl tl hl
        obtain ⟨h3, h4⟩ := ihr tr hr
        refine ⟨⟨h1, h3⟩, ?_⟩
        intro x hx
        simp only [ASTNode.identifiers, List.mem_append] at hx
        rcases hx with hx | hx
        · exact h2 x hx
        · exact h4 x hx
  | Assignment v e _ => intro ty h; simp [analyzeExpression] at h
  | Print e _ => intro ty h; simp [analyzeExpression] at h

theorem generateStatement_closed (s : ASTNode) (t t1 : SymbolTable) (g : CodeGenerator)
    (K : List String) (hops : s.opsValid) (hacc : analyzeStatement t s = .ok t1)
    (hK : ∀ x, t.isDefined x = true → x ∈ K) :
    ∃ code, (generateStatement s g).instructions = g.instructions ++ code ∧
      Closed K code ∧ ∀ x, t1.isDefined x = true → x ∈ keysAfter K code := by
  cases s with
  | Number v =>
    simp only [analyzeStatement, Except.ok.injEq] at hacc
    subst hacc
    exact ⟨[], by simp [generateStatement], trivial, by simpa [keysAfter] using hK⟩
  | Identifier name =>
    simp only [analyzeStatement, Except.ok.injEq] at hacc
    subst hacc
    exact ⟨[], by simp [generateStatement], trivial, by simpa [keysAfter] using hK⟩
  | BinaryOp op l r =>
    simp only [analyzeStatement, Except.ok.injEq] at hacc
    subst hacc
    exact ⟨[], by simp [generateStatement], trivial, by simpa [keysAfter] using hK⟩
  | Assignment v e =>
    simp only [analyzeStatement] at hacc
    cases he : analyzeExpression t e with
    | error f => rw [he] at hacc; cases hacc
    | ok ty =>
      rw [he] at hacc
      simp only [Except.ok.injEq] at hacc
      subst hacc
      obtain ⟨hexp, hids⟩ := analyzeExpression_accepts t e ty he
      obtain ⟨code, hcode, hclosed, hok⟩ := generateExpression_closed e g K hexp hops
        (fun x hx => hK x (hids x hx))
      refine ⟨code ++ [⟨"=", (generateExpression e g).1, "", v⟩], ?_, ?_, ?_⟩
      · simp [generateStatement, hcode]
      · exact closed_append _ hclosed ⟨hok, fun h => absurd rfl h, trivial⟩
      · intro x hx
        have hk : keysAfter (keysAfter K code) [⟨"=", (generateExpression e g).1, "", v⟩] =
            v :: keysAfter K code := by
          simp [keysAfter, keysAfterInst]
        rw [keysAfter_append, hk]
        by_cases hxv : x = v
        · exact List.mem_cons.2 (Or.inl hxv)
        · have : t.isDefined x = true := by
            simpa [SymbolTable.isDefined, SymbolTable.define, hxv] using hx
          exact List.mem_cons_of_mem _ (keysAfter_subset code K x (hK x this))
  | Print e =>
    simp only [analyzeStatement] at hacc
    cases he : analyzeExpression t e with
    | error f => rw [he] at hacc; cases hacc
    | ok ty =>
      rw [he] at hacc
      simp only [Except.ok.injEq] at hacc
      subst hacc
      obtain ⟨hexp, hids⟩ := analyzeExpression_accepts t e ty he
      obtain ⟨code, hcode, hclosed, hok⟩ := generateExpression_closed e g K hexp hops
        (fun x hx => hK x (hids x hx))
      refine ⟨code ++ [⟨"print", (generateExpression e g).1, "", ""⟩], ?_, ?_, ?_⟩
      · simp [generateStatement, hcode]
      · exact closed_append _ hclosed ⟨hok, fun _ h => absurd rfl h, trivial⟩
      · intro x hx
        rw [keysAfter_append]
        exact keysAfter_subset _ _ x (keysAfter_subset code K x (hK x hx))

theorem generateStatements_closed (stmts : List ASTNode) : ∀ (t : SymbolTable)
    (g : CodeGenerator) (K : List String), (∀ s ∈ stmts, s.opsValid) →
    (analyze t stmts).2 = none → (∀ x, t.isDefined x = true → x ∈ K) →
    ∃ code, (stmts.foldl (fun acc stmt => generateStatement stmt acc) g).instructions =
      g.instructions ++ code ∧ Closed K code := by
  induction stmts with
  | nil => intro t g K _ _ _; exact ⟨[], by simp, trivial⟩
  | cons s rest ih =>
    intro t g K hops hacc hK
    simp only [analyze] at hacc
    cases hs : analyzeStatement t s with
    | error f => rw [hs] at hacc; cases hacc
    | ok t1 =>
      rw [hs] at hacc
      obtain ⟨c1, hc1, hcl1, hK1⟩ := generateStatement_closed s t t1 g K
        (hops s (List.mem_cons_self _ _)) hs hK
      obtain ⟨c2, hc2, hcl2⟩ := ih t1 (generateStatement s g) (keysAfter K c1)
        (fun u hu => hops u (List.mem_cons_of_mem _ hu)) hacc hK1
      exact ⟨c1 ++ c2, by simp [List.foldl_cons, hc2, hc1], closed_append _ hcl1 hcl2⟩

theorem generate_closed (g : CodeGenerator) (stmts : List ASTNode)
    (hops : ∀ s ∈ stmts, s.opsValid) (hacc : (analyze SymbolTable.empty stmts).2 = none) :
    Closed [] (g.generate stmts).2.instructions := by
  obtain ⟨code, hcode, hclosed⟩ := generateStatements_closed stmts SymbolTable.empty
    { g with instructions := [], tempCounter := 0 } [] hops hacc
    (by intro x hx; simp [SymbolTable.isDefined, SymbolTable.empty] at hx)
  simp only [CodeGenerator.generate, hcode, List.nil_append]
  exact hclosed

/-! ## Running a program whose operands are ready -/

theorem ready_of_operandOK {K : List String} {m : Memory} (hm : ∀ x ∈ K, m x ≠ none)
    {a : String} (ha : OperandOK K a) : Ready m a := by
  rcases ha with ha | ha
  · left
    exact Option.ne_none_iff_exists'.1 (hm a ha)
  · exact Or.inr ha

theorem resolve_of_ready {m : Memory} {a : String} (h : Ready m a) :
    ∃ x, resolve m a = .ok x := by
  unfold resolve
  cases hma : m a with
  | some x => exact ⟨x, rfl⟩
  | none =>
    rcases h with ⟨x, hx⟩ | ⟨v, hv⟩
    · rw [hma] at hx; cases hx
    · obtain ⟨y, hy⟩ := Option.ne_none_iff_exists'.1 (stod_to_string v)
      subst hv
      exact ⟨y, by simp [hy]⟩

theorem store_covers {K : List String} {m : Memory} (hm : ∀ x ∈ K, m x ≠ none)
    (name : String) (value : ℚ) : ∀ x ∈ name :: K, m.store name value x ≠ none := by
  intro x hx
  unfold Memory.store
  by_cases h : x = name
  · simp [h]
  · simp only [h, if_false]
    rcases List.mem_cons.1 hx with h1 | h1
    · exact absurd h1 h
    · exact hm x h1

theorem executeInstruction_closed {K : List String} {m : Memory} (o : List ℚ)
    (i : Instruction) (hm : ∀ x ∈ K, m x ≠ none) (h1 : OperandOK K i.arg1)
    (h2 : i.op ≠ "=" → i.op ≠ "print" → OperandOK K i.arg2) :
    executeInstruction m o i = .error Fault.divisionByZero ∨
    ∃ m1 o1, executeInstruction m o i = .ok (m1, o1) ∧
      ∀ x ∈ keysAfterInst K i, m1 x ≠ none := by
  obtain ⟨x1, hx1⟩ := resolve_of_ready (ready_of_operandOK hm h1)
  unfold executeInstruction
  by_cases he : i.op = "="
  · right
    have hnp : i.op ≠ "print" := by rw [he]; decide
    simp only [he, if_true, hx1]
    refine ⟨_, _, rfl, ?_⟩
    simp only [keysAfterInst, hnp, if_false]
    exact store_covers hm _ _
  · by_cases hp : i.op = "print"
    · right
      simp only [he, if_false, hp, if_true, hx1]
      refine ⟨_, _, rfl, ?_⟩
      simpa [keysAfterInst, hp] using hm
    · obtain ⟨x2, hx2⟩ := resolve_of_ready (ready_of_operandOK hm (h2 he hp))
      simp only [he, if_false, hp, hx1, hx2]
      have hk : keysAfterInst K i = i.result :: K := by simp [keysAfterInst, hp]
      rw [hk]
      split
      · exact Or.inr ⟨_, _, rfl, store_covers hm _ _⟩
      · split
        · exact Or.inr ⟨_, _, rfl, store_covers hm _ _⟩
        · split
          · exact Or.inr ⟨_, _, rfl, store_covers hm _ _⟩
          · split
            · split
              · exact Or.inl rfl
              · exact Or.inr ⟨_, _, rfl, store_covers hm _ _⟩
            · exact Or.inr ⟨_, _, rfl, store_covers hm _ _⟩

theorem executeLoop_closed_fault (p : List Instruction) : ∀ (K : List String) (m : Memory)
    (o : List ℚ), Closed K p → (∀ x ∈ K, m x ≠ none) →
    (executeLoop p m o).fault = none ∨
    (executeLoop p m o).fault = some Fault.divisionByZero := by
  induction p with
  | nil => intro K m o _ _; exact Or.inl rfl
  | cons i p ih =>
    intro K m o hc hm
    rcases executeInstruction_closed o i hm hc.1 hc.2.1 with h | ⟨m1, o1, h, hm1⟩
    · right
      simp [executeLoop, h]
    · simp only [executeLoop, h]
      exact ih _ m1 o1 hc.2.2 hm1

theorem executeLoop_closed_ready (p : List Instruction) : ∀ (K : List String) (m : Memory)
    (o : List ℚ) (q : List Instruction) (inst : Instruction) (m1 : Memory) (o1 : List ℚ),
    Closed K (p ++ inst :: q) → (∀ x ∈ K, m x ≠ none) →
    executeLoop p m o = ⟨m1, o1, none⟩ →
    Ready m1 inst.arg1 ∧ (inst.op ≠ "=" → inst.op ≠ "print" → Ready m1 inst.arg2) := by
  induction p with
  | nil =>
    intro K m o q inst m1 o1 hc hm hrun
    simp only [executeLoop, ExecResult.mk.injEq] at hrun
    obtain ⟨rfl, _, _⟩ := hrun
    exact ⟨ready_of_operandOK hm hc.1, fun h1 h2 => ready_of_operandOK hm (hc.2.1 h1 h2)⟩
  | cons i p ih =>
    intro K m o q inst m1 o1 hc hm hrun
    rcases executeInstruction_closed o i hm hc.1 hc.2.1 with h | ⟨m2, o2, h, hm2⟩
    · simp [executeLoop, h] at hrun
    · simp only [executeLoop, h] at hrun
      exact ih _ m2 o2 q inst m1 o1 hc.2.2 hm2 hrun

/-- C6: for every statement list with operators among `+ - * /` that `analyze` accepts from
the empty symbol table, and whatever the generator held before, the program built by
`generate` never fails operand resolution: at every instruction reached without a fault,
the first operand (and the second one, for an arithmetic instruction) is a key of the
evaluation store or a rendered number literal, and its resolution succeeds; so the run
ends without fault or with the division-by-zero fault, never with the failure of the
literal conversion. -/
theorem checker_interpreter_agree (stmts : List ASTNode) (g : CodeGenerator)
    (hops : ∀ s ∈ stmts, s.opsValid)
    (hacc : (analyze SymbolTable.empty stmts).2 = none) :
    (∀ p inst q, (g.generate stmts).2.instructions = p ++ inst :: q →
      (run p).fault = none →
      (Ready (run p).memory inst.arg1 ∧ ∃ x, resolve (run p).memory inst.arg1 = .ok x) ∧
      (inst.op ≠ "=" → inst.op ≠ "print" →
        Ready (run p).memory inst.arg2 ∧ ∃ x, resolve (run p).memory inst.arg2 = .ok x)) ∧
    ((run (g.generate stmts).2.instructions).fault = none ∨
      (run (g.generate stmts).2.instructions).fault = some Fault.divisionByZero) ∧
    ((g.generate stmts).2.execute.2.2 = none ∨
      (g.generate stmts).2.execute.2.2 = some Fault.divisionByZero) := by
  have hclosed := generate_closed g stmts hops hacc
  have hfault := executeLoop_closed_fault _ [] (fun _ => none) [] hclosed (by simp)
  refine ⟨?_, hfault, hfault⟩
  intro p inst q hsplit hp
  rw [hsplit] at hclosed
  have hrun : executeLoop p (fun _ => none) [] = ⟨(run p).memory, (run p).output, none⟩ := by
    have : run p = ⟨(run p).memory, (run p).output, (run p).fault⟩ := rfl
    rw [hp] at this
    exact this
  obtain ⟨h1, h2⟩ := executeLoop_closed_ready p [] _ [] q inst _ _ hclosed (by simp) hrun
  exact ⟨⟨h1, resolve_of_ready h1⟩, fun ha hb => ⟨h2 ha hb, resolve_of_ready (h2 ha hb)⟩⟩

theorem checker_interpreter_agree_witness :
    (run (CodeGenerator.new.generate [ASTNode.Assignment "x" (ASTNode.Number 5),
        ASTNode.Print (ASTNode.BinaryOp "/" (ASTNode.Identifier "x")
          (ASTNode.Number 2))]).2.instructions).fault = none ∨
    (run (CodeGenerator.new.generate [ASTNode.Assignment "x" (ASTNode.Number 5),
        ASTNode.Print (ASTNode.BinaryOp "/" (ASTNode.Identifier "x")
          (ASTNode.Number 2))]).2.instructions).fault = some Fault.divisionByZero :=
  (checker_interpreter_agree [ASTNode.Assignment "x" (ASTNode.Number 5),
      ASTNode.Print (ASTNode.BinaryOp "/" (ASTNode.Identifier "x") (ASTNode.Number 2))]
    CodeGenerator.new
    (by
      intro s hs
      simp only [List.mem_cons, List.mem_singleton, List.not_mem_nil, or_false] at hs
      rcases hs with rfl | rfl <;> simp [ASTNode.opsValid])
    (by rfl)).2.1

/-! ## Faults and the session -/

theorem analyze_fault_split (stmts : List ASTNode) : ∀ (t t1 : SymbolTable) (f : Fault),
    analyze t stmts = (t1, some f) →
    ∃ pre s post, stmts = pre ++ s :: post ∧ analyze t pre = (t1, none) ∧
      analyzeStatement t1 s = .error f := by
  induction stmts with
  | nil => intro t t1 f h; simp [analyze] at h
  | cons s rest ih =>
    intro t t1 f h
    simp only [analyze] at h
    cases hs : analyzeStatement t s with
    | error e =>
      rw [hs] at h
      simp only [Prod.mk.injEq, Option.some.injEq] at h
      obtain ⟨rfl, rfl⟩ := h
      exact ⟨[], s, rest, rfl, rfl, hs⟩
    | ok t2 =>
      rw [hs] at h
      obtain ⟨pre, s1, post, hsplit, hpre, hfail⟩ := ih t2 t1 f h
      exact ⟨s :: pre, s1, post, by simp [hsplit], by simp [analyze, hs, hpre], hfail⟩

/-- C7 (as amended): when `analyze` fails on a statement list, the symbol table afterwards
is the one reached by checking the statements that precede the failing one, and the
failing statement itself changes nothing; so the table is unchanged when the first
statement of the list is the one that fails (a single failing statement in particular),
while assignments checked before the failing statement on the same line stay defined. -/
theorem semantic_failure_keeps_checked_statements (t t1 : SymbolTable) (stmts : List ASTNode)
    (f : Fault) (h : analyze t stmts = (t1, some f)) :
    (∃ pre s post, stmts = pre ++ s :: post ∧ analyze t pre = (t1, none) ∧
      analyzeStatement t1 s = .error f) ∧
    (∀ s post, stmts = s :: post → (∃ e, analyzeStatement t s = .error e) → t1 = t) := by
  refine ⟨analyze_fault_split stmts t t1 f h, ?_⟩
  rintro s post rfl ⟨e, he⟩
  simp only [analyze, he, Prod.mk.injEq] at h
  exact h.1.symm

theorem semantic_failure_keeps_checked_statements_witness :
    (∃ pre s post,
      [ASTNode.Assignment "x" (ASTNode.Number 1),
        ASTNode.Assignment "y" (ASTNode.Identifier "z")] = pre ++ s :: post ∧
      analyze SymbolTable.empty pre = (SymbolTable.empty.define "x" "number", none) ∧
      analyzeStatement (SymbolTable.empty.define "x" "number") s =
        .error (Fault.undefinedVariable "z")) :=
  (semantic_failure_keeps_checked_statements SymbolTable.empty
    (SymbolTable.empty.define "x" "number")
    [ASTNode.Assignment "x" (ASTNode.Number 1),
      ASTNode.Assignment "y" (ASTNode.Identifier "z")]
    (Fault.undefinedVariable "z") (by rfl)).1

/-- C7, as stated, fails: on the line `x = 1; y = z;` checked from the empty table,
`analyze` fails with the undefined variable `z` and leaves `x` defined, in the analyzer and
so in the session, whose statement history stays empty. -/
theorem semantic_failure_counterexample :
    (tokenize "x = 1; y = z;").bind parse =
      .ok [ASTNode.Assignment "x" (ASTNode.Number 1),
        ASTNode.Assignment "y" (ASTNode.Identifier "z")] ∧
    (analyze SymbolTable.empty [ASTNode.Assignment "x" (ASTNode.Number 1),
      ASTNode.Assignment "y" (ASTNode.Identifier "z")]).2 =
      some (Fault.undefinedVariable "z") ∧
    (analyze SymbolTable.empty [ASTNode.Assignment "x" (ASTNode.Number 1),
      ASTNode.Assignment "y" (ASTNode.Identifier "z")]).1.isDefined "x" = true ∧
    SymbolTable.empty.isDefined "x" = false ∧
    (analyze SymbolTable.empty [ASTNode.Assignment "x" (ASTNode.Number 1),
      ASTNode.Assignment "y" (ASTNode.Identifier "z")]).1 ≠ SymbolTable.empty ∧
    (REPL.new.evaluateLine "x = 1; y = z;").1.semantic.isDefined "x" = true ∧
    (REPL.new.evaluateLine "x = 1; y = z;").1.allStatements = [] := by
  refine ⟨by with_unfolding_all rfl, by rfl, by rfl, by rfl, ?_, by with_unfolding_all rfl,
    by with_unfolding_all rfl⟩
  intro h
  have h1 : (analyze SymbolTable.empty [ASTNode.Assignment "x" (ASTNode.Number 1),
      ASTNode.Assignment "y" (ASTNode.Identifier "z")]).1.isDefined "x" = true := by rfl
  rw [h] at h1
  cases h1

/-- The fault paths that precede the append to the history: on a line that is not a
command, a lexical or a syntax fault leaves the whole session as it was, and a semantic
fault leaves the statement history and the generator as they were. -/
theorem evaluateLine_early_fault (r : REPL) (line : String)
    (hcmd : line.toList.head? ≠ some ':') :
    (∀ e, tokenize line = .error e → (r.evaluateLine line).1 = r) ∧
    (∀ toks e, tokenize line = .ok toks → parse toks = .error e →
      (r.evaluateLine line).1 = r) ∧
    (∀ toks stmts, tokenize line = .ok toks → parse toks = .ok stmts →
      (analyze r.semantic stmts).2 ≠ none →
      (r.evaluateLine line).1.allStatements = r.allStatements ∧
      (r.evaluateLine line).1.codegen = r.codegen) := by
  refine ⟨?_, ?_, ?_⟩
  · intro e he
    unfold REPL.evaluateLine
    rw [if_neg hcmd]
    simp only [he]
    split
    · rfl
    · split <;> rfl
  · intro toks e ht hp
    unfold REPL.evaluateLine
    rw [if_neg hcmd]
    simp only [ht, hp]
    split
    · rfl
    · split <;> rfl
  · intro toks stmts ht hp ha
    unfold REPL.evaluateLine
    rw [if_neg hcmd]
    simp only [ht, hp]
    split
    · exact ⟨rfl, rfl⟩
    · split
      · exact ⟨rfl, rfl⟩
      · split
        · exact ⟨rfl, rfl⟩
        · rename_i table heq
          rw [heq] at ha
          exact absurd rfl ha

/-- C9 (as amended): the conversion of a numeral is not deferred to the interpreter.  For
`x = 1.2.3;` the tokenizer returns the single Number token `1.2.3`, the parser converts
its longest numeric prefix and builds `Assignment(x, Number 1.2)`, the check succeeds, the
generator renders `x = 1.200000`, and the cycle ends without any fault with `x` bound to
1.2.  In general the lexeme of every Number token of the tokenizer has a numeric prefix,
and `factor` builds the `Number` of its value when that value is within the range of
`double` (on the numeral of 401 digits of `x = 1000...0;` the parser throws the range error
of `std::stod`); and the rendering of every number literal is resolved by the interpreter
in every store. -/
theorem numeral_converted_at_parse_time :
    tokenize "x = 1.2.3;" = .ok [⟨.IDENTIFIER, "x", 1, 1⟩, ⟨.ASSIGN, "=", 1, 3⟩,
      ⟨.NUMBER, "1.2.3", 1, 5⟩, ⟨.SEMICOLON, ";", 1, 10⟩, ⟨.END_OF_FILE, "", 1, 11⟩] ∧
    (tokenize "x = 1.2.3;").bind parse =
      .ok [ASTNode.Assignment "x" (ASTNode.Number (6 / 5))] ∧
    (analyze SymbolTable.empty [ASTNode.Assignment "x" (ASTNode.Number (6 / 5))]).2 = none ∧
    (CodeGenerator.new.generate [ASTNode.Assignment "x" (ASTNode.Number (6 / 5))]).1 =
      "1: x = 1.200000\n" ∧
    (run (CodeGenerator.new.generate
      [ASTNode.Assignment "x" (ASTNode.Number (6 / 5))]).2.instructions).fault = none ∧
    (run (CodeGenerator.new.generate
      [ASTNode.Assignment "x" (ASTNode.Number (6 / 5))]).2.instructions).memory "x" =
      some (6 / 5) ∧
    (REPL.new.evaluateLine "x = 1.2.3;").2 = ⟨[], none, none, false⟩ ∧
    (∀ (source : String) (toks : List Token), tokenize source = .ok toks →
      ∀ tok ∈ toks, tok.type = TokenType.NUMBER → ∃ v, stod tok.lexeme = some v ∧
        (¬ rangeError v → ∀ (E : List Token → PResult) (rest : List Token), rest ≠ [] →
          factor E (tok :: rest) = .ok (ASTNode.Number v, rest))) ∧
    (tokenize longNumeralStatement).bind parse = .error Fault.outOfRange ∧
    (∀ (m : Memory) (v : ℚ), ∃ x, resolve m (to_string v) = .ok x) := by
  refine ⟨by rfl, by with_unfolding_all rfl, by rfl, by with_unfolding_all rfl,
    by with_unfolding_all rfl, by with_unfolding_all rfl, by decide!, ?_,
    by rw [tokenize_longNumeral]; exact parse_longNumeral, ?_⟩
  · intro source toks h tok htok hnum
    obtain ⟨v, hv⟩ := Option.ne_none_iff_exists'.1 (tokenize_numbers_convert h tok htok hnum)
    refine ⟨v, hv, ?_⟩
    intro hrange E rest hrest
    simp only [factor, current, hnum, if_true, hv, hrange, if_false, advance_cons tok hrest]
  · intro m v
    exact resolve_of_ready (Or.inr ⟨v, rfl⟩)

theorem numeral_converted_at_parse_time_witness :
    ∃ v, stod "1.2.3" = some v ∧
      (¬ rangeError v → ∀ (E : List Token → PResult) (rest : List Token), rest ≠ [] →
        factor E (⟨.NUMBER, "1.2.3", 1, 5⟩ :: rest) = .ok (ASTNode.Number v, rest)) :=
  numeral_converted_at_parse_time.2.2.2.2.2.2.2.1 "x = 1.2.3;"
    [⟨.IDENTIFIER, "x", 1, 1⟩, ⟨.ASSIGN, "=", 1, 3⟩, ⟨.NUMBER, "1.2.3", 1, 5⟩,
      ⟨.SEMICOLON, ";", 1, 10⟩, ⟨.END_OF_FILE, "", 1, 11⟩]
    (by rfl) ⟨.NUMBER, "1.2.3", 1, 5⟩ (by simp) rfl

/-- C9, as stated, fails: the cycle of `x = 1.2.3;` in a fresh session reports no fault at
all; the interpreter resolves the operand `1.200000`, and `x` holds 1.2 afterwards. -/
theorem deferred_numeral_counterexample :
    (REPL.new.evaluateLine "x = 1.2.3;").2.diagnostic = none ∧
    (REPL.new.evaluateLine "x = 1.2.3;").1.codegen.instructions =
      [⟨"=", "1.200000", "", "x"⟩] ∧
    (REPL.new.evaluateLine "x = 1.2.3;").1.codegen.memory "x" = some (6 / 5) ∧
    (REPL.new.evaluateLines ["x = 1.2.3;", "print(x);"]).2 =
      [⟨[], none, none, false⟩, ⟨[6 / 5], none, none, false⟩] := by
  refine ⟨by with_unfolding_all rfl, by with_unfolding_all rfl, by with_unfolding_all rfl,
    by decide!⟩

/-! ## Tokenizer: the fuel is never exhausted -/

theorem scanWhile_length (p : Char → Bool) : ∀ (cs : List Char) (line column : Nat),
    (scanWhile p cs line column).2.rest.length ≤ cs.length := by
  intro cs
  induction cs with
  | nil => intro line column; simp [scanWhile]
  | cons c cs ih =>
    intro line column
    by_cases h : p c = true
    · simp only [scanWhile, h, if_true, List.length_cons]
      exact Nat.le_succ_of_le (ih _ _)
    · simp [scanWhile, h]

theorem scanWhile_length_lt (p : Char → Bool) {c : Char} (cs : List Char) (line column : Nat)
    (h : p c = true) : (scanWhile p (c :: cs) line column).2.rest.length < (c :: cs).length := by
  simp only [scanWhile, h, if_true, List.length_cons]
  exact Nat.lt_succ_of_le (scanWhile_length p cs _ _)

theorem advance_length_lt (lx : Lexer) {c : Char} {cs : List Char} (h : lx.rest = c :: cs) :
    lx.advance.rest.length < lx.rest.length := by
  unfold Lexer.advance
  rw [h]
  simp only
  split <;> simp

theorem tokenizeLoop_total (fuel : Nat) : ∀ (lx : Lexer) (acc : List Token),
    lx.rest.length < fuel → tokenizeLoop fuel lx acc ≠ .error Fault.outOfFuel := by
  induction fuel with
  | zero => intro lx acc h; exact absurd h (Nat.not_lt_zero _)
  | succ fuel ih =>
    intro lx acc hlen
    have hskip : lx.skipWhitespace.rest.length ≤ lx.rest.length :=
      scanWhile_length isspace lx.rest lx.line lx.column
    unfold tokenizeLoop
    split
    · simp
    · simp only
      split
      · simp
      · rename_i ch rest hrest
        split
        · rename_i hd
          refine ih _ _ ?_
          have := scanWhile_length_lt (fun c => isdigit c || c = '.') rest
            lx.skipWhitespace.line lx.skipWhitespace.column
            (show (isdigit ch || decide (ch = '.')) = true by simp [hd])
          have h2 : lx.skipWhitespace.number.2.rest.length < lx.skipWhitespace.rest.length := by
            simpa [Lexer.number, hrest] using this
          omega
        · split
          · rename_i ha
            refine ih _ _ ?_
            have hp : (isalnum ch || decide (ch = '_')) = true := by
              simp only [Bool.or_eq_true, decide_eq_true_eq] at ha
              rcases ha with ha | ha
              · simp [isalnum, ha]
              · simp [ha]
            have := scanWhile_length_lt (fun c => isalnum c || c = '_') rest
              lx.skipWhitespace.line lx.skipWhitespace.column hp
            have h2 : lx.skipWhitespace.identifier.2.rest.length <
                lx.skipWhitespace.rest.length := by
              have h3 : lx.skipWhitespace.identifier.2 =
                  (scanWhile (fun c => isalnum c || c = '_') lx.skipWhitespace.rest
                    lx.skipWhitespace.line lx.skipWhitespace.column).2 := by
                unfold Lexer.identifier
                simp only
                split <;> rfl
              rw [h3, hrest]
              simpa using this
            omega
          · split
            · refine ih _ _ ?_
              have := advance_length_lt lx.skipWhitespace hrest
              omega
            · simp

theorem tokenize_total (source : String) : tokenize source ≠ .error Fault.outOfFuel := by
  cases source with
  | mk cs => exact tokenizeLoop_total _ _ _ (Nat.lt_succ_self _)

/-! ## Parser: the fuel is never exhausted on a token list that does not end with `(` -/

theorem endsWell_ne_nil {ts : List Token} (h : endsWell ts) : ts ≠ [] := by
  obtain ⟨init, last, rfl, _⟩ := h
  simp

theorem endsWell_length {ts : List Token} (h : endsWell ts) : 1 ≤ ts.length := by
  obtain ⟨init, last, rfl, _⟩ := h
  simp

theorem endsWell_tail {t u : Token} {ts : List Token} (h : endsWell (t :: u :: ts)) :
    endsWell (u :: ts) := by
  obtain ⟨init, last, heq, hl⟩ := h
  cases init with
  | nil => simp at heq
  | cons a init =>
    simp only [List.cons_append, List.cons.injEq] at heq
    exact ⟨init, last, heq.2, hl⟩

theorem endsWell_singleton {t : Token} (h : endsWell [t]) : t.type ≠ TokenType.LPAREN := by
  obtain ⟨init, last, heq, hl⟩ := h
  cases init with
  | nil =>
    simp only [List.nil_append, List.cons.injEq, and_true] at heq
    rw [heq]; exact hl
  | cons a init =>
    simp only [List.cons_append, List.cons.injEq] at heq
    have := heq.2
    simp at this

theorem advance_endsWell {ts : List Token} (h : endsWell ts) :
    endsWell (advance ts) ∧ (advance ts).length ≤ ts.length ∧
      (2 ≤ ts.length → (advance ts).length + 1 = ts.length) := by
  match ts, h with
  | [], h => exact absurd rfl (endsWell_ne_nil h)
  | [t], h => exact ⟨h, le_refl _, fun h2 => by simp at h2⟩
  | t :: u :: ts, h => exact ⟨endsWell_tail h, by simp [advance], fun _ => by simp [advance]⟩

theorem expect_tame (type : TokenType) (message : String) {ts : List Token}
    (h : endsWell ts) :
    expect type message ts ≠ .error Fault.outOfFuel ∧
    ∀ rest, expect type message ts = .ok rest → endsWell rest ∧ rest.length ≤ ts.length := by
  unfold expect
  split
  · exact ⟨by simp, by intro rest hr; cases hr⟩
  · refine ⟨by simp, ?_⟩
    intro rest hr
    simp only [Except.ok.injEq] at hr
    subst hr
    exact ⟨(advance_endsWell h).1, (advance_endsWell h).2.1⟩

theorem factor_tame {E : List Token → PResult} {n : Nat} (hE : Tame E n) :
    Tame (factor E) (n + 1) := by
  intro ts hts hlen
  have hadv := advance_endsWell hts
  unfold factor
  simp only
  split
  · split
    · exact ⟨by simp, by intro t rest hr; cases hr⟩
    · split
      · exact ⟨by simp, by intro t rest hr; cases hr⟩
      · refine ⟨by simp, ?_⟩
        intro t rest hr
        simp only [Except.ok.injEq, Prod.mk.injEq] at hr
        obtain ⟨_, rfl⟩ := hr
        exact ⟨hadv.1, hadv.2.1⟩
  · split
    · refine ⟨by simp, ?_⟩
      intro t rest hr
      simp only [Except.ok.injEq, Prod.mk.injEq] at hr
      obtain ⟨_, rfl⟩ := hr
      exact ⟨hadv.1, hadv.2.1⟩
    · split
      · rename_i hlp
        have h2 : 2 ≤ ts.length := by
          match ts, hts, hlp with
          | [], h, _ => exact absurd rfl (endsWell_ne_nil h)
          | [t], h, hlp => exact absurd hlp (endsWell_singleton h)
          | _ :: _ :: _, _, _ => simp
        have hl : (advance ts).length ≤ n := by
          have := hadv.2.2 h2
          omega
        obtain ⟨hne, hout⟩ := hE (advance ts) hadv.1 hl
        split
        · rename_i e he
          refine ⟨?_, by intro t rest hr; cases hr⟩
          intro hc
          simp only [Except.error.injEq] at hc
          subst hc
          exact hne he
        · rename_i expr ts1 he
          obtain ⟨hw1, hl1⟩ := hout expr ts1 he
          obtain ⟨hx, hxo⟩ := expect_tame TokenType.RPAREN "esperaba ')'" hw1
          split
          · rename_i e hexp
            refine ⟨?_, by intro t rest hr; cases hr⟩
            intro hc
            simp only [Except.error.injEq] at hc
            subst hc
            exact hx hexp
          · rename_i ts2 hexp
            refine ⟨by simp, ?_⟩
            intro t rest hr
            simp only [Except.ok.injEq, Prod.mk.injEq] at hr
            obtain ⟨_, rfl⟩ := hr
            obtain ⟨hw2, hl2⟩ := hxo ts2 hexp
            exact ⟨hw2, by omega⟩
      · exact ⟨by simp, by intro t rest hr; cases hr⟩
theorem factor_of_operator (E : List Token → PResult) {ts : List Token}
    (h : (current ts).isMulOp ∨ (current ts).isAddOp) :
    factor E ts = .error (Fault.syntaxError none (current ts).line) := by
  have h1 : (current ts).type ≠ TokenType.NUMBER := by
    rcases h with (h | h) | (h | h) <;> (rw [h]; decide)
  have h2 : (current ts).type ≠ TokenType.IDENTIFIER := by
    rcases h with (h | h) | (h | h) <;> (rw [h]; decide)
  have h3 : (current ts).type ≠ TokenType.LPAREN := by
    rcases h with (h | h) | (h | h) <;> (rw [h]; decide)
  simp [factor, h1, h2, h3]

theorem length_one_advance {ts : List Token} (h : ts.length = 1) : advance ts = ts := by
  match ts, h with
  | [t], _ => rfl

theorem termLoop_tame {E : List Token → PResult} {n : Nat} (hE : Tame E n) (k : Nat) :
    ∀ (left : ASTNode) (ts : List Token), endsWell ts → ts.length ≤ k → ts.length ≤ n + 1 →
    termLoop E k left ts ≠ .error Fault.outOfFuel ∧
    ∀ t rest, termLoop E k left ts = .ok (t, rest) → endsWell rest ∧ rest.length ≤ ts.length := by
  induction k with
  | zero =>
    intro left ts hts hk _
    have := endsWell_length hts
    omega
  | succ k ih =>
    intro left ts hts hk hn
    have hadv := advance_endsWell hts
    have hpos := endsWell_length hts
    unfold termLoop
    split
    · rename_i hop
      simp only
      by_cases h1 : ts.length = 1
      · have hf : factor E (advance ts) =
            .error (Fault.syntaxError none (current ts).line) := by
          rw [length_one_advance h1]
          exact factor_of_operator E (Or.inl hop)
        rw [hf]
        exact ⟨by simp, by intro t rest hr; cases hr⟩
      · have h2 : (advance ts).length + 1 = ts.length := hadv.2.2 (by omega)
        obtain ⟨hne, hout⟩ := factor_tame hE (advance ts) hadv.1 (by omega)
        split
        · rename_i e he
          refine ⟨?_, by intro t rest hr; cases hr⟩
          intro hc
          simp only [Except.error.injEq] at hc
          subst hc
          exact hne he
        · rename_i right ts1 he
          obtain ⟨hw1, hl1⟩ := hout right ts1 he
          obtain ⟨hne2, hout2⟩ := ih (ASTNode.BinaryOp (current ts).lexeme left right) ts1 hw1
            (by omega) (by omega)
          refine ⟨hne2, ?_⟩
          intro t rest hr
          obtain ⟨hw2, hl2⟩ := hout2 t rest hr
          exact ⟨hw2, by omega⟩
    · refine ⟨by simp, ?_⟩
      intro t rest hr
      simp only [Except.ok.injEq, Prod.mk.injEq] at hr
      obtain ⟨_, rfl⟩ := hr
      exact ⟨hts, le_refl _⟩

theorem term_tame {E : List Token → PResult} {n : Nat} (hE : Tame E n) :
    Tame (term E) (n + 1) := by
  intro ts hts hlen
  obtain ⟨hne, hout⟩ := factor_tame hE ts hts hlen
  unfold term
  split
  · rename_i e he
    refine ⟨?_, by intro t rest hr; cases hr⟩
    intro hc
    simp only [Except.error.injEq] at hc
    subst hc
    exact hne he
  · rename_i left ts1 he
    obtain ⟨hw1, hl1⟩ := hout left ts1 he
    obtain ⟨hne2, hout2⟩ := termLoop_tame hE ts1.length left ts1 hw1 (le_refl _) (by omega)
    refine ⟨hne2, ?_⟩
    intro t rest hr
    obtain ⟨hw2, hl2⟩ := hout2 t rest hr
    exact ⟨hw2, by omega⟩

theorem term_of_operator (E : List Token → PResult) {ts : List Token}
    (h : (current ts).isMulOp ∨ (current ts).isAddOp) :
    term E ts = .error (Fault.syntaxError none (current ts).line) := by
  simp [term, factor_of_operator E h]

theorem expressionLoop_tame {E : List Token → PResult} {n : Nat} (hE : Tame E n) (k : Nat) :
    ∀ (left : ASTNode) (ts : List Token), endsWell ts → ts.length ≤ k → ts.length ≤ n + 1 →
    expressionLoop E k left ts ≠ .error Fault.outOfFuel ∧
    ∀ t rest, expressionLoop E k left ts = .ok (t, rest) →
      endsWell rest ∧ rest.length ≤ ts.length := by
  induction k with
  | zero =>
    intro left ts hts hk _
    have := endsWell_length hts
    omega
  | succ k ih =>
    intro left ts hts hk hn
    have hadv := advance_endsWell hts
    have hpos := endsWell_length hts
    unfold expressionLoop
    split
    · rename_i hop
      simp only
      by_cases h1 : ts.length = 1
      · have hf : term E (advance ts) =
            .error (Fault.syntaxError none (current ts).line) := by
          rw [length_one_advance h1]
          exact term_of_operator E (Or.inr hop)
        rw [hf]
        exact ⟨by simp, by intro t rest hr; cases hr⟩
      · have h2 : (advance ts).length + 1 = ts.length := hadv.2.2 (by omega)
        obtain ⟨hne, hout⟩ := term_tame hE (advance ts) hadv.1 (by omega)
        split
        · rename_i e he
          refine ⟨?_, by intro t rest hr; cases hr⟩
          intro hc
          simp only [Except.error.injEq] at hc
          subst hc
          exact hne he
        · rename_i right ts1 he
          obtain ⟨hw1, hl1⟩ := hout right ts1 he
          obtain ⟨hne2, hout2⟩ := ih (ASTNode.BinaryOp (current ts).lexeme left right) ts1 hw1
            (by omega) (by omega)
          refine ⟨hne2, ?_⟩
          intro t rest hr
          obtain ⟨hw2, hl2⟩ := hout2 t rest hr
          exact ⟨hw2, by omega⟩
    · refine ⟨by simp, ?_⟩
      intro t rest hr
      simp only [Except.ok.injEq, Prod.mk.injEq] at hr
      obtain ⟨_, rfl⟩ := hr
      exact ⟨hts, le_refl _⟩

theorem expression_tame (n : Nat) : Tame (expression n) n := by
  induction n with
  | zero =>
    intro ts hts hlen
    have := endsWell_length hts
    omega
  | succ n ih =>
    intro ts hts hlen
    obtain ⟨hne, hout⟩ := term_tame ih ts hts hlen
    unfold expression
    split
    · rename_i e he
      refine ⟨?_, by intro t rest hr; cases hr⟩
      intro hc
      simp only [Except.error.injEq] at hc
      subst hc
      exact hne he
    · rename_i left ts1 he
      obtain ⟨hw1, hl1⟩ := hout left ts1 he
      obtain ⟨hne2, hout2⟩ := expressionLoop_tame ih ts1.length left ts1 hw1 (le_refl _)
        (by omega)
      refine ⟨hne2, ?_⟩
      intro t rest hr
      obtain ⟨hw2, hl2⟩ := hout2 t rest hr
      exact ⟨hw2, by omega⟩
theorem length_one_peek {ts : List Token} (h : ts.length = 1) : peek ts = current ts := by
  match ts, h with
  | [t], _ => rfl

theorem statement_tame (n : Nat) (ts : List Token) (hts : endsWell ts) (hlen : ts.length ≤ n) :
    statement n ts ≠ .error Fault.outOfFuel ∧
    ∀ t rest, statement n ts = .ok (t, rest) → endsWell rest ∧ rest.length < ts.length := by
  have hadv := advance_endsWell hts
  have hpos := endsWell_length hts
  unfold statement
  split
  · rename_i hkw
    by_cases h1 : ts.length = 1
    · have hx : expect TokenType.LPAREN "esperaba '(' despues de print" (advance ts) =
          .error (Fault.syntaxError (some "esperaba '(' despues de print")
            (current ts).line) := by
        rw [length_one_advance h1]
        simp [expect, hkw]
      rw [hx]
      exact ⟨by simp, by intro t rest hr; cases hr⟩
    · have h2 : (advance ts).length + 1 = ts.length := hadv.2.2 (by omega)
      obtain ⟨hx, hxo⟩ := expect_tame TokenType.LPAREN "esperaba '(' despues de print" hadv.1
      split
      · rename_i e he
        refine ⟨?_, by intro t rest hr; cases hr⟩
        intro hc
        simp only [Except.error.injEq] at hc
        subst hc
        exact hx he
      · rename_i ts1 he
        obtain ⟨hw1, hl1⟩ := hxo ts1 he
        obtain ⟨hne, hout⟩ := expression_tame n ts1 hw1 (by omega)
        split
        · rename_i e he2
          refine ⟨?_, by intro t rest hr; cases hr⟩
          intro hc
          simp only [Except.error.injEq] at hc
          subst hc
          exact hne he2
        · rename_i expr ts2 he2
          obtain ⟨hw2, hl2⟩ := hout expr ts2 he2
          obtain ⟨hy, hyo⟩ := expect_tame TokenType.RPAREN "esperaba ')'" hw2
          split
          · rename_i e he3
            refine ⟨?_, by intro t rest hr; cases hr⟩
            intro hc
            simp only [Except.error.injEq] at hc
            subst hc
            exact hy he3
          · rename_i ts3 he3
            obtain ⟨hw3, hl3⟩ := hyo ts3 he3
            obtain ⟨hz, hzo⟩ := expect_tame TokenType.SEMICOLON "esperaba ';'" hw3
            split
            · rename_i e he4
              refine ⟨?_, by intro t rest hr; cases hr⟩
              intro hc
              simp only [Except.error.injEq] at hc
              subst hc
              exact hz he4
            · rename_i ts4 he4
              obtain ⟨hw4, hl4⟩ := hzo ts4 he4
              refine ⟨by simp, ?_⟩
              intro t rest hr
              simp only [Except.ok.injEq, Prod.mk.injEq] at hr
              obtain ⟨_, rfl⟩ := hr
              exact ⟨hw4, by omega⟩
  · split
    · rename_i hid
      have h2 : 2 ≤ ts.length := by
        by_contra hc
        have h1 : ts.length = 1 := by omega
        have := hid.2
        rw [length_one_peek h1, hid.1] at this
        cases this
      have h3 : (advance ts).length + 1 = ts.length := hadv.2.2 h2
      have hadv2 := advance_endsWell hadv.1
      obtain ⟨hne, hout⟩ := expression_tame n (advance (advance ts)) hadv2.1 (by omega)
      simp only
      split
      · rename_i e he2
        refine ⟨?_, by intro t rest hr; cases hr⟩
        intro hc
        simp only [Except.error.injEq] at hc
        subst hc
        exact hne he2
      · rename_i expr ts1 he2
        obtain ⟨hw1, hl1⟩ := hout expr ts1 he2
        obtain ⟨hz, hzo⟩ := expect_tame TokenType.SEMICOLON "esperaba ';'" hw1
        split
        · rename_i e he4
          refine ⟨?_, by intro t rest hr; cases hr⟩
          intro hc
          simp only [Except.error.injEq] at hc
          subst hc
          exact hz he4
        · rename_i ts2 he4
          obtain ⟨hw2, hl2⟩ := hzo ts2 he4
          refine ⟨by simp, ?_⟩
          intro t rest hr
          simp only [Except.ok.injEq, Prod.mk.injEq] at hr
          obtain ⟨_, rfl⟩ := hr
          exact ⟨hw2, by omega⟩
    · exact ⟨by simp, by intro t rest hr; cases hr⟩

theorem parseLoop_total (depth : Nat) (k : Nat) : ∀ (ts : List Token) (acc : List ASTNode),
    endsWell ts → ts.length ≤ k → ts.length ≤ depth →
    parseLoop depth k ts acc ≠ .error Fault.outOfFuel := by
  induction k with
  | zero =>
    intro ts acc hts hk _
    have := endsWell_length hts
    omega
  | succ k ih =>
    intro ts acc hts hk hd
    obtain ⟨hne, hout⟩ := statement_tame depth ts hts hd
    unfold parseLoop
    split
    · split
      · rename_i e he
        intro hc
        simp only [Except.error.injEq] at hc
        subst hc
        exact hne he
      · rename_i stmt ts1 he
        obtain ⟨hw1, hl1⟩ := hout stmt ts1 he
        exact ih ts1 _ hw1 (by omega) (by omega)
    · simp

theorem parse_total {tokens : List Token} (h : endsWell tokens) :
    parse tokens ≠ .error Fault.outOfFuel :=
  parseLoop_total _ _ tokens [] h (Nat.le_succ _) (Nat.le_succ _)

theorem parse_tokenize_total {source : String} {toks : List Token}
    (h : tokenize source = .ok toks) : parse toks ≠ .error Fault.outOfFuel := by
  obtain ⟨init, eof, rfl, heof, _, _⟩ := tokenizeLoop_shape _ _ _ h
  exact parse_total ⟨init, eof, rfl, by rw [heof]; decide⟩

/-! ## Tokenizer: the two variants, positions, and the course of the scan -/

theorem tokenizeLoop_eq_variant (fuel : Nat) : ∀ (lx : Lexer) (acc : List Token),
    tokenizeLoop fuel lx acc = (tokenizeLoopVariant fuel lx acc).mapError Fault.dropColumn := by
  induction fuel with
  | zero => intro lx acc; rfl
  | succ fuel ih =>
    intro lx acc
    unfold tokenizeLoop tokenizeLoopVariant
    split
    · rfl
    · simp only
      split
      · rfl
      · split
        · exact ih _ _
        · split
          · exact ih _ _
          · split
            · exact ih _ _
            · rfl

theorem tokenize_eq_variant (source : String) :
    tokenize source = (tokenizeVariant source).mapError Fault.dropColumn :=
  tokenizeLoop_eq_variant _ _ _

theorem scanWhile_fst (p : Char → Bool) : ∀ (cs : List Char) (line column : Nat),
    (scanWhile p cs line column).1 = cs.takeWhile p := by
  intro cs
  induction cs with
  | nil => intro line column; rfl
  | cons c cs ih =>
    intro line column
    by_cases h : p c = true
    · simp [scanWhile, h, List.takeWhile, ih]
    · simp [scanWhile, h, List.takeWhile]

theorem scanWhile_rest (p : Char → Bool) : ∀ (cs : List Char) (line column : Nat),
    (scanWhile p cs line column).2.rest = cs.dropWhile p := by
  intro cs
  induction cs with
  | nil => intro line column; rfl
  | cons c cs ih =>
    intro line column
    by_cases h : p c = true
    · simp [scanWhile, h, List.dropWhile, ih]
    · simp [scanWhile, h, List.dropWhile]

theorem lineOf_snoc (pre : List Char) (c : Char) :
    lineOf (pre ++ [c]) = if c = '\n' then lineOf pre + 1 else lineOf pre := by
  unfold lineOf
  by_cases h : c = '\n'
  · subst h; simp [List.count_append]; omega
  · have : ('\n' : Char) ≠ c := fun h1 => h h1.symm
    simp [List.count_append, h, List.count_cons, this]

theorem columnOf_snoc (pre : List Char) (c : Char) :
    columnOf (pre ++ [c]) = if c = '\n' then 1 else columnOf pre + 1 := by
  unfold columnOf
  by_cases h : c = '\n'
  · subst h; simp [List.takeWhile]
  · simp [List.takeWhile, h]; omega

theorem advance_position (pre : List Char) (c : Char) (cs : List Char) :
    Lexer.advance ⟨c :: cs, lineOf pre, columnOf pre⟩ =
      ⟨cs, lineOf (pre ++ [c]), columnOf (pre ++ [c])⟩ := by
  rw [lineOf_snoc, columnOf_snoc]
  unfold Lexer.advance
  simp only
  split <;> rfl

theorem scanWhile_position (p : Char → Bool) : ∀ (cs pre : List Char),
    (scanWhile p cs (lineOf pre) (columnOf pre)).2 =
      ⟨cs.dropWhile p, lineOf (pre ++ cs.takeWhile p), columnOf (pre ++ cs.takeWhile p)⟩ := by
  intro cs
  induction cs with
  | nil => intro pre; simp [scanWhile]
  | cons c cs ih =>
    intro pre
    by_cases h : p c = true
    · have hadv := advance_position pre c cs
      simp only [scanWhile, h, if_true, hadv, List.takeWhile, List.dropWhile]
      rw [ih (pre ++ [c])]
      simp
    · simp [scanWhile, h, List.takeWhile, List.dropWhile]
theorem skipWhitespace_position (pre cs : List Char) :
    Lexer.skipWhitespace ⟨cs, lineOf pre, columnOf pre⟩ =
      ⟨cs.dropWhile isspace, lineOf (pre ++ cs.takeWhile isspace),
        columnOf (pre ++ cs.takeWhile isspace)⟩ :=
  scanWhile_position isspace cs pre

theorem skipWhitespace_of_not_space (c : Char) (cs : List Char) (line column : Nat)
    (h : isspace c = false) :
    Lexer.skipWhitespace ⟨c :: cs, line, column⟩ = ⟨c :: cs, line, column⟩ := by
  simp [Lexer.skipWhitespace, scanWhile, h]

theorem number_position (pre cs : List Char) :
    Lexer.number ⟨cs, lineOf pre, columnOf pre⟩ =
      (⟨TokenType.NUMBER, String.mk (cs.takeWhile isNumeralChar),
          lineOf (pre ++ cs.takeWhile isNumeralChar), columnOf pre⟩,
        ⟨cs.dropWhile isNumeralChar, lineOf (pre ++ cs.takeWhile isNumeralChar),
          columnOf (pre ++ cs.takeWhile isNumeralChar)⟩) := by
  have h1 : (scanWhile (fun c => isdigit c || c = '.') cs (lineOf pre) (columnOf pre)).2 =
      ⟨cs.dropWhile isNumeralChar, lineOf (pre ++ cs.takeWhile isNumeralChar),
        columnOf (pre ++ cs.takeWhile isNumeralChar)⟩ :=
    scanWhile_position isNumeralChar cs pre
  have h2 : (scanWhile (fun c => isdigit c || c = '.') cs (lineOf pre) (columnOf pre)).1 =
      cs.takeWhile isNumeralChar :=
    scanWhile_fst isNumeralChar cs (lineOf pre) (columnOf pre)
  simp only [Lexer.number, h1, h2]

theorem identifier_position (pre cs : List Char) :
    Lexer.identifier ⟨cs, lineOf pre, columnOf pre⟩ =
      (⟨if String.mk (cs.takeWhile isWordChar) = "print" then TokenType.PRINT
          else TokenType.IDENTIFIER,
          String.mk (cs.takeWhile isWordChar),
          lineOf (pre ++ cs.takeWhile isWordChar), columnOf pre⟩,
        ⟨cs.dropWhile isWordChar, lineOf (pre ++ cs.takeWhile isWordChar),
          columnOf (pre ++ cs.takeWhile isWordChar)⟩) := by
  have h1 : (scanWhile (fun c => isalnum c || c = '_') cs (lineOf pre) (columnOf pre)).2 =
      ⟨cs.dropWhile isWordChar, lineOf (pre ++ cs.takeWhile isWordChar),
        columnOf (pre ++ cs.takeWhile isWordChar)⟩ :=
    scanWhile_position isWordChar cs pre
  have h2 : (scanWhile (fun c => isalnum c || c = '_') cs (lineOf pre) (columnOf pre)).1 =
      cs.takeWhile isWordChar :=
    scanWhile_fst isWordChar cs (lineOf pre) (columnOf pre)
  simp only [Lexer.identifier, h1, h2]
  split <;> simp_all

theorem isdigit_not_word_start {c : Char} (h : isdigit c = true) :
    (isalpha c || c = '_') = false := by
  simp only [isdigit, Bool.and_eq_true, decide_eq_true_eq] at h
  have h1 : c ≠ '_' := by
    intro hc
    subst hc
    have : ('_' : Char).toNat = 95 := rfl
    omega
  simp only [isalpha, Bool.or_eq_false_iff, Bool.and_eq_false_iff, decide_eq_false_iff_not,
    Bool.or_eq_false_iff]
  refine ⟨⟨?_, ?_⟩, h1⟩ <;> omega

theorem word_start_not_space {c : Char} (h : (isalpha c || c = '_') = true) :
    isspace c = false := by
  simp only [isspace, Bool.or_eq_false_iff, Bool.and_eq_false_iff, decide_eq_false_iff_not]
  simp only [Bool.or_eq_true, isalpha, Bool.and_eq_true, decide_eq_true_eq] at h
  rcases h with (h | h) | h
  · omega
  · omega
  · subst h
    have : ('_' : Char).toNat = 95 := rfl
    omega

theorem punctuation_cases {c : Char} {ty : TokenType} (h : punctuation c = some ty) :
    c = '+' ∨ c = '-' ∨ c = '*' ∨ c = '/' ∨ c = '=' ∨ c = '(' ∨ c = ')' ∨ c = ';' := by
  unfold punctuation at h
  repeat' split at h
  all_goals simp_all

theorem punctuation_not_other {c : Char} {ty : TokenType} (h : punctuation c = some ty) :
    isspace c = false ∧ isdigit c = false ∧ (isalpha c || c = '_') = false := by
  rcases punctuation_cases h with h | h | h | h | h | h | h | h <;> (subst h; decide)
theorem loopVariant_end (fuel : Nat) (pre : List Char) (acc : List Token) :
    tokenizeLoopVariant (fuel + 1) ⟨[], lineOf pre, columnOf pre⟩ acc =
      .ok (acc ++ [⟨TokenType.END_OF_FILE, "", lineOf pre, columnOf pre⟩]) := by
  simp [tokenizeLoopVariant]

theorem loopVariant_space (fuel : Nat) (pre : List Char) (c : Char) (rest : List Char)
    (acc : List Token) (h : isspace c = true) :
    tokenizeLoopVariant (fuel + 1) ⟨c :: rest, lineOf pre, columnOf pre⟩ acc =
      tokenizeLoopVariant (fuel + 1) ⟨rest, lineOf (pre ++ [c]), columnOf (pre ++ [c])⟩ acc := by
  have h1 : Lexer.skipWhitespace ⟨c :: rest, lineOf pre, columnOf pre⟩ =
      Lexer.skipWhitespace ⟨rest, lineOf (pre ++ [c]), columnOf (pre ++ [c])⟩ := by
    rw [skipWhitespace_position, skipWhitespace_position]
    simp [List.takeWhile, List.dropWhile, h]
  cases rest with
  | nil =>
    rw [loopVariant_end]
    unfold tokenizeLoopVariant
    simp only [h1, skipWhitespace_position]
    simp
  | cons d rest =>
    unfold tokenizeLoopVariant
    simp only [h1]
    simp

theorem loopVariant_numeral (fuel : Nat) (pre : List Char) (c : Char) (rest : List Char)
    (acc : List Token) (h : isdigit c = true) :
    tokenizeLoopVariant (fuel + 1) ⟨c :: rest, lineOf pre, columnOf pre⟩ acc =
      tokenizeLoopVariant fuel
        ⟨(c :: rest).dropWhile isNumeralChar,
          lineOf (pre ++ (c :: rest).takeWhile isNumeralChar),
          columnOf (pre ++ (c :: rest).takeWhile isNumeralChar)⟩
        (acc ++ [⟨TokenType.NUMBER, String.mk ((c :: rest).takeWhile isNumeralChar),
          lineOf (pre ++ (c :: rest).takeWhile isNumeralChar), columnOf pre⟩]) := by
  have hs := skipWhitespace_of_not_space c rest (lineOf pre) (columnOf pre)
    (isdigit_not_isspace h)
  rw [tokenizeLoopVariant]
  simp only [hs, h, if_true, number_position]
  simp

theorem loopVariant_word (fuel : Nat) (pre : List Char) (c : Char) (rest : List Char)
    (acc : List Token) (h : (isalpha c || c = '_') = true) :
    tokenizeLoopVariant (fuel + 1) ⟨c :: rest, lineOf pre, columnOf pre⟩ acc =
      tokenizeLoopVariant fuel
        ⟨(c :: rest).dropWhile isWordChar,
          lineOf (pre ++ (c :: rest).takeWhile isWordChar),
          columnOf (pre ++ (c :: rest).takeWhile isWordChar)⟩
        (acc ++ [⟨if String.mk ((c :: rest).takeWhile isWordChar) = "print" then TokenType.PRINT
            else TokenType.IDENTIFIER,
          String.mk ((c :: rest).takeWhile isWordChar),
          lineOf (pre ++ (c :: rest).takeWhile isWordChar), columnOf pre⟩]) := by
  have hs := skipWhitespace_of_not_space c rest (lineOf pre) (columnOf pre)
    (word_start_not_space h)
  have hd : isdigit c = false := by
    cases hc : isdigit c with
    | false => rfl
    | true => rw [isdigit_not_word_start hc] at h; cases h
  rw [tokenizeLoopVariant]
  simp only [hs, hd, h, if_true, identifier_position]
  simp

theorem loopVariant_punct (fuel : Nat) (pre : List Char) (c : Char) (rest : List Char)
    (acc : List Token) (ty : TokenType) (h : punctuation c = some ty) :
    tokenizeLoopVariant (fuel + 1) ⟨c :: rest, lineOf pre, columnOf pre⟩ acc =
      tokenizeLoopVariant fuel ⟨rest, lineOf (pre ++ [c]), columnOf (pre ++ [c])⟩
        (acc ++ [⟨ty, String.mk [c], lineOf pre, columnOf pre⟩]) := by
  obtain ⟨h1, h2, h3⟩ := punctuation_not_other h
  have hs := skipWhitespace_of_not_space c rest (lineOf pre) (columnOf pre) h1
  rw [tokenizeLoopVariant]
  simp only [hs, h2, h3, h, advance_position]
  simp

theorem loopVariant_bad (fuel : Nat) (pre : List Char) (c : Char) (rest : List Char)
    (acc : List Token) (h1 : isspace c = false) (h2 : startsToken c = false) :
    tokenizeLoopVariant (fuel + 1) ⟨c :: rest, lineOf pre, columnOf pre⟩ acc =
      .error (Fault.lexErrorAt c (lineOf pre) (columnOf pre)) := by
  have hs := skipWhitespace_of_not_space c rest (lineOf pre) (columnOf pre) h1
  simp only [startsToken, Bool.or_eq_false_iff] at h2
  obtain ⟨⟨⟨hd, ha⟩, hu⟩, hp⟩ := h2
  have hp' : punctuation c = none := by
    cases hpc : punctuation c with
    | none => rfl
    | some ty => rw [hpc] at hp; cases hp
  rw [tokenizeLoopVariant]
  simp only [hs, hd, ha, hu, hp']
  simp
theorem identifier_rest_length_lt (lx : Lexer) {c : Char} {cs : List Char}
    (h : lx.rest = c :: cs) (hc : (isalpha c || c = '_') = true) :
    lx.identifier.2.rest.length < lx.rest.length := by
  have hp : (isalnum c || decide (c = '_')) = true := by
    simp only [Bool.or_eq_true, decide_eq_true_eq] at hc
    rcases hc with hc | hc
    · simp [isalnum, hc]
    · simp [hc]
  have h3 : lx.identifier.2 =
      (scanWhile (fun c => isalnum c || c = '_') lx.rest lx.line lx.column).2 := by
    unfold Lexer.identifier
    simp only
    split <;> rfl
  rw [h3, h]
  exact scanWhile_length_lt _ cs _ _ hp

theorem number_rest_length_lt (lx : Lexer) {c : Char} {cs : List Char}
    (h : lx.rest = c :: cs) (hc : isdigit c = true) :
    lx.number.2.rest.length < lx.rest.length := by
  have hp : (isdigit c || decide (c = '.')) = true := by simp [hc]
  have h3 : lx.number.2 =
      (scanWhile (fun c => isdigit c || c = '.') lx.rest lx.line lx.column).2 := rfl
  rw [h3, h]
  exact scanWhile_length_lt _ cs _ _ hp

theorem loopVariant_fuel (f : Nat) : ∀ (g : Nat) (lx : Lexer) (acc : List Token),
    lx.rest.length < f → lx.rest.length < g →
    tokenizeLoopVariant f lx acc = tokenizeLoopVariant g lx acc := by
  induction f with
  | zero => intro g lx acc h; exact absurd h (Nat.not_lt_zero _)
  | succ f ih =>
    intro g lx acc hf hg
    obtain ⟨g, rfl⟩ : ∃ j, g = j + 1 := ⟨g - 1, by omega⟩
    have hskip : lx.skipWhitespace.rest.length ≤ lx.rest.length :=
      scanWhile_length isspace lx.rest lx.line lx.column
    unfold tokenizeLoopVariant
    split
    · rfl
    · simp only
      split
      · rfl
      · rename_i ch rest hrest
        split
        · rename_i hd
          have := number_rest_length_lt lx.skipWhitespace hrest hd
          exact ih _ _ _ (by omega) (by omega)
        · split
          · rename_i hw
            have := identifier_rest_length_lt lx.skipWhitespace hrest hw
            exact ih _ _ _ (by omega) (by omega)
          · split
            · have := advance_length_lt lx.skipWhitespace hrest
              exact ih _ _ _ (by omega) (by omega)
            · rfl

theorem scanReaches_append {src pre cs : List Char} (h : ScanReaches src pre cs) :
    pre ++ cs = src := by
  induction h with
  | start => rfl
  | space pre c rest _ _ ih => simpa using ih
  | numeral pre c rest _ _ ih =>
    rw [List.append_assoc, List.takeWhile_append_dropWhile]; exact ih
  | word pre c rest _ _ ih =>
    rw [List.append_assoc, List.takeWhile_append_dropWhile]; exact ih
  | punct pre c rest ty _ _ ih => simpa using ih

theorem scanReaches_skip {src : List Char} : ∀ (cs pre : List Char),
    ScanReaches src pre cs →
    ScanReaches src (pre ++ cs.takeWhile isspace) (cs.dropWhile isspace) := by
  intro cs
  induction cs with
  | nil => intro pre h; simpa using h
  | cons c cs ih =>
    intro pre h
    by_cases hc : isspace c = true
    · have := ih (pre ++ [c]) (ScanReaches.space pre c cs h hc)
      simpa [List.takeWhile, List.dropWhile, hc] using this
    · simpa [List.takeWhile, List.dropWhile, hc] using h

theorem loopVariant_skip (fuel : Nat) (acc : List Token) : ∀ (cs pre : List Char),
    tokenizeLoopVariant (fuel + 1) ⟨cs, lineOf pre, columnOf pre⟩ acc =
      tokenizeLoopVariant (fuel + 1)
        ⟨cs.dropWhile isspace, lineOf (pre ++ cs.takeWhile isspace),
          columnOf (pre ++ cs.takeWhile isspace)⟩ acc := by
  intro cs
  induction cs with
  | nil => intro pre; simp
  | cons c cs ih =>
    intro pre
    by_cases hc : isspace c = true
    · rw [loopVariant_space fuel pre c cs acc hc, ih (pre ++ [c])]
      simp [List.takeWhile, List.dropWhile, hc]
    · simp [List.takeWhile, List.dropWhile, hc]

theorem dropWhile_head_not (p : Char → Bool) (cs : List Char) {c : Char} {rest : List Char}
    (h : cs.dropWhile p = c :: rest) : p c = false := by
  induction cs with
  | nil => simp at h
  | cons d cs ih =>
    by_cases hd : p d = true
    · simp only [List.dropWhile, hd] at h
      exact ih h
    · simp only [List.dropWhile, hd] at h
      simp only [List.cons.injEq] at h
      rw [← h.1]
      simpa using hd

theorem dropWhile_length_le (p : Char → Bool) (cs : List Char) :
    (cs.dropWhile p).length ≤ cs.length := by
  have h := congrArg List.length (List.takeWhile_append_dropWhile p cs)
  rw [List.length_append] at h
  omega

theorem scanReaches_loop {src pre cs : List Char} (h : ScanReaches src pre cs) :
    ∃ acc, ∀ fuel, cs.length < fuel →
      tokenizeLoopVariant (src.length + 1) ⟨src, 1, 1⟩ [] =
        tokenizeLoopVariant fuel ⟨cs, lineOf pre, columnOf pre⟩ acc := by
  induction h with
  | start =>
    refine ⟨[], ?_⟩
    intro fuel hf
    exact loopVariant_fuel _ _ _ _ (Nat.lt_succ_self _) hf
  | space pre c rest _ hc ih =>
    obtain ⟨acc, hacc⟩ := ih
    refine ⟨acc, ?_⟩
    intro fuel hf
    rw [hacc (fuel + 1) (by simp; omega), loopVariant_space fuel pre c rest acc hc]
    exact loopVariant_fuel _ _ _ _ (by simp; omega) hf
  | numeral pre c rest _ hc ih =>
    obtain ⟨acc, hacc⟩ := ih
    refine ⟨acc ++ [⟨TokenType.NUMBER, String.mk ((c :: rest).takeWhile isNumeralChar),
      lineOf (pre ++ (c :: rest).takeWhile isNumeralChar), columnOf pre⟩], ?_⟩
    intro fuel hf
    rw [hacc (fuel + (c :: rest).length + 1) (by omega),
      loopVariant_numeral _ pre c rest acc hc]
    have hl : ((c :: rest).dropWhile isNumeralChar).length ≤ (c :: rest).length :=
      dropWhile_length_le _ _
    exact loopVariant_fuel _ _ _ _ (by simp only; omega) hf
  | word pre c rest _ hc ih =>
    obtain ⟨acc, hacc⟩ := ih
    refine ⟨acc ++ [⟨if String.mk ((c :: rest).takeWhile isWordChar) = "print" then
        TokenType.PRINT else TokenType.IDENTIFIER,
      String.mk ((c :: rest).takeWhile isWordChar),
      lineOf (pre ++ (c :: rest).takeWhile isWordChar), columnOf pre⟩], ?_⟩
    intro fuel hf
    rw [hacc (fuel + (c :: rest).length + 1) (by omega),
      loopVariant_word _ pre c rest acc hc]
    have hl : ((c :: rest).dropWhile isWordChar).length ≤ (c :: rest).length :=
      dropWhile_length_le _ _
    exact loopVariant_fuel _ _ _ _ (by simp only; omega) hf
  | punct pre c rest ty _ hc ih =>
    obtain ⟨acc, hacc⟩ := ih
    refine ⟨acc ++ [⟨ty, String.mk [c], lineOf pre, columnOf pre⟩], ?_⟩
    intro fuel hf
    rw [hacc (fuel + 1) (by simp; omega), loopVariant_punct fuel pre c rest acc ty hc]

theorem loopVariant_error {src : List Char} (fuel : Nat) : ∀ (pre cs : List Char)
    (acc : List Token) (e : Fault), ScanReaches src pre cs →
    tokenizeLoopVariant fuel ⟨cs, lineOf pre, columnOf pre⟩ acc = .error e →
    e = Fault.outOfFuel ∨
    ∃ pre1 ch post, ScanReaches src pre1 (ch :: post) ∧ isspace ch = false ∧
      startsToken ch = false ∧ e = Fault.lexErrorAt ch (lineOf pre1) (columnOf pre1) := by
  induction fuel with
  | zero =>
    intro pre cs acc e _ h
    simp only [tokenizeLoopVariant, Except.error.injEq] at h
    exact Or.inl h.symm
  | succ fuel ih =>
    intro pre cs acc e hr h
    rw [loopVariant_skip] at h
    have hr1 := scanReaches_skip cs pre hr
    cases hcs : cs.dropWhile isspace with
    | nil => rw [hcs, loopVariant_end] at h; cases h
    | cons c rest =>
      rw [hcs] at h hr1
      have hsp : isspace c = false := dropWhile_head_not isspace cs hcs
      by_cases hd : isdigit c = true
      · rw [loopVariant_numeral _ _ c rest acc hd] at h
        exact ih _ _ _ e (ScanReaches.numeral _ c rest hr1 hd) h
      · by_cases hw : (isalpha c || c = '_') = true
        · rw [loopVariant_word _ _ c rest acc hw] at h
          exact ih _ _ _ e (ScanReaches.word _ c rest hr1 hw) h
        · cases hp : punctuation c with
          | some ty =>
            rw [loopVariant_punct _ _ c rest acc ty hp] at h
            exact ih _ _ _ e (ScanReaches.punct _ c rest ty hr1 hp) h
          | none =>
            have hst : startsToken c = false := by
              simp only [Bool.not_eq_true] at hd hw
              simp only [Bool.or_eq_false_iff] at hw
              simp [startsToken, hd, hw.1, hw.2, hp]
            rw [loopVariant_bad _ _ c rest acc hsp hst] at h
            simp only [Except.error.injEq] at h
            exact Or.inr ⟨_, c, rest, hr1, hsp, hst, h.symm⟩
theorem tokenizeVariant_total (source : String) :
    tokenizeVariant source ≠ .error Fault.outOfFuel := by
  intro h
  have h1 := tokenize_eq_variant source
  rw [h] at h1
  exact tokenize_total source h1

theorem position_no_newline (cs : List Char) (h : ∀ c ∈ cs, c ≠ '\n') :
    lineOf cs = 1 ∧ columnOf cs = 1 + cs.length := by
  constructor
  · unfold lineOf
    have : cs.count '\n' = 0 := by
      rw [List.count_eq_zero]
      intro hm
      exact h _ hm rfl
    omega
  · unfold columnOf
    have : cs.reverse.takeWhile (fun c => c != '\n') = cs.reverse := by
      rw [List.takeWhile_eq_self_iff]
      intro c hc
      have := h c (List.mem_reverse.1 hc)
      simpa using this
    rw [this, List.length_reverse]

theorem takeWhile_all (p : Char → Bool) (cs : List Char) (h : ∀ c ∈ cs, p c = true) :
    cs.takeWhile p = cs ∧ cs.dropWhile p = [] := by
  constructor
  · rw [List.takeWhile_eq_self_iff]; exact h
  · rw [List.dropWhile_eq_nil_iff]; exact h

theorem numeralChar_ne_newline {c : Char} (h : isNumeralChar c = true) : c ≠ '\n' := by
  rintro rfl
  revert h
  decide

theorem wordChar_ne_newline {c : Char} (h : isWordChar c = true) : c ≠ '\n' := by
  rintro rfl
  revert h
  decide

theorem tokenize_of_variant {source : String} {toks : List Token}
    (h : tokenizeVariant source = .ok toks) : tokenize source = .ok toks := by
  rw [tokenize_eq_variant, h]
  rfl

/-- C11: in both variants of the tokenizer, `tokenize` fails exactly when the scan gets,
between two tokens, to a character that is neither whitespace nor a digit, a letter, `_`
or one of `+ - * / = ( ) ;`, and then no token sequence is returned; two such points of one
source have the same character, line and column.  The exception of `lexer.cpp` carries
that character, its 1-based line and its 1-based column; the exception of `lexer.h`, the
tokenizer the program is built from, carries the character and the line only.  On
`x = 5 $ 3;` the first carries `$`, line 1, column 7 and the second `$`, line 1. -/
theorem lexical_failure (source : String) :
    (∀ e, tokenizeVariant source = .error e ↔
      ∃ pre ch post, ScanReaches source.toList pre (ch :: post) ∧ isspace ch = false ∧
        startsToken ch = false ∧ e = Fault.lexErrorAt ch (lineOf pre) (columnOf pre)) ∧
    (∀ e, tokenize source = .error e ↔
      ∃ pre ch post, ScanReaches source.toList pre (ch :: post) ∧ isspace ch = false ∧
        startsToken ch = false ∧ e = Fault.lexError ch (lineOf pre)) ∧
    (∀ pre ch post pre1 ch1 post1,
      ScanReaches source.toList pre (ch :: post) ∧ isspace ch = false ∧
        startsToken ch = false →
      ScanReaches source.toList pre1 (ch1 :: post1) ∧ isspace ch1 = false ∧
        startsToken ch1 = false →
      ch = ch1 ∧ lineOf pre = lineOf pre1 ∧ columnOf pre = columnOf pre1) ∧
    tokenizeVariant "x = 5 $ 3;" = .error (Fault.lexErrorAt '$' 1 7) ∧
    tokenize "x = 5 $ 3;" = .error (Fault.lexError '$' 1) := by
  have hv : ∀ e, tokenizeVariant source = .error e ↔
      ∃ pre ch post, ScanReaches source.toList pre (ch :: post) ∧ isspace ch = false ∧
        startsToken ch = false ∧ e = Fault.lexErrorAt ch (lineOf pre) (columnOf pre) := by
    intro e
    constructor
    · intro h
      have h0 := tokenizeVariant_total source
      cases source with
      | mk cs =>
        rcases loopVariant_error (cs.length + 1) [] cs [] e ScanReaches.start h with h1 | h1
        · rw [h1] at h; exact absurd h h0
        · exact h1
    · rintro ⟨pre, ch, post, hr, hsp, hst, rfl⟩
      cases source with
      | mk cs =>
        obtain ⟨acc, hacc⟩ := scanReaches_loop hr
        have := hacc ((ch :: post).length + 1) (Nat.lt_succ_self _)
        rw [loopVariant_bad _ pre ch post acc hsp hst] at this
        exact this
  refine ⟨hv, ?_, ?_, by rfl, by rfl⟩
  rotate_left
  · rintro pre ch post pre1 ch1 post1 ⟨hr, hsp, hst⟩ ⟨hr1, hsp1, hst1⟩
    have h1 := (hv _).2 ⟨pre, ch, post, hr, hsp, hst, rfl⟩
    have h2 := (hv _).2 ⟨pre1, ch1, post1, hr1, hsp1, hst1, rfl⟩
    rw [h1] at h2
    simp only [Except.error.injEq, Fault.lexErrorAt.injEq] at h2
    exact h2
  intro e
  constructor
  · intro h
    rw [tokenize_eq_variant] at h
    cases hvr : tokenizeVariant source with
    | ok toks => rw [hvr] at h; cases h
    | error e1 =>
      rw [hvr] at h
      obtain ⟨pre, ch, post, hr, hsp, hst, rfl⟩ := (hv e1).1 hvr
      simp only [Except.mapError, Fault.dropColumn, Except.error.injEq] at h
      exact ⟨pre, ch, post, hr, hsp, hst, h.symm⟩
  · rintro ⟨pre, ch, post, hr, hsp, hst, rfl⟩
    have := (hv _).2 ⟨pre, ch, post, hr, hsp, hst, rfl⟩
    rw [tokenize_eq_variant, this]
    rfl

/-- C12 (as amended): for every digit `d` and every run `ds` of digits and `.`, the
source `d ds` is tokenized into exactly one Number token, whose lexeme is the whole source
and which stands at line 1, column 1, followed by the end-of-input token; the number and
the placement of the `.` characters are not validated. -/
theorem numeral_token (d : Char) (ds : List Char) (hd : isdigit d = true)
    (hds : ∀ c ∈ ds, isNumeralChar c = true) :
    tokenize (String.mk (d :: ds)) =
      .ok [⟨TokenType.NUMBER, String.mk (d :: ds), 1, 1⟩,
        ⟨TokenType.END_OF_FILE, "", 1, ds.length + 2⟩] := by
  apply tokenize_of_variant
  have hall : ∀ c ∈ d :: ds, isNumeralChar c = true := by
    intro c hc
    rcases List.mem_cons.1 hc with rfl | hc
    · simp [isNumeralChar, hd]
    · exact hds c hc
  obtain ⟨htw, hdw⟩ := takeWhile_all isNumeralChar (d :: ds) hall
  obtain ⟨hl, hcol⟩ := position_no_newline (d :: ds)
    (fun c hc => numeralChar_ne_newline (hall c hc))
  have h := loopVariant_numeral (ds.length + 1) [] d ds [] hd
  rw [htw, hdw, List.nil_append, loopVariant_end, hl, hcol] at h
  have h1 : tokenizeVariant (String.mk (d :: ds)) =
      tokenizeLoopVariant (ds.length + 1 + 1) ⟨d :: ds, lineOf [], columnOf []⟩ [] := rfl
  rw [h1, h]
  simp [columnOf]
  omega

theorem numeral_token_witness :
    tokenize "1.2.3" = .ok [⟨TokenType.NUMBER, "1.2.3", 1, 1⟩,
      ⟨TokenType.END_OF_FILE, "", 1, 6⟩] :=
  numeral_token '1' ['.', '2', '.', '3'] (by decide) (by decide)

/-- C12, as stated, fails: the non-empty strings `.` and `.5` consist only of digits and
`.`, and `tokenize` rejects them at the `.` instead of returning a Number token. -/
theorem numeral_token_counterexample :
    (∀ c ∈ ".5".toList, isNumeralChar c = true) ∧
    tokenize ".5" = .error (Fault.lexError '.' 1) ∧
    tokenize "." = .error (Fault.lexError '.' 1) :=
  ⟨by decide, by rfl, by rfl⟩

/-- C13: for every source made of a letter or `_` followed by letters, digits and `_`,
`tokenize` returns exactly one token before the end-of-input token, whose lexeme is the
whole source and which stands at line 1, column 1; the token is the `print` keyword when
the source is exactly `print` and an Identifier otherwise, so `print1`, `Print`, `printx`
and `_print` are identifiers. -/
theorem word_token (c : Char) (cs : List Char) (hc : (isalpha c || c = '_') = true)
    (hcs : ∀ x ∈ cs, isWordChar x = true) :
    tokenize (String.mk (c :: cs)) =
      .ok [⟨if String.mk (c :: cs) = "print" then TokenType.PRINT else TokenType.IDENTIFIER,
          String.mk (c :: cs), 1, 1⟩,
        ⟨TokenType.END_OF_FILE, "", 1, cs.length + 2⟩] ∧
    tokenize "print" = .ok [⟨TokenType.PRINT, "print", 1, 1⟩,
      ⟨TokenType.END_OF_FILE, "", 1, 6⟩] ∧
    tokenize "print1" = .ok [⟨TokenType.IDENTIFIER, "print1", 1, 1⟩,
      ⟨TokenType.END_OF_FILE, "", 1, 7⟩] ∧
    tokenize "Print" = .ok [⟨TokenType.IDENTIFIER, "Print", 1, 1⟩,
      ⟨TokenType.END_OF_FILE, "", 1, 6⟩] ∧
    tokenize "printx" = .ok [⟨TokenType.IDENTIFIER, "printx", 1, 1⟩,
      ⟨TokenType.END_OF_FILE, "", 1, 7⟩] ∧
    tokenize "_print" = .ok [⟨TokenType.IDENTIFIER, "_print", 1, 1⟩,
      ⟨TokenType.END_OF_FILE, "", 1, 7⟩] := by
  refine ⟨?_, by rfl, by rfl, by rfl, by rfl, by rfl⟩
  apply tokenize_of_variant
  have hall : ∀ x ∈ c :: cs, isWordChar x = true := by
    intro x hx
    rcases List.mem_cons.1 hx with rfl | hx
    · simp only [Bool.or_eq_true, decide_eq_true_eq] at hc
      rcases hc with hc | hc
      · simp [isWordChar, isalnum, hc]
      · simp [isWordChar, hc]
    · exact hcs x hx
  obtain ⟨htw, hdw⟩ := takeWhile_all isWordChar (c :: cs) hall
  obtain ⟨hl, hcol⟩ := position_no_newline (c :: cs)
    (fun x hx => wordChar_ne_newline (hall x hx))
  have h := loopVariant_word (cs.length + 1) [] c cs [] hc
  rw [htw, hdw, List.nil_append, loopVariant_end, hl, hcol] at h
  have h1 : tokenizeVariant (String.mk (c :: cs)) =
      tokenizeLoopVariant (cs.length + 1 + 1) ⟨c :: cs, lineOf [], columnOf []⟩ [] := rfl
  rw [h1, h]
  simp [columnOf]
  omega

theorem word_token_witness :
    tokenize "x_1" = .ok [⟨TokenType.IDENTIFIER, "x_1", 1, 1⟩,
      ⟨TokenType.END_OF_FILE, "", 1, 4⟩] :=
  (word_token 'x' ['_', '1'] (by decide) (by decide)).1

/-! ## Parser: soundness with respect to the grammar -/

theorem endsInEof_cons {tok : Token} {rest : List Token} (h : endsInEof (tok :: rest))
    (hne : tok.type ≠ TokenType.END_OF_FILE) : endsInEof rest ∧ advance (tok :: rest) = rest := by
  obtain ⟨init, e, heq, he⟩ := h
  cases init with
  | nil =>
    simp only [List.nil_append, List.cons.injEq] at heq
    rw [heq.1] at hne
    exact absurd he hne
  | cons a init =>
    simp only [List.cons_append, List.cons.injEq] at heq
    have hr : endsInEof rest := ⟨init, e, heq.2, he⟩
    refine ⟨hr, ?_⟩
    cases rest with
    | nil => rw [heq.2] at hr; simp at heq
    | cons u us => rfl

theorem endsInEof_ne_nil {ts : List Token} (h : endsInEof ts) : ts ≠ [] := by
  obtain ⟨init, e, rfl, _⟩ := h
  simp

theorem endsInEof_split {ts : List Token} (h : endsInEof ts)
    (hne : (current ts).type ≠ TokenType.END_OF_FILE) :
    ∃ tok rest, ts = tok :: rest ∧ endsInEof rest ∧ advance ts = rest ∧ current ts = tok := by
  cases ts with
  | nil => exact absurd rfl (endsInEof_ne_nil h)
  | cons tok rest =>
    obtain ⟨h1, h2⟩ := endsInEof_cons h hne
    exact ⟨tok, rest, rfl, h1, h2, rfl⟩

theorem numbersConvert_cons {tok : Token} {rest : List Token}
    (h : numbersConvert (tok :: rest)) : numbersConvert rest :=
  fun t ht => h t (List.mem_cons_of_mem _ ht)

theorem numbersConvert_append_right {p rest : List Token} (h : numbersConvert (p ++ rest)) :
    numbersConvert rest :=
  fun t ht => h t (List.mem_append_right _ ht)

theorem expect_outcome (type : TokenType) (message : String) {ts : List Token}
    (h : endsInEof ts) (hty : type ≠ TokenType.END_OF_FILE) :
    (∃ tok rest, ts = tok :: rest ∧ tok.type = type ∧ endsInEof rest ∧
      expect type message ts = .ok rest) ∨
    (∃ tok rest, ts = tok :: rest ∧ tok.type ≠ type ∧
      expect type message ts = .error (Fault.syntaxError (some message) tok.line)) := by
  unfold expect
  by_cases hc : (current ts).type = type
  · left
    obtain ⟨tok, rest, rfl, hr, hadv, hcur⟩ := endsInEof_split h (by rw [hc]; exact hty)
    refine ⟨tok, rest, rfl, by rw [← hc]; rfl, hr, ?_⟩
    simp [hc, hadv]
  · right
    cases ts with
    | nil => exact absurd rfl (endsInEof_ne_nil h)
    | cons tok rest =>
      have hc1 : tok.type ≠ type := hc
      exact ⟨tok, rest, rfl, hc1, by simp [hc1, current]⟩

theorem prefix_cons_of (tok : Token) {p rest : List Token} (h : p <+: rest) :
    tok :: p <+: tok :: rest := by
  obtain ⟨t, ht⟩ := h
  exact ⟨t, by simp [ht]⟩

theorem factor_faithful {E : List Token → PResult} {n : Nat}
    (hE : Faithful E .expression n) : Faithful (factor E) .factor (n + 1) := by
  intro ts hts hnum hlen
  unfold factor
  simp only
  by_cases h1 : (current ts).type = TokenType.NUMBER
  · obtain ⟨tok, rest, rfl, hr, hadv, hcur⟩ := endsInEof_split hts (by rw [h1]; decide)
    rw [if_pos h1, hadv]
    have htok : tok.type = TokenType.NUMBER := h1
    obtain ⟨v, hv, hrange⟩ := hnum tok (List.mem_cons_self _ _) htok
    left
    refine ⟨ASTNode.Number v, [tok], rest, ?_, rfl, Produces.number tok v htok hv hrange, hr,
      trivial⟩
    simp [current, hv, hrange]
  · rw [if_neg h1]
    by_cases h2 : (current ts).type = TokenType.IDENTIFIER
    · obtain ⟨tok, rest, rfl, hr, hadv, hcur⟩ := endsInEof_split hts (by rw [h2]; decide)
      rw [if_pos h2, hadv]
      left
      exact ⟨_, [tok], rest, rfl, rfl, Produces.identifier tok h2, hr, trivial⟩
    · rw [if_neg h2]
      by_cases h3 : (current ts).type = TokenType.LPAREN
      · obtain ⟨lp, rest, rfl, hr, hadv, hcur⟩ := endsInEof_split hts (by rw [h3]; decide)
        rw [if_pos h3, hadv]
        have hlp : lp.type = TokenType.LPAREN := h3
        simp only [List.length_cons] at hlen
        rcases hE rest hr (numbersConvert_cons hnum) (by omega) with
          ⟨e, p, r1, hok, hsplit, hprod, hr1, hadd, hmul⟩ | ⟨pe, c, tok, hpre, hrej, herr⟩
        · rw [hok]
          simp only
          rcases expect_outcome TokenType.RPAREN "esperaba ')'" hr1 (by decide) with
            ⟨rp, r2, rfl, hrp, hr2, hx⟩ | ⟨tok, r2, rfl, hne, hx⟩
          · rw [hx]
            left
            refine ⟨e, lp :: p ++ [rp], r2, rfl, ?_, Produces.paren lp rp p e hlp hrp hprod,
              hr2, trivial⟩
            rw [hsplit]
            simp
          · rw [hx]
            right
            refine ⟨lp :: p ++ [tok], .closingParen, tok, ⟨r2, ?_⟩,
              Rejects.parenClose lp tok p e hlp hprod hne hadd hmul, rfl⟩
            rw [hsplit]
            simp
        · rw [herr]
          right
          exact ⟨lp :: pe, c, tok, prefix_cons_of lp hpre, Rejects.parenInner lp pe c tok hlp hrej,
            rfl⟩
      · rw [if_neg h3]
        right
        cases ts with
        | nil => exact absurd rfl (endsInEof_ne_nil hts)
        | cons tok rest =>
          exact ⟨[tok], .factorToken, tok, ⟨rest, rfl⟩, Rejects.factorToken tok h1 h2 h3, rfl⟩

theorem termLoop_faithful {E : List Token → PResult} {n : Nat}
    (hE : Faithful E .expression n) :
    ∀ (k : Nat) (left : ASTNode) (q ts : List Token), Produces .term q left → endsInEof ts →
      numbersConvert ts → ts.length ≤ k → ts.length ≤ n + 2 →
      LoopOutcome .term q (termLoop E k left ts) ts := by
  intro k
  induction k with
  | zero =>
    intro left q ts _ hts _ hk _
    have := length_pos_of_ne_nil (endsInEof_ne_nil hts)
    omega
  | succ k ih =>
    intro left q ts hq hts hnum hk hn
    rw [termLoop]
    by_cases hop : (current ts).type = TokenType.MULTIPLY ∨ (current ts).type = TokenType.DIVIDE
    · rw [if_pos hop]
      obtain ⟨op, rest, rfl, hr, hadv, hcur⟩ :=
        endsInEof_split hts (by rcases hop with h | h <;> rw [h] <;> decide)
      rw [hadv]
      simp only [List.length_cons] at hk hn
      rcases factor_faithful hE rest hr (numbersConvert_cons hnum) (by omega) with
        ⟨r, p, ts1, hok, hsplit, hprod, hr1, _⟩ | ⟨pf, c, tok, hpre, hrej, herr⟩
      · rw [hok]
        simp only
        have hlen : ts1.length ≤ rest.length := by rw [hsplit]; simp
        have hnum1 : numbersConvert ts1 := by
          apply numbersConvert_append_right (p := p)
          rw [← hsplit]
          exact numbersConvert_cons hnum
        have hq1 : Produces .term (q ++ op :: p) (ASTNode.BinaryOp op.lexeme left r) :=
          Produces.termOp q op p left r hq hop hprod
        rcases ih _ (q ++ op :: p) ts1 hq1 hr1 hnum1 (by omega) (by omega) with
          ⟨t, p2, rest2, hok2, hsplit2, hprod2, hr2, hstop⟩ | ⟨p2, c, tok, hpre2, hrej2, herr2⟩
        · left
          refine ⟨t, op :: p ++ p2, rest2, hok2, ?_, ?_, hr2, hstop⟩
          · rw [hsplit, hsplit2]; simp
          · have : q ++ (op :: p ++ p2) = (q ++ op :: p) ++ p2 := by simp
            rw [this]
            exact hprod2
        · right
          refine ⟨op :: p ++ p2, c, tok, ?_, ?_, herr2⟩
          · obtain ⟨t, ht⟩ := hpre2
            exact ⟨t, by rw [hsplit, ← ht]; simp⟩
          · have : q ++ (op :: p ++ p2) = (q ++ op :: p) ++ p2 := by simp
            rw [this]
            exact hrej2
      · rw [herr]
        right
        exact ⟨op :: pf, c, tok, prefix_cons_of op hpre,
          Rejects.termOp q op pf left c tok hq hop hrej, rfl⟩
    · rw [if_neg hop]
      left
      exact ⟨left, [], ts, rfl, rfl, by simpa using hq, hts, hop⟩

theorem prefix_append_of {p p2 ts1 : List Token} (h : p2 <+: ts1) : p ++ p2 <+: p ++ ts1 := by
  obtain ⟨t, ht⟩ := h
  exact ⟨t, by rw [← ht]; simp⟩

theorem term_faithful {E : List Token → PResult} {n : Nat}
    (hE : Faithful E .expression n) : Faithful (term E) .term (n + 1) := by
  intro ts hts hnum hlen
  unfold term
  rcases factor_faithful hE ts hts hnum hlen with
    ⟨l, p, ts1, hok, hsplit, hprod, hr1, _⟩ | ⟨pf, c, tok, hpre, hrej, herr⟩
  · rw [hok]
    simp only
    have hl1 : ts1.length ≤ ts.length := by rw [hsplit]; simp
    have hnum1 : numbersConvert ts1 := by
      apply numbersConvert_append_right (p := p)
      rw [← hsplit]
      exact hnum
    rcases termLoop_faithful hE ts1.length l p ts1 (Produces.termFactor p l hprod) hr1 hnum1
        (le_refl _) (by omega) with
      ⟨t, p2, rest2, hok2, hsplit2, hprod2, hr2, hstop⟩ | ⟨p2, c, tok, hpre2, hrej2, herr2⟩
    · left
      exact ⟨t, p ++ p2, rest2, hok2, by rw [hsplit, hsplit2]; simp, hprod2, hr2, hstop⟩
    · right
      exact ⟨p ++ p2, c, tok, by rw [hsplit]; exact prefix_append_of hpre2, hrej2, herr2⟩
  · rw [herr]
    right
    exact ⟨pf, c, tok, hpre, Rejects.termFirst pf c tok hrej, rfl⟩

theorem expressionLoop_faithful {E : List Token → PResult} {n : Nat}
    (hE : Faithful E .expression n) :
    ∀ (k : Nat) (left : ASTNode) (q ts : List Token), Produces .expression q left →
      endsInEof ts → numbersConvert ts → ¬ (current ts).isMulOp → ts.length ≤ k →
      ts.length ≤ n + 2 →
      LoopOutcome .expression q (expressionLoop E k left ts) ts := by
  intro k
  induction k with
  | zero =>
    intro left q ts _ hts _ _ hk _
    have := length_pos_of_ne_nil (endsInEof_ne_nil hts)
    omega
  | succ k ih =>
    intro left q ts hq hts hnum hmul hk hn
    rw [expressionLoop]
    by_cases hop : (current ts).type = TokenType.PLUS ∨ (current ts).type = TokenType.MINUS
    · rw [if_pos hop]
      obtain ⟨op, rest, rfl, hr, hadv, hcur⟩ :=
        endsInEof_split hts (by rcases hop with h | h <;> rw [h] <;> decide)
      rw [hadv]
      simp only [List.length_cons] at hk hn
      rcases term_faithful hE rest hr (numbersConvert_cons hnum) (by omega) with
        ⟨r, p, ts1, hok, hsplit, hprod, hr1, hstop1⟩ | ⟨pf, c, tok, hpre, hrej, herr⟩
      · rw [hok]
        simp only
        have hlen : ts1.length ≤ rest.length := by rw [hsplit]; simp
        have hnum1 : numbersConvert ts1 := by
          apply numbersConvert_append_right (p := p)
          rw [← hsplit]
          exact numbersConvert_cons hnum
        have hq1 : Produces .expression (q ++ op :: p) (ASTNode.BinaryOp op.lexeme left r) :=
          Produces.exprOp q op p left r hq hop hprod
        rcases ih _ (q ++ op :: p) ts1 hq1 hr1 hnum1 hstop1 (by omega) (by omega) with
          ⟨t, p2, rest2, hok2, hsplit2, hprod2, hr2, hstop⟩ | ⟨p2, c, tok, hpre2, hrej2, herr2⟩
        · left
          refine ⟨t, op :: p ++ p2, rest2, hok2, ?_, ?_, hr2, hstop⟩
          · rw [hsplit, hsplit2]; simp
          · have : q ++ (op :: p ++ p2) = (q ++ op :: p) ++ p2 := by simp
            rw [this]
            exact hprod2
        · right
          refine ⟨op :: p ++ p2, c, tok, ?_, ?_, herr2⟩
          · obtain ⟨t, ht⟩ := hpre2
            exact ⟨t, by rw [hsplit, ← ht]; simp⟩
          · have : q ++ (op :: p ++ p2) = (q ++ op :: p) ++ p2 := by simp
            rw [this]
            exact hrej2
      · rw [herr]
        right
        exact ⟨op :: pf, c, tok, prefix_cons_of op hpre,
          Rejects.exprOp q op pf left c tok hq hop hrej, rfl⟩
    · rw [if_neg hop]
      left
      exact ⟨left, [], ts, rfl, rfl, by simpa using hq, hts, hop, hmul⟩

theorem expression_faithful : ∀ n : Nat, Faithful (expression n) .expression n := by
  intro n
  induction n with
  | zero =>
    intro ts hts _ hlen
    have := length_pos_of_ne_nil (endsInEof_ne_nil hts)
    omega
  | succ n ih =>
    intro ts hts hnum hlen
    rw [expression]
    rcases term_faithful ih ts hts hnum hlen with
      ⟨l, p, ts1, hok, hsplit, hprod, hr1, hstop1⟩ | ⟨pf, c, tok, hpre, hrej, herr⟩
    · rw [hok]
      simp only
      have hl1 : ts1.length ≤ ts.length := by rw [hsplit]; simp
      have hnum1 : numbersConvert ts1 := by
        apply numbersConvert_append_right (p := p)
        rw [← hsplit]
        exact hnum
      rcases expressionLoop_faithful ih ts1.length l p ts1 (Produces.exprTerm p l hprod) hr1
          hnum1 hstop1 (le_refl _) (by omega) with
        ⟨t, p2, rest2, hok2, hsplit2, hprod2, hr2, hstop⟩ | ⟨p2, c, tok, hpre2, hrej2, herr2⟩
      · left
        exact ⟨t, p ++ p2, rest2, hok2, by rw [hsplit, hsplit2]; simp, hprod2, hr2, hstop⟩
      · right
        exact ⟨p ++ p2, c, tok, by rw [hsplit]; exact prefix_append_of hpre2, hrej2, herr2⟩
    · rw [herr]
      right
      exact ⟨pf, c, tok, hpre, Rejects.exprFirst pf c tok hrej, rfl⟩

theorem expression_outcome {n : Nat} {ts : List Token} (hts : endsInEof ts)
    (hnum : numbersConvert ts) (hlen : ts.length ≤ n) : Outcome .expression (expression n ts) ts :=
  expression_faithful n ts hts hnum hlen

theorem produces_derives {nt : Nonterminal} {ts : List Token} {tree : ASTNode}
    (h : Produces nt ts tree) : Derives nt ts := by
  induction h with
  | number tok v h1 _ _ => exact Derives.number tok h1
  | identifier tok h1 => exact Derives.identifier tok h1
  | paren lp rp ts e h1 h2 _ ih => exact Derives.paren lp rp ts h1 h2 ih
  | termFactor ts e _ ih => exact Derives.termFactor ts ih
  | termOp ts op fs l r _ hop _ ih1 ih2 => exact Derives.termOp ts op fs ih1 hop ih2
  | exprTerm ts e _ ih => exact Derives.exprTerm ts ih
  | exprOp ts op fs l r _ hop _ ih1 ih2 => exact Derives.exprOp ts op fs ih1 hop ih2
  | printStmt kw lp rp semi ts e h1 h2 h3 h4 _ ih =>
    exact Derives.printStmt kw lp rp semi ts h1 h2 h3 h4 ih
  | assignStmt id eq semi ts e h1 h2 h3 _ ih => exact Derives.assignStmt id eq semi ts h1 h2 h3 ih

theorem statement_outcome {n : Nat} {ts : List Token} (hts : endsInEof ts)
    (hnum : numbersConvert ts) (hlen : ts.length ≤ n) : Outcome .statement (statement n ts) ts := by
  unfold statement
  by_cases h1 : (current ts).type = TokenType.PRINT
  · rw [if_pos h1]
    obtain ⟨kw, r0, rfl, hr0, hadv, hcur⟩ := endsInEof_split hts (by rw [h1]; decide)
    rw [hadv]
    have hkw : kw.type = TokenType.PRINT := h1
    rcases expect_outcome TokenType.LPAREN "esperaba '(' despues de print" hr0 (by decide) with
      ⟨lp, r1, rfl, hlp, hr1, hx⟩ | ⟨tok, r1, rfl, hne, hx⟩
    · rw [hx]
      simp only [List.length_cons] at hlen ⊢
      have hnum1 : numbersConvert r1 := numbersConvert_cons (numbersConvert_cons hnum)
      rcases expression_outcome (n := n) hr1 hnum1 (by omega) with
        ⟨e, p, r2, hok, hsplit, hprod, hr2, hadd, hmul⟩ | ⟨pe, c, tok, hpre, hrej, herr⟩
      · rw [hok]
        simp only
        rcases expect_outcome TokenType.RPAREN "esperaba ')'" hr2 (by decide) with
          ⟨rp, r3, rfl, hrp, hr3, hx2⟩ | ⟨tok, r3, rfl, hne, hx2⟩
        · rw [hx2]
          simp only
          rcases expect_outcome TokenType.SEMICOLON "esperaba ';'" hr3 (by decide) with
            ⟨semi, r4, rfl, hsemi, hr4, hx3⟩ | ⟨tok, r4, rfl, hne, hx3⟩
          · rw [hx3]
            left
            refine ⟨ASTNode.Print e, kw :: lp :: p ++ [rp, semi], r4, rfl, ?_,
              Produces.printStmt kw lp rp semi p e hkw hlp hrp hsemi hprod, hr4, trivial⟩
            rw [hsplit]
            simp
          · rw [hx3]
            right
            refine ⟨kw :: lp :: p ++ [rp, tok], .semicolon, tok, ⟨r4, ?_⟩,
              Rejects.printSemicolon kw lp rp tok p e hkw hlp hprod hrp hne, rfl⟩
            rw [hsplit]
            simp
        · rw [hx2]
          right
          refine ⟨kw :: lp :: p ++ [tok], .closingParen, tok, ⟨r3, ?_⟩,
            Rejects.printClose kw lp tok p e hkw hlp hprod hne hadd hmul, rfl⟩
          rw [hsplit]
          simp
      · rw [herr]
        right
        exact ⟨kw :: lp :: pe, c, tok, prefix_cons_of kw (prefix_cons_of lp hpre),
          Rejects.printInner kw lp pe c tok hkw hlp hrej, rfl⟩
    · rw [hx]
      right
      exact ⟨[kw, tok], .printParen, tok, ⟨r1, rfl⟩, Rejects.printParen kw tok hkw hne, rfl⟩
  · rw [if_neg h1]
    by_cases h2 : (current ts).type = TokenType.IDENTIFIER ∧ (peek ts).type = TokenType.ASSIGN
    · rw [if_pos h2]
      obtain ⟨id, r0, rfl, hr0, hadv, hcur⟩ := endsInEof_split hts (by rw [h2.1]; decide)
      have hid : id.type = TokenType.IDENTIFIER := h2.1
      cases r0 with
      | nil => exact absurd rfl (endsInEof_ne_nil hr0)
      | cons eq r1 =>
        have heq : eq.type = TokenType.ASSIGN := h2.2
        obtain ⟨hr1, hadv1⟩ := endsInEof_cons hr0 (by rw [heq]; decide)
        rw [hadv, hadv1]
        simp only [List.length_cons] at hlen
        have hnum1 : numbersConvert r1 := numbersConvert_cons (numbersConvert_cons hnum)
        rcases expression_outcome (n := n) hr1 hnum1 (by omega) with
          ⟨e, p, r2, hok, hsplit, hprod, hr2, hadd, hmul⟩ | ⟨pe, c, tok, hpre, hrej, herr⟩
        · rw [hok]
          simp only
          rcases expect_outcome TokenType.SEMICOLON "esperaba ';'" hr2 (by decide) with
            ⟨semi, r3, rfl, hsemi, hr3, hx3⟩ | ⟨tok, r3, rfl, hne, hx3⟩
          · rw [hx3]
            left
            refine ⟨ASTNode.Assignment id.lexeme e, id :: eq :: p ++ [semi], r3, rfl, ?_,
              Produces.assignStmt id eq semi p e hid heq hsemi hprod, hr3, trivial⟩
            rw [hsplit]
            simp
          · rw [hx3]
            right
            refine ⟨id :: eq :: p ++ [tok], .semicolon, tok, ⟨r3, ?_⟩,
              Rejects.assignSemicolon id eq tok p e hid heq hprod hne hadd hmul, rfl⟩
            rw [hsplit]
            simp
        · rw [herr]
          right
          exact ⟨id :: eq :: pe, c, tok, prefix_cons_of id (prefix_cons_of eq hpre),
            Rejects.assignInner id eq pe c tok hid heq hrej, rfl⟩
    · rw [if_neg h2]
      right
      cases ts with
      | nil => exact absurd rfl (endsInEof_ne_nil hts)
      | cons tok r0 =>
        have hp : tok.type ≠ TokenType.PRINT := h1
        by_cases hid : tok.type = TokenType.IDENTIFIER
        · obtain ⟨hr0, _⟩ := endsInEof_cons hts (by rw [hid]; decide)
          cases r0 with
          | nil => exact absurd rfl (endsInEof_ne_nil hr0)
          | cons next r1 =>
            have hnext : next.type ≠ TokenType.ASSIGN := fun h => h2 ⟨hid, h⟩
            exact ⟨[tok, next], .leadingToken, tok, ⟨r1, rfl⟩,
              Rejects.leadingIdentifier tok next hid hnext, rfl⟩
        · exact ⟨[tok], .leadingToken, tok, ⟨r0, rfl⟩, Rejects.leadingOther tok hp hid, rfl⟩

theorem parseLoop_statements (depth : Nat) :
    ∀ (stmts : List (List Token × ASTNode)) (k : Nat) (rest : List Token) (acc : List ASTNode),
      (∀ s ∈ stmts, Produces .statement s.1 s.2 ∧ s.1.length ≤ depth) → rest ≠ [] →
      parseLoop depth (stmts.length + k) ((stmts.map Prod.fst).flatten ++ rest) acc =
        parseLoop depth k rest (acc ++ stmts.map Prod.snd) := by
  intro stmts
  induction stmts with
  | nil => intro k rest acc _ _; simp
  | cons s stmts ih =>
    intro k rest acc hall hrest
    have hs := hall s (List.mem_cons_self _ _)
    have hne : (stmts.map Prod.fst).flatten ++ rest ≠ [] := by simp [hrest]
    have hl : (s :: stmts).length + k = (stmts.length + k) + 1 := by simp; omega
    rw [hl, parseLoop]
    simp only [List.map_cons, List.flatten_cons, List.append_assoc]
    rw [if_pos (statement_head hs.1 _), statement_of_produces hs.1 hs.2 hne]
    simp only
    rw [ih k rest _ (fun x hx => hall x (List.mem_cons_of_mem _ hx)) hrest]
    simp

theorem statement_tokens_pos {ts : List Token} {t : ASTNode} (h : Produces .statement ts t) :
    0 < ts.length := by
  cases h <;> simp

theorem join_length_bounds (stmts : List (List Token × ASTNode))
    (hall : ∀ s ∈ stmts, Produces .statement s.1 s.2) :
    stmts.length ≤ ((stmts.map Prod.fst).flatten).length ∧
    ∀ s ∈ stmts, s.1.length ≤ ((stmts.map Prod.fst).flatten).length := by
  induction stmts with
  | nil => simp
  | cons s stmts ih =>
    have h1 := statement_tokens_pos (hall s (List.mem_cons_self _ _))
    obtain ⟨h2, h3⟩ := ih (fun x hx => hall x (List.mem_cons_of_mem _ hx))
    simp only [List.map_cons, List.flatten_cons, List.length_append, List.length_cons]
    refine ⟨by omega, ?_⟩
    intro x hx
    rcases List.mem_cons.1 hx with rfl | hx
    · omega
    · have := h3 x hx
      omega

theorem parse_statements_then (stmts : List (List Token × ASTNode)) (rest : List Token)
    (hall : ∀ s ∈ stmts, Produces .statement s.1 s.2) (hrest : rest ≠ []) :
    ∃ depth k, 0 < k ∧ rest.length ≤ depth ∧
      parse ((stmts.map Prod.fst).flatten ++ rest) =
        parseLoop depth k rest (stmts.map Prod.snd) := by
  obtain ⟨h2, h3⟩ := join_length_bounds stmts hall
  have hpos := length_pos_of_ne_nil hrest
  refine ⟨((stmts.map Prod.fst).flatten ++ rest).length + 1,
    ((stmts.map Prod.fst).flatten ++ rest).length + 1 - stmts.length, ?_, ?_, ?_⟩
  · simp only [List.length_append]; omega
  · simp only [List.length_append]; omega
  · unfold parse
    generalize hN : ((stmts.map Prod.fst).flatten ++ rest).length + 1 = N
    have hlenN : (stmts.map Prod.fst).flatten.length + rest.length + 1 = N := by
      rw [← hN]; simp only [List.length_append]
    have h4 := parseLoop_statements N stmts (N - stmts.length) rest []
      (fun s hs => ⟨hall s hs, by have := h3 s hs; omega⟩) hrest
    have hk : stmts.length + (N - stmts.length) = N := by omega
    rw [hk] at h4
    simpa using h4

theorem derives_statement_last {p : List Token} (h : Derives .statement p) :
    ∃ init semi, p = init ++ [semi] ∧ semi.type = TokenType.SEMICOLON := by
  cases h with
  | printStmt kw lp rp semi ts _ _ _ h4 _ =>
    exact ⟨kw :: lp :: ts ++ [rp], semi, by simp, h4⟩
  | assignStmt id eq semi ts _ _ h3 _ => exact ⟨id :: eq :: ts, semi, by simp, h3⟩

theorem no_statement_without_semicolon {bad : List Token}
    (h : ∀ t ∈ bad, t.type ≠ TokenType.SEMICOLON) :
    ∀ p, p <+: bad → ¬ Derives .statement p := by
  intro p hp hd
  obtain ⟨init, semi, rfl, hs⟩ := derives_statement_last hd
  exact h semi (hp.subset (by simp)) hs

theorem parseLoop_at_eof (depth : Nat) {k : Nat} (hk : 0 < k) {ts : List Token}
    (h : (current ts).type = TokenType.END_OF_FILE) (acc : List ASTNode) :
    parseLoop depth k ts acc = .ok acc := by
  obtain ⟨k, rfl⟩ : ∃ j, k = j + 1 := ⟨k - 1, by omega⟩
  rw [parseLoop]
  simp [h]

theorem parseLoop_error (depth : Nat) {k : Nat} (hk : 0 < k) {ts : List Token}
    (h : (current ts).type ≠ TokenType.END_OF_FILE) (acc : List ASTNode) {e : Fault}
    (he : statement depth ts = .error e) : parseLoop depth k ts acc = .error e := by
  obtain ⟨k, rfl⟩ : ∃ j, k = j + 1 := ⟨k - 1, by omega⟩
  rw [parseLoop, if_pos h, he]

theorem current_append {bad : List Token} (rest : List Token) (h : bad ≠ []) :
    current (bad ++ rest) = current bad := by
  cases bad with
  | nil => exact absurd rfl h
  | cons t ts => rfl

theorem ne_nil_of_current {bad : List Token} (h : (current bad).type ≠ TokenType.END_OF_FILE) :
    bad ≠ [] := by
  rintro rfl
  exact h rfl

/-- C14 (amended).  No recovery in `parse`.  Take `k ≥ 0` statements, each a token sequence
the grammar produces from `statement` together with its tree (so the lexeme of each of its
NUMBER tokens is a text `std::stod` converts to a value within the range of `double`).
Followed directly by the end-of-input token, `parse` returns exactly the `k` trees in source
order.  Followed by tokens `bad` that do not begin with an end-of-input token, whose NUMBER
lexemes convert within the range of `double`, and no initial part of which is derivable from
`statement`, and then by the end-of-input token, `parse` fails with a syntax error
(`Fault.syntaxError`), so that it returns none of the `k` trees. -/
theorem no_recovery (stmts : List (List Token × ASTNode)) (bad : List Token) (eof : Token)
    (hst : ∀ s ∈ stmts, Produces .statement s.1 s.2)
    (heof : eof.type = TokenType.END_OF_FILE) :
    parse ((stmts.map Prod.fst).flatten ++ [eof]) = .ok (stmts.map Prod.snd) ∧
    ((current bad).type ≠ TokenType.END_OF_FILE → numbersConvert bad →
      (∀ p, p <+: bad → ¬ Derives .statement p) →
      ∃ m l, parse ((stmts.map Prod.fst).flatten ++ (bad ++ [eof])) =
        .error (Fault.syntaxError m l)) := by
  constructor
  · obtain ⟨depth, k, hk, _, hp⟩ := parse_statements_then stmts [eof] hst (by simp)
    rw [hp]
    exact parseLoop_at_eof depth hk
      (show (current [eof]).type = TokenType.END_OF_FILE from heof) _
  · intro hfirst hnum hbad
    have hne := ne_nil_of_current hfirst
    obtain ⟨depth, k, hk, hd, hp⟩ :=
      parse_statements_then stmts (bad ++ [eof]) hst (by simp)
    rw [hp]
    have hends : endsInEof (bad ++ [eof]) := ⟨bad, eof, rfl, heof⟩
    have hnum1 : numbersConvert (bad ++ [eof]) := by
      intro t ht hty
      rcases List.mem_append.1 ht with h | h
      · exact hnum t h hty
      · simp only [List.mem_singleton] at h
        rw [h, heof] at hty
        exact absurd hty (by decide)
    have hcur : (current (bad ++ [eof])).type ≠ TokenType.END_OF_FILE := by
      rw [current_append _ hne]; exact hfirst
    rcases statement_outcome (n := depth) hends hnum1 hd with
      ⟨t, p, rest, _, hsplit, hprod, hrest, _⟩ | ⟨p, c, tok, _, _, herr⟩
    · exfalso
      obtain ⟨init, e, rfl, _⟩ := hrest
      have h1 : bad ++ [eof] = (p ++ init) ++ [e] := by rw [hsplit]; simp
      have h2 : bad = p ++ init := (List.append_inj' h1 rfl).1
      exact hbad p ⟨init, h2.symm⟩ (produces_derives hprod)
    · exact ⟨c.message, tok.line, parseLoop_error depth hk hcur _ herr⟩

/-- C14 at `x = 1;` followed by end-of-input, and followed by `y = 2` without its `;`. -/
theorem no_recovery_witness :
    parse ([⟨.IDENTIFIER, "x", 1, 1⟩, ⟨.ASSIGN, "=", 1, 3⟩, ⟨.NUMBER, "1", 1, 5⟩,
      ⟨.SEMICOLON, ";", 1, 6⟩] ++ [⟨.END_OF_FILE, "", 1, 13⟩]) =
      .ok [ASTNode.Assignment "x" (ASTNode.Number 1)] ∧
    ∃ m l, parse ([⟨.IDENTIFIER, "x", 1, 1⟩, ⟨.ASSIGN, "=", 1, 3⟩, ⟨.NUMBER, "1", 1, 5⟩,
      ⟨.SEMICOLON, ";", 1, 6⟩] ++ ([⟨.IDENTIFIER, "y", 1, 8⟩, ⟨.ASSIGN, "=", 1, 10⟩,
      ⟨.NUMBER, "2", 1, 12⟩] ++ [⟨.END_OF_FILE, "", 1, 13⟩])) =
      .error (Fault.syntaxError m l) :=
  have h := no_recovery
    [([⟨.IDENTIFIER, "x", 1, 1⟩, ⟨.ASSIGN, "=", 1, 3⟩, ⟨.NUMBER, "1", 1, 5⟩,
        ⟨.SEMICOLON, ";", 1, 6⟩], ASTNode.Assignment "x" (ASTNode.Number 1))]
    [⟨.IDENTIFIER, "y", 1, 8⟩, ⟨.ASSIGN, "=", 1, 10⟩, ⟨.NUMBER, "2", 1, 12⟩]
    ⟨.END_OF_FILE, "", 1, 13⟩
    (by
      intro s hs
      simp only [List.mem_singleton] at hs
      rw [hs]
      exact Produces.assignStmt ⟨.IDENTIFIER, "x", 1, 1⟩ ⟨.ASSIGN, "=", 1, 3⟩
        ⟨.SEMICOLON, ";", 1, 6⟩ [⟨.NUMBER, "1", 1, 5⟩] (ASTNode.Number 1) rfl rfl rfl
        (Produces.exprTerm _ _ (Produces.termFactor _ _
          (Produces.number ⟨.NUMBER, "1", 1, 5⟩ 1 rfl (by decide!) (by decide!)))))
    rfl
  ⟨h.1, h.2 (by decide)
    (by
      intro t ht hty
      simp only [List.mem_cons, List.mem_singleton, List.not_mem_nil, or_false] at ht
      rcases ht with rfl | rfl | rfl
      · exact absurd hty (by decide)
      · exact absurd hty (by decide)
      · exact ⟨2, by decide!, by decide!⟩)
    (no_statement_without_semicolon (by decide))⟩

set_option maxRecDepth 100000 in
theorem tokenize_longNumeralUnclosed :
    tokenize longNumeralUnclosed = .ok [⟨.PRINT, "print", 1, 1⟩, ⟨.LPAREN, "(", 1, 6⟩,
      ⟨.NUMBER, "1", 1, 7⟩, ⟨.RPAREN, ")", 1, 8⟩, ⟨.SEMICOLON, ";", 1, 9⟩,
      ⟨.PRINT, "print", 1, 11⟩, ⟨.LPAREN, "(", 1, 16⟩, ⟨.NUMBER, longNumeral, 1, 17⟩,
      ⟨.SEMICOLON, ";", 1, 418⟩, ⟨.END_OF_FILE, "", 1, 419⟩] := by
  with_unfolding_all rfl

set_option maxRecDepth 100000 in
theorem parse_longNumeralUnclosed :
    parse [⟨.PRINT, "print", 1, 1⟩, ⟨.LPAREN, "(", 1, 6⟩,
      ⟨.NUMBER, "1", 1, 7⟩, ⟨.RPAREN, ")", 1, 8⟩, ⟨.SEMICOLON, ";", 1, 9⟩,
      ⟨.PRINT, "print", 1, 11⟩, ⟨.LPAREN, "(", 1, 16⟩, ⟨.NUMBER, longNumeral, 1, 17⟩,
      ⟨.SEMICOLON, ";", 1, 418⟩, ⟨.END_OF_FILE, "", 1, 419⟩] = .error Fault.outOfRange := by
  with_unfolding_all rfl

set_option maxRecDepth 100000 in
theorem evaluateLine_longNumeralUnclosed :
    (REPL.new.evaluateLine longNumeralUnclosed).2 =
      ⟨[], some (Diagnostic.exception Fault.outOfRange), none, false⟩ := by
  with_unfolding_all rfl

/-- The tokens `print ( NUMBER ;` have no initial part that is derivable from
`statement`: the `)` is missing. -/
theorem no_statement_unclosed (kw lp num semi : Token) (hnum : num.type = TokenType.NUMBER)
    (hkw : kw.type = TokenType.PRINT) :
    ∀ p, p <+: [kw, lp, num, semi] → ¬ Derives .statement p := by
  intro p hp hd
  cases hd with
  | printStmt kw1 lp1 rp semi1 ts _ _ h3 _ _ =>
    have hlen := hp.length_le
    simp only [List.length_cons, List.length_append, List.length_nil] at hlen
    have hts : ts = [] := by
      cases ts with
      | nil => rfl
      | cons a as => simp at hlen
    subst hts
    obtain ⟨t, ht⟩ := hp
    simp only [List.nil_append, List.cons_append, List.cons.injEq] at ht
    obtain ⟨_, _, h, _⟩ := ht
    rw [h, hnum] at h3
    cases h3
  | assignStmt id eq semi1 ts h1 _ _ _ =>
    obtain ⟨t, ht⟩ := hp
    simp only [List.cons_append, List.cons.injEq] at ht
    rw [ht.1, hkw] at h1
    cases h1

/-- C14, as stated, fails: the line `print(1); print(1000...0;`, whose numeral is 1
followed by 400 zeros, is tokenized into the well-formed statement `print(1);` followed by
the tokens `print ( NUMBER ;`, which do not form a statement (the `)` is missing, and no
initial part of them is derivable), and by the end-of-input token; `parse` fails on the
tokenizer's output with the range error of `std::stod`, raised when the numeral is
converted, which is not a syntax error, and that is the diagnostic of the cycle of this
line.  And on the tokens of `x = 1000...0;`, one well-formed statement followed directly by
the end-of-input token, `parse` returns no tree but fails in the same way. -/
theorem no_recovery_counterexample :
    tokenize longNumeralUnclosed = .ok ([⟨.PRINT, "print", 1, 1⟩, ⟨.LPAREN, "(", 1, 6⟩,
      ⟨.NUMBER, "1", 1, 7⟩, ⟨.RPAREN, ")", 1, 8⟩, ⟨.SEMICOLON, ";", 1, 9⟩] ++
      ([⟨.PRINT, "print", 1, 11⟩, ⟨.LPAREN, "(", 1, 16⟩, ⟨.NUMBER, longNumeral, 1, 17⟩,
        ⟨.SEMICOLON, ";", 1, 418⟩] ++ [⟨.END_OF_FILE, "", 1, 419⟩])) ∧
    Derives .statement [⟨.PRINT, "print", 1, 1⟩, ⟨.LPAREN, "(", 1, 6⟩, ⟨.NUMBER, "1", 1, 7⟩,
      ⟨.RPAREN, ")", 1, 8⟩, ⟨.SEMICOLON, ";", 1, 9⟩] ∧
    (∀ p, p <+: [⟨.PRINT, "print", 1, 11⟩, ⟨.LPAREN, "(", 1, 16⟩,
        ⟨.NUMBER, longNumeral, 1, 17⟩, (⟨.SEMICOLON, ";", 1, 418⟩ : Token)] →
      ¬ Derives .statement p) ∧
    (tokenize longNumeralUnclosed).bind parse = .error Fault.outOfRange ∧
    (∀ m l, Fault.outOfRange ≠ Fault.syntaxError m l) ∧
    (REPL.new.evaluateLine longNumeralUnclosed).2 =
      ⟨[], some (Diagnostic.exception Fault.outOfRange), none, false⟩ ∧
    Derives .statement [⟨.IDENTIFIER, "x", 1, 1⟩, ⟨.ASSIGN, "=", 1, 3⟩,
      ⟨.NUMBER, longNumeral, 1, 5⟩, ⟨.SEMICOLON, ";", 1, 406⟩] ∧
    (tokenize longNumeralStatement).bind parse = .error Fault.outOfRange :=
  ⟨tokenize_longNumeralUnclosed,
   Derives.printStmt ⟨.PRINT, "print", 1, 1⟩ ⟨.LPAREN, "(", 1, 6⟩ ⟨.RPAREN, ")", 1, 8⟩
      ⟨.SEMICOLON, ";", 1, 9⟩ [⟨.NUMBER, "1", 1, 7⟩] rfl rfl rfl rfl
      (Derives.exprTerm _ (Derives.termFactor _ (Derives.number _ rfl))),
   no_statement_unclosed _ _ _ _ rfl rfl,
   by rw [tokenize_longNumeralUnclosed]; exact parse_longNumeralUnclosed,
   fun _ _ h => Fault.noConfusion h,
   evaluateLine_longNumeralUnclosed,
   Derives.assignStmt ⟨.IDENTIFIER, "x", 1, 1⟩ ⟨.ASSIGN, "=", 1, 3⟩ ⟨.SEMICOLON, ";", 1, 406⟩
      [⟨.NUMBER, longNumeral, 1, 5⟩] rfl rfl rfl
      (Derives.exprTerm _ (Derives.termFactor _ (Derives.number _ rfl))),
   by rw [tokenize_longNumeral]; exact parse_longNumeral⟩

/-! ## Parser: the syntax errors -/

theorem rejects_ne_nil {nt : Nonterminal} {ts : List Token} {c : SyntaxCase} {tok : Token}
    (h : Rejects nt ts c tok) : ts ≠ [] := by
  induction h <;> simp_all

theorem expect_fail (type : TokenType) (message : String) (tok : Token) (rest : List Token)
    (h : tok.type ≠ type) :
    expect type message (tok :: rest) = .error (Fault.syntaxError (some message) tok.line) := by
  simp [expect, current, h]

theorem expect_pass (type : TokenType) (message : String) (tok : Token) {rest : List Token}
    (h : tok.type = type) (hrest : rest ≠ []) :
    expect type message (tok :: rest) = .ok rest := by
  simp [expect, current, h, advance_cons tok hrest]

theorem termLoop_fail (E : List Token → PResult) (k : Nat) (left : ASTNode) (op : Token)
    {ts : List Token} {e : Fault} (hop : op.isMulOp) (hts : ts ≠ [])
    (hf : factor E ts = .error e) : termLoop E (k + 1) left (op :: ts) = .error e := by
  rw [termLoop]
  have hc : (current (op :: ts)).type = TokenType.MULTIPLY ∨
      (current (op :: ts)).type = TokenType.DIVIDE := hop
  rw [if_pos hc, advance_cons op hts, hf]

theorem expressionLoop_fail (E : List Token → PResult) (k : Nat) (left : ASTNode) (op : Token)
    {ts : List Token} {e : Fault} (hop : op.isAddOp) (hts : ts ≠ [])
    (hf : term E ts = .error e) : expressionLoop E (k + 1) left (op :: ts) = .error e := by
  rw [expressionLoop]
  have hc : (current (op :: ts)).type = TokenType.PLUS ∨
      (current (op :: ts)).type = TokenType.MINUS := hop
  rw [if_pos hc, advance_cons op hts, hf]

theorem rejects_failsAs {nt : Nonterminal} {ts : List Token} {c : SyntaxCase} {tok : Token}
    (h : Rejects nt ts c tok) : FailsAs nt ts c tok := by
  induction h with
  | factorToken tok h1 h2 h3 =>
    intro n _ rest
    simp [factor, current, h1, h2, h3, SyntaxCase.message]
  | parenInner lp ts c tok h1 hr ih =>
    intro n hn rest
    simp only [List.length_cons] at hn
    obtain ⟨m, rfl⟩ : ∃ j, n = j + 1 := ⟨n - 1, by omega⟩
    have hne : ts ++ rest ≠ [] := by simp [rejects_ne_nil hr]
    have := ih m (by omega) rest
    simp only [factor, List.cons_append, current_cons, h1, advance_cons lp hne, this]
    simp
  | parenClose lp tok ts e h1 hp h2 h3 h4 =>
    intro n hn rest
    simp only [List.length_cons, List.length_append, List.length_singleton] at hn
    obtain ⟨m, rfl⟩ : ∃ j, n = j + 1 := ⟨n - 1, by omega⟩
    have hne : ts ++ tok :: rest ≠ [] := by simp
    have he : expression (m + 1) (ts ++ tok :: rest) = .ok (e, tok :: rest) :=
      expression_of_produces hp (by omega) (by simp) h4 h3
    have hl : lp :: ts ++ [tok] ++ rest = lp :: (ts ++ tok :: rest) := by simp
    rw [hl]
    simp only [factor, current_cons, h1, advance_cons lp hne, he]
    simp [expect_fail _ _ tok rest h2, SyntaxCase.message]
  | termFirst ts c tok _ ih =>
    intro n hn rest
    simp only [term, ih n hn rest]
  | termOp ts op fs l c tok hp hop hr ih =>
    intro n hn rest
    simp only [List.length_append, List.length_cons] at hn
    have hl : ts ++ op :: fs ++ rest = ts ++ (op :: (fs ++ rest)) := by simp
    obtain ⟨k, hk, hE⟩ := produces_parsesAs hp n (by omega) (op :: (fs ++ rest)) (by simp)
    simp only [List.length_cons] at hk
    obtain ⟨j, rfl⟩ : ∃ j, k = j + 1 := ⟨k - 1, by omega⟩
    rw [hl, hE]
    exact termLoop_fail _ j l op hop (by simp [rejects_ne_nil hr]) (ih n (by omega) rest)
  | exprFirst ts c tok _ ih =>
    intro n hn rest
    rw [expression, ih n hn rest]
  | exprOp ts op fs l c tok hp hop hr ih =>
    intro n hn rest
    simp only [List.length_append, List.length_cons] at hn
    have hl : ts ++ op :: fs ++ rest = ts ++ (op :: (fs ++ rest)) := by simp
    obtain ⟨k, hk, hE⟩ := produces_parsesAs hp n (by omega) (op :: (fs ++ rest)) (by simp)
      (addOp_not_mulOp hop)
    simp only [List.length_cons] at hk
    obtain ⟨j, rfl⟩ : ∃ j, k = j + 1 := ⟨k - 1, by omega⟩
    rw [hl, hE]
    exact expressionLoop_fail _ j l op hop (by simp [rejects_ne_nil hr]) (ih n (by omega) rest)
  | leadingOther tok h1 h2 =>
    intro n _ rest
    simp [statement, current, h1, h2, SyntaxCase.message]
  | leadingIdentifier tok next h1 h2 =>
    intro n _ rest
    have hp : tok.type ≠ TokenType.PRINT := by rw [h1]; decide
    simp [statement, current, peek, h1, h2, hp, SyntaxCase.message]
  | printParen kw tok h1 h2 =>
    intro n _ rest
    simp [statement, current, advance, h1, expect_fail _ _ tok rest h2, SyntaxCase.message]
  | printInner kw lp ts c tok h1 h2 hr ih =>
    intro n hn rest
    simp only [List.length_cons] at hn
    obtain ⟨m, rfl⟩ : ∃ j, n = j + 1 := ⟨n - 1, by omega⟩
    have hne : ts ++ rest ≠ [] := by simp [rejects_ne_nil hr]
    have := ih m (by omega) rest
    simp [statement, current, advance_cons_cons, h1, expect_pass _ _ lp h2 hne, this]
  | printClose kw lp tok ts e h1 h2 hp h3 h4 h5 =>
    intro n hn rest
    simp only [List.length_cons, List.length_append, List.length_singleton] at hn
    obtain ⟨m, rfl⟩ : ∃ j, n = j + 1 := ⟨n - 1, by omega⟩
    have hne : ts ++ tok :: rest ≠ [] := by simp
    have he : expression (m + 1) (ts ++ tok :: rest) = .ok (e, tok :: rest) :=
      expression_of_produces hp (by omega) (by simp) h5 h4
    have hl : kw :: lp :: ts ++ [tok] ++ rest = kw :: lp :: (ts ++ tok :: rest) := by simp
    rw [hl]
    simp [statement, current, advance_cons_cons, h1, expect_pass _ _ lp h2 hne, he,
      expect_fail _ _ tok rest h3, SyntaxCase.message]
  | printSemicolon kw lp rp tok ts e h1 h2 hp h3 h4 =>
    intro n hn rest
    simp only [List.length_cons, List.length_append, List.length_singleton] at hn
    obtain ⟨m, rfl⟩ : ∃ j, n = j + 1 := ⟨n - 1, by omega⟩
    have hne : ts ++ rp :: tok :: rest ≠ [] := by simp
    have hrp1 : ¬ (current (rp :: tok :: rest)).isMulOp := by
      simp [current, Token.isMulOp, h3]
    have hrp2 : ¬ (current (rp :: tok :: rest)).isAddOp := by
      simp [current, Token.isAddOp, h3]
    have he : expression (m + 1) (ts ++ rp :: tok :: rest) = .ok (e, rp :: tok :: rest) :=
      expression_of_produces hp (by omega) (by simp) hrp1 hrp2
    have hl : kw :: lp :: ts ++ [rp, tok] ++ rest = kw :: lp :: (ts ++ rp :: tok :: rest) := by
      simp
    rw [hl]
    simp [statement, current, advance_cons_cons, h1, expect_pass _ _ lp h2 hne, he,
      expect_pass _ _ rp h3 (List.cons_ne_nil tok rest), expect_fail _ _ tok rest h4,
      SyntaxCase.message]
  | assignInner id eq ts c tok h1 h2 hr ih =>
    intro n hn rest
    simp only [List.length_cons] at hn
    obtain ⟨m, rfl⟩ : ∃ j, n = j + 1 := ⟨n - 1, by omega⟩
    have hne : ts ++ rest ≠ [] := by simp [rejects_ne_nil hr]
    have hp : id.type ≠ TokenType.PRINT := by rw [h1]; decide
    have := ih m (by omega) rest
    simp [statement, current, peek, advance_cons_cons, advance_cons eq hne, h1, h2, hp, this]
  | assignSemicolon id eq tok ts e h1 h2 hp h3 h4 h5 =>
    intro n hn rest
    simp only [List.length_cons, List.length_append, List.length_singleton] at hn
    obtain ⟨m, rfl⟩ : ∃ j, n = j + 1 := ⟨n - 1, by omega⟩
    have hne : ts ++ tok :: rest ≠ [] := by simp
    have hpr : id.type ≠ TokenType.PRINT := by rw [h1]; decide
    have he : expression (m + 1) (ts ++ tok :: rest) = .ok (e, tok :: rest) :=
      expression_of_produces hp (by omega) (by simp) h5 h4
    have hl : id :: eq :: ts ++ [tok] ++ rest = id :: eq :: (ts ++ tok :: rest) := by simp
    rw [hl]
    simp [statement, current, peek, advance_cons_cons, advance_cons eq hne, h1, h2, hpr, he,
      expect_fail _ _ tok rest h3, SyntaxCase.message]

theorem rejects_mem {nt : Nonterminal} {ts : List Token} {c : SyntaxCase} {tok : Token}
    (h : Rejects nt ts c tok) : tok ∈ ts := by
  induction h <;> simp_all

/-- C15 (amended).  After `k ≥ 0` well-formed statements, let the tokens `bad` begin as a
statement does and go wrong at the token `tok` in one of the ways of `Rejects`: (a) the
leading token is neither `print` nor an identifier followed by `=`, (b) the token after a
parenthesised expression is not `)`, (c) the token after the expression that ends the
statement is not `;`, (d) a factor position holds a token that is not a NUMBER, an IDENTIFIER
or `(`, (e) the token after `print` is not `(`.  Whatever follows, `parse` fails with a
syntax error that carries the line of `tok`, a token of `bad`.  It carries the expectation
message of the failing `expect` call in the cases (b), (c) and (e); in the cases (a) and (d)
it carries no expectation message. -/
theorem syntax_error_report (stmts : List (List Token × ASTNode)) (bad rest : List Token)
    (c : SyntaxCase) (tok : Token) (hst : ∀ s ∈ stmts, Produces .statement s.1 s.2)
    (hfirst : (current bad).type ≠ TokenType.END_OF_FILE)
    (hbad : Rejects .statement bad c tok) :
    parse ((stmts.map Prod.fst).flatten ++ (bad ++ rest)) =
      .error (Fault.syntaxError c.message tok.line) ∧
    tok ∈ bad ∧
    (c.message = none ↔ c = .leadingToken ∨ c = .factorToken) ∧
    (c = .closingParen → c.message = some "esperaba ')'") ∧
    (c = .semicolon → c.message = some "esperaba ';'") ∧
    (c = .printParen → c.message = some "esperaba '(' despues de print") := by
  refine ⟨?_, rejects_mem hbad, ?_, ?_, ?_, ?_⟩
  · have hne := rejects_ne_nil hbad
    obtain ⟨depth, k, hk, hd, hp⟩ :=
      parse_statements_then stmts (bad ++ rest) hst (by simp [hne])
    rw [hp]
    have hcur : (current (bad ++ rest)).type ≠ TokenType.END_OF_FILE := by
      rw [current_append _ hne]; exact hfirst
    apply parseLoop_error depth hk hcur
    simp only [List.length_append] at hd
    exact rejects_failsAs hbad depth (by omega) rest
  · cases c <;> simp [SyntaxCase.message]
  · rintro rfl; rfl
  · rintro rfl; rfl
  · rintro rfl; rfl

/-- C15 at `x = 1;` followed by `print(2;`: the `)` is missing after the expression. -/
theorem syntax_error_report_witness :
    parse ([⟨.IDENTIFIER, "x", 1, 1⟩, ⟨.ASSIGN, "=", 1, 3⟩, ⟨.NUMBER, "1", 1, 5⟩,
      ⟨.SEMICOLON, ";", 1, 6⟩] ++ ([⟨.PRINT, "print", 2, 1⟩, ⟨.LPAREN, "(", 2, 6⟩,
      ⟨.NUMBER, "2", 2, 7⟩, ⟨.SEMICOLON, ";", 2, 8⟩] ++ [⟨.END_OF_FILE, "", 2, 9⟩])) =
      .error (Fault.syntaxError (some "esperaba ')'") 2) :=
  (syntax_error_report
    [([⟨.IDENTIFIER, "x", 1, 1⟩, ⟨.ASSIGN, "=", 1, 3⟩, ⟨.NUMBER, "1", 1, 5⟩,
        ⟨.SEMICOLON, ";", 1, 6⟩], ASTNode.Assignment "x" (ASTNode.Number 1))]
    [⟨.PRINT, "print", 2, 1⟩, ⟨.LPAREN, "(", 2, 6⟩, ⟨.NUMBER, "2", 2, 7⟩,
      ⟨.SEMICOLON, ";", 2, 8⟩]
    [⟨.END_OF_FILE, "", 2, 9⟩] .closingParen ⟨.SEMICOLON, ";", 2, 8⟩
    (by
      intro s hs
      simp only [List.mem_singleton] at hs
      rw [hs]
      exact Produces.assignStmt ⟨.IDENTIFIER, "x", 1, 1⟩ ⟨.ASSIGN, "=", 1, 3⟩
        ⟨.SEMICOLON, ";", 1, 6⟩ [⟨.NUMBER, "1", 1, 5⟩] (ASTNode.Number 1) rfl rfl rfl
        (Produces.exprTerm _ _ (Produces.termFactor _ _
          (Produces.number ⟨.NUMBER, "1", 1, 5⟩ 1 rfl (by decide!) (by decide!)))))
    (by decide)
    (Rejects.printClose ⟨.PRINT, "print", 2, 1⟩ ⟨.LPAREN, "(", 2, 6⟩ ⟨.SEMICOLON, ";", 2, 8⟩
      [⟨.NUMBER, "2", 2, 7⟩] (ASTNode.Number 2) rfl rfl
      (Produces.exprTerm _ _ (Produces.termFactor _ _
        (Produces.number ⟨.NUMBER, "2", 2, 7⟩ 2 rfl (by decide!) (by decide!))))
      (by decide) (by decide) (by decide))).1

/-- C15, as stated, fails: on `x = ;` and on `x = -5;` a factor position holds a token that
is not a NUMBER, an IDENTIFIER or `(`, on `5 = x;` the leading token is a NUMBER, and the
syntax error of `parse` carries the line and no expectation message. -/
theorem syntax_error_report_counterexample :
    (tokenize "x = ;").bind parse = .error (Fault.syntaxError none 1) ∧
    (tokenize "x = -5;").bind parse = .error (Fault.syntaxError none 1) ∧
    (tokenize "5 = x;").bind parse = .error (Fault.syntaxError none 1) ∧
    Rejects .statement [⟨.IDENTIFIER, "x", 1, 1⟩, ⟨.ASSIGN, "=", 1, 3⟩, ⟨.SEMICOLON, ";", 1, 5⟩]
      .factorToken ⟨.SEMICOLON, ";", 1, 5⟩ ∧
    tokenize "x = ;" = .ok [⟨.IDENTIFIER, "x", 1, 1⟩, ⟨.ASSIGN, "=", 1, 3⟩,
      ⟨.SEMICOLON, ";", 1, 5⟩, ⟨.END_OF_FILE, "", 1, 6⟩] :=
  ⟨by with_unfolding_all rfl, by with_unfolding_all rfl, by with_unfolding_all rfl,
   Rejects.assignInner _ _ _ _ _ rfl rfl
     (Rejects.exprFirst _ _ _ (Rejects.termFirst _ _ _
       (Rejects.factorToken _ (by decide) (by decide) (by decide)))),
   by rfl⟩

/-! ## Parser: every result on a terminated token list -/

theorem parseLoop_outcome (depth : Nat) : ∀ (k : Nat) (ts : List Token) (acc : List ASTNode),
    endsInEof ts → numbersConvert ts → ts.length ≤ depth → ts.length ≤ k →
    (∃ (stmts : List (List Token × ASTNode)) (rest : List Token),
      ts = (stmts.map Prod.fst).flatten ++ rest ∧
      (∀ s ∈ stmts, Produces .statement s.1 s.2) ∧
      (current rest).type = TokenType.END_OF_FILE ∧
      parseLoop depth k ts acc = .ok (acc ++ stmts.map Prod.snd)) ∨
    (∃ (stmts : List (List Token × ASTNode)) (bad rest : List Token) (c : SyntaxCase)
      (tok : Token),
      ts = (stmts.map Prod.fst).flatten ++ (bad ++ rest) ∧
      (∀ s ∈ stmts, Produces .statement s.1 s.2) ∧
      (current bad).type ≠ TokenType.END_OF_FILE ∧ Rejects .statement bad c tok ∧
      parseLoop depth k ts acc = .error (Fault.syntaxError c.message tok.line)) := by
  intro k
  induction k with
  | zero =>
    intro ts acc hts _ _ hk
    have := length_pos_of_ne_nil (endsInEof_ne_nil hts)
    omega
  | succ k ih =>
    intro ts acc hts hnum hdepth hk
    rw [parseLoop]
    by_cases hc : (current ts).type ≠ TokenType.END_OF_FILE
    · rw [if_pos hc]
      rcases statement_outcome (n := depth) hts hnum hdepth with
        ⟨t, p, ts1, hok, hsplit, hprod, hr1, _⟩ | ⟨p, c, tok, hpre, hrej, herr⟩
      · rw [hok]
        simp only
        have hpos := statement_tokens_pos hprod
        have hlen : ts1.length + p.length = ts.length := by rw [hsplit]; simp; omega
        have hnum1 : numbersConvert ts1 := by
          apply numbersConvert_append_right (p := p)
          rw [← hsplit]
          exact hnum
        rcases ih ts1 (acc ++ [t]) hr1 hnum1 (by omega) (by omega) with
          ⟨stmts, rest, h1, h2, h3, h4⟩ | ⟨stmts, bad, rest, c, tok, h1, h2, h3, h4, h5⟩
        · left
          refine ⟨(p, t) :: stmts, rest, ?_, ?_, h3, ?_⟩
          · rw [hsplit, h1]; simp
          · intro s hs
            rcases List.mem_cons.1 hs with rfl | hs
            · exact hprod
            · exact h2 s hs
          · rw [h4]; simp
        · right
          refine ⟨(p, t) :: stmts, bad, rest, c, tok, ?_, ?_, h3, h4, h5⟩
          · rw [hsplit, h1]; simp
          · intro s hs
            rcases List.mem_cons.1 hs with rfl | hs
            · exact hprod
            · exact h2 s hs
      · rw [herr]
        right
        obtain ⟨r, hr⟩ := hpre
        refine ⟨[], p, r, c, tok, by simp [hr], by simp, ?_, hrej, rfl⟩
        rw [← hr, current_append r (rejects_ne_nil hrej)] at hc
        exact hc
    · rw [if_neg hc]
      left
      exact ⟨[], ts, by simp, by simp, not_not.1 hc, by simp⟩

/-- On a token list that ends with the end-of-input token and whose NUMBER lexemes convert,
`parse` either returns the trees of the statements that stand in front of the first
end-of-input token, or fails with the syntax error of the first beginning of a statement
that is rejected: the cases of `Rejects` are all the syntax errors there are. -/
theorem parse_outcome {ts : List Token} (hts : endsInEof ts) (hnum : numbersConvert ts) :
    (∃ (stmts : List (List Token × ASTNode)) (rest : List Token),
      ts = (stmts.map Prod.fst).flatten ++ rest ∧
      (∀ s ∈ stmts, Produces .statement s.1 s.2) ∧
      (current rest).type = TokenType.END_OF_FILE ∧
      parse ts = .ok (stmts.map Prod.snd)) ∨
    (∃ (stmts : List (List Token × ASTNode)) (bad rest : List Token) (c : SyntaxCase)
      (tok : Token),
      ts = (stmts.map Prod.fst).flatten ++ (bad ++ rest) ∧
      (∀ s ∈ stmts, Produces .statement s.1 s.2) ∧
      (current bad).type ≠ TokenType.END_OF_FILE ∧ Rejects .statement bad c tok ∧
      parse ts = .error (Fault.syntaxError c.message tok.line)) := by
  have h := parseLoop_outcome (ts.length + 1) (ts.length + 1) ts [] hts hnum (by omega) (by omega)
  simpa [parse] using h

/-- The tokens of a source text whose numerals are within the range of `double`: `parse`
returns the trees of its statements or fails with a syntax error of one of the cases of
`Rejects`, and with no other failure. -/
theorem parse_of_source {source : String} {toks : List Token}
    (h : tokenize source = .ok toks)
    (hrange : ∀ tok ∈ toks, tok.type = TokenType.NUMBER →
      ∀ v, stod tok.lexeme = some v → ¬ rangeError v) :
    (∃ (stmts : List (List Token × ASTNode)) (rest : List Token),
      toks = (stmts.map Prod.fst).flatten ++ rest ∧
      (∀ s ∈ stmts, Produces .statement s.1 s.2) ∧
      (current rest).type = TokenType.END_OF_FILE ∧
      parse toks = .ok (stmts.map Prod.snd)) ∨
    (∃ (stmts : List (List Token × ASTNode)) (bad rest : List Token) (c : SyntaxCase)
      (tok : Token),
      toks = (stmts.map Prod.fst).flatten ++ (bad ++ rest) ∧
      (∀ s ∈ stmts, Produces .statement s.1 s.2) ∧
      (current bad).type ≠ TokenType.END_OF_FILE ∧ Rejects .statement bad c tok ∧
      parse toks = .error (Fault.syntaxError c.message tok.line)) := by
  obtain ⟨init, eof, heq, heof, _, _⟩ := tokenizeLoop_shape _ _ _ h
  exact parse_outcome ⟨init, eof, heq, heof⟩ (tokenize_numbers_in_range h hrange)

/-! ## Code generator: the names of the temporaries -/

theorem digitVal_digitChar : ∀ d, d < 10 → digitVal (Nat.digitChar d) = d := by decide

theorem digitsVal_append_singleton (cs : List Char) (c : Char) :
    digitsVal (cs ++ [c]) = 10 * digitsVal cs + digitVal c := by
  simp [digitsVal, List.foldl_append]

theorem toDigitsCore_append (fuel : Nat) : ∀ (n : Nat) (ds : List Char),
    Nat.toDigitsCore 10 fuel n ds = Nat.toDigitsCore 10 fuel n [] ++ ds := by
  induction fuel with
  | zero => intro n ds; simp [Nat.toDigitsCore]
  | succ fuel ih =>
    intro n ds
    simp only [Nat.toDigitsCore]
    split
    · simp
    · rw [ih (n / 10) (Nat.digitChar (n % 10) :: ds), ih (n / 10) [Nat.digitChar (n % 10)]]
      simp

theorem digitsVal_toDigitsCore (fuel : Nat) : ∀ n : Nat, n < fuel →
    digitsVal (Nat.toDigitsCore 10 fuel n []) = n := by
  induction fuel with
  | zero => intro n h; omega
  | succ fuel ih =>
    intro n hn
    simp only [Nat.toDigitsCore]
    have hd := digitVal_digitChar (n % 10) (Nat.mod_lt _ (by decide))
    split
    · rename_i h0
      simp only [digitsVal, List.foldl]
      rw [hd]
      omega
    · rename_i h0
      rw [toDigitsCore_append, digitsVal_append_singleton, ih (n / 10) (by omega), hd]
      omega

theorem digitsVal_repr (n : Nat) : digitsVal (Nat.repr n).toList = n :=
  digitsVal_toDigitsCore (n + 1) n (Nat.lt_succ_self n)

theorem repr_injective {n m : Nat} (h : Nat.repr n = Nat.repr m) : n = m := by
  rw [← digitsVal_repr n, ← digitsVal_repr m, h]

theorem tempName_injective {n m : Nat} (h : tempName n = tempName m) : n = m := by
  unfold tempName at h
  have h1 := congrArg String.toList h
  simp only [String.toList, String.data_append, List.append_cancel_left_eq] at h1
  exact repr_injective (String.ext h1)

theorem newTemp_eq (g : CodeGenerator) :
    g.newTemp = (tempName g.tempCounter, { g with tempCounter := g.tempCounter + 1 }) := rfl

/-! ## Code generator: the source's lowering is the lowering of the specification -/

theorem generateExpression_lower (e : ASTNode) : ∀ g : CodeGenerator,
    generateExpression e g = ((lowerExpression e g.tempCounter).1.render,
      { instructions := g.instructions ++ (lowerExpression e g.tempCounter).2.map Lowered.render,
        tempCounter := g.tempCounter + (lowerExpression e g.tempCounter).2.length,
        memory := g.memory }) := by
  induction e with
  | Number v => intro g; simp [generateExpression, lowerExpression, Operand.render]
  | Identifier n => intro g; simp [generateExpression, lowerExpression, Operand.render]
  | BinaryOp op l r ihl ihr =>
    intro g
    simp only [generateExpression, lowerExpression, newTemp_eq]
    rw [ihl g]
    simp only
    rw [ihr]
    simp [Operand.render, Lowered.render, Nat.add_assoc]
  | Assignment x e _ => intro g; simp [generateExpression, lowerExpression, Operand.render]
  | Print e _ => intro g; simp [generateExpression, lowerExpression, Operand.render]

theorem foldl_generateStatement_lower (stmts : List ASTNode) : ∀ g : CodeGenerator,
    stmts.foldl (fun acc stmt => generateStatement stmt acc) g =
      { instructions := g.instructions ++ (lowerStatements stmts g.tempCounter).map Lowered.render,
        tempCounter := countAfter stmts g.tempCounter,
        memory := g.memory } := by
  induction stmts with
  | nil => intro g; simp [lowerStatements, countAfter]
  | cons s rest ih =>
    intro g
    rw [List.foldl_cons, ih]
    cases s with
    | Number v => simp [generateStatement, lowerStatements, countAfter]
    | Identifier n => simp [generateStatement, lowerStatements, countAfter]
    | BinaryOp op l r => simp [generateStatement, lowerStatements, countAfter]
    | Assignment x e =>
      simp [generateStatement, lowerStatements, countAfter, generateExpression_lower,
        Lowered.render, Operand.render]
    | Print e =>
      simp [generateStatement, lowerStatements, countAfter, generateExpression_lower,
        Lowered.render, Operand.render]

theorem generate_lower (g : CodeGenerator) (stmts : List ASTNode) :
    g.generate stmts =
      (listing 0 ((lowerStatements stmts 0).map Lowered.render),
        { instructions := (lowerStatements stmts 0).map Lowered.render,
          tempCounter := countAfter stmts 0,
          memory := g.memory }) := by
  simp [CodeGenerator.generate, foldl_generateStatement_lower]

theorem generate_instructions (g : CodeGenerator) (stmts : List ASTNode) :
    (g.generate stmts).2.instructions = (lowerStatements stmts 0).map Lowered.render := by
  rw [generate_lower]

theorem lowerExpression_length {e : ASTNode} (he : e.isExpression) : ∀ k : Nat,
    (lowerExpression e k).2.length = e.binOps := by
  induction e with
  | Number v => intro k; rfl
  | Identifier n => intro k; rfl
  | BinaryOp op l r ihl ihr =>
    intro k
    obtain ⟨h1, h2⟩ : l.isExpression ∧ r.isExpression := he
    simp only [lowerExpression, ASTNode.binOps, List.length_append, List.length_singleton,
      ihl h1, ihr h2]
  | Assignment x e _ => exact absurd he (by simp [ASTNode.isExpression])
  | Print e _ => exact absurd he (by simp [ASTNode.isExpression])

theorem countAfter_eq {stmts : List ASTNode} (h : ∀ s ∈ stmts, s.isStatement) : ∀ k : Nat,
    countAfter stmts k = k + totalBinOps stmts := by
  induction stmts with
  | nil => intro k; simp [countAfter, totalBinOps]
  | cons s rest ih =>
    intro k
    have hs := h s (List.mem_cons_self _ _)
    have ih1 := ih (fun x hx => h x (List.mem_cons_of_mem _ hx))
    cases s with
    | Number v => exact absurd hs (by simp [ASTNode.isStatement])
    | Identifier n => exact absurd hs (by simp [ASTNode.isStatement])
    | BinaryOp op l r => exact absurd hs (by simp [ASTNode.isStatement])
    | Assignment x e =>
      have he : e.isExpression := hs
      simp only [countAfter, ih1, lowerExpression_length he, totalBinOps, List.map_cons,
        List.sum_cons, ASTNode.binOps]
      omega
    | Print e =>
      have he : e.isExpression := hs
      simp only [countAfter, ih1, lowerExpression_length he, totalBinOps, List.map_cons,
        List.sum_cons, ASTNode.binOps]
      omega

theorem lowerStatements_length {stmts : List ASTNode} (h : ∀ s ∈ stmts, s.isStatement) :
    ∀ k : Nat, (lowerStatements stmts k).length = (stmts.map (fun s => 1 + s.binOps)).sum := by
  induction stmts with
  | nil => intro k; simp [lowerStatements]
  | cons s rest ih =>
    intro k
    have hs := h s (List.mem_cons_self _ _)
    have ih1 := ih (fun x hx => h x (List.mem_cons_of_mem _ hx))
    cases s with
    | Number v => exact absurd hs (by simp [ASTNode.isStatement])
    | Identifier n => exact absurd hs (by simp [ASTNode.isStatement])
    | BinaryOp op l r => exact absurd hs (by simp [ASTNode.isStatement])
    | Assignment x e =>
      have he : e.isExpression := hs
      simp only [lowerStatements, List.length_append, ih1, lowerExpression_length he,
        List.map_cons, List.sum_cons, ASTNode.binOps, List.length_singleton]
      omega
    | Print e =>
      have he : e.isExpression := hs
      simp only [lowerStatements, List.length_append, ih1, lowerExpression_length he,
        List.map_cons, List.sum_cons, ASTNode.binOps, List.length_singleton]
      omega

/-! ## Code generator: destinations and operands -/

theorem range_map_split (f : Nat → Operand) (a b : Nat) :
    (List.range (a + b + 1)).map f =
      (List.range a).map f ++ (List.range b).map (fun i => f (a + i)) ++ [f (a + b)] := by
  rw [List.range_succ, List.map_append, List.range_add, List.map_append, List.map_map]
  simp [Function.comp_def]

theorem lowerExpression_results (e : ASTNode) : ∀ k : Nat,
    (lowerExpression e k).2.map Lowered.result =
      (List.range (lowerExpression e k).2.length).map (fun i => Operand.temp (k + i)) := by
  induction e with
  | Number v => intro k; rfl
  | Identifier n => intro k; rfl
  | BinaryOp op l r ihl ihr =>
    intro k
    simp only [lowerExpression, List.map_append, List.length_append, List.length_singleton,
      List.map_cons, List.map_nil]
    rw [range_map_split, ihl k, ihr (k + (lowerExpression l k).2.length)]
    simp [Nat.add_assoc]
  | Assignment x e _ => intro k; rfl
  | Print e _ => intro k; rfl

theorem lowerExpression_arithmetic {e : ASTNode} (he : e.opsValid) : ∀ k : Nat,
    ∀ x ∈ (lowerExpression e k).2, x.render.isArithmetic = true := by
  induction e with
  | Number v => intro k x hx; simp [lowerExpression] at hx
  | Identifier n => intro k x hx; simp [lowerExpression] at hx
  | BinaryOp op l r ihl ihr =>
    intro k x hx
    obtain ⟨h0, h1, h2⟩ : (op = "+" ∨ op = "-" ∨ op = "*" ∨ op = "/") ∧ l.opsValid ∧
      r.opsValid := he
    simp only [lowerExpression, List.mem_append, List.mem_singleton] at hx
    rcases hx with (hx | hx) | rfl
    · exact ihl h1 k x hx
    · exact ihr h2 _ x hx
    · rcases h0 with rfl | rfl | rfl | rfl <;> simp [Lowered.render, Instruction.isArithmetic]
  | Assignment x e _ => intro k y hy; simp [lowerExpression] at hy
  | Print e _ => intro k y hy; simp [lowerExpression] at hy

theorem filter_expression_part {e : ASTNode} (he : e.opsValid) (k : Nat) :
    ((lowerExpression e k).2.map Lowered.render).filter Instruction.isArithmetic =
      (lowerExpression e k).2.map Lowered.render := by
  apply List.filter_eq_self.2
  intro i hi
  obtain ⟨x, hx, rfl⟩ := List.mem_map.1 hi
  exact lowerExpression_arithmetic he k x hx

theorem expression_part_results (e : ASTNode) (k : Nat) :
    ((lowerExpression e k).2.map Lowered.render).map Instruction.result =
      (List.range (lowerExpression e k).2.length).map (fun i => tempName (k + i)) := by
  have h := congrArg (List.map Operand.render) (lowerExpression_results e k)
  simp only [List.map_map] at h ⊢
  exact h

theorem range_map_append (f : Nat → String) (a b : Nat) :
    (List.range (a + b)).map f = (List.range a).map f ++ (List.range b).map (fun i => f (a + i)) := by
  rw [List.range_add, List.map_append, List.map_map]
  rfl

theorem lowerStatements_destinations {stmts : List ASTNode} (h : ∀ s ∈ stmts, s.opsValid) :
    ∀ k : Nat,
      (((lowerStatements stmts k).map Lowered.render).filter Instruction.isArithmetic).map
          Instruction.result =
        (List.range (countAfter stmts k - k)).map (fun i => tempName (k + i)) ∧
      k ≤ countAfter stmts k := by
  induction stmts with
  | nil => intro k; simp [lowerStatements, countAfter]
  | cons s rest ih =>
    intro k
    have hs := h s (List.mem_cons_self _ _)
    have ih1 := ih (fun x hx => h x (List.mem_cons_of_mem _ hx))
    cases s with
    | Number v => simpa [lowerStatements, countAfter] using ih1 k
    | Identifier n => simpa [lowerStatements, countAfter] using ih1 k
    | BinaryOp op l r => simpa [lowerStatements, countAfter] using ih1 k
    | Assignment x e =>
      have he : e.opsValid := hs
      obtain ⟨h1, h2⟩ := ih1 (k + (lowerExpression e k).2.length)
      refine ⟨?_, by simp only [countAfter]; omega⟩
      have hsplit : countAfter (ASTNode.Assignment x e :: rest) k - k =
          (lowerExpression e k).2.length +
            (countAfter rest (k + (lowerExpression e k).2.length) -
              (k + (lowerExpression e k).2.length)) := by
        simp only [countAfter]; omega
      rw [hsplit, range_map_append]
      simp only [lowerStatements, List.map_append, List.filter_append, List.map_cons,
        List.map_nil, filter_expression_part he, expression_part_results, h1]
      simp [Lowered.render, Instruction.isArithmetic, Nat.add_assoc]
    | Print e =>
      have he : e.opsValid := hs
      obtain ⟨h1, h2⟩ := ih1 (k + (lowerExpression e k).2.length)
      refine ⟨?_, by simp only [countAfter]; omega⟩
      have hsplit : countAfter (ASTNode.Print e :: rest) k - k =
          (lowerExpression e k).2.length +
            (countAfter rest (k + (lowerExpression e k).2.length) -
              (k + (lowerExpression e k).2.length)) := by
        simp only [countAfter]; omega
      rw [hsplit, range_map_append]
      simp only [lowerStatements, List.map_append, List.filter_append, List.map_cons,
        List.map_nil, filter_expression_part he, expression_part_results, h1]
      simp [Lowered.render, Instruction.isArithmetic, Nat.add_assoc]

theorem tempNames_nodup (n : Nat) : ((List.range n).map tempName).Nodup :=
  (List.nodup_range n).map (fun _ _ h => tempName_injective h)

/-- C16: for every list of statements of the specification (an `Assignment` or a `Print`
of an expression tree with operators among `+ - * /`) and every prior state `g` of the
generator, the destinations of the arithmetic instructions of the list built by `generate`
are, in emission order, `t0, t1, ..., t(k-1)` with `k` the total number of `BinaryOp` nodes
of the statements; they are pairwise distinct, and there are `k` of them. -/
theorem temporaries_unique (stmts : List ASTNode) (g : CodeGenerator)
    (hst : ∀ s ∈ stmts, s.isStatement ∧ s.opsValid) :
    (((g.generate stmts).2.instructions.filter Instruction.isArithmetic).map
        Instruction.result = (List.range (totalBinOps stmts)).map tempName) ∧
    (((g.generate stmts).2.instructions.filter Instruction.isArithmetic).map
        Instruction.result).Nodup ∧
    ((g.generate stmts).2.instructions.filter Instruction.isArithmetic).length =
      totalBinOps stmts := by
  have h1 := (lowerStatements_destinations (fun s hs => (hst s hs).2) 0).1
  rw [countAfter_eq (fun s hs => (hst s hs).1)] at h1
  simp only [Nat.zero_add, Nat.sub_zero] at h1
  have h2 : (((g.generate stmts).2.instructions.filter Instruction.isArithmetic).map
      Instruction.result = (List.range (totalBinOps stmts)).map tempName) := by
    rw [generate_instructions, h1]
  refine ⟨h2, ?_, ?_⟩
  · rw [h2]; exact tempNames_nodup _
  · have := congrArg List.length h2
    simpa using this

/-- C16 at `x = 1 + 2 * 3; print(x - 1);`, after a generator that held other instructions. -/
theorem temporaries_unique_witness :
    ((((⟨[⟨"+", "a", "b", "t7"⟩], 8, fun _ => none⟩ : CodeGenerator).generate
      [ASTNode.Assignment "x" (ASTNode.BinaryOp "+" (ASTNode.Number 1)
          (ASTNode.BinaryOp "*" (ASTNode.Number 2) (ASTNode.Number 3))),
        ASTNode.Print (ASTNode.BinaryOp "-" (ASTNode.Identifier "x")
          (ASTNode.Number 1))]).2.instructions.filter Instruction.isArithmetic).map
        Instruction.result = (List.range 3).map tempName) :=
  (temporaries_unique
    [ASTNode.Assignment "x" (ASTNode.BinaryOp "+" (ASTNode.Number 1)
        (ASTNode.BinaryOp "*" (ASTNode.Number 2) (ASTNode.Number 3))),
      ASTNode.Print (ASTNode.BinaryOp "-" (ASTNode.Identifier "x") (ASTNode.Number 1))]
    ⟨[⟨"+", "a", "b", "t7"⟩], 8, fun _ => none⟩
    (by
      intro s hs
      simp only [List.mem_cons, List.mem_singleton, List.not_mem_nil, or_false] at hs
      rcases hs with rfl | rfl <;>
        simp [ASTNode.isStatement, ASTNode.isExpression, ASTNode.opsValid])).1

/-! ## Code generator: post-order lowering -/

theorem definedBefore_mono {lo lo1 hi hi1 : Nat} {o : Operand} (h : o.definedBefore lo hi)
    (h1 : lo1 ≤ lo) (h2 : hi ≤ hi1) : o.definedBefore lo1 hi1 := by
  cases o with
  | temp i =>
    obtain ⟨ha, hb⟩ : lo ≤ i ∧ i < hi := h
    exact ⟨by omega, by omega⟩
  | literal v => trivial
  | named s => trivial
  | unused => trivial

theorem lowerExpression_operand (e : ASTNode) : ∀ k : Nat,
    (lowerExpression e k).1.definedBefore k (k + (lowerExpression e k).2.length) := by
  intro k
  cases e with
  | BinaryOp op l r =>
    simp only [lowerExpression, List.length_append, List.length_singleton]
    exact ⟨by omega, by omega⟩
  | Number v => trivial
  | Identifier n => trivial
  | Assignment x e => trivial
  | Print e => trivial

theorem lowerExpression_origin (e : ASTNode) : ∀ (k j : Nat) (x : Lowered),
    (lowerExpression e k).2[j]? = some x →
      x.result = .temp (k + j) ∧ x.arg1.definedBefore k (k + j) ∧
        x.arg2.definedBefore k (k + j) := by
  induction e with
  | Number v => intro k j x h; simp [lowerExpression] at h
  | Identifier n => intro k j x h; simp [lowerExpression] at h
  | BinaryOp op l r ihl ihr =>
    intro k j x h
    simp only [lowerExpression] at h
    by_cases h1 : j < (lowerExpression l k).2.length
    · rw [List.append_assoc, List.getElem?_append_left h1] at h
      exact ihl k j x h
    · rw [List.append_assoc, List.getElem?_append_right (by omega)] at h
      by_cases h2 : j - (lowerExpression l k).2.length <
          (lowerExpression r (k + (lowerExpression l k).2.length)).2.length
      · rw [List.getElem?_append_left h2] at h
        obtain ⟨r1, r2, r3⟩ := ihr _ _ x h
        have hj : k + (lowerExpression l k).2.length + (j - (lowerExpression l k).2.length) =
            k + j := by omega
        rw [hj] at r1 r2 r3
        exact ⟨r1, definedBefore_mono r2 (by omega) (le_refl _),
          definedBefore_mono r3 (by omega) (le_refl _)⟩
      · rw [List.getElem?_append_right (by omega)] at h
        have hl := lowerExpression_operand l k
        have hr := lowerExpression_operand r (k + (lowerExpression l k).2.length)
        cases hj : j - (lowerExpression l k).2.length -
            (lowerExpression r (k + (lowerExpression l k).2.length)).2.length with
        | zero =>
          rw [hj] at h
          simp only [List.getElem?_cons_zero, Option.some.injEq] at h
          subst h
          have hjj : j = (lowerExpression l k).2.length +
              (lowerExpression r (k + (lowerExpression l k).2.length)).2.length := by omega
          refine ⟨?_, ?_, ?_⟩
          · simp only; rw [hjj]; simp [Nat.add_assoc]
          · exact definedBefore_mono hl (le_refl _) (by omega)
          · exact definedBefore_mono hr (by omega) (by omega)
        | succ m =>
          rw [hj] at h
          simp at h
  | Assignment y e _ => intro k j x h; simp [lowerExpression] at h
  | Print e _ => intro k j x h; simp [lowerExpression] at h

/-- C17: lowering a `Number` returns its literal text and lowering an `Identifier` its name,
the generator unchanged; lowering `BinaryOp(op, l, r)` lowers `l`, then `r`, then appends
the one instruction `{op, result of l, result of r, new temporary}` and returns that
temporary.  For every expression tree `e` and generator `g`, the instructions afterwards
are those of `g` followed by the post-order lowering of `e` (`lowerExpression`), as many
as `e` has `BinaryOp` nodes; the `j`-th of them has the destination `t(c + j)`, with `c` the
counter of `g`, and each of its operands that is a temporary is the destination of one of
the `j` instructions before it. -/
theorem post_order_lowering (e : ASTNode) (g : CodeGenerator) (he : e.isExpression) :
    (∀ (v : ℚ) (g0 : CodeGenerator),
      generateExpression (ASTNode.Number v) g0 = (to_string v, g0)) ∧
    (∀ (n : String) (g0 : CodeGenerator),
      generateExpression (ASTNode.Identifier n) g0 = (n, g0)) ∧
    (∀ (op : String) (l r : ASTNode) (g0 : CodeGenerator),
      generateExpression (ASTNode.BinaryOp op l r) g0 =
        (tempName (generateExpression r (generateExpression l g0).2).2.tempCounter,
          { instructions := (generateExpression r (generateExpression l g0).2).2.instructions ++
              [⟨op, (generateExpression l g0).1,
                (generateExpression r (generateExpression l g0).2).1,
                tempName (generateExpression r (generateExpression l g0).2).2.tempCounter⟩],
            tempCounter := (generateExpression r (generateExpression l g0).2).2.tempCounter + 1,
            memory := (generateExpression r (generateExpression l g0).2).2.memory })) ∧
    (generateExpression e g).1 = (lowerExpression e g.tempCounter).1.render ∧
    (generateExpression e g).2.instructions =
      g.instructions ++ (lowerExpression e g.tempCounter).2.map Lowered.render ∧
    (generateExpression e g).2.tempCounter = g.tempCounter + e.binOps ∧
    (generateExpression e g).2.memory = g.memory ∧
    (lowerExpression e g.tempCounter).2.length = e.binOps ∧
    (∀ (j : Nat) (x : Lowered), (lowerExpression e g.tempCounter).2[j]? = some x →
      x.result = .temp (g.tempCounter + j) ∧
      (∀ i, (x.arg1 = .temp i ∨ x.arg2 = .temp i) → ∃ (d : Nat) (y : Lowered), d < j ∧
        (lowerExpression e g.tempCounter).2[d]? = some y ∧ y.result = .temp i)) := by
  refine ⟨fun _ _ => rfl, fun _ _ => rfl, fun _ _ _ _ => rfl, ?_, ?_, ?_, ?_,
    lowerExpression_length he _, ?_⟩
  · rw [generateExpression_lower]
  · rw [generateExpression_lower]
  · rw [generateExpression_lower, lowerExpression_length he]
  · rw [generateExpression_lower]
  · intro j x hx
    obtain ⟨h1, h2, h3⟩ := lowerExpression_origin e _ j x hx
    refine ⟨h1, ?_⟩
    intro i hi
    have hb : g.tempCounter ≤ i ∧ i < g.tempCounter + j := by
      rcases hi with hi | hi
      · rw [hi] at h2; exact h2
      · rw [hi] at h3; exact h3
    have hjlen : j < (lowerExpression e g.tempCounter).2.length := by
      by_contra hc
      rw [List.getElem?_eq_none (by omega)] at hx
      exact absurd hx (by simp)
    have hd : i - g.tempCounter < (lowerExpression e g.tempCounter).2.length := by omega
    refine ⟨i - g.tempCounter, (lowerExpression e g.tempCounter).2[i - g.tempCounter], by omega,
      List.getElem?_eq_getElem hd, ?_⟩
    have := (lowerExpression_origin e _ (i - g.tempCounter) _ (List.getElem?_eq_getElem hd)).1
    rw [this]
    congr 1
    omega

/-- C17 at `1 + x * 2` with a generator that has minted five temporaries. -/
theorem post_order_lowering_witness :
    (generateExpression (ASTNode.BinaryOp "+" (ASTNode.Number 1)
      (ASTNode.BinaryOp "*" (ASTNode.Identifier "x") (ASTNode.Number 2)))
      ⟨[], 5, fun _ => none⟩).2.instructions =
      [] ++ (lowerExpression (ASTNode.BinaryOp "+" (ASTNode.Number 1)
        (ASTNode.BinaryOp "*" (ASTNode.Identifier "x") (ASTNode.Number 2))) 5).2.map
        Lowered.render ∧
    (lowerExpression (ASTNode.BinaryOp "+" (ASTNode.Number 1)
        (ASTNode.BinaryOp "*" (ASTNode.Identifier "x") (ASTNode.Number 2))) 5).2 =
      [⟨"*", .named "x", .literal 2, .temp 5⟩, ⟨"+", .literal 1, .temp 5, .temp 6⟩] :=
  ⟨(post_order_lowering (ASTNode.BinaryOp "+" (ASTNode.Number 1)
      (ASTNode.BinaryOp "*" (ASTNode.Identifier "x") (ASTNode.Number 2)))
      ⟨[], 5, fun _ => none⟩ (by simp [ASTNode.isExpression])).2.2.2.2.1, by rfl⟩

/-! ## Code generator: regeneration and accumulation -/

/-- C18: for every statement list and every prior state `g` of the generator, `generate`
returns the listing and builds the instruction list that a freshly constructed generator
does; a second call in a row on the same list returns the same listing and leaves the same
generator, and so does a call made after the execution of any other generated program. -/
theorem regeneration_idempotent (stmts : List ASTNode) (g : CodeGenerator) :
    (g.generate stmts).1 = (CodeGenerator.new.generate stmts).1 ∧
    (g.generate stmts).2.instructions = (CodeGenerator.new.generate stmts).2.instructions ∧
    (g.generate stmts).2.tempCounter = (CodeGenerator.new.generate stmts).2.tempCounter ∧
    ((g.generate stmts).2.generate stmts).1 = (g.generate stmts).1 ∧
    ((g.generate stmts).2.generate stmts).2.instructions = (g.generate stmts).2.instructions ∧
    ((g.generate stmts).2.generate stmts).2 = (g.generate stmts).2 ∧
    (∀ other : List ASTNode,
      ((g.generate other).2.execute.1.generate stmts).1 = (CodeGenerator.new.generate stmts).1 ∧
      ((g.generate other).2.execute.1.generate stmts).2.instructions =
        (CodeGenerator.new.generate stmts).2.instructions) := by
  have h1 := generate_lower g stmts
  have h2 := generate_lower CodeGenerator.new stmts
  have h3 := generate_lower (g.generate stmts).2 stmts
  refine ⟨by rw [h1, h2], by rw [h1, h2], by rw [h1, h2], by rw [h3, h1], by rw [h3, h1], ?_, ?_⟩
  · rw [h3, h1]
  · intro other
    rw [generate_lower, h2]
    exact ⟨rfl, rfl⟩

theorem shift_length (d : Nat) (l : List Lowered) : (l.map (Lowered.shift d)).length = l.length :=
  List.length_map _ _

theorem lowerExpression_shift (e : ASTNode) : ∀ k d : Nat,
    lowerExpression e (k + d) =
      ((lowerExpression e k).1.shift d, (lowerExpression e k).2.map (Lowered.shift d)) := by
  induction e with
  | Number v => intro k d; rfl
  | Identifier n => intro k d; rfl
  | BinaryOp op l r ihl ihr =>
    intro k d
    have h1 := ihl k d
    have h2 := ihr (k + (lowerExpression l k).2.length) d
    have hk : k + d + (lowerExpression l k).2.length =
        k + (lowerExpression l k).2.length + d := by omega
    simp only [lowerExpression, h1, List.length_map, hk, h2]
    simp only [List.map_append, List.map_cons, List.map_nil, Lowered.shift, Operand.shift]
    have hk2 : k + (lowerExpression l k).2.length + d +
        (lowerExpression r (k + (lowerExpression l k).2.length)).2.length =
        k + (lowerExpression l k).2.length +
          (lowerExpression r (k + (lowerExpression l k).2.length)).2.length + d := by omega
    rw [hk2]
  | Assignment x e _ => intro k d; rfl
  | Print e _ => intro k d; rfl

theorem lowerStatements_shift (stmts : List ASTNode) : ∀ k d : Nat,
    lowerStatements stmts (k + d) = (lowerStatements stmts k).map (Lowered.shift d) := by
  induction stmts with
  | nil => intro k d; rfl
  | cons s rest ih =>
    intro k d
    cases s with
    | Number v => simpa [lowerStatements] using ih k d
    | Identifier n => simpa [lowerStatements] using ih k d
    | BinaryOp op l r => simpa [lowerStatements] using ih k d
    | Assignment x e =>
      have hk : k + d + (lowerExpression e k).2.length =
          k + (lowerExpression e k).2.length + d := by omega
      simp only [lowerStatements, lowerExpression_shift, List.length_map, hk, ih,
        List.map_append, List.map_cons, List.map_nil, Lowered.shift, Operand.shift]
    | Print e =>
      have hk : k + d + (lowerExpression e k).2.length =
          k + (lowerExpression e k).2.length + d := by omega
      simp only [lowerStatements, lowerExpression_shift, List.length_map, hk, ih,
        List.map_append, List.map_cons, List.map_nil, Lowered.shift, Operand.shift]

theorem lowerStatements_append (A B : List ASTNode) : ∀ k : Nat,
    lowerStatements (A ++ B) k = lowerStatements A k ++ lowerStatements B (countAfter A k) := by
  induction A with
  | nil => intro k; simp [lowerStatements, countAfter]
  | cons s rest ih =>
    intro k
    cases s with
    | Number v => simpa [lowerStatements, countAfter] using ih k
    | Identifier n => simpa [lowerStatements, countAfter] using ih k
    | BinaryOp op l r => simpa [lowerStatements, countAfter] using ih k
    | Assignment x e => simp [lowerStatements, countAfter, ih]
    | Print e => simp [lowerStatements, countAfter, ih]

/-- C19: for all lists `A` and `B` of statements of the specification, the instruction list
of `generate (A ++ B)` is the instruction list of `generate A` followed by the lowering of
`B` (the instruction list of `generate B`) with every temporary index shifted up by the
number of `BinaryOp` nodes of `A`; its length is the sum over the statements of one plus the
number of `BinaryOp` nodes of the statement.  In a fresh session, after the lines `x = 1;`,
`x = x + 1;`, `print(x);` the generator holds the instructions of the three statements
lowered together, four of them, and the third cycle prints `2`. -/
theorem session_accumulation (A B : List ASTNode) (g : CodeGenerator)
    (hA : ∀ s ∈ A, s.isStatement) (hB : ∀ s ∈ B, s.isStatement) :
    (g.generate (A ++ B)).2.instructions =
      (g.generate A).2.instructions ++
        ((lowerStatements B 0).map (Lowered.shift (totalBinOps A))).map Lowered.render ∧
    (g.generate B).2.instructions = (lowerStatements B 0).map Lowered.render ∧
    (g.generate (A ++ B)).2.instructions.length =
      ((A ++ B).map (fun s => 1 + s.binOps)).sum ∧
    (REPL.new.evaluateLines ["x = 1;", "x = x + 1;", "print(x);"]).1.codegen.instructions =
      (CodeGenerator.new.generate
        [ASTNode.Assignment "x" (ASTNode.Number 1),
          ASTNode.Assignment "x" (ASTNode.BinaryOp "+" (ASTNode.Identifier "x")
            (ASTNode.Number 1)),
          ASTNode.Print (ASTNode.Identifier "x")]).2.instructions ∧
    (REPL.new.evaluateLines
      ["x = 1;", "x = x + 1;", "print(x);"]).1.codegen.instructions.length = 4 ∧
    (REPL.new.evaluateLines ["x = 1;", "x = x + 1;", "print(x);"]).2.map LineOutput.printed =
      [[], [], [2]] := by
  refine ⟨?_, generate_instructions g B, ?_, by decide!, by decide!, by decide!⟩
  · rw [generate_instructions, generate_instructions, lowerStatements_append,
      countAfter_eq hA, List.map_append]
    have := lowerStatements_shift B 0 (totalBinOps A)
    rw [this]
  · rw [generate_instructions, List.length_map]
    apply lowerStatements_length
    intro s hs
    rcases List.mem_append.1 hs with h | h
    · exact hA s h
    · exact hB s h

/-- C19 at `A = [x = 1 + 2;]` and `B = [y = x * 3; print(y);]`. -/
theorem session_accumulation_witness :
    (CodeGenerator.new.generate
      ([ASTNode.Assignment "x" (ASTNode.BinaryOp "+" (ASTNode.Number 1) (ASTNode.Number 2))] ++
        [ASTNode.Assignment "y" (ASTNode.BinaryOp "*" (ASTNode.Identifier "x")
          (ASTNode.Number 3)), ASTNode.Print (ASTNode.Identifier "y")])).2.instructions =
      (CodeGenerator.new.generate
        [ASTNode.Assignment "x" (ASTNode.BinaryOp "+" (ASTNode.Number 1)
          (ASTNode.Number 2))]).2.instructions ++
        ((lowerStatements [ASTNode.Assignment "y" (ASTNode.BinaryOp "*" (ASTNode.Identifier "x")
          (ASTNode.Number 3)), ASTNode.Print (ASTNode.Identifier "y")] 0).map
            (Lowered.shift 1)).map Lowered.render :=
  (session_accumulation
    [ASTNode.Assignment "x" (ASTNode.BinaryOp "+" (ASTNode.Number 1) (ASTNode.Number 2))]
    [ASTNode.Assignment "y" (ASTNode.BinaryOp "*" (ASTNode.Identifier "x") (ASTNode.Number 3)),
      ASTNode.Print (ASTNode.Identifier "y")]
    CodeGenerator.new
    (by
      intro s hs
      simp only [List.mem_singleton] at hs
      subst hs
      simp [ASTNode.isStatement, ASTNode.isExpression])
    (by
      intro s hs
      simp only [List.mem_cons, List.mem_singleton, List.not_mem_nil, or_false] at hs
      rcases hs with rfl | rfl <;> simp [ASTNode.isStatement, ASTNode.isExpression])).1

/-! ## Code generator: the listing -/

theorem foldl_append_string (l : List String) : ∀ acc : String,
    l.foldl (fun r s => r ++ s) acc = acc ++ l.foldl (fun r s => r ++ s) "" := by
  induction l with
  | nil => intro acc; simp
  | cons a l ih =>
    intro acc
    rw [List.foldl_cons, List.foldl_cons, ih (acc ++ a), ih ("" ++ a)]
    simp [String.append_assoc]

theorem join_cons (a : String) (l : List String) : String.join (a :: l) = a ++ String.join l := by
  unfold String.join
  rw [List.foldl_cons, foldl_append_string]
  simp

theorem listing_eq_join (l : List Instruction) : ∀ k : Nat,
    listing k l = String.join (numberedLines k l) := by
  induction l with
  | nil => intro k; rfl
  | cons i rest ih =>
    intro k
    simp only [listing, numberedLines, List.enumFrom_cons, List.map_cons, join_cons]
    rw [ih (k + 1)]
    rfl

theorem numberedLines_get (l : List Instruction) (i : Nat) :
    (numberedLines 0 l)[i]? =
      (l[i]?).map (fun inst => Nat.repr (i + 1) ++ ": " ++ inst.toString ++ "\n") := by
  simp only [numberedLines, List.getElem?_map, List.getElem?_enumFrom, Option.map_map]
  cases l[i]? <;> simp

theorem digit_ne_newline {c : Char} (h : isdigit c = true) : c ≠ '\n' := by
  rintro rfl
  exact absurd h (by decide)

theorem repr_plain (n : Nat) : '\n' ∉ (Nat.repr n).toList := by
  intro h
  have h1 : (Nat.repr n).toList = Nat.toDigitsCore 10 (n + 1) n [] := rfl
  rw [h1] at h
  exact digit_ne_newline (toDigitsCore_digits (n + 1) n [] (by simp) _ h) rfl

theorem tempName_plain (i : Nat) : '\n' ∉ (tempName i).toList := by
  intro h
  simp only [tempName, String.toList, String.data_append, List.mem_append] at h
  rcases h with h | h
  · exact absurd h (by decide)
  · exact repr_plain i h

theorem to_string_plain (v : ℚ) : '\n' ∉ (to_string v).toList := by
  intro h
  simp only [to_string, String.toList, padZeros, List.mem_append, List.mem_cons,
    List.mem_replicate] at h
  rcases h with (h | h) | h | h | h
  · split at h
    · exact absurd h (by decide)
    · exact absurd h (by simp)
  · exact repr_plain _ h
  · exact absurd h (by decide)
  · exact absurd h.2 (by decide)
  · exact repr_plain _ h

theorem render_plain {o : Operand} (h : ∀ s, o = .named s → '\n' ∉ s.toList) :
    '\n' ∉ o.render.toList := by
  cases o with
  | literal v => exact to_string_plain v
  | named s => exact h s rfl
  | temp i => exact tempName_plain i
  | unused => simp [Operand.render]

theorem lowerExpression_plain {e : ASTNode} (he : e.plain) : ∀ k : Nat,
    '\n' ∉ (lowerExpression e k).1.render.toList ∧
    ∀ x ∈ (lowerExpression e k).2, x.render.plain := by
  induction e with
  | Number v => intro k; exact ⟨to_string_plain v, by simp [lowerExpression]⟩
  | Identifier n =>
    intro k
    have hn : '\n' ∉ n.toList := he
    exact ⟨hn, by simp [lowerExpression]⟩
  | BinaryOp op l r ihl ihr =>
    intro k
    obtain ⟨h0, h1, h2⟩ : '\n' ∉ op.toList ∧ l.plain ∧ r.plain := he
    obtain ⟨a1, a2⟩ := ihl h1 k
    obtain ⟨b1, b2⟩ := ihr h2 (k + (lowerExpression l k).2.length)
    refine ⟨tempName_plain _, ?_⟩
    intro x hx
    simp only [lowerExpression, List.mem_append, List.mem_singleton] at hx
    rcases hx with (hx | hx) | rfl
    · exact a2 x hx
    · exact b2 x hx
    · exact ⟨h0, a1, b1, tempName_plain _⟩
  | Assignment x e _ => intro k; simp [lowerExpression, Operand.render]
  | Print e _ => intro k; simp [lowerExpression, Operand.render]

theorem lowerStatements_plain {stmts : List ASTNode} (h : ∀ s ∈ stmts, s.plain) : ∀ k : Nat,
    ∀ x ∈ lowerStatements stmts k, x.render.plain := by
  induction stmts with
  | nil => intro k x hx; simp [lowerStatements] at hx
  | cons s rest ih =>
    intro k x hx
    have hs := h s (List.mem_cons_self _ _)
    have ih1 := ih (fun y hy => h y (List.mem_cons_of_mem _ hy))
    cases s with
    | Number v => exact ih1 k x (by simpa [lowerStatements] using hx)
    | Identifier n => exact ih1 k x (by simpa [lowerStatements] using hx)
    | BinaryOp op l r => exact ih1 k x (by simpa [lowerStatements] using hx)
    | Assignment y e =>
      obtain ⟨hy, he⟩ : '\n' ∉ y.toList ∧ e.plain := hs
      obtain ⟨a1, a2⟩ := lowerExpression_plain he k
      simp only [lowerStatements, List.mem_append, List.mem_singleton] at hx
      rcases hx with (hx | rfl) | hx
      · exact a2 x hx
      · exact ⟨by simp [Lowered.render], a1, by simp [Lowered.render, Operand.render], hy⟩
      · exact ih1 _ x hx
    | Print e =>
      have he : e.plain := hs
      obtain ⟨a1, a2⟩ := lowerExpression_plain he k
      simp only [lowerStatements, List.mem_append, List.mem_singleton] at hx
      rcases hx with (hx | rfl) | hx
      · exact a2 x hx
      · exact ⟨by simp [Lowered.render], a1, by simp [Lowered.render, Operand.render],
          by simp [Lowered.render, Operand.render]⟩
      · exact ih1 _ x hx

theorem toString_plain {i : Instruction} (h : i.plain) : '\n' ∉ i.toString.toList := by
  obtain ⟨h1, h2, h3, h4⟩ := h
  have hs1 : '\n' ∉ " = ".toList := by decide
  have hs2 : '\n' ∉ "print ".toList := by decide
  have hs3 : '\n' ∉ " ".toList := by decide
  unfold Instruction.toString
  split
  · simp only [String.toList, String.data_append, List.mem_append] at *
    tauto
  · split
    · simp only [String.toList, String.data_append, List.mem_append] at *
      tauto
    · simp only [String.toList, String.data_append, List.mem_append] at *
      tauto

theorem listing_lines (l : List Instruction) (h : ∀ i ∈ l, i.plain) : ∀ k : Nat,
    (listing k l).toList.count '\n' = l.length := by
  induction l with
  | nil => intro k; rfl
  | cons i rest ih =>
    intro k
    have h1 := List.count_eq_zero.2 (repr_plain (k + 1))
    have h2 := List.count_eq_zero.2 (toString_plain (h i (List.mem_cons_self _ _)))
    have h3 := ih (fun j hj => h j (List.mem_cons_of_mem _ hj)) (k + 1)
    have h4 : ": ".toList.count '\n' = 0 := by decide
    have h5 : "\n".toList.count '\n' = 1 := by decide
    simp only [String.toList] at h1 h2 h3 h4 h5
    simp only [listing, String.toList, String.data_append, List.count_append, h1, h2, h3, h4,
      h5, List.length_cons]
    omega

/-- C20: for every statement list and prior state of the generator, the text returned by
`generate` is the concatenation, over the generated instructions in order, of the lines
`decimal(i): rendering` closed by a newline, with `i` from 1 on; the rendering is
`destination = operand1` for an `=` instruction, `print operand1` for a `print`
instruction and `destination = operand1 operator operand2` for an arithmetic instruction.
The text is empty for the empty list, and when no operator and no name in the statements
holds a newline character the text has as many newline characters as there are instructions.
From `x = 1; x = x + 1; print(x);` the text is the four lines `1: x = 1.000000`,
`2: t0 = x + 1.000000`, `3: x = t0`, `4: print x`. -/
theorem listing_format (stmts : List ASTNode) (g : CodeGenerator)
    (hplain : ∀ s ∈ stmts, s.plain) :
    (g.generate stmts).1 = String.join (numberedLines 0 (g.generate stmts).2.instructions) ∧
    (numberedLines 0 (g.generate stmts).2.instructions).length =
      (g.generate stmts).2.instructions.length ∧
    (∀ i : Nat, (numberedLines 0 (g.generate stmts).2.instructions)[i]? =
      ((g.generate stmts).2.instructions[i]?).map
        (fun inst => Nat.repr (i + 1) ++ ": " ++ inst.toString ++ "\n")) ∧
    (∀ inst : Instruction,
      (inst.op = "=" → inst.toString = inst.result ++ " = " ++ inst.arg1) ∧
      (inst.op = "print" → inst.toString = "print " ++ inst.arg1) ∧
      (inst.isArithmetic = true →
        inst.toString = inst.result ++ " = " ++ inst.arg1 ++ " " ++ inst.op ++ " " ++ inst.arg2)) ∧
    (g.generate []).1 = "" ∧
    (g.generate stmts).1.toList.count '\n' = (g.generate stmts).2.instructions.length ∧
    (g.generate [ASTNode.Assignment "x" (ASTNode.Number 1),
      ASTNode.Assignment "x" (ASTNode.BinaryOp "+" (ASTNode.Identifier "x") (ASTNode.Number 1)),
      ASTNode.Print (ASTNode.Identifier "x")]).1 =
      "1: x = 1.000000\n2: t0 = x + 1.000000\n3: x = t0\n4: print x\n" ∧
    ((tokenize "x = 1; x = x + 1; print(x);").bind parse).map
      (fun statements => (CodeGenerator.new.generate statements).1) =
      .ok "1: x = 1.000000\n2: t0 = x + 1.000000\n3: x = t0\n4: print x\n" := by
  have hgen : (g.generate stmts).1 = listing 0 (g.generate stmts).2.instructions := rfl
  refine ⟨?_, ?_, ?_, ?_, rfl, ?_, ?_, by with_unfolding_all rfl⟩
  · rw [hgen, listing_eq_join]
  · simp [numberedLines]
  · intro i
    exact numberedLines_get _ i
  · intro inst
    refine ⟨?_, ?_, ?_⟩
    · intro h
      simp [Instruction.toString, h]
    · intro h
      simp [Instruction.toString, h]
    · intro h
      have h1 : inst.op ≠ "=" := by
        intro hc
        simp [Instruction.isArithmetic, hc] at h
      have h2 : inst.op ≠ "print" := by
        intro hc
        simp [Instruction.isArithmetic, hc] at h
      simp [Instruction.toString, h1, h2]
  · rw [hgen]
    apply listing_lines
    intro i hi
    rw [generate_instructions] at hi
    obtain ⟨x, hx, rfl⟩ := List.mem_map.1 hi
    exact lowerStatements_plain hplain 0 x hx
  · rw [generate_lower]
    with_unfolding_all rfl

/-- C20 at `y = 2 * 3; print(y);`: three instructions, three lines. -/
theorem listing_format_witness :
    (CodeGenerator.new.generate
      [ASTNode.Assignment "y" (ASTNode.BinaryOp "*" (ASTNode.Number 2) (ASTNode.Number 3)),
        ASTNode.Print (ASTNode.Identifier "y")]).1.toList.count '\n' =
      (CodeGenerator.new.generate
        [ASTNode.Assignment "y" (ASTNode.BinaryOp "*" (ASTNode.Number 2) (ASTNode.Number 3)),
          ASTNode.Print (ASTNode.Identifier "y")]).2.instructions.length :=
  (listing_format
    [ASTNode.Assignment "y" (ASTNode.BinaryOp "*" (ASTNode.Number 2) (ASTNode.Number 3)),
      ASTNode.Print (ASTNode.Identifier "y")]
    CodeGenerator.new
    (by
      intro s hs
      simp only [List.mem_cons, List.mem_singleton, List.not_mem_nil, or_false] at hs
      rcases hs with rfl | rfl
      · exact ⟨by decide, by decide, trivial, trivial⟩
      · exact (by decide : '\n' ∉ "y".toList))).2.2.2.2.2.1

/-! ## Read loop: commands and the terminator check -/

theorem evaluateLine_command (r : REPL) {line : String}
    (h : line.toList.head? = some ':') :
    r.evaluateLine line = ((r.processCommand line).1,
      ⟨[], none, some (commandOf line), !(r.processCommand line).2⟩) := by
  unfold REPL.evaluateLine
  rw [if_pos h]

theorem evaluateLine_blank (r : REPL) {line : String} (h : line.toList.head? ≠ some ':')
    (h1 : trim line.toList = []) : r.evaluateLine line = (r, ⟨[], none, none, false⟩) := by
  unfold REPL.evaluateLine
  rw [if_neg h]
  simp only []
  rw [if_pos h1]

theorem evaluateLine_unterminated (r : REPL) {line : String}
    (h : line.toList.head? ≠ some ':') (h1 : trim line.toList ≠ [])
    (h2 : (trim line.toList).getLast? ≠ some ';') :
    r.evaluateLine line = (r, ⟨[], some Diagnostic.missingTerminator, none, false⟩) := by
  unfold REPL.evaluateLine
  rw [if_neg h]
  simp only []
  rw [if_neg h1, if_pos h2]

/-- C21: for every session state `r` and every line that begins with `:` and names the
clear command (`:clear` or `:c`, also with blanks after it), the session after the line is
the freshly constructed one: empty symbol table, empty statement history, and a generator
with no instruction, counter zero and empty evaluation store; so every sequence of lines
entered afterwards gives the session, the outputs and the diagnostics it gives in a fresh
session. -/
theorem clear_session (r : REPL) (line : String) (hcolon : line.toList.head? = some ':')
    (hclear : commandOf line = Command.clear) :
    (r.evaluateLine line).1 = REPL.new ∧
    (r.evaluateLine line).2 = ⟨[], none, some Command.clear, false⟩ ∧
    (r.evaluateLine line).1.semantic = SymbolTable.empty ∧
    (r.evaluateLine line).1.allStatements = [] ∧
    (r.evaluateLine line).1.codegen.instructions = [] ∧
    (r.evaluateLine line).1.codegen.tempCounter = 0 ∧
    (∀ name, (r.evaluateLine line).1.codegen.memory name = none) ∧
    (∀ lines : List String,
      (r.evaluateLine line).1.evaluateLines lines = REPL.new.evaluateLines lines) ∧
    commandOf ":clear" = Command.clear ∧ commandOf ":c" = Command.clear ∧
    (r.evaluateLine ":clear").1 = REPL.new ∧ (r.evaluateLine ":c").1 = REPL.new := by
  have hp : r.processCommand line = (REPL.new, true) := by
    simp [REPL.processCommand, hclear, REPL.clearVariables, REPL.new]
  have h1 : (r.evaluateLine line).1 = REPL.new := by
    rw [evaluateLine_command r hcolon, hp]
  have h2 : (r.evaluateLine line).2 = ⟨[], none, some Command.clear, false⟩ := by
    rw [evaluateLine_command r hcolon, hp, hclear]
    rfl
  have h3 : commandOf ":clear" = Command.clear := by decide
  have h4 : commandOf ":c" = Command.clear := by decide
  refine ⟨h1, h2, ?_, ?_, ?_, ?_, ?_, ?_, h3, h4, ?_, ?_⟩
  · rw [h1]; rfl
  · rw [h1]; rfl
  · rw [h1]; rfl
  · rw [h1]; rfl
  · intro name; rw [h1]; rfl
  · intro lines; rw [h1]
  · rw [evaluateLine_command r (by decide)]
    simp [REPL.processCommand, h3, REPL.clearVariables, REPL.new]
  · rw [evaluateLine_command r (by decide)]
    simp [REPL.processCommand, h4, REPL.clearVariables, REPL.new]

/-- C21 at the line `:clear` followed by two blanks, after a session that has defined `x`. -/
theorem clear_session_witness :
    ((REPL.new.evaluateLine "x = 1;").1.evaluateLine ":clear  ").1 = REPL.new :=
  (clear_session (REPL.new.evaluateLine "x = 1;").1 ":clear  " (by decide) (by decide)).1

/-- C22: for every session state `r` and every line that does not begin with `:`, if the
line without the blanks (` `, `\t`, `\n`, `\r`) at both ends is not empty and does not end
with `;`, `evaluateLine` reports the missing-`;` diagnostic and returns the session as it
was, whatever the tokenizer would do with the line (on `x = $` it would fail); if nothing
is left of the line, `evaluateLine` reports nothing and returns the session as it was. -/
theorem terminator_precheck (r : REPL) (line : String)
    (hcolon : line.toList.head? ≠ some ':') :
    (trim line.toList ≠ [] → (trim line.toList).getLast? ≠ some ';' →
      r.evaluateLine line = (r, ⟨[], some Diagnostic.missingTerminator, none, false⟩)) ∧
    (trim line.toList = [] → r.evaluateLine line = (r, ⟨[], none, none, false⟩)) ∧
    ((∀ c ∈ line.toList, isTrimChar c = true) → trim line.toList = []) ∧
    (r.evaluateLine "x = $").2 = ⟨[], some Diagnostic.missingTerminator, none, false⟩ ∧
    tokenize "x = $" = .error (Fault.lexError '$' 1) ∧
    r.evaluateLine "" = (r, ⟨[], none, none, false⟩) ∧
    r.evaluateLine " \t \r" = (r, ⟨[], none, none, false⟩) := by
  have hgen : ∀ l : String, l.toList.head? ≠ some ':' →
      (trim l.toList ≠ [] → (trim l.toList).getLast? ≠ some ';' →
        r.evaluateLine l = (r, ⟨[], some Diagnostic.missingTerminator, none, false⟩)) ∧
      (trim l.toList = [] → r.evaluateLine l = (r, ⟨[], none, none, false⟩)) := by
    intro l hl
    exact ⟨fun h1 h2 => evaluateLine_unterminated r hl h1 h2,
      fun h1 => evaluateLine_blank r hl h1⟩
  refine ⟨(hgen line hcolon).1, (hgen line hcolon).2, ?_, ?_, by rfl, ?_, ?_⟩
  · intro h
    have h1 : line.toList.dropWhile isTrimChar = [] := by
      rw [List.dropWhile_eq_nil_iff]
      exact h
    unfold trim
    rw [h1]
    rfl
  · rw [(hgen "x = $" (by decide)).1 (by decide) (by decide)]
  · exact (hgen "" (by decide)).2 (by decide)
  · exact (hgen " \t \r" (by decide)).2 (by decide)

/-- C22 at the line `print(1)` in a fresh session. -/
theorem terminator_precheck_witness :
    REPL.new.evaluateLine "print(1)" =
      (REPL.new, ⟨[], some Diagnostic.missingTerminator, none, false⟩) :=
  (terminator_precheck REPL.new "print(1)" (by decide)).1 (by decide) (by decide)

/-! ## Semantic checker: what a statement does to the symbol table -/

theorem analyze_singleton (t : SymbolTable) (s : ASTNode) :
    (analyze t [s]).1 = match analyzeStatement t s with
      | .error _ => t
      | .ok t1 => t1 := by
  simp only [analyze]
  cases analyzeStatement t s <;> rfl

/-- C23: for every symbol table `t` and every statement `s`, the table after the check of
`s` (whether the check succeeds or throws) has the entries of `t` at every name other than
the variable assigned, when `s` is an `Assignment`; the check of a `Print` statement
returns the table `t` itself when it succeeds, and throws without a change when it fails;
a failed `Assignment` changes nothing either. -/
theorem print_keeps_table (t : SymbolTable) (s : ASTNode) :
    (∀ name, (analyze t [s]).1.symbols name ≠ t.symbols name →
      ∃ e, s = ASTNode.Assignment name e) ∧
    (∀ e, (analyze t [ASTNode.Print e]).1 = t) ∧
    (∀ e t1, analyzeStatement t (ASTNode.Print e) = .ok t1 → t1 = t) ∧
    (∀ x e t1, analyzeStatement t (ASTNode.Assignment x e) = .ok t1 →
      ∃ type, analyzeExpression t e = .ok type ∧ t1 = t.define x type ∧
        ∀ name, name ≠ x → t1.symbols name = t.symbols name) ∧
    ((analyze t [s]).2 ≠ none → (analyze t [s]).1 = t) := by
  refine ⟨?_, ?_, ?_, ?_, ?_⟩
  · intro name hne
    rw [analyze_singleton] at hne
    cases s with
    | Assignment x e =>
      simp only [analyzeStatement] at hne
      cases he : analyzeExpression t e with
      | error f => rw [he] at hne; exact absurd rfl hne
      | ok type =>
        rw [he] at hne
        simp only [SymbolTable.define] at hne
        by_cases hx : name = x
        · exact ⟨e, by rw [hx]⟩
        · rw [if_neg hx] at hne
          exact absurd rfl hne
    | Print e =>
      simp only [analyzeStatement] at hne
      cases he : analyzeExpression t e with
      | error f => rw [he] at hne; exact absurd rfl hne
      | ok type => rw [he] at hne; exact absurd rfl hne
    | Number v => exact absurd rfl hne
    | Identifier n => exact absurd rfl hne
    | BinaryOp op l r => exact absurd rfl hne
  · intro e
    rw [analyze_singleton]
    simp only [analyzeStatement]
    cases analyzeExpression t e <;> rfl
  · intro e t1 h
    simp only [analyzeStatement] at h
    cases he : analyzeExpression t e with
    | error f => rw [he] at h; cases h
    | ok type => rw [he] at h; cases h; rfl
  · intro x e t1 h
    simp only [analyzeStatement] at h
    cases he : analyzeExpression t e with
    | error f => rw [he] at h; cases h
    | ok type =>
      rw [he] at h
      cases h
      refine ⟨type, rfl, rfl, ?_⟩
      intro name hname
      simp [SymbolTable.define, hname]
  · intro h
    simp only [analyze] at h ⊢
    cases hs : analyzeStatement t s with
    | error f => rfl
    | ok t1 => rw [hs] at h; exact absurd rfl h

/-! ## Semantic checker: the one type -/

theorem analyzeExpression_type {t : SymbolTable} (ht : t.oneTyped) (e : ASTNode) {type : String}
    (h : analyzeExpression t e = .ok type) : type = "number" := by
  cases e with
  | Number v => simp only [analyzeExpression] at h; cases h; rfl
  | Identifier n =>
    simp only [analyzeExpression, SymbolTable.isDefined, SymbolTable.getType] at h
    cases hs : t.symbols n with
    | none => rw [hs] at h; simp at h
    | some ty =>
      rw [hs] at h
      simp at h
      rw [← h]
      exact ht n ty hs
  | BinaryOp op l r =>
    simp only [analyzeExpression] at h
    cases hl : analyzeExpression t l with
    | error f => rw [hl] at h; cases h
    | ok lt =>
      rw [hl] at h
      cases hr : analyzeExpression t r with
      | error f => rw [hr] at h; cases h
      | ok rt =>
        rw [hr] at h
        simp only at h
        split at h
        · cases h
        · cases h; rfl
  | Assignment x e => simp [analyzeExpression] at h
  | Print e => simp [analyzeExpression] at h

theorem define_oneTyped {t : SymbolTable} (ht : t.oneTyped) (x : String) :
    (t.define x "number").oneTyped := by
  intro name type h
  simp only [SymbolTable.define] at h
  split at h
  · cases h; rfl
  · exact ht name type h

theorem analyzeStatement_oneTyped {t t1 : SymbolTable} (ht : t.oneTyped) (s : ASTNode)
    (h : analyzeStatement t s = .ok t1) : t1.oneTyped := by
  cases s with
  | Assignment x e =>
    simp only [analyzeStatement] at h
    cases he : analyzeExpression t e with
    | error f => rw [he] at h; cases h
    | ok type =>
      rw [he] at h
      cases h
      rw [analyzeExpression_type ht e he]
      exact define_oneTyped ht x
  | Print e =>
    simp only [analyzeStatement] at h
    cases he : analyzeExpression t e with
    | error f => rw [he] at h; cases h
    | ok type => rw [he] at h; cases h; exact ht
  | Number v => cases h; exact ht
  | Identifier n => cases h; exact ht
  | BinaryOp op l r => cases h; exact ht

theorem analyze_oneTyped (stmts : List ASTNode) : ∀ t : SymbolTable, t.oneTyped →
    (analyze t stmts).1.oneTyped := by
  induction stmts with
  | nil => intro t ht; exact ht
  | cons s rest ih =>
    intro t ht
    simp only [analyze]
    cases hs : analyzeStatement t s with
    | error f => exact ht
    | ok t1 => exact ih t1 (analyzeStatement_oneTyped ht s hs)

theorem reachable_oneTyped {t : SymbolTable} (h : ReachableTable t) : t.oneTyped := by
  induction h with
  | empty => intro name type h; cases h
  | step t stmts _ ih => exact analyze_oneTyped stmts t ih

/-- C25: every symbol table reachable from the empty table by calls of `analyze` (on any
statement lists, successful or not) maps every defined name to the type `number`; on such
a table, `analyzeExpression` applied to a tree built from `Number`, `Identifier` and
`BinaryOp` nodes returns `number` or fails with the undefined-variable error of one of the
identifiers of the tree: it fails neither with the invalid-operand-type error nor with the
unknown-node error. -/
theorem one_type_invariant (t : SymbolTable) (h : ReachableTable t) :
    (∀ name type, t.symbols name = some type → type = "number") ∧
    (∀ e : ASTNode, e.isExpression →
      (analyzeExpression t e = .ok "number" ∨
        ∃ x ∈ e.identifiers, analyzeExpression t e = .error (Fault.undefinedVariable x)) ∧
      analyzeExpression t e ≠ .error Fault.invalidOperandType ∧
      analyzeExpression t e ≠ .error Fault.unknownNode) := by
  have ht := reachable_oneTyped h
  refine ⟨ht, ?_⟩
  intro e he
  rcases analyzeExpression_spec t ht e he with ⟨_, h1⟩ | ⟨x, hx, _, h1⟩
  · exact ⟨Or.inl h1, by rw [h1]; simp, by rw [h1]; simp⟩
  · exact ⟨Or.inr ⟨x, hx, h1⟩, by rw [h1]; simp, by rw [h1]; simp⟩

/-- C25 at the table reached by `x = 1; y = x + z;` (a failed call) and then `y = x;`, and
the tree `x + y`. -/
theorem one_type_invariant_witness :
    analyzeExpression (analyze (analyze SymbolTable.empty
        [ASTNode.Assignment "x" (ASTNode.Number 1),
          ASTNode.Assignment "y" (ASTNode.BinaryOp "+" (ASTNode.Identifier "x")
            (ASTNode.Identifier "z"))]).1
        [ASTNode.Assignment "y" (ASTNode.Identifier "x")]).1
      (ASTNode.BinaryOp "+" (ASTNode.Identifier "x") (ASTNode.Identifier "y")) =
        .ok "number" ∨
    ∃ x ∈ (ASTNode.BinaryOp "+" (ASTNode.Identifier "x") (ASTNode.Identifier "y")).identifiers,
      analyzeExpression (analyze (analyze SymbolTable.empty
        [ASTNode.Assignment "x" (ASTNode.Number 1),
          ASTNode.Assignment "y" (ASTNode.BinaryOp "+" (ASTNode.Identifier "x")
            (ASTNode.Identifier "z"))]).1
        [ASTNode.Assignment "y" (ASTNode.Identifier "x")]).1
      (ASTNode.BinaryOp "+" (ASTNode.Identifier "x") (ASTNode.Identifier "y")) =
        .error (Fault.undefinedVariable x) :=
  ((one_type_invariant _
    (ReachableTable.step _ [ASTNode.Assignment "y" (ASTNode.Identifier "x")]
      (ReachableTable.step _
        [ASTNode.Assignment "x" (ASTNode.Number 1),
          ASTNode.Assignment "y" (ASTNode.BinaryOp "+" (ASTNode.Identifier "x")
            (ASTNode.Identifier "z"))]
        ReachableTable.empty))).2
    (ASTNode.BinaryOp "+" (ASTNode.Identifier "x") (ASTNode.Identifier "y"))
    (by simp [ASTNode.isExpression])).1

/-! ## Numbers: the rendering of a literal, read back -/

theorem digitsVal_foldl (cs : List Char) : ∀ acc : Nat,
    cs.foldl (fun a c => 10 * a + digitVal c) acc = acc * 10 ^ cs.length + digitsVal cs := by
  induction cs with
  | nil => intro acc; simp [digitsVal]
  | cons c cs ih =>
    intro acc
    simp only [List.foldl_cons, List.length_cons, digitsVal]
    rw [ih (10 * acc + digitVal c), ih (10 * 0 + digitVal c)]
    ring

theorem digitsVal_append (a b : List Char) :
    digitsVal (a ++ b) = digitsVal a * 10 ^ b.length + digitsVal b := by
  unfold digitsVal
  rw [List.foldl_append, digitsVal_foldl]
  rfl

theorem digitsVal_zeros (k : Nat) : digitsVal (List.replicate k '0') = 0 := by
  induction k with
  | zero => rfl
  | succ k ih =>
    rw [List.replicate_succ]
    have := digitsVal_append ['0'] (List.replicate k '0')
    simp only [List.singleton_append] at this
    rw [this, ih]
    simp [digitsVal, digitVal]

theorem digitsVal_padZeros (n : Nat) (cs : List Char) :
    digitsVal (padZeros n cs) = digitsVal cs := by
  unfold padZeros
  rw [digitsVal_append, digitsVal_zeros]
  simp

theorem repr_digits (n : Nat) : ∀ c ∈ (Nat.repr n).toList, isdigit c = true := by
  have h1 : (Nat.repr n).toList = Nat.toDigitsCore 10 (n + 1) n [] := rfl
  rw [h1]
  exact toDigitsCore_digits (n + 1) n [] (by simp)

theorem padZeros_digits (n : Nat) {cs : List Char} (h : ∀ c ∈ cs, isdigit c = true) :
    ∀ c ∈ padZeros n cs, isdigit c = true := by
  intro c hc
  simp only [padZeros, List.mem_append, List.mem_replicate] at hc
  rcases hc with ⟨_, rfl⟩ | hc
  · decide
  · exact h c hc

theorem padZeros_length {n : Nat} {cs : List Char} (h : cs.length ≤ n) :
    (padZeros n cs).length = n := by
  simp only [padZeros, List.length_append, List.length_replicate]
  omega

theorem takeWhile_digits_point (ds rest : List Char) (h : ∀ c ∈ ds, isdigit c = true) :
    (ds ++ '.' :: rest).takeWhile isdigit = ds ∧
    (ds ++ '.' :: rest).dropWhile isdigit = '.' :: rest := by
  induction ds with
  | nil =>
    have : isdigit '.' = false := by decide
    simp [List.takeWhile, List.dropWhile, this]
  | cons d ds ih =>
    have hd := h d (List.mem_cons_self _ _)
    obtain ⟨h1, h2⟩ := ih (fun c hc => h c (List.mem_cons_of_mem _ hc))
    simp [List.takeWhile, List.dropWhile, hd, h1, h2]

theorem takeWhile_digits_all (ds : List Char) (h : ∀ c ∈ ds, isdigit c = true) :
    ds.takeWhile isdigit = ds ∧ ds.dropWhile isdigit = [] := by
  induction ds with
  | nil => simp
  | cons d ds ih =>
    have hd := h d (List.mem_cons_self _ _)
    obtain ⟨h1, h2⟩ := ih (fun c hc => h c (List.mem_cons_of_mem _ hc))
    simp [List.takeWhile, List.dropWhile, hd, h1, h2]

/-- The text `[-]ip.fp` with `ip` a non-empty run of digits and `fp` a run of digits is
converted by `std::stod` to the number it writes. -/
theorem stod_decimal (neg : Bool) (ip fp : List Char) (hip : ∀ c ∈ ip, isdigit c = true)
    (hne : ip ≠ []) (hfp : ∀ c ∈ fp, isdigit c = true) :
    stod (String.mk ((if neg then ['-'] else []) ++ ip ++ '.' :: fp)) =
      some (if neg then -((digitsVal (ip ++ fp) : ℚ) / (10 : ℚ) ^ fp.length)
        else (digitsVal (ip ++ fp) : ℚ) / (10 : ℚ) ^ fp.length) := by
  obtain ⟨d, ds, rfl⟩ : ∃ d ds, ip = d :: ds := by
    cases ip with
    | nil => exact absurd rfl hne
    | cons d ds => exact ⟨d, ds, rfl⟩
  have hd := hip d (List.mem_cons_self _ _)
  have hsp := isdigit_not_isspace hd
  obtain ⟨t1, t2⟩ := takeWhile_digits_point (d :: ds) fp hip
  obtain ⟨f1, f2⟩ := takeWhile_digits_all fp hfp
  have hsign : stodSign (((String.mk ((if neg then ['-'] else []) ++ (d :: ds) ++
      '.' :: fp)).toList).dropWhile isspace) = (neg, (d :: ds) ++ '.' :: fp) := by
    cases neg with
    | true =>
      have : isspace '-' = false := by decide
      simp [String.toList, List.dropWhile, this, stodSign]
    | false =>
      simp only [Bool.false_eq_true, if_false, List.nil_append, String.toList]
      rw [show (d :: ds) ++ '.' :: fp = d :: (ds ++ '.' :: fp) from rfl]
      simp only [List.dropWhile, hsp]
      exact stodSign_of_digit _ hd
  unfold stod
  rw [hsign]
  simp only [t1, t2, stodFraction, f1, f2, stodExponent]
  simp

theorem roundHalfEven_natCast (k : Nat) : roundHalfEven (k : ℚ) = k := by
  have hf : Rat.floor (k : ℚ) = (k : ℤ) := by
    rw [Rat.floor_def']
    simp
  unfold roundHalfEven
  simp only [hf, Int.toNat_ofNat, sub_self]
  norm_num

/-- The value the rendering of `v` is read back to: `v` rounded to six digits after the
point. -/
theorem stod_to_string_value (v : ℚ) :
    stod (to_string v) = some (if v < 0 then -((roundHalfEven (|v| * 1000000) : ℚ) / 1000000)
      else (roundHalfEven (|v| * 1000000) : ℚ) / 1000000) := by
  have hlen : (Nat.repr (roundHalfEven (|v| * 1000000) % 1000000)).toList.length ≤ 6 :=
    Nat.repr_length _ 6 (by decide) (Nat.mod_lt _ (by decide))
  have hfp := padZeros_digits 6 (repr_digits (roundHalfEven (|v| * 1000000) % 1000000))
  have hip := repr_digits (roundHalfEven (|v| * 1000000) / 1000000)
  have hne : (Nat.repr (roundHalfEven (|v| * 1000000) / 1000000)).toList ≠ [] := by
    obtain ⟨c, cs, hc, _⟩ := repr_head_digit (roundHalfEven (|v| * 1000000) / 1000000)
    rw [hc]; simp
  have h := stod_decimal (decide (v < 0)) _ _ hip hne hfp
  have hval : digitsVal ((Nat.repr (roundHalfEven (|v| * 1000000) / 1000000)).toList ++
      padZeros 6 (Nat.repr (roundHalfEven (|v| * 1000000) % 1000000)).toList) =
      roundHalfEven (|v| * 1000000) := by
    rw [digitsVal_append, digitsVal_padZeros, padZeros_length hlen]
    have e1 := digitsVal_repr (roundHalfEven (|v| * 1000000) / 1000000)
    have e2 := digitsVal_repr (roundHalfEven (|v| * 1000000) % 1000000)
    simp only [String.toList] at e1 e2 ⊢
    rw [e1, e2]
    exact Nat.div_add_mod' _ _
  rw [hval, padZeros_length hlen] at h
  have hts : to_string v = String.mk ((if decide (v < 0) = true then ['-'] else []) ++
      (Nat.repr (roundHalfEven (|v| * 1000000) / 1000000)).toList ++
      '.' :: padZeros 6 (Nat.repr (roundHalfEven (|v| * 1000000) % 1000000)).toList) := by
    unfold to_string
    by_cases hv : v < 0 <;> simp [hv]
  rw [hts, h]
  by_cases hv : v < 0 <;> simp [hv] <;> norm_num

theorem rounded6_of_sixDigits {v : ℚ} (h : sixDigits v) : rounded6 v = v := by
  have hw : ((v * 1000000).num : ℚ) = v * 1000000 := (Rat.den_eq_one_iff _).1 h
  have habs : |v| * 1000000 = (((v * 1000000).num.natAbs : ℕ) : ℚ) := by
    have h1 : |v| * 1000000 = |v * 1000000| := by
      rw [abs_mul]; norm_num
    have h2 : |v * 1000000| = |((v * 1000000).num : ℚ)| := by rw [hw]
    rw [h1, h2, Nat.cast_natAbs, Int.cast_abs]
  unfold rounded6
  rw [habs, roundHalfEven_natCast]
  by_cases hv : v < 0
  · rw [if_pos hv]
    have hneg : (v * 1000000).num < 0 := by
      rw [Rat.num_neg]
      linarith
    have : (((v * 1000000).num.natAbs : ℕ) : ℚ) = -((v * 1000000).num : ℚ) := by
      rw [Nat.cast_natAbs, Int.cast_abs, abs_of_neg (by exact_mod_cast hneg)]
    rw [this, hw]
    ring
  · rw [if_neg hv]
    have hnn : 0 ≤ (v * 1000000).num := by
      rw [Rat.num_nonneg]
      have : 0 ≤ v := not_lt.1 hv
      positivity
    have : (((v * 1000000).num.natAbs : ℕ) : ℚ) = ((v * 1000000).num : ℚ) := by
      rw [Nat.cast_natAbs, Int.cast_abs, abs_of_nonneg (by exact_mod_cast hnn)]
    rw [this, hw]
    ring

theorem stod_to_string_rounded (v : ℚ) : stod (to_string v) = some (rounded6 v) :=
  stod_to_string_value v

theorem stod_to_string_exact {v : ℚ} (h : sixDigits v) : stod (to_string v) = some v := by
  rw [stod_to_string_rounded, rounded6_of_sixDigits h]

theorem resolve_literal {m : Memory} (v : ℚ) (h : m (to_string v) = none) :
    resolve m (to_string v) = .ok (rounded6 v) := by
  simp [resolve, h, stod_to_string_rounded]

/-! ## Names: variables, temporaries and rendered numbers -/

theorem tempName_toList (i : Nat) : (tempName i).toList = 't' :: (Nat.repr i).toList := by
  simp [tempName, String.toList]

theorem tempName_isTemporaryText (i : Nat) : isTemporaryText (tempName i) = true := by
  obtain ⟨c, cs, hc, _⟩ := repr_head_digit i
  have hall := repr_digits i
  unfold isTemporaryText
  rw [tempName_toList, hc]
  rw [hc] at hall
  simp only [List.all_eq_true]
  exact hall

theorem tempName_not_identifier_name {x : String} (h : isTemporaryText x = false) (i : Nat) :
    x ≠ tempName i := by
  rintro rfl
  rw [tempName_isTemporaryText] at h
  cases h

theorem to_string_head (v : ℚ) :
    ∃ c cs, (to_string v).toList = c :: cs ∧ (c = '-' ∨ isdigit c = true) := by
  obtain ⟨c, cs, hc, hd⟩ := repr_head_digit (roundHalfEven (|v| * 1000000) / 1000000)
  unfold to_string
  simp only [String.toList] at hc ⊢
  rw [hc]
  by_cases hv : v < 0
  · refine ⟨'-', c :: cs ++
      '.' :: padZeros 6 (Nat.repr (roundHalfEven (|v| * 1000000) % 1000000)).data, ?_,
      Or.inl rfl⟩
    simp [hv]
  · refine ⟨c, cs ++
      '.' :: padZeros 6 (Nat.repr (roundHalfEven (|v| * 1000000) % 1000000)).data, ?_,
      Or.inr hd⟩
    simp [hv]

theorem to_string_not_identifier (v : ℚ) : isIdentifierText (to_string v) = false := by
  obtain ⟨c, cs, hc, h⟩ := to_string_head v
  unfold isIdentifierText
  rw [hc]
  rcases h with rfl | h
  · simp only [Bool.and_eq_false_imp]
    intro h1
    exact absurd h1 (by decide)
  · have h1 : isalpha c = false := by
      unfold isalpha
      unfold isdigit at h
      simp only [Bool.and_eq_true, decide_eq_true_eq] at h
      simp only [Bool.or_eq_false_iff, Bool.and_eq_false_imp, decide_eq_true_eq,
        decide_eq_false_iff_not]
      omega
    have h2 : c ≠ '_' := by rintro rfl; revert h; decide
    simp [h1, h2]

theorem to_string_ne_name {x : String} (h : isIdentifierText x = true) (v : ℚ) :
    to_string v ≠ x := by
  rintro rfl
  rw [to_string_not_identifier] at h
  cases h

theorem to_string_ne_tempName (v : ℚ) (i : Nat) : to_string v ≠ tempName i := by
  intro h
  obtain ⟨c, cs, hc, hd⟩ := to_string_head v
  rw [h, tempName_toList] at hc
  simp only [List.cons.injEq] at hc
  rcases hd with rfl | hd
  · exact absurd hc.1 (by decide)
  · rw [← hc.1] at hd
    exact absurd hd (by decide)

/-- C28: the operand text that `generateExpression` emits for a `Number` node of value `v`
is the six-digit rendering of `v`, and the interpreter resolves it (when the text is no key
of the store) to `v` rounded to six digits after the point; this is `v` itself exactly when
`v` has at most six digits after the point.  The literal `0.0000001`, which the parser
converts to a non-zero value, is rendered as `0.000000` and resolves to zero, so that
`print(1 / 0.0000001);` stops with the division-by-zero fault and prints nothing. -/
theorem literal_rendering_rounds :
    (∀ (v : ℚ) (g : CodeGenerator),
      (generateExpression (ASTNode.Number v) g).1 = to_string v) ∧
    (∀ (v : ℚ) (m : Memory), m (to_string v) = none →
      resolve m (to_string v) = .ok (rounded6 v)) ∧
    (∀ v : ℚ, rounded6 v = v ↔ sixDigits v) ∧
    (tokenize "print(1 / 0.0000001);").bind parse =
      .ok [ASTNode.Print (ASTNode.BinaryOp "/" (ASTNode.Number 1)
        (ASTNode.Number (1 / 10000000)))] ∧
    (1 / 10000000 : ℚ) ≠ 0 ∧
    to_string (1 / 10000000 : ℚ) = "0.000000" ∧
    resolve (fun _ => none) (to_string (1 / 10000000 : ℚ)) = .ok 0 ∧
    (REPL.new.evaluateLine "print(1 / 0.0000001);").2 =
      ⟨[], some (Diagnostic.exception Fault.divisionByZero), none, false⟩ ∧
    (evalStatements (fun _ => none) [] [ASTNode.Print (ASTNode.BinaryOp "/" (ASTNode.Number 1)
        (ASTNode.Number (1 / 10000000)))]).output = [10000000] := by
  refine ⟨fun _ _ => rfl, fun v m h => resolve_literal v h, ?_, by with_unfolding_all rfl,
    by norm_num, by with_unfolding_all rfl, by with_unfolding_all rfl,
    by with_unfolding_all rfl, by with_unfolding_all rfl⟩
  intro v
  constructor
  · intro h
    unfold rounded6 at h
    unfold sixDigits
    by_cases hv : v < 0
    · rw [if_pos hv] at h
      generalize roundHalfEven (|v| * 1000000) = n at h
      have : v * 1000000 = ((-(n : ℤ) : ℤ) : ℚ) := by
        rw [← h]
        push_cast
        ring
      rw [this]
      exact Rat.den_intCast _
    · rw [if_neg hv] at h
      generalize roundHalfEven (|v| * 1000000) = n at h
      have : v * 1000000 = (((n : ℤ) : ℤ) : ℚ) := by
        rw [← h]
        push_cast
        ring
      rw [this]
      exact Rat.den_intCast _
  · exact rounded6_of_sixDigits

/-- C24: a variable may bear the name of a temporary.  When no variable of the statements
is named `t` followed by decimal digits, no temporary of `generate` is a variable name.
The source `t0 = 1; x = 2 + 3; print(t0);` is tokenized and parsed with the variable `t0`;
`generate` mints the temporary `t0` for `2 + 3`, whose instruction overwrites the variable,
and the cycle prints 5, whereas the direct evaluation of the statements prints 1. -/
theorem temporary_name_collision :
    (∀ stmts : List ASTNode, (∀ s ∈ stmts, ∀ x ∈ s.names, isTemporaryText x = false) →
      ∀ (i : Nat), ∀ s ∈ stmts, tempName i ∉ s.names) ∧
    (tokenize "t0 = 1; x = 2 + 3; print(t0);").bind parse =
      .ok [ASTNode.Assignment "t0" (ASTNode.Number 1),
        ASTNode.Assignment "x" (ASTNode.BinaryOp "+" (ASTNode.Number 2) (ASTNode.Number 3)),
        ASTNode.Print (ASTNode.Identifier "t0")] ∧
    tempName 0 = "t0" ∧
    (CodeGenerator.new.generate [ASTNode.Assignment "t0" (ASTNode.Number 1),
        ASTNode.Assignment "x" (ASTNode.BinaryOp "+" (ASTNode.Number 2) (ASTNode.Number 3)),
        ASTNode.Print (ASTNode.Identifier "t0")]).2.instructions =
      [⟨"=", "1.000000", "", "t0"⟩, ⟨"+", "2.000000", "3.000000", "t0"⟩,
        ⟨"=", "t0", "", "x"⟩, ⟨"print", "t0", "", ""⟩] ∧
    (REPL.new.evaluateLine "t0 = 1; x = 2 + 3; print(t0);").2 = ⟨[5], none, none, false⟩ ∧
    (evalStatements (fun _ => none) [] [ASTNode.Assignment "t0" (ASTNode.Number 1),
        ASTNode.Assignment "x" (ASTNode.BinaryOp "+" (ASTNode.Number 2) (ASTNode.Number 3)),
        ASTNode.Print (ASTNode.Identifier "t0")]).output = [1] := by
  refine ⟨?_, by with_unfolding_all rfl, by rfl, by with_unfolding_all rfl,
    by with_unfolding_all rfl, by with_unfolding_all rfl⟩
  intro stmts h i s hs hmem
  have := h s hs _ hmem
  rw [tempName_isTemporaryText] at this
  cases this

/-! ## Interpreter: a fault ends the run -/

theorem executeLoop_append_fault (p : List Instruction) : ∀ (q : List Instruction)
    (m : Memory) (o : List ℚ) (m1 : Memory) (o1 : List ℚ) (f : Fault),
    executeLoop p m o = ⟨m1, o1, some f⟩ → executeLoop (p ++ q) m o = ⟨m1, o1, some f⟩ := by
  induction p with
  | nil => intro q m o m1 o1 f h; simp [executeLoop] at h
  | cons i p ih =>
    intro q m o m1 o1 f h
    simp only [executeLoop, List.cons_append] at h ⊢
    cases hi : executeInstruction m o i with
    | error e => rw [hi] at h; exact h
    | ok r =>
      rw [hi] at h
      exact ih q r.1 r.2 m1 o1 f h

/-! ## Numbers: the nearest `double` -/

theorem roundHalfEven_floor (y : ℚ) (hy : 0 ≤ y) :
    ((Rat.floor y).toNat : ℚ) ≤ y ∧ y < ((Rat.floor y).toNat : ℚ) + 1 := by
  have h0 : 0 ≤ Rat.floor y := by
    have : Rat.floor y = ⌊y⌋ := rfl
    rw [this]
    exact Int.floor_nonneg.2 hy
  have hc : (((Rat.floor y).toNat : ℤ) : ℚ) = ((Rat.floor y : ℤ) : ℚ) := by
    rw [Int.toNat_of_nonneg h0]
  have hc2 : ((Rat.floor y).toNat : ℚ) = ((Rat.floor y : ℤ) : ℚ) := by
    rw [← hc]; norm_cast
  rw [hc2]
  have : Rat.floor y = ⌊y⌋ := rfl
  rw [this]
  exact ⟨Int.floor_le y, Int.lt_floor_add_one y⟩

/-- The rounding is within one half of its argument. -/
theorem roundHalfEven_error (y : ℚ) (hy : 0 ≤ y) : |(roundHalfEven y : ℚ) - y| ≤ 1 / 2 := by
  obtain ⟨h1, h2⟩ := roundHalfEven_floor y hy
  unfold roundHalfEven
  simp only
  split
  · rename_i h
    rw [abs_le]; constructor <;> linarith
  · split
    · rename_i h h'
      push_cast
      rw [abs_le]; constructor <;> linarith
    · rename_i h h'
      have he : y - ((Rat.floor y).toNat : ℚ) = 1 / 2 := le_antisymm (not_lt.1 h') (not_lt.1 h)
      split
      · rw [abs_le]; constructor <;> linarith
      · push_cast
        rw [abs_le]; constructor <;> linarith

/-- A natural number within less than one half of the argument is its rounding. -/
theorem roundHalfEven_near (y : ℚ) (hy : 0 ≤ y) (m : ℕ) (h : |y - (m : ℚ)| < 1 / 2) :
    roundHalfEven y = m := by
  have herr := roundHalfEven_error y hy
  rw [abs_lt] at h
  rw [abs_le] at herr
  have h1 : ((roundHalfEven y : ℤ) : ℚ) < ((m : ℤ) : ℚ) + 1 := by push_cast; linarith
  have h2 : ((m : ℤ) : ℚ) < ((roundHalfEven y : ℤ) : ℚ) + 1 := by push_cast; linarith
  have h3 : (roundHalfEven y : ℤ) < (m : ℤ) + 1 := by exact_mod_cast h1
  have h4 : (m : ℤ) < (roundHalfEven y : ℤ) + 1 := by exact_mod_cast h2
  omega

theorem roundHalfEven_ge (y : ℚ) (hy : 0 ≤ y) (m : ℕ) (h : (m : ℚ) ≤ y) :
    m ≤ roundHalfEven y := by
  have herr := roundHalfEven_error y hy
  rw [abs_le] at herr
  have h1 : ((m : ℤ) : ℚ) < ((roundHalfEven y : ℤ) : ℚ) + 1 := by push_cast; linarith
  have h3 : (m : ℤ) < (roundHalfEven y : ℤ) + 1 := by exact_mod_cast h1
  omega

theorem roundHalfEven_le (y : ℚ) (hy : 0 ≤ y) (m : ℕ) (h : y < (m : ℚ) + 1 / 2) :
    roundHalfEven y ≤ m := by
  have herr := roundHalfEven_error y hy
  rw [abs_le] at herr
  have h1 : ((roundHalfEven y : ℤ) : ℚ) < ((m : ℤ) : ℚ) + 1 := by push_cast; linarith
  have h3 : (roundHalfEven y : ℤ) < (m : ℤ) + 1 := by exact_mod_cast h1
  omega

theorem two_zpow_pos (e : ℤ) : (0 : ℚ) < (2 : ℚ) ^ e := zpow_pos (by norm_num) e

theorem binade_bounds {x : ℚ} (hx : 0 < x) :
    (2 : ℚ) ^ Int.log 2 x ≤ x ∧ x < (2 : ℚ) ^ (Int.log 2 x + 1) := by
  have h1 := Int.zpow_log_le_self (b := 2) (by norm_num) hx
  have h2 := Int.lt_zpow_succ_log_self (b := 2) (by norm_num) x
  push_cast at h1 h2
  exact ⟨h1, h2⟩

theorem binade_eq {x : ℚ} (hx : 0 < x) (e : ℤ) (h1 : (2 : ℚ) ^ e ≤ x)
    (h2 : x < (2 : ℚ) ^ (e + 1)) : Int.log 2 x = e := by
  have a := (Int.zpow_le_iff_le_log (b := 2) (by norm_num) (x := e) hx).1
    (by push_cast; exact h1)
  have b := (Int.lt_zpow_iff_log_lt (b := 2) (by norm_num) (x := e + 1) hx).1
    (by push_cast; exact h2)
  omega

theorem nearestDouble_pos {x : ℚ} (hx : 0 < x) :
    nearestDouble x =
      (roundHalfEven (x / (2 : ℚ) ^ (Int.log 2 x - 52)) : ℚ) * (2 : ℚ) ^ (Int.log 2 x - 52) := by
  unfold nearestDouble
  rw [if_neg (ne_of_gt hx), abs_of_pos hx]
  simp only
  rw [if_neg (not_lt.2 (le_of_lt hx))]

theorem nearestDouble_neg (x : ℚ) : nearestDouble (-x) = -nearestDouble x := by
  unfold nearestDouble
  by_cases h0 : x = 0
  · simp [h0]
  · have h1 : -x ≠ 0 := neg_ne_zero.2 h0
    rw [if_neg h0, if_neg h1, abs_neg]
    simp only
    rcases lt_or_gt_of_ne h0 with h | h
    · rw [if_pos h, if_neg (show ¬ -x < 0 by linarith)]
      ring
    · rw [if_neg (show ¬ x < 0 by linarith), if_pos (show -x < 0 by linarith)]

/-- A number of the binade of `e` that lies within less than half a unit in the last place
of the `double` `n * 2^(e-52)` is rounded to that `double`. -/
theorem nearestDouble_near {G : ℚ} (e : ℤ) (n : ℕ) (hb1 : (2 : ℚ) ^ e ≤ G)
    (hb2 : G < (2 : ℚ) ^ (e + 1)) (hn : |G / (2 : ℚ) ^ (e - 52) - (n : ℚ)| < 1 / 2) :
    nearestDouble G = (n : ℚ) * (2 : ℚ) ^ (e - 52) := by
  have hG : 0 < G := lt_of_lt_of_le (two_zpow_pos e) hb1
  rw [nearestDouble_pos hG, binade_eq hG e hb1 hb2]
  rw [roundHalfEven_near _ (div_nonneg (le_of_lt hG) (le_of_lt (two_zpow_pos _))) n hn]

theorem two_zpow_split (e : ℤ) :
    (2 : ℚ) ^ e = 2 ^ 52 * (2 : ℚ) ^ (e - 52) ∧
    (2 : ℚ) ^ (e + 1) = 2 ^ 53 * (2 : ℚ) ^ (e - 52) := by
  have h2 : (2 : ℚ) ≠ 0 := by norm_num
  constructor
  · have : e = (52 : ℤ) + (e - 52) := by ring
    conv_lhs => rw [this]
    rw [zpow_add₀ h2]
    norm_num
  · have : e + 1 = (53 : ℤ) + (e - 52) := by ring
    conv_lhs => rw [this]
    rw [zpow_add₀ h2]
    norm_num

/-- The form of the nearest `double` of a positive number: a significand of 53 bits times
the unit in the last place of the binade, within half a unit of the number. -/
theorem nearestDouble_form {x : ℚ} (hx : 0 < x) :
    ∃ n : ℕ, 2 ^ 52 ≤ n ∧ n ≤ 2 ^ 53 ∧
      nearestDouble x = (n : ℚ) * (2 : ℚ) ^ (Int.log 2 x - 52) ∧
      |(n : ℚ) - x / (2 : ℚ) ^ (Int.log 2 x - 52)| ≤ 1 / 2 := by
  obtain ⟨hb1, hb2⟩ := binade_bounds hx
  obtain ⟨s1, s2⟩ := two_zpow_split (Int.log 2 x)
  have hq := two_zpow_pos (Int.log 2 x - 52)
  have hy1 : (2 : ℚ) ^ 52 ≤ x / (2 : ℚ) ^ (Int.log 2 x - 52) := by
    rw [le_div_iff₀ hq, ← s1]; exact hb1
  have hy2 : x / (2 : ℚ) ^ (Int.log 2 x - 52) < 2 ^ 53 := by
    rw [div_lt_iff₀ hq, ← s2]; exact hb2
  have hy0 : 0 ≤ x / (2 : ℚ) ^ (Int.log 2 x - 52) := le_trans (by norm_num) hy1
  refine ⟨roundHalfEven (x / (2 : ℚ) ^ (Int.log 2 x - 52)), ?_, ?_, nearestDouble_pos hx,
    roundHalfEven_error _ hy0⟩
  · apply roundHalfEven_ge _ hy0
    push_cast
    exact hy1
  · apply roundHalfEven_le _ hy0
    push_cast
    linarith

/-- A `double` of the normal range is its own nearest `double`. -/
theorem nearestDouble_of_double (e : ℤ) (n : ℕ) (h1 : 2 ^ 52 ≤ n) (h2 : n ≤ 2 ^ 53) :
    nearestDouble ((n : ℚ) * (2 : ℚ) ^ (e - 52)) = (n : ℚ) * (2 : ℚ) ^ (e - 52) := by
  have hq := two_zpow_pos (e - 52)
  have hn1 : (2 : ℚ) ^ 52 ≤ (n : ℚ) := by exact_mod_cast h1
  have hn2 : (n : ℚ) ≤ 2 ^ 53 := by exact_mod_cast h2
  rcases Nat.lt_or_ge n (2 ^ 53) with hlt | hge
  · have hn3 : (n : ℚ) < 2 ^ 53 := by exact_mod_cast hlt
    obtain ⟨s1, s2⟩ := two_zpow_split e
    apply nearestDouble_near e n
    · rw [s1]; exact mul_le_mul_of_nonneg_right hn1 (le_of_lt hq)
    · rw [s2]; exact mul_lt_mul_of_pos_right hn3 hq
    · rw [mul_div_assoc, div_self (ne_of_gt hq)]
      norm_num
  · have hn : n = 2 ^ 53 := le_antisymm h2 hge
    obtain ⟨s1, s2⟩ := two_zpow_split (e + 1)
    have hq1 := two_zpow_pos (e + 1 - 52)
    have hval : (n : ℚ) * (2 : ℚ) ^ (e - 52) = ((2 ^ 52 : ℕ) : ℚ) * (2 : ℚ) ^ (e + 1 - 52) := by
      have h2 : (2 : ℚ) ≠ 0 := by norm_num
      have : e + 1 - 52 = (1 : ℤ) + (e - 52) := by ring
      rw [this, zpow_add₀ h2, hn]
      push_cast
      ring
    rw [hval]
    apply nearestDouble_near (e + 1) (2 ^ 52)
    · rw [s1]; push_cast; exact le_refl _
    · rw [s2]; push_cast; exact mul_lt_mul_of_pos_right (by norm_num) hq1
    · rw [mul_div_assoc, div_self (ne_of_gt hq1)]
      norm_num

theorem nearestDouble_idem {x : ℚ} (hx : 0 < x) :
    nearestDouble (nearestDouble x) = nearestDouble x := by
  obtain ⟨n, h1, h2, hv, _⟩ := nearestDouble_form hx
  rw [hv]
  exact nearestDouble_of_double _ n h1 h2

theorem two_pow_cast (n : ℕ) : (((2 : ℕ) ^ n : ℕ) : ℚ) = (2 : ℚ) ^ (n : ℤ) := by
  rw [Nat.cast_pow, zpow_natCast]
  rfl

theorem shift_sub_cast (a b : ℕ) (h : b ≤ a) :
    ((1 <<< a - 1 <<< b : ℕ) : ℚ) = (2 : ℚ) ^ (a : ℤ) - (2 : ℚ) ^ (b : ℤ) := by
  rw [Nat.one_shiftLeft, Nat.one_shiftLeft,
    Nat.cast_sub (Nat.pow_le_pow_right (Nat.le_succ 1) h), two_pow_cast, two_pow_cast]

theorem shift_inv_cast (a : ℕ) :
    ((1 : ℕ) : ℚ) / ((1 <<< a : ℕ) : ℚ) = (2 : ℚ) ^ (-(a : ℤ)) := by
  rw [Nat.one_shiftLeft, two_pow_cast, zpow_neg, Nat.cast_one, one_div]

theorem rangeError_iff (v : ℚ) :
    rangeError v ↔ ((2 : ℚ) ^ (1024 : ℤ) - (2 : ℚ) ^ (970 : ℤ) ≤ |v| ∨
      (v ≠ 0 ∧ |v| < (2 : ℚ) ^ (-1022 : ℤ))) := by
  unfold rangeError
  rw [shift_sub_cast 1024 970 (by omega), shift_inv_cast 1022]
  rfl

/-- The constants of the range of `double`, in units of 2^971 (the unit in the last place
of the largest binade). -/
theorem range_constants :
    (2 : ℚ) ^ (1024 : ℤ) = 2 ^ 53 * (2 : ℚ) ^ (971 : ℤ) ∧
    (2 : ℚ) ^ (970 : ℤ) = 1 / 2 * (2 : ℚ) ^ (971 : ℤ) ∧
    (2 : ℚ) ^ (1023 : ℤ) = 2 ^ 52 * (2 : ℚ) ^ (971 : ℤ) := by
  have h2 : (2 : ℚ) ≠ 0 := by norm_num
  refine ⟨?_, ?_, ?_⟩
  · rw [show (1024 : ℤ) = 53 + 971 by norm_num, zpow_add₀ h2]
    norm_num
  · rw [show (970 : ℤ) = -1 + 971 by norm_num, zpow_add₀ h2]
    norm_num
  · rw [show (1023 : ℤ) = 52 + 971 by norm_num, zpow_add₀ h2]
    norm_num

/-- The binade of a positive number within the range of `double`. -/
theorem binade_in_range {x : ℚ} (hx : 0 < x) (hr : ¬ rangeError x) :
    -1022 ≤ Int.log 2 x ∧ Int.log 2 x ≤ 1023 := by
  rw [rangeError_iff, abs_of_pos hx] at hr
  push_neg at hr
  obtain ⟨h1, h2⟩ := hr
  have h3 := h2 (ne_of_gt hx)
  constructor
  · exact (Int.zpow_le_iff_le_log (b := 2) (by norm_num) hx).1 (by push_cast; exact h3)
  · have h4 : x < (2 : ℚ) ^ (1024 : ℤ) := by
      have := two_zpow_pos 970
      linarith
    have := (Int.lt_zpow_iff_log_lt (b := 2) (by norm_num) hx).1 (by push_cast; exact h4)
    omega

/-- The nearest `double` of a positive number within the range of `double` is positive and
within that range. -/
theorem nearestDouble_in_range {x : ℚ} (hx : 0 < x) (hr : ¬ rangeError x) :
    0 < nearestDouble x ∧ ¬ rangeError (nearestDouble x) := by
  obtain ⟨he1, he2⟩ := binade_in_range hx hr
  obtain ⟨n, hn1, hn2, hv, herr⟩ := nearestDouble_form hx
  obtain ⟨s1, s2⟩ := two_zpow_split (Int.log 2 x)
  obtain ⟨c1, c2, c3⟩ := range_constants
  have hq := two_zpow_pos (Int.log 2 x - 52)
  have hq0 := two_zpow_pos 971
  have hn1q : (2 : ℚ) ^ 52 ≤ (n : ℚ) := by exact_mod_cast hn1
  have hn2q : (n : ℚ) ≤ 2 ^ 53 := by exact_mod_cast hn2
  have hlow : (2 : ℚ) ^ Int.log 2 x ≤ nearestDouble x := by
    rw [hv, s1]; exact mul_le_mul_of_nonneg_right hn1q (le_of_lt hq)
  have hpos : 0 < nearestDouble x := lt_of_lt_of_le (two_zpow_pos _) hlow
  refine ⟨hpos, ?_⟩
  rw [rangeError_iff, abs_of_pos hpos]
  push_neg
  constructor
  · rcases Int.lt_or_le (Int.log 2 x) 1023 with hlt | hge
    · have hup : nearestDouble x ≤ (2 : ℚ) ^ (Int.log 2 x + 1) := by
        rw [hv, s2]; exact mul_le_mul_of_nonneg_right hn2q (le_of_lt hq)
      have hmono : (2 : ℚ) ^ (Int.log 2 x + 1) ≤ (2 : ℚ) ^ (1023 : ℤ) :=
        zpow_le_zpow_right₀ (by norm_num) (by omega)
      rw [c1, c2]
      rw [c3] at hmono
      nlinarith
    · have he : Int.log 2 x = 1023 := le_antisymm he2 hge
      have hq971 : (2 : ℚ) ^ (Int.log 2 x - 52) = (2 : ℚ) ^ (971 : ℤ) := by
        rw [he]; norm_num
      rw [hq971] at hv herr
      rw [rangeError_iff, abs_of_pos hx] at hr
      push_neg at hr
      have hx1 := hr.1
      rw [c1, c2] at hx1 ⊢
      have hy : x / (2 : ℚ) ^ (971 : ℤ) < ((2 ^ 53 - 1 : ℕ) : ℚ) + 1 / 2 := by
        rw [div_lt_iff₀ hq0]
        push_cast
        nlinarith
      have hy0 : 0 ≤ x / (2 : ℚ) ^ (971 : ℤ) := div_nonneg (le_of_lt hx) (le_of_lt hq0)
      have hnle : (n : ℚ) ≤ 2 ^ 53 - 1 := by
        rw [abs_le] at herr
        have h1 : ((n : ℤ) : ℚ) < ((2 ^ 53 : ℤ) : ℚ) := by
          push_cast at hy ⊢
          linarith
        have h2 : (n : ℤ) < 2 ^ 53 := by exact_mod_cast h1
        have h3 : (n : ℤ) ≤ 2 ^ 53 - 1 := by omega
        exact_mod_cast h3
      rw [hv]
      nlinarith
  · intro _
    have hmono : (2 : ℚ) ^ (-1022 : ℤ) ≤ (2 : ℚ) ^ Int.log 2 x :=
      zpow_le_zpow_right₀ (by norm_num) he1
    linarith

theorem rounded6_pos {v : ℚ} (hv : 0 < v) :
    rounded6 v = (roundHalfEven (v * 1000000) : ℚ) / 1000000 := by
  unfold rounded6
  rw [if_neg (not_lt.2 (le_of_lt hv)), abs_of_pos hv]

theorem rounded6_natCast {v : ℚ} (N : ℕ) (h : v = (N : ℚ)) : rounded6 v = v := by
  apply rounded6_of_sixDigits
  unfold sixDigits
  have : v * 1000000 = ((N * 1000000 : ℕ) : ℚ) := by rw [h]; push_cast; ring
  rw [this]
  exact Rat.den_natCast _

theorem two_zpow_natCast (z : ℤ) (hz : 0 ≤ z) : ∃ N : ℕ, (2 : ℚ) ^ z = (N : ℚ) := by
  refine ⟨2 ^ z.toNat, ?_⟩
  rw [Nat.cast_pow, ← zpow_natCast, Int.toNat_of_nonneg hz]
  rfl

theorem rounded6_error {v : ℚ} (hv : 0 < v) : |rounded6 v - v| ≤ 1 / 2000000 := by
  have h := roundHalfEven_error (v * 1000000) (by positivity)
  rw [rounded6_pos hv]
  rw [abs_le] at h ⊢
  constructor <;> linarith

/-- The rendering of the `double` of a positive decimal with at most six digits after the
point is read back to that `double`: the number `G` that the rendering writes is within the
range of `double` and its nearest `double` is the one rendered. -/
theorem round_trip_pos (k : ℕ) (hk : 0 < k) (hr : ¬ rangeError ((k : ℚ) / 1000000)) :
    0 < rounded6 (nearestDouble ((k : ℚ) / 1000000)) ∧
    ¬ rangeError (rounded6 (nearestDouble ((k : ℚ) / 1000000))) ∧
    nearestDouble (rounded6 (nearestDouble ((k : ℚ) / 1000000))) =
      nearestDouble ((k : ℚ) / 1000000) := by
  have hk' : (0 : ℚ) < (k : ℚ) := by exact_mod_cast hk
  have hL : (0 : ℚ) < (k : ℚ) / 1000000 := by positivity
  generalize hLdef : (k : ℚ) / 1000000 = L at hr hL ⊢
  have hkL : (k : ℚ) = L * 1000000 := by rw [← hLdef]; ring
  obtain ⟨hvpos, hvr⟩ := nearestDouble_in_range hL hr
  obtain ⟨n, hn1, hn2, hv, herr⟩ := nearestDouble_form hL
  obtain ⟨s1, s2⟩ := two_zpow_split (Int.log 2 L)
  have hq := two_zpow_pos (Int.log 2 L - 52)
  have hn1q : (2 : ℚ) ^ 52 ≤ (n : ℚ) := by exact_mod_cast hn1
  have hn2q : (n : ℚ) ≤ 2 ^ 53 := by exact_mod_cast hn2
  -- the path of a rendering that writes the `double` exactly
  have hexact : (∃ N : ℕ, nearestDouble L = (N : ℚ)) →
      0 < rounded6 (nearestDouble L) ∧ ¬ rangeError (rounded6 (nearestDouble L)) ∧
      nearestDouble (rounded6 (nearestDouble L)) = nearestDouble L := by
    rintro ⟨N, hN⟩
    rw [rounded6_natCast N hN]
    exact ⟨hvpos, hvr, nearestDouble_idem hL⟩
  have hdiff : nearestDouble L - L =
      ((n : ℚ) - L / (2 : ℚ) ^ (Int.log 2 L - 52)) * (2 : ℚ) ^ (Int.log 2 L - 52) := by
    rw [hv]
    field_simp
  rcases Int.lt_or_le (Int.log 2 L) 33 with hsmall | hlarge
  · -- the unit in the last place is at most 2^-20: the rendering writes `L` itself
    have hqle : (2 : ℚ) ^ (Int.log 2 L - 52) ≤ (2 : ℚ) ^ (-20 : ℤ) :=
      zpow_le_zpow_right₀ (by norm_num) (by omega)
    have hq20 : (2 : ℚ) ^ (-20 : ℤ) = 1 / 1048576 := by norm_num
    rw [hq20] at hqle
    have habs : |nearestDouble L - L| ≤ 1 / 2 * (1 / 1048576) := by
      rw [hdiff, abs_mul, abs_of_pos hq]
      exact mul_le_mul herr hqle (le_of_lt hq) (by norm_num)
    have hround : roundHalfEven (nearestDouble L * 1000000) = k := by
      apply roundHalfEven_near _ (by positivity)
      rw [hkL, ← sub_mul, abs_mul]
      have : |(1000000 : ℚ)| = 1000000 := abs_of_pos (by norm_num)
      rw [this]
      have h2 : |nearestDouble L - L| * 1000000 ≤ 1 / 2 * (1 / 1048576) * 1000000 :=
        mul_le_mul_of_nonneg_right habs (by norm_num)
      have h3 : (1 : ℚ) / 2 * (1 / 1048576) * 1000000 < 1 / 2 := by norm_num
      linarith
    have hG : rounded6 (nearestDouble L) = L := by
      rw [rounded6_pos hvpos, hround, hkL]
      field_simp
    rw [hG]
    exact ⟨hL, hr, rfl⟩
  · rcases Nat.eq_or_lt_of_le hn1 with h52 | h52
    · -- the `double` is the power of two 2^e, a natural number
      apply hexact
      obtain ⟨N, hN⟩ := two_zpow_natCast (Int.log 2 L) (by omega)
      refine ⟨N, ?_⟩
      rw [hv, ← h52, ← hN, s1]
      push_cast
      ring
    rcases Nat.eq_or_lt_of_le hn2 with h53 | h53
    · apply hexact
      obtain ⟨N, hN⟩ := two_zpow_natCast (Int.log 2 L + 1) (by omega)
      refine ⟨N, ?_⟩
      rw [hv, h53, ← hN, s2]
      push_cast
      ring
    rcases Int.lt_or_le (Int.log 2 L) 52 with hmid | hbig
    · -- the unit in the last place is at least 2^-19, and the rendering is within 5e-7
      have hqge : (2 : ℚ) ^ (-19 : ℤ) ≤ (2 : ℚ) ^ (Int.log 2 L - 52) :=
        zpow_le_zpow_right₀ (by norm_num) (by omega)
      have hq19 : (2 : ℚ) ^ (-19 : ℤ) = 1 / 524288 := by norm_num
      rw [hq19] at hqge
      have hGerr := rounded6_error hvpos
      rw [abs_le] at hGerr
      have hn52 : (2 : ℚ) ^ 52 + 1 ≤ (n : ℚ) := by
        have : 2 ^ 52 + 1 ≤ n := h52
        exact_mod_cast this
      have hn53 : (n : ℚ) ≤ 2 ^ 53 - 1 := by
        have h1 : (n : ℤ) < 2 ^ 53 := by exact_mod_cast h53
        have h2 : (n : ℤ) ≤ 2 ^ 53 - 1 := by omega
        exact_mod_cast h2
      have hb1 : (2 : ℚ) ^ Int.log 2 L ≤ rounded6 (nearestDouble L) := by
        rw [s1]
        have : ((2 : ℚ) ^ 52 + 1) * (2 : ℚ) ^ (Int.log 2 L - 52) ≤ nearestDouble L := by
          rw [hv]; exact mul_le_mul_of_nonneg_right hn52 (le_of_lt hq)
        linarith
      have hb2 : rounded6 (nearestDouble L) < (2 : ℚ) ^ (Int.log 2 L + 1) := by
        rw [s2]
        have : nearestDouble L ≤ ((2 : ℚ) ^ 53 - 1) * (2 : ℚ) ^ (Int.log 2 L - 52) := by
          rw [hv]; exact mul_le_mul_of_nonneg_right hn53 (le_of_lt hq)
        linarith
      have hGpos : 0 < rounded6 (nearestDouble L) := lt_of_lt_of_le (two_zpow_pos _) hb1
      have hnear : |rounded6 (nearestDouble L) / (2 : ℚ) ^ (Int.log 2 L - 52) - (n : ℚ)| <
          1 / 2 := by
        have e1 : rounded6 (nearestDouble L) / (2 : ℚ) ^ (Int.log 2 L - 52) - (n : ℚ) =
            (rounded6 (nearestDouble L) - nearestDouble L) /
              (2 : ℚ) ^ (Int.log 2 L - 52) := by
          rw [hv]; field_simp; ring
        rw [e1, abs_div, abs_of_pos hq, div_lt_iff₀ hq]
        have : |rounded6 (nearestDouble L) - nearestDouble L| ≤ 1 / 2000000 := by
          rw [abs_le]; exact hGerr
        linarith
      refine ⟨hGpos, ?_, ?_⟩
      · rw [rangeError_iff, abs_of_pos hGpos]
        push_neg
        obtain ⟨c1, c2, c3⟩ := range_constants
        have hq0 := two_zpow_pos 971
        constructor
        · have hmono : (2 : ℚ) ^ (Int.log 2 L + 1) ≤ (2 : ℚ) ^ (1023 : ℤ) :=
            zpow_le_zpow_right₀ (by norm_num) (by omega)
          rw [c3] at hmono
          rw [c1, c2]
          nlinarith
        · intro _
          have hmono : (2 : ℚ) ^ (-1022 : ℤ) ≤ (2 : ℚ) ^ Int.log 2 L :=
            zpow_le_zpow_right₀ (by norm_num) (by omega)
          linarith
      · rw [nearestDouble_near (Int.log 2 L) n hb1 hb2 hnear, hv]
    · -- the unit in the last place is a natural number
      apply hexact
      obtain ⟨N, hN⟩ := two_zpow_natCast (Int.log 2 L - 52) (by omega)
      refine ⟨n * N, ?_⟩
      rw [hv, hN]
      push_cast
      ring

theorem rangeError_neg (v : ℚ) : rangeError (-v) ↔ rangeError v := by
  unfold rangeError
  rw [abs_neg, neg_ne_zero]

theorem rounded6_neg {v : ℚ} (hv : 0 < v) : rounded6 (-v) = -rounded6 v := by
  unfold rounded6
  rw [if_pos (show -v < 0 by linarith), if_neg (show ¬ v < 0 by linarith), abs_neg]

/-- The rendering of the `double` of a decimal with at most six digits after the point,
other than zero, writes a number that is not zero, is within the range of `double` and has
that `double` as its nearest one. -/
theorem round_trip {v : ℚ} (h : sixDigitDouble v) (hv : v ≠ 0) :
    rounded6 v ≠ 0 ∧ ¬ rangeError (rounded6 v) ∧ nearestDouble (rounded6 v) = v := by
  obtain ⟨k, hr, rfl⟩ := h
  rcases lt_trichotomy k 0 with hk | hk | hk
  · obtain ⟨j, hj⟩ : ∃ j : ℕ, k = -(j : ℤ) := ⟨(-k).toNat, by omega⟩
    have hjpos : 0 < j := by omega
    have hL : ((k : ℚ) / 1000000) = -((j : ℚ) / 1000000) := by
      rw [hj]; push_cast; ring
    rw [hL] at hr ⊢
    rw [rangeError_neg] at hr
    obtain ⟨h1, h2, h3⟩ := round_trip_pos j hjpos hr
    obtain ⟨hvpos, _⟩ := nearestDouble_in_range (by positivity) hr
    rw [nearestDouble_neg, rounded6_neg hvpos, rangeError_neg, nearestDouble_neg, h3]
    exact ⟨neg_ne_zero.2 (ne_of_gt h1), h2, rfl⟩
  · exfalso
    apply hv
    rw [hk]
    simp [nearestDouble]
  · obtain ⟨j, hj⟩ : ∃ j : ℕ, k = (j : ℤ) := ⟨k.toNat, by omega⟩
    have hjpos : 0 < j := by omega
    have hL : ((k : ℚ) / 1000000) = (j : ℚ) / 1000000 := by
      rw [hj]; push_cast; ring
    rw [hL] at hr ⊢
    obtain ⟨h1, h2, h3⟩ := round_trip_pos j hjpos hr
    exact ⟨ne_of_gt h1, h2, h3⟩

theorem stodHex_decimal (ip fp : List Char) (hip : ∀ c ∈ ip, isdigit c = true) :
    stodHex (ip ++ '.' :: fp) = none := by
  cases ip with
  | nil =>
    unfold stodHex
    split
    · rename_i heq
      simp only [List.nil_append, List.cons.injEq] at heq
      exact absurd heq.1 (by decide)
    · rfl
  | cons d ds =>
    unfold stodHex
    split
    · rename_i x cs heq
      have hx : ¬ (x = 'x' ∨ x = 'X') := by
        cases ds with
        | nil =>
          simp only [List.cons_append, List.nil_append, List.cons.injEq] at heq
          rw [← heq.2.1]
          decide
        | cons d2 rest =>
          simp only [List.cons_append, List.cons.injEq] at heq
          have h2 := hip d2 (by simp)
          rw [heq.2.1] at h2
          rintro (rfl | rfl) <;> revert h2 <;> decide
      rw [if_neg hx]
    · rfl

/-- The sign and the digits that the conversion finds in the rendering of a number. -/
theorem stodSign_to_string (v : ℚ) :
    ∃ ip fp, (∀ c ∈ ip, isdigit c = true) ∧
      stodSign ((to_string v).toList.dropWhile isspace) = (decide (v < 0), ip ++ '.' :: fp) := by
  obtain ⟨d, ds, hd, hdig⟩ := repr_head_digit (roundHalfEven (|v| * 1000000) / 1000000)
  have hip := repr_digits (roundHalfEven (|v| * 1000000) / 1000000)
  refine ⟨(Nat.repr (roundHalfEven (|v| * 1000000) / 1000000)).toList,
    padZeros 6 (Nat.repr (roundHalfEven (|v| * 1000000) % 1000000)).toList, hip, ?_⟩
  have hsp := isdigit_not_isspace hdig
  unfold to_string
  simp only [String.toList] at hd ⊢
  by_cases hv : v < 0
  · have : isspace '-' = false := by decide
    simp [hv, List.dropWhile, this, stodSign]
  · simp only [hv, if_false, List.nil_append, decide_False]
    rw [hd]
    simp only [List.cons_append, List.dropWhile, hsp]
    exact stodSign_of_digit _ hdig

/-- The conversion of the rendering of `v`, from the number `rounded6 v` that the rendering
writes. -/
theorem stodDouble_to_string_eq (v : ℚ) :
    stodDouble (to_string v) = stodRounded (decide (v < 0)) (rounded6 v) := by
  obtain ⟨ip, fp, hip, hsign⟩ := stodSign_to_string v
  unfold stodDouble
  rw [hsign]
  simp only [stodHex_decimal ip fp hip, stod_to_string_rounded]

/-- The rendering of the `double` of a decimal with at most six digits after the point is
converted back to that `double`. -/
theorem stodDouble_to_string {v : ℚ} (h : sixDigitDouble v) :
    stodDouble (to_string v) = .ok (Double.finite v) := by
  rw [stodDouble_to_string_eq]
  by_cases hv : v = 0
  · subst hv
    with_unfolding_all rfl
  · obtain ⟨h0, hr, hn⟩ := round_trip h hv
    unfold stodRounded
    rw [if_neg hr, if_neg h0, hn]

theorem ieee_resolve_literal {m : IEEE.Memory} {v : ℚ} (h : sixDigitDouble v)
    (hm : m (to_string v) = none) : IEEE.resolve m (to_string v) = .ok (Double.finite v) := by
  simp only [IEEE.resolve, hm, stodDouble_to_string h]

/-- The `double` that `std::stod` returns for a number with at most six digits after the
point is the negative zero or a finite `double` of such a decimal. -/
theorem stodRounded_sixDigits (negative : Bool) {v : ℚ} {d : Double} (h6 : sixDigits v)
    (h : stodRounded negative v = .ok d) :
    d = Double.negativeZero ∨ ∃ w, d = Double.finite w ∧ sixDigitDouble w := by
  have hk : (((v * 1000000).num : ℤ) : ℚ) / 1000000 = v := by
    have hw : ((v * 1000000).num : ℚ) = v * 1000000 := (Rat.den_eq_one_iff _).1 h6
    rw [hw]
    field_simp
  unfold stodRounded at h
  split at h
  · cases h
  · rename_i hr
    split at h
    · rename_i h0
      cases negative with
      | true =>
        simp only [if_true, Except.ok.injEq] at h
        exact Or.inl h.symm
      | false =>
        simp only [Bool.false_eq_true, if_false, Except.ok.injEq] at h
        refine Or.inr ⟨0, h.symm, 0, ?_, ?_⟩
        · rw [h0] at hr
          simpa using hr
        · simp [nearestDouble]
    · simp only [Except.ok.injEq] at h
      refine Or.inr ⟨nearestDouble v, h.symm, (v * 1000000).num, ?_, ?_⟩
      · rw [hk]; exact hr
      · rw [hk]

/-! ## Compiler correctness: the generated program against direct evaluation -/

theorem ieee_executeLoop_append (A : Arithmetic) (p : List Instruction) :
    ∀ (q : List Instruction) (m : IEEE.Memory) (o : List Double) (m1 : IEEE.Memory)
      (o1 : List Double),
    IEEE.executeLoop A p m o = ⟨m1, o1, none⟩ →
      IEEE.executeLoop A (p ++ q) m o = IEEE.executeLoop A q m1 o1 := by
  induction p with
  | nil =>
    intro q m o m1 o1 h
    simp only [IEEE.executeLoop, IEEE.ExecResult.mk.injEq] at h
    obtain ⟨rfl, rfl, _⟩ := h
    rfl
  | cons i p ih =>
    intro q m o m1 o1 h
    simp only [IEEE.executeLoop, List.cons_append] at h ⊢
    cases hi : IEEE.executeInstruction A m o i with
    | error e => rw [hi] at h; simp at h
    | ok r =>
      rw [hi] at h
      exact ih q _ _ m1 o1 h

theorem ieee_executeLoop_append_fault (A : Arithmetic) (p : List Instruction) :
    ∀ (q : List Instruction) (m : IEEE.Memory) (o : List Double) (m1 : IEEE.Memory)
      (o1 : List Double) (f : Fault),
    IEEE.executeLoop A p m o = ⟨m1, o1, some f⟩ →
      IEEE.executeLoop A (p ++ q) m o = ⟨m1, o1, some f⟩ := by
  induction p with
  | nil => intro q m o m1 o1 f h; simp [IEEE.executeLoop] at h
  | cons i p ih =>
    intro q m o m1 o1 f h
    simp only [IEEE.executeLoop, List.cons_append] at h ⊢
    cases hi : IEEE.executeInstruction A m o i with
    | error e => rw [hi] at h; exact h
    | ok r =>
      rw [hi] at h
      exact ih q r.1 r.2 m1 o1 f h

theorem ieee_store_same (m : IEEE.Memory) (x : String) (v : Double) :
    IEEE.store m x v x = some v := by
  simp [IEEE.store]

theorem ieee_store_other (m : IEEE.Memory) {x y : String} (v : Double) (h : y ≠ x) :
    IEEE.store m x v y = m y := by
  simp [IEEE.store, h]

theorem ieee_resolve_key {m : IEEE.Memory} {a : String} {v : Double} (h : m a = some v) :
    IEEE.resolve m a = .ok v := by
  simp [IEEE.resolve, h]

theorem ieee_resolve_congr {m1 m2 : IEEE.Memory} {a : String} (h : m2 a = m1 a) :
    IEEE.resolve m2 a = IEEE.resolve m1 a := by
  simp [IEEE.resolve, h]

theorem ieee_agree_store_temp {m env : IEEE.Memory} (h : IEEE.Agree m env) (i : Nat)
    (v : Double) : IEEE.Agree (IEEE.store m (tempName i) v) env := by
  refine ⟨?_, ?_⟩
  · intro x hx ht
    rw [ieee_store_other m v (tempName_not_identifier_name ht i)]
    exact h.1 x hx ht
  · intro w
    rw [ieee_store_other m v (to_string_ne_tempName w i)]
    exact h.2 w

theorem ieee_agree_store_name {m env : IEEE.Memory} (h : IEEE.Agree m env) {x : String}
    (hx : isIdentifierText x = true) (v : Double) :
    IEEE.Agree (IEEE.store m x v) (IEEE.store env x v) := by
  refine ⟨?_, ?_⟩
  · intro y hy ht
    by_cases hyx : y = x
    · rw [hyx, ieee_store_same, ieee_store_same]
    · rw [ieee_store_other m v hyx, ieee_store_other env v hyx]
      exact h.1 y hy ht
  · intro w
    rw [ieee_store_other m v (to_string_ne_name hx w)]
    exact h.2 w

theorem ieee_agree_empty : IEEE.Agree (fun _ => none) (fun _ => none) :=
  ⟨fun _ _ _ => rfl, fun _ => rfl⟩

/-- The operand that stands for a lowered expression keeps its value while the store
changes only at temporaries minted later. -/
theorem ieee_operand_stable (e : ASTNode) (he : e.isExpression) (k : Nat)
    {env m1 m2 : IEEE.Memory}
    (hnames : ∀ x ∈ e.names, isIdentifierText x = true ∧ isTemporaryText x = false)
    (h1 : IEEE.Agree m1 env) (h2 : IEEE.Agree m2 env)
    (htemps : ∀ i, i < k + (lowerExpression e k).2.length → m2 (tempName i) = m1 (tempName i)) :
    IEEE.resolve m2 (lowerExpression e k).1.render =
      IEEE.resolve m1 (lowerExpression e k).1.render := by
  cases e with
  | Number v =>
    simp only [lowerExpression, Operand.render]
    simp only [IEEE.resolve, h1.2 v, h2.2 v]
  | Identifier n =>
    simp only [lowerExpression, Operand.render]
    obtain ⟨ha, hb⟩ := hnames n (by simp [ASTNode.names])
    exact ieee_resolve_congr (by rw [h1.1 n ha hb, h2.1 n ha hb])
  | BinaryOp op l r =>
    simp only [lowerExpression, Operand.render]
    apply ieee_resolve_congr
    apply htemps
    simp only [lowerExpression, List.length_append, List.length_singleton]
    omega
  | Assignment x e => exact absurd he (by simp [ASTNode.isExpression])
  | Print e => exact absurd he (by simp [ASTNode.isExpression])

theorem ieee_executeInstruction_arithmetic (A : Arithmetic) {m : IEEE.Memory}
    (out : List Double) {op a1 a2 : String} (res : String) {a b : Double}
    (hop : op = "+" ∨ op = "-" ∨ op = "*" ∨ op = "/")
    (h1 : IEEE.resolve m a1 = .ok a) (h2 : IEEE.resolve m a2 = .ok b) :
    IEEE.executeInstruction A m out ⟨op, a1, a2, res⟩ =
      if op = "+" then .ok (IEEE.store m res (A.add a b), out)
      else if op = "-" then .ok (IEEE.store m res (A.sub a b), out)
      else if op = "*" then .ok (IEEE.store m res (A.mul a b), out)
      else if b.isZero then .error Fault.divisionByZero
      else .ok (IEEE.store m res (A.div a b), out) := by
  have hne1 : op ≠ "=" := by rcases hop with rfl | rfl | rfl | rfl <;> decide
  have hne2 : op ≠ "print" := by rcases hop with rfl | rfl | rfl | rfl <;> decide
  unfold IEEE.executeInstruction
  simp only [hne1, hne2, if_false, h1, h2]
  rcases hop with rfl | rfl | rfl | rfl <;> simp

theorem ieee_evalExpression_binary (A : Arithmetic) {env : IEEE.Memory} {op : String}
    {l r : ASTNode} {a b : Double} (hop : op = "+" ∨ op = "-" ∨ op = "*" ∨ op = "/")
    (h1 : IEEE.evalExpression A env l = .ok a) (h2 : IEEE.evalExpression A env r = .ok b) :
    IEEE.evalExpression A env (ASTNode.BinaryOp op l r) =
      if op = "+" then .ok (A.add a b)
      else if op = "-" then .ok (A.sub a b)
      else if op = "*" then .ok (A.mul a b)
      else if b.isZero then .error Fault.divisionByZero
      else .ok (A.div a b) := by
  simp only [IEEE.evalExpression, h1, h2]
  rcases hop with rfl | rfl | rfl | rfl <;> simp

theorem ieee_binary_step (A : Arithmetic) {env m : IEEE.Memory} (out : List Double)
    {op a1 a2 : String} (res : String) {l r : ASTNode} {a b : Double}
    (hop : op = "+" ∨ op = "-" ∨ op = "*" ∨ op = "/")
    (hl : IEEE.evalExpression A env l = .ok a) (hr : IEEE.evalExpression A env r = .ok b)
    (h1 : IEEE.resolve m a1 = .ok a) (h2 : IEEE.resolve m a2 = .ok b) :
    (∀ v, IEEE.evalExpression A env (ASTNode.BinaryOp op l r) = .ok v →
      IEEE.executeInstruction A m out ⟨op, a1, a2, res⟩ = .ok (IEEE.store m res v, out)) ∧
    (IEEE.evalExpression A env (ASTNode.BinaryOp op l r) = .error Fault.divisionByZero →
      IEEE.executeInstruction A m out ⟨op, a1, a2, res⟩ = .error Fault.divisionByZero) := by
  rw [ieee_evalExpression_binary A hop hl hr,
    ieee_executeInstruction_arithmetic A out res hop h1 h2]
  rcases hop with rfl | rfl | rfl | rfl
  · simp
  · simp
  · simp
  · by_cases hb : b.isZero = true
    · simp [hb]
    · simp [hb]

/-- The run of the instructions of an expression against its direct evaluation: when the
evaluation gives a value, the run ends without fault, prints nothing, leaves a store that
still stands for the environment and in which the operand of the expression resolves to
that value; when the evaluation divides by zero, so does the run. -/
theorem ieee_sim_expression (A : Arithmetic) (env : IEEE.Memory) (e : ASTNode) :
    e.isExpression → e.opsValid →
    (∀ x ∈ e.names, isIdentifierText x = true ∧ isTemporaryText x = false) →
    (∀ v ∈ e.literals, sixDigitDouble v) →
    ∀ (k : Nat) (m : IEEE.Memory) (out : List Double), IEEE.Agree m env →
      (∀ v, IEEE.evalExpression A env e = .ok v →
        ∃ m1, IEEE.executeLoop A ((lowerExpression e k).2.map Lowered.render) m out =
            ⟨m1, out, none⟩ ∧
          IEEE.Agree m1 env ∧ IEEE.resolve m1 (lowerExpression e k).1.render = .ok v ∧
          (∀ i, i < k → m1 (tempName i) = m (tempName i))) ∧
      (IEEE.evalExpression A env e = .error Fault.divisionByZero →
        ∃ m1, IEEE.executeLoop A ((lowerExpression e k).2.map Lowered.render) m out =
          ⟨m1, out, some Fault.divisionByZero⟩) := by
  induction e with
  | Number v =>
    intro _ _ _ hlit k m out hA
    refine ⟨?_, ?_⟩
    · intro w hw
      simp only [IEEE.evalExpression, Except.ok.injEq] at hw
      subst hw
      refine ⟨m, rfl, hA, ?_, fun _ _ => rfl⟩
      simp only [lowerExpression, Operand.render]
      exact ieee_resolve_literal (hlit v (by simp [ASTNode.literals])) (hA.2 v)
    · intro h
      simp [IEEE.evalExpression] at h
  | Identifier n =>
    intro _ _ hnames _ k m out hA
    obtain ⟨ha, hb⟩ := hnames n (by simp [ASTNode.names])
    refine ⟨?_, ?_⟩
    · intro w hw
      simp only [IEEE.evalExpression] at hw
      cases hn : env n with
      | none => rw [hn] at hw; cases hw
      | some u =>
        rw [hn] at hw
        cases hw
        refine ⟨m, rfl, hA, ?_, fun _ _ => rfl⟩
        simp only [lowerExpression, Operand.render]
        exact ieee_resolve_key (by rw [hA.1 n ha hb, hn])
    · intro h
      simp only [IEEE.evalExpression] at h
      cases hn : env n <;> rw [hn] at h <;> cases h
  | BinaryOp op l r ihl ihr =>
    intro he hops hnames hlit k m out hA
    obtain ⟨hel, her⟩ : l.isExpression ∧ r.isExpression := he
    obtain ⟨hop, hol, hor⟩ : (op = "+" ∨ op = "-" ∨ op = "*" ∨ op = "/") ∧ l.opsValid ∧
      r.opsValid := hops
    have hnl : ∀ x ∈ l.names, isIdentifierText x = true ∧ isTemporaryText x = false :=
      fun x hx => hnames x (by simp [ASTNode.names, hx])
    have hnr : ∀ x ∈ r.names, isIdentifierText x = true ∧ isTemporaryText x = false :=
      fun x hx => hnames x (by simp [ASTNode.names, hx])
    have hll : ∀ v ∈ l.literals, sixDigitDouble v :=
      fun v hv => hlit v (by simp [ASTNode.literals, hv])
    have hlr : ∀ v ∈ r.literals, sixDigitDouble v :=
      fun v hv => hlit v (by simp [ASTNode.literals, hv])
    obtain ⟨okl, fl⟩ := ihl hel hol hnl hll k m out hA
    have hprog : (lowerExpression (ASTNode.BinaryOp op l r) k).2.map Lowered.render =
        (lowerExpression l k).2.map Lowered.render ++
          ((lowerExpression r (k + (lowerExpression l k).2.length)).2.map Lowered.render ++
            [⟨op, (lowerExpression l k).1.render,
              (lowerExpression r (k + (lowerExpression l k).2.length)).1.render,
              tempName (k + (lowerExpression l k).2.length +
                (lowerExpression r (k + (lowerExpression l k).2.length)).2.length)⟩]) := by
      simp [lowerExpression, Lowered.render, Operand.render]
    have hres : (lowerExpression (ASTNode.BinaryOp op l r) k).1.render =
        tempName (k + (lowerExpression l k).2.length +
          (lowerExpression r (k + (lowerExpression l k).2.length)).2.length) := by
      simp [lowerExpression, Operand.render]
    rw [hprog, hres]
    cases hl : IEEE.evalExpression A env l with
    | error f =>
      refine ⟨?_, ?_⟩
      · intro v hv
        simp [IEEE.evalExpression, hl] at hv
      · intro h
        simp only [IEEE.evalExpression, hl] at h
        cases h
        obtain ⟨m1, hm1⟩ := fl hl
        exact ⟨m1, ieee_executeLoop_append_fault A _ _ _ _ _ _ _ hm1⟩
    | ok a =>
      obtain ⟨m1, hx1, hA1, hr1, ht1⟩ := okl a hl
      obtain ⟨okr, fr⟩ :=
        ihr her hor hnr hlr (k + (lowerExpression l k).2.length) m1 out hA1
      rw [ieee_executeLoop_append A _ _ _ _ _ _ hx1]
      cases hr : IEEE.evalExpression A env r with
      | error f =>
        refine ⟨?_, ?_⟩
        · intro v hv
          simp [IEEE.evalExpression, hl, hr] at hv
        · intro h
          simp only [IEEE.evalExpression, hl, hr] at h
          cases h
          obtain ⟨m2, hm2⟩ := fr hr
          exact ⟨m2, ieee_executeLoop_append_fault A _ _ _ _ _ _ _ hm2⟩
      | ok b =>
        obtain ⟨m2, hx2, hA2, hr2, ht2⟩ := okr b hr
        rw [ieee_executeLoop_append A _ _ _ _ _ _ hx2]
        have hstab : IEEE.resolve m2 (lowerExpression l k).1.render = .ok a := by
          rw [ieee_operand_stable l hel k hnl hA1 hA2 (fun i hi => ht2 i hi)]
          exact hr1
        obtain ⟨sok, sfault⟩ := @ieee_binary_step A env m2 out op _ _
          (tempName (k + (lowerExpression l k).2.length +
            (lowerExpression r (k + (lowerExpression l k).2.length)).2.length))
          l r a b hop hl hr hstab hr2
        refine ⟨?_, ?_⟩
        · intro v hv
          refine ⟨_, ?_, ieee_agree_store_temp hA2 _ v,
            ieee_resolve_key (ieee_store_same _ _ _), ?_⟩
          · simp only [IEEE.executeLoop, sok v hv]
          · intro i hi
            have hne : tempName i ≠ tempName (k + (lowerExpression l k).2.length +
                (lowerExpression r (k + (lowerExpression l k).2.length)).2.length) := by
              intro h
              have := tempName_injective h
              omega
            rw [ieee_store_other _ _ hne, ht2 i (by omega), ht1 i hi]
        · intro h
          exact ⟨m2, by simp only [IEEE.executeLoop, sfault h]⟩
  | Assignment x e _ =>
    intro he
    exact absurd he (by simp [ASTNode.isExpression])
  | Print e _ =>
    intro he
    exact absurd he (by simp [ASTNode.isExpression])

/-- The direct evaluation of an expression whose identifiers are bound ends with a value
or with the division by zero. -/
theorem ieee_evalExpression_total (A : Arithmetic) {env : IEEE.Memory} (e : ASTNode) :
    e.isExpression → e.opsValid → (∀ x ∈ e.identifiers, env x ≠ none) →
    (∃ v, IEEE.evalExpression A env e = .ok v) ∨
      IEEE.evalExpression A env e = .error Fault.divisionByZero := by
  induction e with
  | Number v => intro _ _ _; exact Or.inl ⟨Double.finite v, rfl⟩
  | Identifier n =>
    intro _ _ hdef
    obtain ⟨v, hv⟩ := Option.ne_none_iff_exists'.1 (hdef n (by simp [ASTNode.identifiers]))
    exact Or.inl ⟨v, by simp [IEEE.evalExpression, hv]⟩
  | BinaryOp op l r ihl ihr =>
    intro he hops hdef
    obtain ⟨hel, her⟩ : l.isExpression ∧ r.isExpression := he
    obtain ⟨hop, hol, hor⟩ : (op = "+" ∨ op = "-" ∨ op = "*" ∨ op = "/") ∧ l.opsValid ∧
      r.opsValid := hops
    have hdl : ∀ x ∈ l.identifiers, env x ≠ none :=
      fun x hx => hdef x (by simp [ASTNode.identifiers, hx])
    have hdr : ∀ x ∈ r.identifiers, env x ≠ none :=
      fun x hx => hdef x (by simp [ASTNode.identifiers, hx])
    rcases ihl hel hol hdl with ⟨a, ha⟩ | ha
    · rcases ihr her hor hdr with ⟨b, hb⟩ | hb
      · rw [ieee_evalExpression_binary A hop ha hb]
        rcases hop with rfl | rfl | rfl | rfl
        · exact Or.inl ⟨A.add a b, by simp⟩
        · exact Or.inl ⟨A.sub a b, by simp⟩
        · exact Or.inl ⟨A.mul a b, by simp⟩
        · by_cases h0 : b.isZero = true
          · exact Or.inr (by simp [h0])
          · exact Or.inl ⟨A.div a b, by simp [h0]⟩
      · exact Or.inr (by simp [IEEE.evalExpression, ha, hb])
    · exact Or.inr (by simp [IEEE.evalExpression, ha])
  | Assignment x e _ => intro he; exact absurd he (by simp [ASTNode.isExpression])
  | Print e _ => intro he; exact absurd he (by simp [ASTNode.isExpression])

theorem ieee_executeLoop_assign (A : Arithmetic) {m : IEEE.Memory} (out : List Double)
    {a : String} (x : String) {v : Double} (rest : List Instruction)
    (h : IEEE.resolve m a = .ok v) :
    IEEE.executeLoop A (⟨"=", a, "", x⟩ :: rest) m out =
      IEEE.executeLoop A rest (IEEE.store m x v) out := by
  simp [IEEE.executeLoop, IEEE.executeInstruction, h]

theorem ieee_executeLoop_print (A : Arithmetic) {m : IEEE.Memory} (out : List Double)
    {a : String} {v : Double} (rest : List Instruction) (h : IEEE.resolve m a = .ok v) :
    IEEE.executeLoop A (⟨"print", a, "", ""⟩ :: rest) m out =
      IEEE.executeLoop A rest m (out ++ [v]) := by
  simp [IEEE.executeLoop, IEEE.executeInstruction, h]

/-- The run of the lowered statements and the direct evaluation of the statements print
the same values and stop with the same fault, which can only be the division by zero. -/
theorem ieee_sim_statements (A : Arithmetic) (stmts : List ASTNode) :
    ∀ (k : Nat) (t : SymbolTable) (env m : IEEE.Memory) (out : List Double),
      (∀ s ∈ stmts, s.opsValid) →
      (∀ s ∈ stmts, ∀ x ∈ s.names, isIdentifierText x = true ∧ isTemporaryText x = false) →
      (∀ s ∈ stmts, ∀ v ∈ s.literals, sixDigitDouble v) →
      (analyze t stmts).2 = none → (∀ x, t.isDefined x = true → env x ≠ none) →
      IEEE.Agree m env →
      (IEEE.executeLoop A ((lowerStatements stmts k).map Lowered.render) m out).output =
        (IEEE.evalStatements A env out stmts).output ∧
      (IEEE.executeLoop A ((lowerStatements stmts k).map Lowered.render) m out).fault =
        (IEEE.evalStatements A env out stmts).fault ∧
      ((IEEE.evalStatements A env out stmts).fault = none ∨
        (IEEE.evalStatements A env out stmts).fault = some Fault.divisionByZero) := by
  induction stmts with
  | nil =>
    intro k t env m out _ _ _ _ _ _
    exact ⟨rfl, rfl, Or.inl rfl⟩
  | cons s rest ih =>
    intro k t env m out hops hnames hlits hacc hcov hA
    have hops1 : ∀ x ∈ rest, x.opsValid := fun x hx => hops x (List.mem_cons_of_mem _ hx)
    have hnames1 : ∀ y ∈ rest, ∀ x ∈ y.names,
        isIdentifierText x = true ∧ isTemporaryText x = false :=
      fun y hy => hnames y (List.mem_cons_of_mem _ hy)
    have hlits1 : ∀ y ∈ rest, ∀ v ∈ y.literals, sixDigitDouble v :=
      fun y hy => hlits y (List.mem_cons_of_mem _ hy)
    have hs_ops := hops s (List.mem_cons_self _ _)
    have hs_names := hnames s (List.mem_cons_self _ _)
    have hs_lits := hlits s (List.mem_cons_self _ _)
    simp only [analyze] at hacc
    cases s with
    | Number v =>
      simp only [analyzeStatement] at hacc
      exact ih k t env m out hops1 hnames1 hlits1 hacc hcov hA
    | Identifier n =>
      simp only [analyzeStatement] at hacc
      exact ih k t env m out hops1 hnames1 hlits1 hacc hcov hA
    | BinaryOp op l r =>
      simp only [analyzeStatement] at hacc
      exact ih k t env m out hops1 hnames1 hlits1 hacc hcov hA
    | Assignment x e =>
      simp only [analyzeStatement] at hacc
      cases hty : analyzeExpression t e with
      | error f => rw [hty] at hacc; simp at hacc
      | ok ty =>
        rw [hty] at hacc
        simp only at hacc
        obtain ⟨he, hdef⟩ := analyzeExpression_accepts t e ty hty
        have heo : e.opsValid := hs_ops
        have hen : ∀ y ∈ e.names, isIdentifierText y = true ∧ isTemporaryText y = false :=
          fun y hy => hs_names y (by simp [ASTNode.names, hy])
        have hx : isIdentifierText x = true := (hs_names x (by simp [ASTNode.names])).1
        have hel : ∀ v ∈ e.literals, sixDigitDouble v := hs_lits
        obtain ⟨sok, sfault⟩ := ieee_sim_expression A env e he heo hen hel k m out hA
        have hprog : (lowerStatements (ASTNode.Assignment x e :: rest) k).map Lowered.render =
            (lowerExpression e k).2.map Lowered.render ++
              (⟨"=", (lowerExpression e k).1.render, "", x⟩ ::
                (lowerStatements rest (k + (lowerExpression e k).2.length)).map
                  Lowered.render) := by
          simp [lowerStatements, Lowered.render, Operand.render]
        rw [hprog]
        simp only [IEEE.evalStatements]
        rcases ieee_evalExpression_total A e he heo (fun y hy => hcov y (hdef y hy)) with
          ⟨v, hv⟩ | hv
        · obtain ⟨m1, hx1, hA1, hr1, _⟩ := sok v hv
          rw [ieee_executeLoop_append A _ _ _ _ _ _ hx1, ieee_executeLoop_assign A out x _ hr1,
            hv]
          simp only
          apply ih _ (t.define x ty) _ _ out hops1 hnames1 hlits1 hacc _
            (ieee_agree_store_name hA1 hx v)
          intro y hy
          by_cases hyx : y = x
          · rw [hyx, ieee_store_same]; simp
          · rw [ieee_store_other _ _ hyx]
            apply hcov
            simpa [SymbolTable.isDefined, SymbolTable.define, hyx] using hy
        · obtain ⟨m1, hx1⟩ := sfault hv
          rw [ieee_executeLoop_append_fault A _ _ _ _ _ _ _ hx1, hv]
          exact ⟨rfl, rfl, Or.inr rfl⟩
    | Print e =>
      simp only [analyzeStatement] at hacc
      cases hty : analyzeExpression t e with
      | error f => rw [hty] at hacc; simp at hacc
      | ok ty =>
        rw [hty] at hacc
        simp only at hacc
        obtain ⟨he, hdef⟩ := analyzeExpression_accepts t e ty hty
        have heo : e.opsValid := hs_ops
        have hen : ∀ y ∈ e.names, isIdentifierText y = true ∧ isTemporaryText y = false :=
          fun y hy => hs_names y (by simp [ASTNode.names, hy])
        have hel : ∀ v ∈ e.literals, sixDigitDouble v := hs_lits
        obtain ⟨sok, sfault⟩ := ieee_sim_expression A env e he heo hen hel k m out hA
        have hprog : (lowerStatements (ASTNode.Print e :: rest) k).map Lowered.render =
            (lowerExpression e k).2.map Lowered.render ++
              (⟨"print", (lowerExpression e k).1.render, "", ""⟩ ::
                (lowerStatements rest (k + (lowerExpression e k).2.length)).map
                  Lowered.render) := by
          simp [lowerStatements, Lowered.render, Operand.render]
        rw [hprog]
        simp only [IEEE.evalStatements]
        rcases ieee_evalExpression_total A e he heo (fun y hy => hcov y (hdef y hy)) with
          ⟨v, hv⟩ | hv
        · obtain ⟨m1, hx1, hA1, hr1, _⟩ := sok v hv
          rw [ieee_executeLoop_append A _ _ _ _ _ _ hx1, ieee_executeLoop_print A out _ hr1, hv]
          simp only
          exact ih _ t env m1 (out ++ [v]) hops1 hnames1 hlits1 hacc hcov hA1
        · obtain ⟨m1, hx1⟩ := sfault hv
          rw [ieee_executeLoop_append_fault A _ _ _ _ _ _ _ hx1, hv]
          exact ⟨rfl, rfl, Or.inr rfl⟩

/-! ## Compiler correctness: an example over the rounding arithmetic -/

theorem nearest_examples :
    nearestDouble (1000000 / 1000000) = 1 ∧
    nearestDouble (100000 / 1000000) = 3602879701896397 / 36028797018963968 ∧
    nearestDouble (200000 / 1000000) = 3602879701896397 / 18014398509481984 ∧
    nearestDouble (300000 / 1000000) = 5404319552844595 / 18014398509481984 ∧
    nearestDouble (3602879701896397 / 36028797018963968 +
      3602879701896397 / 18014398509481984) = 1351079888211149 / 4503599627370496 ∧
    nearestDouble (1351079888211149 / 4503599627370496 -
      5404319552844595 / 18014398509481984) = 1 / 18014398509481984 ∧
    nearestDouble (1 / (1 / 18014398509481984)) = 18014398509481984 := by
  refine ⟨by decide!, by decide!, by decide!, by decide!, by decide!, ?_, ?_⟩
  · have h := nearestDouble_of_double (-54) (2 ^ 52) (le_refl _) (by norm_num)
    have e : (((2 ^ 52 : ℕ) : ℚ)) * (2 : ℚ) ^ ((-54 : ℤ) - 52) = 1 / 18014398509481984 := by
      norm_num
    rw [e] at h
    rw [show (1351079888211149 / 4503599627370496 - 5404319552844595 / 18014398509481984 : ℚ) =
      1 / 18014398509481984 by norm_num]
    exact h
  · have h := nearestDouble_of_double 54 (2 ^ 52) (le_refl _) (by norm_num)
    have e : (((2 ^ 52 : ℕ) : ℚ)) * (2 : ℚ) ^ ((54 : ℤ) - 52) = 18014398509481984 := by
      norm_num
    rw [e] at h
    rw [show (1 / (1 / 18014398509481984) : ℚ) = 18014398509481984 by norm_num]
    exact h

theorem ieee_evalExpression_number (A : Arithmetic) (env : IEEE.Memory) (v : ℚ) :
    IEEE.evalExpression A env (ASTNode.Number v) = .ok (Double.finite v) := rfl

theorem nearest_add (x y : ℚ) : Arithmetic.nearest.add (Double.finite x) (Double.finite y) =
    Double.finite (nearestDouble (x + y)) := rfl

theorem nearest_sub (x y : ℚ) : Arithmetic.nearest.sub (Double.finite x) (Double.finite y) =
    Double.finite (nearestDouble (x - y)) := rfl

theorem nearest_div (x y : ℚ) (h : y ≠ 0) :
    Arithmetic.nearest.div (Double.finite x) (Double.finite y) =
      Double.finite (nearestDouble (x / y)) := by
  show (if y = 0 then Double.nan else Double.finite (nearestDouble (x / y))) = _
  rw [if_neg h]

theorem nearest_example_plus :
    IEEE.evalExpression Arithmetic.nearest (fun _ => none)
      (ASTNode.BinaryOp "+" (ASTNode.Number (nearestDouble (100000 / 1000000)))
        (ASTNode.Number (nearestDouble (200000 / 1000000)))) =
      .ok (Double.finite (1351079888211149 / 4503599627370496)) := by
  obtain ⟨h1, h2, h3, h4, h5, h6, h7⟩ := nearest_examples
  rw [ieee_evalExpression_binary Arithmetic.nearest (Or.inl rfl)
      (ieee_evalExpression_number _ _ _) (ieee_evalExpression_number _ _ _), if_pos rfl]
  rw [nearest_add, h2, h3, h5]

theorem nearest_example_minus :
    IEEE.evalExpression Arithmetic.nearest (fun _ => none)
      (ASTNode.BinaryOp "-"
        (ASTNode.BinaryOp "+" (ASTNode.Number (nearestDouble (100000 / 1000000)))
          (ASTNode.Number (nearestDouble (200000 / 1000000))))
        (ASTNode.Number (nearestDouble (300000 / 1000000)))) =
      .ok (Double.finite (1 / 18014398509481984)) := by
  obtain ⟨h1, h2, h3, h4, h5, h6, h7⟩ := nearest_examples
  rw [ieee_evalExpression_binary Arithmetic.nearest (Or.inr (Or.inl rfl)) nearest_example_plus
      (ieee_evalExpression_number _ _ _), if_neg (by decide), if_pos rfl]
  rw [nearest_sub, h4, h6]

theorem nearest_example_isZero :
    ¬ (Double.finite (1 / 18014398509481984)).isZero = true := by
  simp [Double.isZero]

theorem nearest_example_quotient :
    IEEE.evalExpression Arithmetic.nearest (fun _ => none)
      (ASTNode.BinaryOp "/" (ASTNode.Number (nearestDouble (1000000 / 1000000)))
        (ASTNode.BinaryOp "-"
          (ASTNode.BinaryOp "+" (ASTNode.Number (nearestDouble (100000 / 1000000)))
            (ASTNode.Number (nearestDouble (200000 / 1000000))))
          (ASTNode.Number (nearestDouble (300000 / 1000000))))) =
      .ok (Double.finite 18014398509481984) := by
  obtain ⟨h1, h2, h3, h4, h5, h6, h7⟩ := nearest_examples
  rw [ieee_evalExpression_binary Arithmetic.nearest (Or.inr (Or.inr (Or.inr rfl)))
      (ieee_evalExpression_number _ _ _) nearest_example_minus,
    if_neg (by decide), if_neg (by decide), if_neg (by decide), if_neg nearest_example_isZero]
  rw [nearest_div _ _ (by norm_num), h1, h7]

theorem ieee_evalStatements_print (A : Arithmetic) (env : IEEE.Memory) (out : List Double)
    {e : ASTNode} {v : Double} (h : IEEE.evalExpression A env e = .ok v) :
    IEEE.evalStatements A env out [ASTNode.Print e] = ⟨env, out ++ [v], none⟩ := by
  simp only [IEEE.evalStatements, h]

theorem nearest_example_run :
    (IEEE.evalStatements Arithmetic.nearest (fun _ => none) []
        [ASTNode.Print (ASTNode.BinaryOp "/"
          (ASTNode.Number (nearestDouble (1000000 / 1000000)))
          (ASTNode.BinaryOp "-"
            (ASTNode.BinaryOp "+" (ASTNode.Number (nearestDouble (100000 / 1000000)))
              (ASTNode.Number (nearestDouble (200000 / 1000000))))
            (ASTNode.Number (nearestDouble (300000 / 1000000)))))]).output =
      [Double.finite 18014398509481984] ∧
    (IEEE.evalStatements Arithmetic.nearest (fun _ => none) []
        [ASTNode.Print (ASTNode.BinaryOp "/"
          (ASTNode.Number (nearestDouble (1000000 / 1000000)))
          (ASTNode.BinaryOp "-"
            (ASTNode.BinaryOp "+" (ASTNode.Number (nearestDouble (100000 / 1000000)))
              (ASTNode.Number (nearestDouble (200000 / 1000000))))
            (ASTNode.Number (nearestDouble (300000 / 1000000)))))]).fault = none := by
  rw [ieee_evalStatements_print _ _ _ nearest_example_quotient]
  exact ⟨rfl, rfl⟩

/-! ## Compiler correctness: the theorem -/

/-- C26: for every arithmetic of `double`, and for every statement list with operators
among `+ - * /` that `analyze` accepts from the empty symbol table, in which every variable
name is an identifier that is not `t` followed by decimal digits and every number is the
`double` of a decimal numeral with at most six digits after the point, and for every prior
state of the generator: the run of the program built by `generate` prints exactly the
values that the direct evaluation of the statements prints (each expression evaluated left
operand first, in the environment built by the assignments before it), and it stops with
the division-by-zero fault exactly when the direct evaluation does, after the same values;
there is no other fault. -/
theorem compiler_correct (A : Arithmetic) (stmts : List ASTNode) (g : CodeGenerator)
    (hops : ∀ s ∈ stmts, s.opsValid)
    (hnames : ∀ s ∈ stmts, ∀ x ∈ s.names,
      isIdentifierText x = true ∧ isTemporaryText x = false)
    (hlits : ∀ s ∈ stmts, ∀ v ∈ s.literals, sixDigitDouble v)
    (hacc : (analyze SymbolTable.empty stmts).2 = none) :
    (IEEE.run A (g.generate stmts).2.instructions).output =
      (IEEE.evalStatements A (fun _ => none) [] stmts).output ∧
    (IEEE.run A (g.generate stmts).2.instructions).fault =
      (IEEE.evalStatements A (fun _ => none) [] stmts).fault ∧
    ((IEEE.evalStatements A (fun _ => none) [] stmts).fault = none ∨
      (IEEE.evalStatements A (fun _ => none) [] stmts).fault = some Fault.divisionByZero) := by
  have h := ieee_sim_statements A stmts 0 SymbolTable.empty (fun _ => none) (fun _ => none) []
    hops hnames hlits hacc
    (by intro x hx; simp [SymbolTable.isDefined, SymbolTable.empty] at hx) ieee_agree_empty
  rw [← generate_instructions g stmts] at h
  exact h

/-- C26 at `print(1 / (0.1 + 0.2 - 0.3));`, whose numbers are the `double`s nearest to the
decimals, over the arithmetic that rounds every result to the nearest `double`: the run and
the direct evaluation print the same value, which is 2^54 (the difference is 2^-54 and not
zero), and neither stops with a fault. -/
theorem compiler_correct_witness :
    (IEEE.run Arithmetic.nearest (CodeGenerator.new.generate
      [ASTNode.Print (ASTNode.BinaryOp "/" (ASTNode.Number (nearestDouble (1000000 / 1000000)))
        (ASTNode.BinaryOp "-"
          (ASTNode.BinaryOp "+" (ASTNode.Number (nearestDouble (100000 / 1000000)))
            (ASTNode.Number (nearestDouble (200000 / 1000000))))
          (ASTNode.Number (nearestDouble (300000 / 1000000)))))]).2.instructions).output =
      (IEEE.evalStatements Arithmetic.nearest (fun _ => none) []
        [ASTNode.Print (ASTNode.BinaryOp "/"
          (ASTNode.Number (nearestDouble (1000000 / 1000000)))
          (ASTNode.BinaryOp "-"
            (ASTNode.BinaryOp "+" (ASTNode.Number (nearestDouble (100000 / 1000000)))
              (ASTNode.Number (nearestDouble (200000 / 1000000))))
            (ASTNode.Number (nearestDouble (300000 / 1000000)))))]).output ∧
    (IEEE.evalStatements Arithmetic.nearest (fun _ => none) []
        [ASTNode.Print (ASTNode.BinaryOp "/"
          (ASTNode.Number (nearestDouble (1000000 / 1000000)))
          (ASTNode.BinaryOp "-"
            (ASTNode.BinaryOp "+" (ASTNode.Number (nearestDouble (100000 / 1000000)))
              (ASTNode.Number (nearestDouble (200000 / 1000000))))
            (ASTNode.Number (nearestDouble (300000 / 1000000)))))]).output =
      [Double.finite 18014398509481984] ∧
    (IEEE.evalStatements Arithmetic.nearest (fun _ => none) []
        [ASTNode.Print (ASTNode.BinaryOp "/"
          (ASTNode.Number (nearestDouble (1000000 / 1000000)))
          (ASTNode.BinaryOp "-"
            (ASTNode.BinaryOp "+" (ASTNode.Number (nearestDouble (100000 / 1000000)))
              (ASTNode.Number (nearestDouble (200000 / 1000000))))
            (ASTNode.Number (nearestDouble (300000 / 1000000)))))]).fault = none :=
  ⟨(compiler_correct Arithmetic.nearest
    [ASTNode.Print (ASTNode.BinaryOp "/" (ASTNode.Number (nearestDouble (1000000 / 1000000)))
      (ASTNode.BinaryOp "-"
        (ASTNode.BinaryOp "+" (ASTNode.Number (nearestDouble (100000 / 1000000)))
          (ASTNode.Number (nearestDouble (200000 / 1000000))))
        (ASTNode.Number (nearestDouble (300000 / 1000000)))))]
    CodeGenerator.new
    (by
      intro s hs
      simp only [List.mem_singleton] at hs
      subst hs
      simp [ASTNode.opsValid])
    (by
      intro s hs x hx
      simp only [List.mem_singleton] at hs
      subst hs
      simp [ASTNode.names] at hx)
    (by
      intro s hs v hv
      simp only [List.mem_singleton] at hs
      subst hs
      simp only [ASTNode.literals, List.mem_append, List.mem_singleton, List.mem_cons,
        List.not_mem_nil, or_false] at hv
      rcases hv with rfl | (rfl | rfl) | rfl
      · exact ⟨1000000, by decide!, by norm_num⟩
      · exact ⟨100000, by decide!, by norm_num⟩
      · exact ⟨200000, by decide!, by norm_num⟩
      · exact ⟨300000, by decide!, by norm_num⟩)
    (by with_unfolding_all rfl)).1,
   nearest_example_run.1, nearest_example_run.2⟩

/-! ## Read loop: the cycle of an accepted line -/

theorem evaluateLine_accepted (r : REPL) {line : String} {stmts : List ASTNode}
    (h : r.accepts line stmts) :
    r.evaluateLine line =
      (⟨(analyze r.semantic stmts).1,
          (r.codegen.generate (r.allStatements ++ stmts)).2.execute.1,
          r.allStatements ++ stmts⟩,
        ⟨(run (CodeGenerator.new.generate (r.allStatements ++ stmts)).2.instructions).output,
          (run (CodeGenerator.new.generate (r.allStatements ++ stmts)).2.instructions).fault.map
            Diagnostic.exception, none, false⟩) := by
  obtain ⟨h1, h2, h3, h4, h5⟩ := h
  have hinst : (r.codegen.generate (r.allStatements ++ stmts)).2.instructions =
      (CodeGenerator.new.generate (r.allStatements ++ stmts)).2.instructions := by
    rw [generate_instructions, generate_instructions]
  unfold REPL.evaluateLine
  rw [if_neg h1]
  simp only []
  rw [if_neg h2, if_neg (not_not.2 h3)]
  cases ht : tokenize line with
  | error e => rw [ht] at h4; cases h4
  | ok toks =>
    rw [ht] at h4
    have hp : parse toks = .ok stmts := h4
    simp only [hp]
    cases ha : analyze r.semantic stmts with
    | mk table fault =>
      rw [ha] at h5
      simp only at h5
      subst h5
      simp only [CodeGenerator.execute, hinst]

theorem run_output_extends (p : List Instruction) : ∀ (m : Memory) (o : List ℚ),
    o <+: (executeLoop p m o).output := by
  induction p with
  | nil => intro m o; exact List.prefix_refl _
  | cons i p ih =>
    intro m o
    simp only [executeLoop]
    cases hi : executeInstruction m o i with
    | error e => exact List.prefix_refl _
    | ok r =>
      have h1 : o <+: r.2 := by
        unfold executeInstruction at hi
        split at hi
        · split at hi
          · cases hi
          · cases hi; exact List.prefix_refl _
        · split at hi
          · split at hi
            · cases hi
            · cases hi; exact List.prefix_append _ _
          · split at hi
            · cases hi
            · split at hi
              · cases hi
              · repeat' split at hi
                all_goals first
                  | (cases hi; exact List.prefix_refl _)
                  | cases hi
      exact List.IsPrefix.trans h1 (ih r.1 r.2)

theorem run_append_output (p q : List Instruction) (m : Memory) (o : List ℚ) :
    (executeLoop p m o).output <+: (executeLoop (p ++ q) m o).output := by
  cases hf : (executeLoop p m o).fault with
  | none =>
    have h : executeLoop p m o = ⟨(executeLoop p m o).memory, (executeLoop p m o).output,
        none⟩ := by
      rw [← hf]
    rw [executeLoop_append p q m o _ _ h]
    exact run_output_extends q _ _
  | some f =>
    have h : executeLoop p m o = ⟨(executeLoop p m o).memory, (executeLoop p m o).output,
        some f⟩ := by
      rw [← hf]
    rw [executeLoop_append_fault p q m o _ _ f h]

theorem generate_append_output (g : CodeGenerator) (A B : List ASTNode) :
    (run (g.generate A).2.instructions).output <+:
      (run (g.generate (A ++ B)).2.instructions).output := by
  rw [generate_instructions, generate_instructions, lowerStatements_append, List.map_append]
  exact run_append_output _ _ _ _

/-- C27: in a session `r`, let every line of a sequence pass the terminator check,
tokenizing, parsing and the semantic check.  The cycle of the `n`-th line prints the output
of the run, from the empty evaluation store, of the program generated from the history of
`r` followed by the statements of the lines 1 to `n`, and its diagnostic is the fault of
that run; the session ends with that history; and the output of each cycle begins with
the output of the cycle before it, so the values printed earlier are emitted again.  In a
fresh session, after `print(1);` and `print(2);` the second cycle emits 1 and then 2. -/
theorem full_replay (r : REPL) (lines : List (String × List ASTNode))
    (hacc : r.acceptsAll lines) :
    (∀ n, n < lines.length →
      (r.evaluateLines (lines.map Prod.fst)).2[n]? =
        some ⟨(run (CodeGenerator.new.generate
            (r.allStatements ++ ((lines.take (n + 1)).map Prod.snd).flatten)).2.instructions).output,
          (run (CodeGenerator.new.generate
            (r.allStatements ++ ((lines.take (n + 1)).map Prod.snd).flatten)).2.instructions).fault.map
              Diagnostic.exception, none, false⟩) ∧
    (r.evaluateLines (lines.map Prod.fst)).1.allStatements =
      r.allStatements ++ (lines.map Prod.snd).flatten ∧
    (∀ n, n + 1 < lines.length →
      (run (CodeGenerator.new.generate
        (r.allStatements ++ ((lines.take (n + 1)).map Prod.snd).flatten)).2.instructions).output <+:
      (run (CodeGenerator.new.generate
        (r.allStatements ++ ((lines.take (n + 2)).map Prod.snd).flatten)).2.instructions).output) ∧
    (REPL.new.evaluateLines ["print(1);", "print(2);"]).2.map LineOutput.printed =
      [[1], [1, 2]] := by
  refine ⟨?_, ?_, ?_, by with_unfolding_all rfl⟩
  · induction lines generalizing r with
    | nil => intro n hn; simp at hn
    | cons p rest ih =>
      intro n hn
      obtain ⟨h1, h2⟩ := hacc
      have hev := evaluateLine_accepted r h1
      simp only [List.map_cons, REPL.evaluateLines]
      cases n with
      | zero =>
        simp only [List.getElem?_cons_zero, hev]
        simp
      | succ n =>
        simp only [List.getElem?_cons_succ]
        have := ih (r.evaluateLine p.1).1 h2 n (by simpa using hn)
        rw [this]
        simp [hev, List.append_assoc]
  · induction lines generalizing r with
    | nil => simp [REPL.evaluateLines]
    | cons p rest ih =>
      obtain ⟨h1, h2⟩ := hacc
      have hev := evaluateLine_accepted r h1
      simp only [List.map_cons, REPL.evaluateLines]
      rw [ih (r.evaluateLine p.1).1 h2]
      simp [hev, List.append_assoc]
  · intro n hn
    have hsplit : ((lines.take (n + 2)).map Prod.snd).flatten =
        ((lines.take (n + 1)).map Prod.snd).flatten ++
          (((lines.drop (n + 1)).take 1).map Prod.snd).flatten := by
      rw [← List.flatten_append, ← List.map_append]
      congr 2
      rw [← List.take_add]
    rw [hsplit, ← List.append_assoc]
    exact generate_append_output _ _ _

/-- C27 at the lines `x = 2;` and `print(x * 3);` in a fresh session. -/
theorem full_replay_witness :
    (REPL.new.evaluateLines ["x = 2;", "print(x * 3);"]).2[1]? =
      some ⟨(run (CodeGenerator.new.generate
        ([] ++ [ASTNode.Assignment "x" (ASTNode.Number 2),
          ASTNode.Print (ASTNode.BinaryOp "*" (ASTNode.Identifier "x")
            (ASTNode.Number 3))])).2.instructions).output,
        (run (CodeGenerator.new.generate
          ([] ++ [ASTNode.Assignment "x" (ASTNode.Number 2),
            ASTNode.Print (ASTNode.BinaryOp "*" (ASTNode.Identifier "x")
              (ASTNode.Number 3))])).2.instructions).fault.map Diagnostic.exception,
        none, false⟩ :=
  (full_replay REPL.new
    [("x = 2;", [ASTNode.Assignment "x" (ASTNode.Number 2)]),
      ("print(x * 3);", [ASTNode.Print (ASTNode.BinaryOp "*" (ASTNode.Identifier "x")
        (ASTNode.Number 3))])]
    ⟨⟨by decide, by decide, by decide, by with_unfolding_all rfl, by with_unfolding_all rfl⟩,
      ⟨by decide, by decide, by decide, by with_unfolding_all rfl,
        by with_unfolding_all rfl⟩, trivial⟩).1 1 (by decide)

/-! ## Read loop: a fault of the interpreter stays in the session -/

theorem run_append_of_fault (p q : List Instruction) {f : Fault}
    (h : (run p).fault = some f) : run (p ++ q) = run p := by
  have h1 : executeLoop p (fun _ => none) [] =
      ⟨(run p).memory, (run p).output, some f⟩ := by
    rw [← h]
    rfl
  unfold run at h ⊢
  rw [executeLoop_append_fault p q _ _ _ _ f h1, h1]

theorem generate_append_of_fault (g : CodeGenerator) (A B : List ASTNode) {f : Fault}
    (h : (run (g.generate A).2.instructions).fault = some f) :
    run (g.generate (A ++ B)).2.instructions = run (g.generate A).2.instructions := by
  rw [generate_instructions] at h
  rw [generate_instructions, generate_instructions, lowerStatements_append, List.map_append]
  exact run_append_of_fault _ _ h

/-- C8 (as amended): a fault is terminal to its cycle only when it arises before the
statements of the line are appended to the history.  On a line that is no command, a
lexical or a syntax fault leaves the whole session as it was, and a semantic fault leaves
the statement history and the generator as they were.  When the cycle of an accepted line
stops with a fault of the interpreter, its statements stay in the history, and the cycle of
every accepted line entered next stops with the same fault and prints exactly what the
faulting cycle printed, so that none of the new statements is executed. -/
theorem runtime_fault_persists (r : REPL) (line : String)
    (hcmd : line.toList.head? ≠ some ':') :
    (∀ e, tokenize line = .error e → (r.evaluateLine line).1 = r) ∧
    (∀ toks e, tokenize line = .ok toks → parse toks = .error e →
      (r.evaluateLine line).1 = r) ∧
    (∀ toks stmts, tokenize line = .ok toks → parse toks = .ok stmts →
      (analyze r.semantic stmts).2 ≠ none →
      (r.evaluateLine line).1.allStatements = r.allStatements ∧
      (r.evaluateLine line).1.codegen = r.codegen) ∧
    (∀ stmts f, r.accepts line stmts →
      (r.evaluateLine line).2.diagnostic = some (Diagnostic.exception f) →
      (r.evaluateLine line).1.allStatements = r.allStatements ++ stmts ∧
      ∀ next more, (r.evaluateLine line).1.accepts next more →
        ((r.evaluateLine line).1.evaluateLine next).2 = (r.evaluateLine line).2 ∧
        ((r.evaluateLine line).1.evaluateLine next).2.diagnostic =
          some (Diagnostic.exception f)) := by
  obtain ⟨e1, e2, e3⟩ := evaluateLine_early_fault r line hcmd
  refine ⟨e1, e2, e3, ?_⟩
  intro stmts f hacc hf
  have hev := evaluateLine_accepted r hacc
  rw [hev] at hf
  simp only [Option.map_eq_some'] at hf
  obtain ⟨f1, hf1, hf2⟩ := hf
  cases hf2
  refine ⟨by rw [hev], ?_⟩
  intro next more hnext
  have hev2 := evaluateLine_accepted _ hnext
  have hall : (r.evaluateLine line).1.allStatements = r.allStatements ++ stmts := by rw [hev]
  rw [hall] at hev2
  have hsame := generate_append_of_fault CodeGenerator.new (r.allStatements ++ stmts) more hf1
  rw [hsame] at hev2
  have h2 : ((r.evaluateLine line).1.evaluateLine next).2 = (r.evaluateLine line).2 := by
    rw [hev2, hev]
  refine ⟨h2, ?_⟩
  rw [h2, hev]
  simp [hf1]

/-- C8 (as amended) at the line `print(5 / 0);` of a fresh session, followed by
`print(1);`. -/
theorem runtime_fault_persists_witness :
    (REPL.new.evaluateLine "print(5 / 0);").1.allStatements =
      REPL.new.allStatements ++
        [ASTNode.Print (ASTNode.BinaryOp "/" (ASTNode.Number 5) (ASTNode.Number 0))] ∧
    ((REPL.new.evaluateLine "print(5 / 0);").1.evaluateLine "print(1);").2 =
      (REPL.new.evaluateLine "print(5 / 0);").2 ∧
    ((REPL.new.evaluateLine "print(5 / 0);").1.evaluateLine "print(1);").2.diagnostic =
      some (Diagnostic.exception Fault.divisionByZero) :=
  have h := (runtime_fault_persists REPL.new "print(5 / 0);" (by decide)).2.2.2
    [ASTNode.Print (ASTNode.BinaryOp "/" (ASTNode.Number 5) (ASTNode.Number 0))]
    Fault.divisionByZero
    ⟨by decide, by decide, by decide, by with_unfolding_all rfl, by with_unfolding_all rfl⟩
    (by with_unfolding_all rfl)
  ⟨h.1, h.2 "print(1);" [ASTNode.Print (ASTNode.Number 1)]
    ⟨by decide, by decide, by decide, by with_unfolding_all rfl, by with_unfolding_all rfl⟩⟩

/-- C8, as stated, fails: in a fresh session the line `print(5 / 0);` stops with the
division-by-zero fault after its statement was appended to the history, and the valid line
`print(1);` entered next stops with the same fault and prints nothing, because the whole
history is generated and executed again; in a fresh session the same line prints 1. -/
theorem runtime_fault_counterexample :
    (REPL.new.evaluateLines ["print(5 / 0);", "print(1);"]).2 =
      [⟨[], some (Diagnostic.exception Fault.divisionByZero), none, false⟩,
       ⟨[], some (Diagnostic.exception Fault.divisionByZero), none, false⟩] ∧
    (REPL.new.evaluateLine "print(5 / 0);").1.allStatements =
      [ASTNode.Print (ASTNode.BinaryOp "/" (ASTNode.Number 5) (ASTNode.Number 0))] ∧
    (REPL.new.evaluateLine "print(1);").2 = ⟨[1], none, none, false⟩ := by
  refine ⟨by decide!, by with_unfolding_all rfl, by decide!⟩

/-! ## Tokenizer: where the tokens stand in the source -/

theorem lineOf_append_plain (pre : List Char) {lex : List Char} (h : ∀ c ∈ lex, c ≠ '\n') :
    lineOf (pre ++ lex) = lineOf pre := by
  unfold lineOf
  rw [List.count_append]
  have : lex.count '\n' = 0 := by
    rw [List.count_eq_zero]
    intro hm
    exact h _ hm rfl
  omega

theorem numeralChar_not_space {c : Char} (h : isNumeralChar c = true) : isspace c = false := by
  simp only [isNumeralChar, Bool.or_eq_true, decide_eq_true_eq] at h
  rcases h with h | rfl
  · exact isdigit_not_isspace h
  · decide

theorem wordChar_not_space {c : Char} (h : isWordChar c = true) : isspace c = false := by
  simp only [isWordChar, isalnum, Bool.or_eq_true, decide_eq_true_eq] at h
  rcases h with (h | h) | rfl
  · exact word_start_not_space (by simp [h])
  · exact isdigit_not_isspace h
  · decide

theorem takeWhile_split (p : Char → Bool) (cs : List Char) {c : Char} {rest : List Char}
    (h : cs.dropWhile p = c :: rest) : cs = cs.takeWhile p ++ c :: rest := by
  have := List.takeWhile_append_dropWhile p cs
  rw [h] at this
  exact this.symm

theorem loopVariant_placed (fuel : Nat) : ∀ (pre cs : List Char) (acc toks : List Token),
    tokenizeLoopVariant fuel ⟨cs, lineOf pre, columnOf pre⟩ acc = .ok toks →
    ∃ new, toks = acc ++ new ∧ Placed pre cs new := by
  induction fuel with
  | zero =>
    intro pre cs acc toks h
    simp [tokenizeLoopVariant] at h
  | succ fuel ih =>
    intro pre cs acc toks h
    rw [loopVariant_skip fuel acc cs pre] at h
    have hws : ∀ c ∈ cs.takeWhile isspace, isspace c = true :=
      fun c hc => List.mem_takeWhile_imp hc
    cases hcs : cs.dropWhile isspace with
    | nil =>
      rw [hcs, loopVariant_end] at h
      simp only [Except.ok.injEq] at h
      have hcs2 : cs = cs.takeWhile isspace := by
        have := List.takeWhile_append_dropWhile isspace cs
        rw [hcs] at this
        simpa using this.symm
      refine ⟨_, h.symm, ?_⟩
      have hp := Placed.done pre (cs.takeWhile isspace)
        ⟨TokenType.END_OF_FILE, "", lineOf (pre ++ cs.takeWhile isspace),
          columnOf (pre ++ cs.takeWhile isspace)⟩ hws rfl rfl rfl rfl
      rw [← hcs2] at hp
      rw [← hcs2]
      exact hp
    | cons c rest =>
      rw [hcs] at h
      have hsplit := takeWhile_split isspace cs hcs
      by_cases hd : isdigit c = true
      · rw [loopVariant_numeral fuel (pre ++ cs.takeWhile isspace) c rest acc hd] at h
        obtain ⟨new, hnew, hplaced⟩ := ih _ _ _ _ h
        have hlex : ∀ x ∈ (c :: rest).takeWhile isNumeralChar, isNumeralChar x = true :=
          fun x hx => List.mem_takeWhile_imp hx
        have hne : (c :: rest).takeWhile isNumeralChar ≠ [] := by
          simp [List.takeWhile, isNumeralChar, hd]
        have hp := Placed.token pre (cs.takeWhile isspace)
          ((c :: rest).takeWhile isNumeralChar) ((c :: rest).dropWhile isNumeralChar)
          ⟨TokenType.NUMBER, String.mk ((c :: rest).takeWhile isNumeralChar),
            lineOf (pre ++ cs.takeWhile isspace ++ (c :: rest).takeWhile isNumeralChar),
            columnOf (pre ++ cs.takeWhile isspace)⟩ new hws hne
          (fun x hx => numeralChar_not_space (hlex x hx)) rfl (fun h => by cases h)
          (lineOf_append_plain _ (fun x hx => numeralChar_ne_newline (hlex x hx))) rfl hplaced
        rw [List.append_assoc, List.takeWhile_append_dropWhile, ← hsplit] at hp
        refine ⟨_, ?_, hp⟩
        rw [hnew]
        simp
      · by_cases hw : (isalpha c || c = '_') = true
        · rw [loopVariant_word fuel (pre ++ cs.takeWhile isspace) c rest acc hw] at h
          obtain ⟨new, hnew, hplaced⟩ := ih _ _ _ _ h
          have hlex : ∀ x ∈ (c :: rest).takeWhile isWordChar, isWordChar x = true :=
            fun x hx => List.mem_takeWhile_imp hx
          have hc : isWordChar c = true := by
            simp only [Bool.or_eq_true, decide_eq_true_eq] at hw
            rcases hw with hw | hw
            · simp [isWordChar, isalnum, hw]
            · simp [isWordChar, hw]
          have hne : (c :: rest).takeWhile isWordChar ≠ [] := by
            simp [List.takeWhile, hc]
          have hp := Placed.token pre (cs.takeWhile isspace)
            ((c :: rest).takeWhile isWordChar) ((c :: rest).dropWhile isWordChar)
            ⟨if String.mk ((c :: rest).takeWhile isWordChar) = "print" then TokenType.PRINT
                else TokenType.IDENTIFIER,
              String.mk ((c :: rest).takeWhile isWordChar),
              lineOf (pre ++ cs.takeWhile isspace ++ (c :: rest).takeWhile isWordChar),
              columnOf (pre ++ cs.takeWhile isspace)⟩ new hws hne
            (fun x hx => wordChar_not_space (hlex x hx)) rfl
            (by dsimp only; split <;> (intro h; cases h))
            (lineOf_append_plain _ (fun x hx => wordChar_ne_newline (hlex x hx))) rfl hplaced
          rw [List.append_assoc, List.takeWhile_append_dropWhile, ← hsplit] at hp
          refine ⟨_, ?_, hp⟩
          rw [hnew]
          simp
        · have hsp : isspace c = false := dropWhile_head_not isspace cs hcs
          cases hp : punctuation c with
          | none =>
            have hst : startsToken c = false := by
              simp only [Bool.not_eq_true] at hd hw
              simp only [Bool.or_eq_false_iff] at hw
              simp [startsToken, hd, hw.1, hw.2, hp]
            rw [loopVariant_bad fuel _ c rest acc hsp hst] at h
            cases h
          | some ty =>
            rw [loopVariant_punct fuel (pre ++ cs.takeWhile isspace) c rest acc ty hp] at h
            obtain ⟨new, hnew, hplaced⟩ := ih _ _ _ _ h
            have hpl := Placed.token pre (cs.takeWhile isspace) [c] rest
              ⟨ty, String.mk [c], lineOf (pre ++ cs.takeWhile isspace),
                columnOf (pre ++ cs.takeWhile isspace)⟩ new hws (by simp)
              (fun x hx => by simp only [List.mem_singleton] at hx; rw [hx]; exact hsp) rfl
              (punctuation_proper hp).1 rfl rfl hplaced
            rw [List.append_assoc, List.singleton_append, ← hsplit] at hpl
            refine ⟨_, ?_, hpl⟩
            rw [hnew]
            simp

theorem variant_of_tokenize {source : String} {toks : List Token}
    (h : tokenize source = .ok toks) : tokenizeVariant source = .ok toks := by
  rw [tokenize_eq_variant] at h
  cases hv : tokenizeVariant source with
  | error e => rw [hv] at h; cases h
  | ok t =>
    rw [hv] at h
    simp only [Except.mapError, Except.ok.injEq] at h
    rw [h]

/-- The tokens of a source stand in it as `Placed` says. -/
theorem tokenize_placed {source : String} {toks : List Token}
    (h : tokenize source = .ok toks) : Placed [] source.toList toks := by
  have hv := variant_of_tokenize h
  have h1 : tokenizeVariant source =
      tokenizeLoopVariant (source.length + 1) ⟨source.toList, lineOf [], columnOf []⟩ [] := rfl
  rw [h1] at hv
  obtain ⟨new, hnew, hp⟩ := loopVariant_placed _ _ _ _ _ hv
  rw [hnew]
  simpa using hp

theorem columnOf_append_plain : ∀ (d pre : List Char), (∀ c ∈ d, c ≠ '\n') →
    columnOf (pre ++ d) = columnOf pre + d.length := by
  intro d
  induction d with
  | nil => intro pre _; simp
  | cons c d ih =>
    intro pre h
    have hc : c ≠ '\n' := h c (List.mem_cons_self _ _)
    have h1 : pre ++ c :: d = (pre ++ [c]) ++ d := by simp
    rw [h1, ih (pre ++ [c]) (fun x hx => h x (List.mem_cons_of_mem _ hx)), columnOf_snoc,
      if_neg hc]
    simp only [List.length_cons]
    omega

theorem lineOf_append (pre d : List Char) : lineOf (pre ++ d) = lineOf pre + d.count '\n' := by
  unfold lineOf
  rw [List.count_append]
  omega

/-- Later offsets have later positions: a greater line, or the same line and a greater
column. -/
theorem position_increases (source : List Char) {o1 o2 : Nat} (h : o1 < o2)
    (h2 : o2 ≤ source.length) :
    lineOf (source.take o1) < lineOf (source.take o2) ∨
    (lineOf (source.take o1) = lineOf (source.take o2) ∧
      columnOf (source.take o1) < columnOf (source.take o2)) := by
  have hsplit : source.take o2 = source.take o1 ++ (source.drop o1).take (o2 - o1) := by
    have := List.take_add source o1 (o2 - o1)
    rw [show o1 + (o2 - o1) = o2 by omega] at this
    exact this
  have hlen : ((source.drop o1).take (o2 - o1)).length = o2 - o1 := by
    rw [List.length_take, List.length_drop]
    omega
  rw [hsplit, lineOf_append]
  by_cases hc : ((source.drop o1).take (o2 - o1)).count '\n' = 0
  · right
    refine ⟨by omega, ?_⟩
    rw [columnOf_append_plain _ _ (fun c hm hcn => by
      rw [List.count_eq_zero] at hc
      exact hc (hcn ▸ hm)), hlen]
    omega
  · left
    omega

theorem position_unique (source : List Char) {o1 o2 : Nat} (h1 : o1 ≤ source.length)
    (h2 : o2 ≤ source.length) (hl : lineOf (source.take o1) = lineOf (source.take o2))
    (hc : columnOf (source.take o1) = columnOf (source.take o2)) : o1 = o2 := by
  rcases Nat.lt_trichotomy o1 o2 with h | h | h
  · rcases position_increases source h h2 with h3 | ⟨_, h3⟩ <;> omega
  · exact h
  · rcases position_increases source h h1 with h3 | ⟨_, h3⟩ <;> omega

theorem placed_offsets {pre rest : List Char} {toks : List Token} (h : Placed pre rest toks) :
    ∃ offsets : List Nat, List.Forall₂ (standsAt (pre ++ rest)) toks offsets ∧
      offsets.Pairwise (fun a b => a < b) ∧ (∀ off ∈ offsets, pre.length ≤ off) ∧
      offsets.getLast? = some (pre ++ rest).length := by
  induction h with
  | done pre ws eof _ _ hlex hline hcol =>
    refine ⟨[(pre ++ ws).length], ?_, by simp, by simp, by simp⟩
    refine List.Forall₂.cons ⟨le_refl _, ?_, ?_, ?_⟩ List.Forall₂.nil
    · rw [hlex]; exact List.nil_prefix
    · rw [List.take_length]; exact hline
    · rw [List.take_length]; exact hcol
  | token pre ws lex rest tok toks _ hne _ hlex _ hline hcol _ ih =>
    obtain ⟨offsets, hall, hpair, hlow, hlast⟩ := ih
    have hsrc : pre ++ ws ++ lex ++ rest = pre ++ (ws ++ lex ++ rest) := by simp
    rw [hsrc] at hall hlast
    have hpos : 0 < lex.length := List.length_pos.2 hne
    refine ⟨(pre ++ ws).length :: offsets, ?_, ?_, ?_, ?_⟩
    · refine List.Forall₂.cons ⟨?_, ?_, ?_, ?_⟩ hall
      · simp only [List.length_append]; omega
      · have : (pre ++ (ws ++ lex ++ rest)).drop (pre ++ ws).length = lex ++ rest := by
          have h1 : pre ++ (ws ++ lex ++ rest) = (pre ++ ws) ++ (lex ++ rest) := by simp
          rw [h1, List.drop_left]
        rw [this, hlex]
        exact List.prefix_append _ _
      · have : (pre ++ (ws ++ lex ++ rest)).take (pre ++ ws).length = pre ++ ws := by
          have h1 : pre ++ (ws ++ lex ++ rest) = (pre ++ ws) ++ (lex ++ rest) := by simp
          rw [h1, List.take_left]
        rw [this]; exact hline
      · have : (pre ++ (ws ++ lex ++ rest)).take (pre ++ ws).length = pre ++ ws := by
          have h1 : pre ++ (ws ++ lex ++ rest) = (pre ++ ws) ++ (lex ++ rest) := by simp
          rw [h1, List.take_left]
        rw [this]; exact hcol
    · rw [List.pairwise_cons]
      refine ⟨?_, hpair⟩
      intro off hoff
      have := hlow off hoff
      simp only [List.length_append] at this ⊢
      omega
    · intro off hoff
      rcases List.mem_cons.1 hoff with rfl | hoff
      · simp
      · have := hlow off hoff
        simp only [List.length_append] at this
        omega
    · cases offsets with
      | nil => simp at hlast
      | cons o os => simpa using hlast

theorem join_toList (l : List String) :
    (String.join l).toList = (l.map String.toList).flatten := by
  induction l with
  | nil => rfl
  | cons a l ih =>
    rw [join_cons]
    simp only [String.toList, String.data_append, List.map_cons, List.flatten_cons] at ih ⊢
    rw [ih]

theorem filter_all_space {ws : List Char} (h : ∀ c ∈ ws, isspace c = true) :
    ws.filter (fun c => !isspace c) = [] := by
  rw [List.filter_eq_nil_iff]
  intro c hc
  simp [h c hc]

theorem filter_no_space {lex : List Char} (h : ∀ c ∈ lex, isspace c = false) :
    lex.filter (fun c => !isspace c) = lex := by
  rw [List.filter_eq_self]
  intro c hc
  simp [h c hc]

theorem placed_lexemes {pre rest : List Char} {toks : List Token} (h : Placed pre rest toks) :
    (toks.map (fun t => t.lexeme.toList)).flatten = rest.filter (fun c => !isspace c) := by
  induction h with
  | done pre ws eof hws _ hlex _ _ =>
    rw [filter_all_space hws]
    simp only [List.map_cons, List.map_nil, List.flatten_cons, List.flatten_nil, hlex]
    rfl
  | token pre ws lex rest tok toks hws _ hns hlex _ _ _ _ ih =>
    simp only [List.map_cons, List.flatten_cons, List.filter_append, filter_all_space hws,
      filter_no_space hns, ih, hlex, List.nil_append]
    rfl

theorem placed_kinds {pre rest : List Char} {toks : List Token} (h : Placed pre rest toks) :
    ∃ init eof, toks = init ++ [eof] ∧ eof.type = TokenType.END_OF_FILE ∧ eof.lexeme = "" ∧
      eof.line = lineOf (pre ++ rest) ∧ eof.column = columnOf (pre ++ rest) ∧
      ∀ t ∈ init, t.type ≠ TokenType.END_OF_FILE ∧ t.lexeme ≠ "" ∧
        ∀ c ∈ t.lexeme.toList, isspace c = false := by
  induction h with
  | done pre ws eof _ hty hlex hline hcol =>
    exact ⟨[], eof, rfl, hty, hlex, hline, hcol, by simp⟩
  | token pre ws lex rest tok toks _ hne hns hlex hty _ _ _ ih =>
    obtain ⟨init, eof, rfl, h1, h2, h3, h4, h5⟩ := ih
    have hsrc : pre ++ ws ++ lex ++ rest = pre ++ (ws ++ lex ++ rest) := by simp
    rw [hsrc] at h3 h4
    refine ⟨tok :: init, eof, by simp, h1, h2, h3, h4, ?_⟩
    intro t ht
    rcases List.mem_cons.1 ht with rfl | ht
    · refine ⟨hty, ?_, ?_⟩
      · rw [hlex]
        intro hc
        apply hne
        have := congrArg String.toList hc
        simpa [String.toList] using this
      · rw [hlex]; exact hns
    · exact h5 t ht

theorem forall2_mem {R : Token → Nat → Prop} {toks : List Token} {offsets : List Nat}
    (h : List.Forall₂ R toks offsets) : ∀ tok ∈ toks, ∃ off ∈ offsets, R tok off := by
  induction h with
  | nil => intro tok hm; simp at hm
  | cons hr _ ih =>
    intro tok hm
    rcases List.mem_cons.1 hm with rfl | hm
    · exact ⟨_, List.mem_cons_self _ _, hr⟩
    · obtain ⟨off, ho, hr2⟩ := ih tok hm
      exact ⟨off, List.mem_cons_of_mem _ ho, hr2⟩

theorem forall2_order {source : List Char} {toks : List Token} {offsets : List Nat}
    (h : List.Forall₂ (standsAt source) toks offsets)
    (hp : offsets.Pairwise (fun a b => a < b)) :
    toks.Pairwise (fun a b => a.line < b.line ∨ (a.line = b.line ∧ a.column < b.column)) := by
  induction h with
  | nil => exact List.Pairwise.nil
  | cons hr hrest ih =>
    rw [List.pairwise_cons] at hp ⊢
    refine ⟨?_, ih hp.2⟩
    intro b hb
    obtain ⟨ob, hob, hsb⟩ := forall2_mem hrest b hb
    have hlt := hp.1 ob hob
    obtain ⟨_, _, hl1, hc1⟩ := hr
    obtain ⟨hb2, _, hl2, hc2⟩ := hsb
    rw [hl1, hc1, hl2, hc2]
    exact position_increases source hlt hb2

/-- C29: for every source on which `tokenize` succeeds, every returned token stands at an
offset of the source: its lexeme is the text that starts there, and its line and column
are one plus the number of newlines before the offset and one plus the number of
characters since the last newline (or the start); no other offset of the source has that
line and column.  A token other than the end-of-input token has a non-empty lexeme, inside
the source; the end-of-input token is the last one and carries the line and column of the
position just past the last character of the source. -/
theorem token_positions (source : String) (toks : List Token)
    (h : tokenize source = .ok toks) :
    (∃ offsets : List Nat, List.Forall₂ (standsAt source.toList) toks offsets ∧
      offsets.getLast? = some source.toList.length) ∧
    (∀ tok ∈ toks, ∃ off, standsAt source.toList tok off ∧
      (tok.type ≠ TokenType.END_OF_FILE → tok.lexeme ≠ "" ∧ off < source.toList.length) ∧
      ∀ off1, off1 ≤ source.toList.length → lineOf (source.toList.take off1) = tok.line →
        columnOf (source.toList.take off1) = tok.column → off1 = off) ∧
    (∃ init eof, toks = init ++ [eof] ∧ eof.type = TokenType.END_OF_FILE ∧
      eof.lexeme = "" ∧ eof.line = lineOf source.toList ∧ eof.column = columnOf source.toList ∧
      ∀ t ∈ init, t.type ≠ TokenType.END_OF_FILE) := by
  have hp := tokenize_placed h
  obtain ⟨offsets, hall, _, _, hlast⟩ := placed_offsets hp
  obtain ⟨init, eof, htoks, h1, h2, h3, h4, h5⟩ := placed_kinds hp
  simp only [List.nil_append] at hall hlast h3 h4
  refine ⟨⟨offsets, hall, hlast⟩, ?_, ⟨init, eof, htoks, h1, h2, h3, h4,
    fun t ht => (h5 t ht).1⟩⟩
  intro tok htok
  obtain ⟨off, _, hs⟩ := forall2_mem hall tok htok
  refine ⟨off, hs, ?_, ?_⟩
  · intro hty
    have hin : tok ∈ init := by
      rw [htoks] at htok
      rcases List.mem_append.1 htok with hm | hm
      · exact hm
      · simp only [List.mem_singleton] at hm
        rw [hm] at hty
        exact absurd h1 hty
    have hne := (h5 tok hin).2.1
    refine ⟨hne, ?_⟩
    obtain ⟨hle, hpre, _, _⟩ := hs
    by_contra hc
    have hoff : off = source.toList.length := by omega
    rw [hoff, List.drop_length] at hpre
    have hnil : tok.lexeme.toList = [] := List.prefix_nil.1 hpre
    apply hne
    have : tok.lexeme = String.mk tok.lexeme.toList := rfl
    rw [this, hnil]
  · intro off1 hle hl hc
    obtain ⟨hle2, _, hl2, hc2⟩ := hs
    exact position_unique source.toList hle hle2 (by rw [hl, hl2]) (by rw [hc, hc2])

/-- C29 at a source of two lines. -/
theorem token_positions_witness :
    ∃ offsets : List Nat, List.Forall₂ (standsAt "x = 12;\n print(x);".toList)
      [⟨.IDENTIFIER, "x", 1, 1⟩, ⟨.ASSIGN, "=", 1, 3⟩, ⟨.NUMBER, "12", 1, 5⟩,
        ⟨.SEMICOLON, ";", 1, 7⟩, ⟨.PRINT, "print", 2, 2⟩, ⟨.LPAREN, "(", 2, 7⟩,
        ⟨.IDENTIFIER, "x", 2, 8⟩, ⟨.RPAREN, ")", 2, 9⟩, ⟨.SEMICOLON, ";", 2, 10⟩,
        ⟨.END_OF_FILE, "", 2, 11⟩] offsets ∧
      offsets.getLast? = some "x = 12;\n print(x);".toList.length :=
  (token_positions "x = 12;\n print(x);" _ (by rfl)).1

/-- C30: for every source on which `tokenize` succeeds, the lexemes of the returned tokens,
concatenated in order, are the source without its whitespace characters; the tokens stand
at increasing offsets of the source, so that each token has a position (line, then column)
before the position of every token that follows it. -/
theorem lexemes_cover_source (source : String) (toks : List Token)
    (h : tokenize source = .ok toks) :
    String.join (toks.map Token.lexeme) =
      String.mk (source.toList.filter (fun c => !isspace c)) ∧
    (∃ offsets : List Nat, List.Forall₂ (standsAt source.toList) toks offsets ∧
      offsets.Pairwise (fun a b => a < b)) ∧
    toks.Pairwise (fun a b => a.line < b.line ∨ (a.line = b.line ∧ a.column < b.column)) := by
  have hp := tokenize_placed h
  obtain ⟨offsets, hall, hpair, _, _⟩ := placed_offsets hp
  simp only [List.nil_append] at hall
  refine ⟨?_, ⟨offsets, hall, hpair⟩, forall2_order hall hpair⟩
  have h1 := placed_lexemes hp
  have h2 := join_toList (toks.map Token.lexeme)
  rw [List.map_map] at h2
  have h3 : (String.join (toks.map Token.lexeme)).toList =
      source.toList.filter (fun c => !isspace c) := by
    rw [h2]
    exact h1
  have : String.join (toks.map Token.lexeme) =
      String.mk (String.join (toks.map Token.lexeme)).toList := rfl
  rw [this, h3]

/-- C30 at a source of two lines. -/
theorem lexemes_cover_source_witness :
    String.join (([⟨.IDENTIFIER, "x", 1, 1⟩, ⟨.ASSIGN, "=", 1, 3⟩, ⟨.NUMBER, "12", 1, 5⟩,
        ⟨.SEMICOLON, ";", 1, 7⟩, ⟨.PRINT, "print", 2, 2⟩, ⟨.LPAREN, "(", 2, 7⟩,
        ⟨.IDENTIFIER, "x", 2, 8⟩, ⟨.RPAREN, ")", 2, 9⟩, ⟨.SEMICOLON, ";", 2, 10⟩,
        ⟨.END_OF_FILE, "", 2, 11⟩] : List Token).map Token.lexeme) =
      String.mk ("x = 12;\n print(x);".toList.filter (fun c => !isspace c)) :=
  (lexemes_cover_source "x = 12;\n print(x);" _ (by rfl)).1

end MiniCompiler
